import Mathlib

/-!
# Reflection toolkit of package `interfaces` (bertjohnson/util)

A shallow embedding of `CalculateDiff`, `InheritWithTag`, `OverwriteWithTag`,
`ParseTypedValue`, `GetFieldValue`, `GetTagFieldNames`, `SetQueryFields`,
`SetEnvFieldValues` and `InjectVariables` of package `interfaces`, of
`SanitizeDirectory` of package `io`, and of `FormatString`, `Permutations`,
`RemoveUnreadableCharacters`, `ReturnAllBetween` and `ReturnBetweenInsensitive` of
package `strings`.

Go values are represented the way package reflect shows them: a value carries its
kind, a struct value carries its type name and, for every field, the field
descriptor (name, tags, package path) together with the field value.

Conventions of the model

* integers of every width are `Int`, unsigned integers `Nat`; a float64 is its
  IEEE 754 bit pattern (a natural number read modulo 2^64), a complex128 a pair of
  such patterns; only comparison with zero and equality of floats are needed;
* a nil pointer, map, slice or interface is a constructor of its own; maps are
  string keyed association lists (first binding of a key is the binding);
* pointer, map and slice identity is not represented: values are compared by
  content; arrays and embedded (promoted) fields are outside the model;
* fields of the same kind are taken to have the same Go type, so the
  assignability checks of `reflect.Value.Set` never fail;
* struct tags are given parsed, as key/value pairs; `fmt.Sprint` is modelled for
  booleans, integers, strings, nil and NaN, the text of any other value being a
  parameter `ext` of the functions that print;
* Go iterates over a map in no fixed order; the model follows the order of the
  association list, which yields the same result because distinct map keys never yield
  the same key of the result (`minus_key_ne`, `key_cancel`);
* a run-time panic of the Go code is the result `none` (or `Outcome.panic`);
* for `ParseTypedValue` a string is the list of its characters; `strconv.ParseInt` is
  modelled, `strconv.ParseFloat` and `dateparse.ParseAny` are parameters;
* for `SetQueryFields` the set of the values is the list of its elements, the order in
  which Go ranges over it is a parameter, and the layout of a time is a parameter;
* for `SetEnvFieldValues` the environment (`os.Getenv`) and the JSON decoder are
  parameters, and the result carries the output as the call leaves it together with
  how the call ended;
* `strings.Index`, `strings.Replace`, `strings.ToLower` (on ASCII text),
  `strings.Trim` and `strconv.Itoa` are modelled from their documentation;
* a loop that may not end (`ReturnAllBetween`) runs on a number of iterations allowed,
  and yields `none` when it is still running after them.

The functions of the source keep their names. Loops are recursive functions named after
the labels of the source (`beforeFieldLoop`, `intAncestorsLoop`, ...); the recursive
call of `calculateDiffHelper` on a nested struct is unfolded inside `beforeFieldBody`,
and `beforeFieldBody_eq` shows that this is the sequential program `bodySpec`, whose
struct case is that call.
-/

namespace GoUtil

/-! ## Values -/

/-- Struct tag, parsed: the key/value pairs in the order they are written. -/
abbrev StructTag := List (String × String)

/-- Lookup of a key in a struct tag, as reflect.StructTag.Lookup does. -/
def tagLookup (tag : StructTag) (key : String) : Option String :=
  List.lookup key tag

/-- Field descriptor, as reflect.StructField: an empty PkgPath means the field is exported. -/
structure StructField where
  Name : String
  Tag : StructTag
  PkgPath : String
deriving DecidableEq, Repr

/-- Exported fields are the ones reflect lets the caller read through Interface and set. -/
def StructField.exported (f : StructField) : Bool := f.PkgPath == ""

/-- Kinds of package reflect that the model distinguishes. -/
inductive Kind where
  | Invalid | Bool | Int | Uint | Float64 | Complex128 | String
  | Func | Chan | Interface | Ptr | Map | Slice | Struct
deriving DecidableEq, Repr

/-- Go values. -/
inductive Value where
  | bool (b : Bool)
  | int (i : Int)
  | uint (n : Nat)
  | float (bits : Nat)
  | complex (re : Nat) (im : Nat)
  | str (s : String)
  | func (addr : Nat)
  | chan (addr : Nat)
  | nilIface
  | iface (v : Value)
  | nilPtr
  | ptr (v : Value)
  | nilMap
  | map (m : List (String × Value))
  | nilSlice
  | slice (xs : List Value)
  | struct (typeName : String) (fields : List (StructField × Value))
deriving Repr

/-- Fields of a struct value: descriptor and value, in declaration order. -/
abbrev Fields := List (StructField × Value)

/-- Kind of a valid value. -/
def Value.Kind : Value → Kind
  | .bool _ => Kind.Bool
  | .int _ => Kind.Int
  | .uint _ => Kind.Uint
  | .float _ => Kind.Float64
  | .complex _ _ => Kind.Complex128
  | .str _ => Kind.String
  | .func _ => Kind.Func
  | .chan _ => Kind.Chan
  | .nilIface => Kind.Interface
  | .iface _ => Kind.Interface
  | .nilPtr => Kind.Ptr
  | .ptr _ => Kind.Ptr
  | .nilMap => Kind.Map
  | .map _ => Kind.Map
  | .nilSlice => Kind.Slice
  | .slice _ => Kind.Slice
  | .struct _ _ => Kind.Struct

/-- Kind of a reflect.Value that may be the zero (invalid) Value. -/
def kindOf : Option Value → Kind
  | none => Kind.Invalid
  | some v => v.Kind

/-! ## float64 bit patterns -/

/-- A float64 pattern is NaN when the exponent is all ones and the fraction is not zero. -/
def f64IsNaN (bits : Nat) : Bool :=
  (bits % 2 ^ 64 / 2 ^ 52) % 2 ^ 11 == 2047 && bits % 2 ^ 52 != 0

/-- Positive and negative zero: every bit below the sign bit is clear. -/
def f64IsZero (bits : Nat) : Bool := bits % 2 ^ 63 == 0

/-- Go operator == on float64. -/
def f64Eq (a b : Nat) : Bool :=
  !f64IsNaN a && !f64IsNaN b && (a % 2 ^ 64 == b % 2 ^ 64 || (f64IsZero a && f64IsZero b))

/-- A quiet NaN. -/
def f64NaN : Nat := 0x7FF8000000000001

/-! ## String keyed maps -/

/-- Assignment m[k] = v on an association list: replace the binding or append a new one. -/
def mapSet {β : Type} : List (String × β) → String → β → List (String × β)
  | [], k, v => [(k, v)]
  | (k0, v0) :: rest, k, v => if k0 = k then (k, v) :: rest else (k0, v0) :: mapSet rest k v

/-- Result of CalculateDiff: a map from string to string. -/
abbrev DiffMap := List (String × String)

/-! ## reflect.Zero, reflect.DeepEqual, fmt.Sprint -/

mutual
/-- Zero value of the type of the given value (reflect.Zero of its type). -/
def zeroValue : Value → Value
  | .bool _ => .bool false
  | .int _ => .int 0
  | .uint _ => .uint 0
  | .float _ => .float 0
  | .complex _ _ => .complex 0 0
  | .str _ => .str ""
  | .func _ => .func 0
  | .chan _ => .chan 0
  | .nilIface => .nilIface
  | .iface _ => .nilIface
  | .nilPtr => .nilPtr
  | .ptr _ => .nilPtr
  | .nilMap => .nilMap
  | .map _ => .nilMap
  | .nilSlice => .nilSlice
  | .slice _ => .nilSlice
  | .struct n fs => .struct n (zeroFields fs)
termination_by structural x => x
/-- Zero value of every field of a struct. -/
def zeroFields : Fields → Fields
  | [] => []
  | (f, v) :: rest => (f, zeroValue v) :: zeroFields rest
termination_by structural x => x
end

mutual
/-- The recursive comparison behind reflect.DeepEqual, on two valid values. -/
def deepValueEqual : Value → Value → Bool
  | .bool a, .bool b => a == b
  | .int a, .int b => a == b
  | .uint a, .uint b => a == b
  | .float a, .float b => f64Eq a b
  | .complex a b, .complex c d => f64Eq a c && f64Eq b d
  | .str a, .str b => a == b
  | .func a, .func b => a == 0 && b == 0
  | .chan a, .chan b => a == b
  | .nilIface, .nilIface => true
  | .iface a, .iface b => deepValueEqual a b
  | .nilPtr, .nilPtr => true
  | .ptr a, .ptr b => deepValueEqual a b
  | .nilMap, .nilMap => true
  | .map a, .map b => a.length == b.length && deepMapEqual a b
  | .nilSlice, .nilSlice => true
  | .slice a, .slice b => deepSliceEqual a b
  | .struct n fs, .struct m gs => n == m && deepFieldsEqual fs gs
  | _, _ => false
termination_by structural x => x
/-- Every key of the first map is bound in the second one to a deeply equal value. -/
def deepMapEqual : List (String × Value) → List (String × Value) → Bool
  | [], _ => true
  | (k, v) :: rest, other =>
    (match List.lookup k other with
      | some w => deepValueEqual v w
      | none => false) && deepMapEqual rest other
termination_by structural x => x
/-- Same length and deeply equal elements, position by position. -/
def deepSliceEqual : List Value → List Value → Bool
  | [], [] => true
  | v :: rest, w :: others => deepValueEqual v w && deepSliceEqual rest others
  | _, _ => false
termination_by structural x => x
/-- Same field descriptors and deeply equal field values, position by position. -/
def deepFieldsEqual : Fields → Fields → Bool
  | [], [] => true
  | (f, v) :: rest, (g, w) :: others => f == g && deepValueEqual v w && deepFieldsEqual rest others
  | _, _ => false
termination_by structural x => x
end

/-- Model of reflect.DeepEqual on two interface values; `none` is the nil interface. -/
def DeepEqual : Option Value → Option Value → Bool
  | none, none => true
  | some v, some w => deepValueEqual v w
  | _, _ => false

/-- Dynamic content of a valid reflect.Value as an interface value: a value of interface
kind yields what it holds, and `none` is the nil interface. -/
def toAny : Value → Option Value
  | .nilIface => none
  | .iface v => some v
  | v => some v

/-- Model of fmt.Sprint on one operand. Booleans, integers and strings are rendered as Go
does, and so is a NaN; the rendering of every other value is left to `ext`. -/
def Sprint (ext : Value → String) : Option Value → String
  | none => "<nil>"
  | some (.bool b) => if b then "true" else "false"
  | some (.int i) => toString i
  | some (.uint n) => toString n
  | some (.str s) => s
  | some (.float bits) => if f64IsNaN bits then "NaN" else ext (.float bits)
  | some v => ext v

/-! ## CalculateDiff (interfaces.calculatediff.go) -/

/-- Accessor character to delineate parent/child relationships. -/
def accessorCharacter : String := "_"

/-- The tag value up to its first comma: `fieldTag[0:commaPos]`. -/
def cutTag (t : String) : String := String.mk (t.data.takeWhile (fun c => c != ','))

/-- External path of a field: the cut tag, behind the prefix and the accessor character
when the prefix is not empty. -/
def fieldPath (pfx : String) (t : String) : String :=
  if pfx.length > 0 then pfx ++ accessorCharacter ++ cutTag t else cutTag t

/-- The pointer indirection loops: follow pointers to the value they lead to; `none`
when a nil pointer is met (the loops then continue with the next field). -/
def indirect : Value → Option Value
  | .nilPtr => none
  | .ptr v => indirect v
  | v => some v

/-- Model of reflect.Value.FieldByName on the fields of a struct; `none` is the zero Value. -/
def fieldByName (fs : Fields) (name : String) : Option (StructField × Value) :=
  fs.find? (fun fv => fv.1.Name == name)

/-- The struct behind an argument of calculateDiffHelper: the value itself or, when a
pointer is passed, what it points to. Any other argument makes NumField panic. -/
def structFields : Option Value → Option Fields
  | some (.struct _ fs) => some fs
  | some (.ptr (.struct _ fs)) => some fs
  | _ => none

/-- Second loop of calculateDiffHelper: iterate through after fields. The addition is
guarded by a lookup in processedFields made right after the path was stored in it.
(In the guarded branch Go compares two reflect.Value handles; the model compares the
values they stand for.) -/
def afterFieldLoop (ext : Value → String) (pfx : String) :
    Fields → List String → DiffMap → DiffMap
  | [], _, diffFields => diffFields
  | (f, raw) :: rest, processedFields, diffFields =>
    match indirect raw with
    | none => afterFieldLoop ext pfx rest processedFields diffFields
    | some afterField =>
      if afterField.Kind = Kind.Func then
        afterFieldLoop ext pfx rest processedFields diffFields
      else
        match tagLookup f.Tag "api" with
        | none => afterFieldLoop ext pfx rest processedFields diffFields
        | some t =>
          let fieldTag := fieldPath pfx t
          let processed := fieldTag :: processedFields
          if !(processed.contains fieldTag) then
            if f.exported && !(DeepEqual (some afterField) (some (zeroValue raw))) then
              afterFieldLoop ext pfx rest processed
                (mapSet diffFields fieldTag (Sprint ext (toAny afterField)))
            else afterFieldLoop ext pfx rest processed diffFields
          else afterFieldLoop ext pfx rest processed diffFields

/-- What the common part of the body of beforeFieldLoop decides for one field. -/
inductive Step where
  | next (processedFields : List String) (diffFields : DiffMap)
  | dispatch (processedFields : List String) (fieldTag : String) (afterField : Value)
      (afterFieldInterface : Option Value)

/-- Body of beforeFieldLoop from the tag lookup down to the switch on the kind, for a
field whose value `beforeField` is already free of pointers. `declared` is the field
as declared (before the indirection), whose type gives the zero value. -/
def fieldPrelude (ext : Value → String) (afterFields : Fields) (pfx : String)
    (f : StructField) (declared : Value) (beforeField : Value)
    (processedFields : List String) (diffFields : DiffMap) : Option Step :=
  match tagLookup f.Tag "api" with
  | none => some (.next processedFields diffFields)
  | some t =>
    let fieldTag := fieldPath pfx t
    let processed := fieldTag :: processedFields
    match fieldByName afterFields f.Name with
    | none =>
      -- afterField is the zero Value
      if !f.exported then none
      else if fieldTag != "" then
        some (.next processed (mapSet diffFields ("-" ++ fieldTag) (Sprint ext (toAny beforeField))))
      else none
    | some (g, afterRaw) =>
      match indirect afterRaw with
      | none => some (.next processed diffFields)
      | some afterField =>
        if !f.exported then none
        else if !g.exported then none
        else
          let beforeFieldInterface := toAny beforeField
          let afterFieldInterface := toAny afterField
          if !(DeepEqual beforeFieldInterface afterFieldInterface) then
            if beforeField.Kind != Kind.Bool
                && DeepEqual afterFieldInterface (toAny (zeroValue declared)) then
              some (.next processed
                (mapSet diffFields ("-" ++ fieldTag) (Sprint ext beforeFieldInterface)))
            else some (.dispatch processed fieldTag afterField afterFieldInterface)
          else some (.next processed diffFields)

/-- First loop of the map case: the keys of the before map. -/
def mapBeforeLoop (ext : Value → String) (fieldTag : String) (afterMap : List (String × Value)) :
    List (String × Value) → DiffMap → DiffMap
  | [], diffFields => diffFields
  | (key, beforeMapValue) :: rest, diffFields =>
    match List.lookup key afterMap with
    | some afterMapValue =>
      if !(DeepEqual (toAny beforeMapValue) (toAny afterMapValue)) then
        mapBeforeLoop ext fieldTag afterMap rest
          (mapSet diffFields (fieldTag ++ accessorCharacter ++ key) (Sprint ext (toAny afterMapValue)))
      else mapBeforeLoop ext fieldTag afterMap rest diffFields
    | none =>
      mapBeforeLoop ext fieldTag afterMap rest
        (mapSet diffFields ("-" ++ fieldTag ++ accessorCharacter ++ key)
          (Sprint ext (toAny beforeMapValue)))

/-- Second loop of the map case: the keys of the after map that the first loop did not see. -/
def mapAfterLoop (ext : Value → String) (fieldTag : String) (beforeMap : List (String × Value)) :
    List (String × Value) → DiffMap → DiffMap
  | [], diffFields => diffFields
  | (key, afterMapValue) :: rest, diffFields =>
    match List.lookup key beforeMap with
    | some _ => mapAfterLoop ext fieldTag beforeMap rest diffFields
    | none =>
      mapAfterLoop ext fieldTag beforeMap rest
        (mapSet diffFields (fieldTag ++ accessorCharacter ++ key) (Sprint ext (toAny afterMapValue)))

/-- The entries of a value of map kind (none for a nil map), or none for another kind. -/
def mapEntries : Value → Option (List (String × Value))
  | .nilMap => some []
  | .map m => some m
  | _ => none

/-- Case reflect.Map of the switch. -/
def mapCase (ext : Value → String) (fieldTag : String) (beforeMap : List (String × Value))
    (afterField : Value) (diffFields : DiffMap) : DiffMap :=
  match mapEntries afterField with
  | some afterMap =>
    mapAfterLoop ext fieldTag beforeMap afterMap
      (mapBeforeLoop ext fieldTag afterMap beforeMap diffFields)
  | none => diffFields

mutual
/-- First loop of calculateDiffHelper: iterate through before fields. -/
def beforeFieldLoop (ext : Value → String) (afterFields : Fields) (pfx : String) :
    Fields → List String → DiffMap → Option (List String × DiffMap)
  | [], processedFields, diffFields => some (processedFields, diffFields)
  | (f, raw) :: rest, processedFields, diffFields =>
    match beforeFieldBody ext afterFields pfx f raw raw processedFields diffFields with
    | none => none
    | some (p, d) => beforeFieldLoop ext afterFields pfx rest p d
termination_by structural x => x
/-- Body of the first loop for one field; the recursion on pointers is indirectBeforeLoop,
the recursion on a struct is the call of calculateDiffHelper with the path as prefix
(both of its loops, on the fields of the two nested structs). -/
def beforeFieldBody (ext : Value → String) (afterFields : Fields) (pfx : String)
    (f : StructField) (declared : Value) :
    Value → List String → DiffMap → Option (List String × DiffMap)
  | .nilPtr, processedFields, diffFields => some (processedFields, diffFields)
  | .ptr v, processedFields, diffFields =>
    beforeFieldBody ext afterFields pfx f declared v processedFields diffFields
  | .struct n bfs, processedFields, diffFields =>
    match fieldPrelude ext afterFields pfx f declared (.struct n bfs) processedFields diffFields with
    | none => none
    | some (.next p d) => some (p, d)
    | some (.dispatch p fieldTag _ afterFieldInterface) =>
      match structFields afterFieldInterface with
      | none => none
      | some afs =>
        match beforeFieldLoop ext afs fieldTag bfs [] diffFields with
        | none => none
        | some (p2, d2) => some (p, afterFieldLoop ext fieldTag afs p2 d2)
  | .map m, processedFields, diffFields =>
    match fieldPrelude ext afterFields pfx f declared (.map m) processedFields diffFields with
    | none => none
    | some (.next p d) => some (p, d)
    | some (.dispatch p fieldTag afterField _) =>
      some (p, mapCase ext fieldTag m afterField diffFields)
  | .nilMap, processedFields, diffFields =>
    match fieldPrelude ext afterFields pfx f declared .nilMap processedFields diffFields with
    | none => none
    | some (.next p d) => some (p, d)
    | some (.dispatch p fieldTag afterField _) =>
      some (p, mapCase ext fieldTag [] afterField diffFields)
  | beforeField, processedFields, diffFields =>
    match fieldPrelude ext afterFields pfx f declared beforeField processedFields diffFields with
    | none => none
    | some (.next p d) => some (p, d)
    | some (.dispatch p fieldTag _ afterFieldInterface) =>
      some (p, mapSet diffFields fieldTag (Sprint ext afterFieldInterface))
termination_by structural x => x
end

/-- Model of calculateDiffHelper: both arguments are unpacked to structs, then the two
loops run. The result is the updated diffFields, `none` when the Go code panics. -/
def calculateDiffHelper (ext : Value → String) (before after : Option Value) (pfx : String)
    (diffFields : DiffMap) : Option DiffMap :=
  match structFields before, structFields after with
  | some bfs, some afs =>
    match beforeFieldLoop ext afs pfx bfs [] diffFields with
    | none => none
    | some (p, d) => some (afterFieldLoop ext pfx afs p d)
  | _, _ => none

/-- CalculateDiff calculates the difference between two objects. -/
def CalculateDiff (ext : Value → String) (before after : Option Value) : Option DiffMap :=
  calculateDiffHelper ext before after "" []

/-- The switch on the kind of the before field, after the common part of the body; the
struct case is the recursive call of calculateDiffHelper. -/
def kindSwitch (ext : Value → String) (beforeField : Value) (fieldTag : String)
    (afterField : Value) (afterFieldInterface : Option Value) (diffFields : DiffMap) :
    Option DiffMap :=
  match beforeField with
  | .struct n bfs =>
    calculateDiffHelper ext (some (.struct n bfs)) afterFieldInterface fieldTag diffFields
  | .map m => some (mapCase ext fieldTag m afterField diffFields)
  | .nilMap => some (mapCase ext fieldTag [] afterField diffFields)
  | _ => some (mapSet diffFields fieldTag (Sprint ext afterFieldInterface))

/-- The body of the first loop written out in the order of the source: indirection,
common part, switch on the kind (shown below to be what beforeFieldBody computes). -/
def bodySpec (ext : Value → String) (afterFields : Fields) (pfx : String)
    (f : StructField) (raw : Value) (processedFields : List String) (diffFields : DiffMap) :
    Option (List String × DiffMap) :=
  match indirect raw with
  | none => some (processedFields, diffFields)
  | some beforeField =>
    match fieldPrelude ext afterFields pfx f raw beforeField processedFields diffFields with
    | none => none
    | some (.next p d) => some (p, d)
    | some (.dispatch p fieldTag afterField afterFieldInterface) =>
      match kindSwitch ext beforeField fieldTag afterField afterFieldInterface diffFields with
      | none => none
      | some d => some (p, d)

/-! ## Inherit and Overwrite (interfaces.inherit.go, interfaces.overwrite.go) -/

/-- An argument of static type interface{}: an ordinary Go value (`none` is nil), or a
reflect.Value (`none` is the zero Value) together with whether its fields can be set. -/
inductive Arg where
  | any (v : Option Value)
  | rv (v : Option Value) (canSet : Bool)

/-- What a call returns: no error and the argument `output` with its new content, an
error, or a run-time panic. -/
inductive Outcome where
  | ok (output : Arg)
  | error (msg : String)
  | panic

/-- Modelled from the spec: the constant timeString is declared outside the given
sources; it names the "recognized temporal record kind", the struct type Time, which
OverwriteWithTag compares with the literal "Time". -/
def timeString : String := "Time"

/-- Model of reflect.Indirect, and of Elem on a value of pointer kind. -/
def reflectIndirect : Option Value → Option Value
  | some (.ptr w) => some w
  | some .nilPtr => none
  | v => v

/-- If the passed in object is an interface, unpack its struct. -/
def ifaceElem : Option Value → Option Value
  | some (.iface w) => some w
  | some .nilIface => none
  | v => v

/-- Unpack each ancestor. -/
def unpackAncestor : Arg → Option Value
  | .rv v _ => ifaceElem (reflectIndirect v)
  | .any v => ifaceElem (reflectIndirect (reflectIndirect v))

/-- Model of ancestorValue.FieldByName(field.Name): the outer `none` is the panic of
FieldByName on a Value that is not a struct, the inner `none` the zero Value. -/
def ancestorField (ancestorValue : Option Value) (name : String) : Option (Option Value) :=
  match ancestorValue with
  | some (.struct _ fs) => some ((fieldByName fs name).map (fun fv => fv.2))
  | _ => none

/-- Model of reflect.Append of one element. -/
def sliceAppend : Value → Value → Value
  | .slice xs, x => .slice (xs ++ [x])
  | _, x => .slice [x]

/-- Elements of a value of slice kind. -/
def sliceElems : Value → List Value
  | .slice xs => xs
  | _ => []

/-- Case Slice: copy all array values, regardless of whether output was empty. Every
ancestor is taken by the content of its slice at the time of the call, which is what the
code reads when no ancestor shares storage with output; sliceAncestorsLoopAliased follows
the code when an ancestor is output itself. -/
def sliceAncestorsLoop (name : String) : List (Option Value) → Value → Option Value
  | [], out => some out
  | a :: rest, out =>
    match ancestorField a name with
    | none => none
    | some af =>
      if kindOf af = Kind.Slice then
        sliceAncestorsLoop name rest ((sliceElems (af.getD .nilSlice)).foldl sliceAppend out)
      else sliceAncestorsLoop name rest out

/-- The loop boolAncestorsLoop of InheritWithTag: the value to set, if any. -/
def boolAncestorsLoop (name : String) (boolStrategy : String) :
    List (Option Value) → Option (Option Bool)
  | [] => some none
  | a :: rest =>
    match ancestorField a name with
    | none => none
    | some (some (.bool ancestorBool)) =>
      if boolStrategy == "and" then
        if !ancestorBool then some (some false) else boolAncestorsLoop name boolStrategy rest
      else
        if ancestorBool then some (some true) else boolAncestorsLoop name boolStrategy rest
    | some _ => boolAncestorsLoop name boolStrategy rest

/-- The loop complex128AncestorsLoop: first ancestor value that is not zero. -/
def complexAncestorsLoop (name : String) : List (Option Value) → Option (Option Value)
  | [] => some none
  | a :: rest =>
    match ancestorField a name with
    | some (some (.complex re im)) =>
      if !(f64IsZero re && f64IsZero im) then some (some (.complex re im))
      else complexAncestorsLoop name rest
    | _ => none

/-- The loop float32AncestorsLoop: first ancestor value that is not zero. -/
def floatAncestorsLoop (name : String) : List (Option Value) → Option (Option Value)
  | [] => some none
  | a :: rest =>
    match ancestorField a name with
    | some (some (.float x)) =>
      if !f64IsZero x then some (some (.float x)) else floatAncestorsLoop name rest
    | _ => none

/-- The loop intAncestorsLoop of InheritWithTag: first ancestor value, read through
reflect.Indirect, that is not zero. -/
def intAncestorsLoop (name : String) : List (Option Value) → Option (Option Value)
  | [] => some none
  | a :: rest =>
    match ancestorField a name with
    | none => none
    | some af =>
      match reflectIndirect af with
      | some (.int x) => if x != 0 then some (some (.int x)) else intAncestorsLoop name rest
      | _ => none

/-- The loop uintAncestorsLoop: first ancestor value that is not zero. -/
def uintAncestorsLoop (name : String) : List (Option Value) → Option (Option Value)
  | [] => some none
  | a :: rest =>
    match ancestorField a name with
    | some (some (.uint x)) =>
      if x != 0 then some (some (.uint x)) else uintAncestorsLoop name rest
    | _ => none

/-- The loop stringAncestorsLoop: first ancestor value of string kind that is not empty. -/
def stringAncestorsLoop (name : String) : List (Option Value) → Option (Option Value)
  | [] => some none
  | a :: rest =>
    match ancestorField a name with
    | none => none
    | some (some (.str x)) =>
      if x.length > 0 then some (some (.str x)) else stringAncestorsLoop name rest
    | some _ => stringAncestorsLoop name rest

/-- The loop pointerAncestorsLoop: a new pointer to a copy of what the first ancestor
pointer that is not nil points to. -/
def pointerAncestorsLoop (name : String) : List (Option Value) → Option (Option Value)
  | [] => some none
  | a :: rest =>
    match ancestorField a name with
    | none => none
    | some (some (.ptr w)) => some (some (.ptr w))
    | some _ => pointerAncestorsLoop name rest

/-- The loop timeAncestorsLoop: the first ancestor field of struct kind. -/
def timeAncestorsLoop (name : String) : List (Option Value) → Option (Option Value)
  | [] => some none
  | a :: rest =>
    match ancestorField a name with
    | none => none
    | some (some (.struct n fs)) => some (some (.struct n fs))
    | some _ => timeAncestorsLoop name rest

/-- Case Map, the copy: all map values of every ancestor, regardless of whether output
was empty. Every ancestor is taken by the content of its map at the time of the call,
which is what the code reads when no ancestor shares its map with output;
mapAncestorsLoopAliased follows the code when an ancestor is output itself. -/
def mapAncestorsLoop (name : String) :
    List (Option Value) → List (String × Value) → Option (List (String × Value))
  | [], out => some out
  | a :: rest, out =>
    match ancestorField a name with
    | none => none
    | some (some (.map m)) =>
      mapAncestorsLoop name rest (m.foldl (fun acc kv => mapSet acc kv.1 kv.2) out)
    | some _ => mapAncestorsLoop name rest out

/-- The sub-structures of the ancestors that are themselves structs. -/
def structAncestors (name : String) : List (Option Value) → Option (List (Option Value))
  | [] => some []
  | a :: rest =>
    match ancestorField a name with
    | none => none
    | some af =>
      match structAncestors name rest with
      | none => none
      | some more => if kindOf af = Kind.Struct then some (af :: more) else some more

/-- The output value after a loop that may have found a value to set. -/
def setIfFound (out : Value) : Option (Option Value) → Option Value
  | none => none
  | some none => some out
  | some (some v) => some v

/-- Check for tag match: whether the field is processed at all. -/
def tagMatch (tagName : String) (f : StructField) : Bool :=
  tagName == "" || (tagLookup f.Tag tagName).isSome

/-- The flag inheritBool of InheritWithTag. -/
def inheritBoolFlag (tagName : String) (f : StructField) : Bool :=
  tagName != "" && (tagLookup f.Tag (tagName ++ "bool")).isSome

/-- The variable boolStrategy of InheritWithTag once the tags are read. -/
def boolStrategyOf (tagName : String) (f : StructField) : String :=
  if tagName != "" then (tagLookup f.Tag (tagName ++ "bool")).getD "" else "or"

/-- The switch of InheritWithTag on the kind of a processed field, all kinds but Struct. -/
def inheritScalar (tagName : String) (ancestorValues : List (Option Value)) (f : StructField) :
    Value → Option Value
  | .nilSlice => sliceAncestorsLoop f.Name ancestorValues .nilSlice
  | .slice xs => sliceAncestorsLoop f.Name ancestorValues (.slice xs)
  | .bool boolVal =>
    if inheritBoolFlag tagName f then
      if (boolVal && boolStrategyOf tagName f == "or")
          || (!boolVal && boolStrategyOf tagName f == "and") then some (.bool boolVal)
      else
        match boolAncestorsLoop f.Name (boolStrategyOf tagName f) ancestorValues with
        | none => none
        | some none => some (.bool boolVal)
        | some (some b) => some (.bool b)
    else some (.bool boolVal)
  | .complex re im =>
    if f64IsZero re && f64IsZero im then
      setIfFound (.complex re im) (complexAncestorsLoop f.Name ancestorValues)
    else some (.complex re im)
  | .float x =>
    if f64IsZero x then setIfFound (.float x) (floatAncestorsLoop f.Name ancestorValues)
    else some (.float x)
  | .int x =>
    if x == 0 then setIfFound (.int x) (intAncestorsLoop f.Name ancestorValues)
    else some (.int x)
  | .nilMap =>
    (mapAncestorsLoop f.Name ancestorValues []).map (fun m => Value.map m)
  | .map m =>
    (mapAncestorsLoop f.Name ancestorValues m).map (fun m => Value.map m)
  | .nilPtr => setIfFound .nilPtr (pointerAncestorsLoop f.Name ancestorValues)
  | .str x =>
    if x == "" then setIfFound (.str x) (stringAncestorsLoop f.Name ancestorValues)
    else some (.str x)
  | .uint x =>
    if x == 0 then setIfFound (.uint x) (uintAncestorsLoop f.Name ancestorValues)
    else some (.uint x)
  | v => some v

mutual
/-- Loop through each field (InheritWithTag); `canSet` tells whether the fields of the
output can be set. -/
def inheritFields (canSet : Bool) (tagName : String) (ancestorValues : List (Option Value)) :
    Fields → Option Fields
  | [] => some []
  | (f, v) :: rest =>
    match inheritField canSet tagName ancestorValues f v with
    | none => none
    | some v1 =>
      match inheritFields canSet tagName ancestorValues rest with
      | none => none
      | some rest1 => some ((f, v1) :: rest1)
termination_by structural x => x
/-- One field of the loop of InheritWithTag. The recursion on a struct is the call
InheritWithTag(outputFieldValue, ancestorFieldValues, tagName), whose arguments are
reflect.Values of struct kind. -/
def inheritField (canSet : Bool) (tagName : String) (ancestorValues : List (Option Value))
    (f : StructField) : Value → Option Value
  | .struct n ofs =>
    if canSet && f.exported && tagMatch tagName f then
      if n == timeString then
        setIfFound (.struct n ofs) (timeAncestorsLoop f.Name ancestorValues)
      else
        match structAncestors f.Name ancestorValues with
        | none => none
        | some [] => some (.struct n ofs)
        | some (a :: more) =>
          match inheritFields true tagName (a :: more) ofs with
          | none => none
          | some ofs1 => some (.struct n ofs1)
    else some (.struct n ofs)
  | v =>
    if canSet && f.exported && tagMatch tagName f then
      inheritScalar tagName ancestorValues f v
    else some v
termination_by structural x => x
end

/-- InheritWithTag inherits values from each ancestor if the output values are their
defaults, only if the tag exists. -/
def InheritWithTag (output : Arg) (ancestors : List Arg) (tagName : String) : Outcome :=
  if ancestors.length == 0 then .ok output
  else
    match output with
    | .rv (some (.struct n fs)) canSet =>
      match inheritFields canSet tagName (ancestors.map unpackAncestor) fs with
      | none => .panic
      | some fs1 => .ok (.rv (some (.struct n fs1)) canSet)
    | .rv _ _ => .panic
    | .any (some (.ptr (.struct n fs))) =>
      match inheritFields true tagName (ancestors.map unpackAncestor) fs with
      | none => .panic
      | some fs1 => .ok (.any (some (.ptr (.struct n fs1))))
    | .any (some (.ptr _)) => .panic
    | .any (some .nilPtr) => .panic
    | .any _ => .error "pointer required"

/-- Inherit inherits values from each ancestor if the output values are their defaults. -/
def Inherit (output : Arg) (ancestors : List Arg) : Outcome :=
  InheritWithTag output ancestors ""

/-- The loop intAncestorsLoop of OverwriteWithTag: the value of the first ancestor. -/
def overwriteIntLoop (name : String) : List (Option Value) → Option (Option Value)
  | [] => some none
  | a :: _ =>
    match ancestorField a name with
    | none => none
    | some af =>
      match reflectIndirect af with
      | some (.int x) => some (some (.int x))
      | _ => none

/-- The loop boolAncestorsLoop of OverwriteWithTag: the value of the first ancestor. -/
def overwriteBoolLoop (name : String) : List (Option Value) → Option (Option Value)
  | [] => some none
  | a :: _ =>
    match ancestorField a name with
    | some (some (.bool b)) => some (some (.bool b))
    | _ => none

/-- One field of the loop of OverwriteWithTag. The flag inheritBool is false throughout;
a nested struct that is not a Time is handed to InheritWithTag. -/
def overwriteField (canSet : Bool) (tagName : String) (ancestorValues : List (Option Value))
    (f : StructField) (v : Value) : Option Value :=
  if canSet && f.exported && tagMatch tagName f then
    let inheritBool := false
    match v with
    | .nilSlice => sliceAncestorsLoop f.Name ancestorValues .nilSlice
    | .slice xs => sliceAncestorsLoop f.Name ancestorValues (.slice xs)
    | .bool b =>
      if inheritBool then setIfFound (.bool b) (overwriteBoolLoop f.Name ancestorValues)
      else some (.bool b)
    | .complex re im => setIfFound (.complex re im) (complexAncestorsLoop f.Name ancestorValues)
    | .float x => setIfFound (.float x) (floatAncestorsLoop f.Name ancestorValues)
    | .int x => setIfFound (.int x) (overwriteIntLoop f.Name ancestorValues)
    | .nilMap => (mapAncestorsLoop f.Name ancestorValues []).map (fun m => Value.map m)
    | .map m => (mapAncestorsLoop f.Name ancestorValues m).map (fun m => Value.map m)
    | .nilPtr => setIfFound .nilPtr (pointerAncestorsLoop f.Name ancestorValues)
    | .ptr w => setIfFound (.ptr w) (pointerAncestorsLoop f.Name ancestorValues)
    | .str x => setIfFound (.str x) (stringAncestorsLoop f.Name ancestorValues)
    | .struct n ofs =>
      if n == "Time" then setIfFound (.struct n ofs) (timeAncestorsLoop f.Name ancestorValues)
      else
        match structAncestors f.Name ancestorValues with
        | none => none
        | some [] => some (.struct n ofs)
        | some (a :: more) =>
          match inheritFields true tagName (a :: more) ofs with
          | none => none
          | some ofs1 => some (.struct n ofs1)
    | .uint x => setIfFound (.uint x) (uintAncestorsLoop f.Name ancestorValues)
    | other => some other
  else some v

/-- Loop through each field (OverwriteWithTag). -/
def overwriteFields (canSet : Bool) (tagName : String) (ancestorValues : List (Option Value)) :
    Fields → Option Fields
  | [] => some []
  | (f, v) :: rest =>
    match overwriteField canSet tagName ancestorValues f v with
    | none => none
    | some v1 =>
      match overwriteFields canSet tagName ancestorValues rest with
      | none => none
      | some rest1 => some ((f, v1) :: rest1)

/-- OverwriteWithTag: equivalent to InheritWithTag without the default checks. -/
def OverwriteWithTag (output : Arg) (ancestors : List Arg) (tagName : String) : Outcome :=
  if ancestors.length == 0 then .ok output
  else
    match output with
    | .rv (some (.struct n fs)) canSet =>
      match overwriteFields canSet tagName (ancestors.map unpackAncestor) fs with
      | none => .panic
      | some fs1 => .ok (.rv (some (.struct n fs1)) canSet)
    | .rv _ _ => .panic
    | .any (some (.ptr (.struct n fs))) =>
      match overwriteFields true tagName (ancestors.map unpackAncestor) fs with
      | none => .panic
      | some fs1 => .ok (.any (some (.ptr (.struct n fs1))))
    | .any (some (.ptr _)) => .panic
    | .any (some .nilPtr) => .panic
    | .any _ => .error "pointer required"

/-- Overwrite overwrites values in output using values from each ancestor. -/
def Overwrite (output : Arg) (ancestors : List Arg) : Outcome :=
  OverwriteWithTag output ancestors ""

/-! ## ParseTypedValue (interfaces.parsetypedvalue.go)

A Go string is modelled by the list of its characters (the runes that ReadRune yields);
text that is not valid UTF-8 is outside the model. Positions are counted in characters,
lengths that the source takes in bytes are UTF-8 byte sizes. -/

/-- The runes that IsWhitespace (package strings) accepts. -/
def whitespaceRunes : List Nat :=
  [9, 10, 11, 13, 32, 160, 49824, 14785152, 14844032, 14844033, 14844034, 14844035,
   14844036, 14844037, 14844038, 14844039, 14844040, 14844041, 14844042, 14844043,
   14844079, 14844319, 14909568]

/-- IsWhitespace returns true if the rune is whitespace. -/
def IsWhitespace (r : Char) : Bool := whitespaceRunes.contains r.toNat

/-- Model of strings.LastIndex for a separator of one character: the position of its
last occurrence, counted from `i`, or `last` when there is none. -/
def lastIndexFrom (c : Char) : List Char → Nat → Int → Int
  | [], _, last => last
  | x :: xs, i, last => lastIndexFrom c xs (i + 1) (if x = c then (i : Int) else last)

/-- Model of strings.LastIndex(s, c): -1 when c does not occur. -/
def lastIndex (s : List Char) (c : Char) : Int := lastIndexFrom c s 0 (-1)

/-- Model of strings.Replace(s, old, new, -1) for strings of one character. -/
def replaceAll (s : List Char) (old new : Char) : List Char :=
  s.map (fun x => if x = old then new else x)

/-- Attempt to handle German number formatting (12.345.678,90). -/
def normalizeSeparators (dataString : List Char) : List Char :=
  let lastPeriodPos := lastIndex dataString '.'
  let lastCommaPos := lastIndex dataString ','
  if lastPeriodPos > -1 && lastCommaPos > -1 && lastCommaPos > lastPeriodPos then
    let temp := replaceAll dataString ',' '!'
    let temp := replaceAll temp '.' ','
    replaceAll temp '!' '.'
  else
    if dataString.count '.' > 1 then dataString.filter (fun x => x != '.')
    else dataString

/-- Handle cultures where '-' or '+' is the last character; `none` is the run-time panic
of the slice expression dataString[dataStringLength-1 : dataStringLength] on the empty
string. -/
def moveTrailingSign (dataString : List Char) : Option (List Char) :=
  match dataString.getLast? with
  | none => none
  | some lastCharacter =>
    if lastCharacter = '-' || lastCharacter = '+' then
      some (lastCharacter :: dataString.dropLast)
    else some dataString

/-- The variables of the scan. -/
structure ScanState where
  outputBuffer : List Char
  decimalCount : Nat
  hasI : Bool
  hasOperand : Bool
  leadingZeroes : Bool
  pos : Nat
  complexSupported : Bool
  numberSupported : Bool
deriving DecidableEq, Repr

/-- The variables before the scan. -/
def initialScan : ScanState :=
  { outputBuffer := [], decimalCount := 0, hasI := false, hasOperand := false,
    leadingZeroes := false, pos := 0, complexSupported := true, numberSupported := true }

/-- The call outputBuffer.WriteRune(c). -/
def ScanState.write (s : ScanState) (c : Char) : ScanState :=
  { s with outputBuffer := s.outputBuffer ++ [c] }

/-- The statement pos++. -/
def ScanState.next (s : ScanState) : ScanState := { s with pos := s.pos + 1 }

/-- The cases of the switch on a character. -/
inductive RuneClass where
  | ignored | sign | period | comma | zero | digit | imaginary | other
deriving DecidableEq, Repr

/-- The case of the switch that a character selects. -/
def runeClass (c : Char) : RuneClass :=
  if c = '(' || c = ')' || c = '[' || c = ']' || c = '\x7b' || c = '\x7d' || c = ' '
      || c = '\t' || c = '\r' || c = '\n' then .ignored
  else if c = '-' || c = '+' then .sign
  else if c = '.' then .period
  else if c = ',' then .comma
  else if c = '0' then .zero
  else if c = '1' || c = '2' || c = '3' || c = '4' || c = '5' || c = '6' || c = '7'
      || c = '8' || c = '9' then .digit
  else if c = 'i' then .imaginary
  else .other

/-- The switch on a character that is not whitespace: the new variables, and whether
the loop is left (break runeLoop). -/
def scanRune (c : Char) (s : ScanState) : ScanState × Bool :=
  match runeClass c with
  | .ignored => (s, false)
  | .sign =>
    let s1 := if c = '-' || s.pos > 0 then s.write c else s
    if s.pos > 0 then ({ s1 with numberSupported := false }, false)
    else
      if s1.hasOperand then ({ s1 with complexSupported := false }, true)
      else ({ s1 with hasOperand := true }, false)
  | .period =>
    let s1 := ({ s with leadingZeroes := false }).write c
    if s1.complexSupported && s1.decimalCount == 2 then
      ({ s1 with complexSupported := false, numberSupported := false }, true)
    else
      let s2 := if s1.numberSupported && s1.decimalCount == 1 then
        { s1 with numberSupported := false } else s1
      ({ s2 with decimalCount := s2.decimalCount + 1 }, false)
  | .comma => (s, false)
  | .zero =>
    let s1 := if s.outputBuffer.isEmpty then { s with leadingZeroes := true } else s
    (s1.write c, false)
  | .digit => (s.write c, false)
  | .imaginary =>
    let s1 := { s.write c with numberSupported := false }
    if s1.hasI then ({ s1 with complexSupported := false }, true)
    else ({ s1 with hasI := true }, false)
  | .other =>
    let s1 := { s.write c with complexSupported := false, numberSupported := false }
    (s1, s1.pos == 5)

/-- Check each character (the loop runeLoop): whitespace is ignored, every other
character goes through the switch, and pos counts the characters that did not leave the
loop. -/
def runeLoop : List Char → ScanState → ScanState
  | [], s => s
  | c :: rest, s =>
    if IsWhitespace c then runeLoop rest s
    else
      let r := scanRune c s
      if r.2 then r.1 else runeLoop rest r.1.next

/-- Model of strings.Split(s, sep) for a separator of one character. -/
def splitChars (sep : Char) : List Char → List (List Char)
  | [] => [[]]
  | c :: rest =>
    if c = sep then [] :: splitChars sep rest
    else
      match splitChars sep rest with
      | [] => [[c]]
      | p :: ps => (c :: p) :: ps

/-- Model of strings.HasSuffix(s, "i"). -/
def hasSuffixI (s : List Char) : Bool := s.getLast? == some 'i'

/-- Model of strings.Trim(s, "i"). -/
def trimI (s : List Char) : List Char :=
  ((s.dropWhile (fun x => x == 'i')).reverse.dropWhile (fun x => x == 'i')).reverse

/-- The product -1*x of float64: the sign bit is flipped (x is not a NaN here). -/
def f64Neg (bits : Nat) : Nat :=
  if bits % 2 ^ 64 < 2 ^ 63 then bits % 2 ^ 64 + 2 ^ 63 else bits % 2 ^ 64 - 2 ^ 63

/-- Parse complex numbers, one split: the value returned, if any. `negate` is false for
the split on "+" and true for the split on "-". -/
def complexOfParts (parseFloat : String → Option Nat) (negate : Bool) :
    List (List Char) → Option Value
  | [p0, p1] =>
    if hasSuffixI p0 then
      match parseFloat (String.mk p1) with
      | none => none
      | some realFloat =>
        match parseFloat (String.mk (trimI p0)) with
        | none => none
        | some imaginaryFloat =>
          some (.complex (if negate then f64Neg realFloat else realFloat) imaginaryFloat)
    else
      if hasSuffixI p1 then
        match parseFloat (String.mk p0) with
        | none => none
        | some realFloat =>
          match parseFloat (String.mk (trimI p1)) with
          | none => none
          | some imaginaryFloat =>
            some (.complex realFloat (if negate then f64Neg imaginaryFloat else imaginaryFloat))
      else none
  | _ => none

/-- Parse complex numbers: the split on "+", then the split on "-". -/
def parseComplex (parseFloat : String → Option Nat) (buffer : List Char) : Option Value :=
  match complexOfParts parseFloat false (splitChars '+' buffer) with
  | some v => some v
  | none => complexOfParts parseFloat true (splitChars '-' buffer)

/-- Value of a decimal digit. -/
def digitValue (c : Char) : Option Nat :=
  if c.isDigit then some (c.toNat - 48) else none

/-- The digits of strconv.ParseUint in base 10, most significant first. -/
def parseUintDigits : List Char → Nat → Option Nat
  | [], acc => some acc
  | c :: rest, acc =>
    match digitValue c with
    | none => none
    | some d => parseUintDigits rest (acc * 10 + d)

/-- Model of strconv.ParseInt(s, 10, 64): the value when err is nil. An optional sign,
then at least one digit and digits only; a value outside the range of int64 is an
error. -/
def ParseInt (s : List Char) : Option Int :=
  match s with
  | [] => none
  | c :: rest =>
    let neg := c == '-'
    let digits := if c = '+' || c = '-' then rest else s
    if digits.isEmpty then none
    else
      match parseUintDigits digits 0 with
      | none => none
      | some un =>
        if !neg && un ≥ 2 ^ 63 then none
        else if neg && un > 2 ^ 63 then none
        else some (if neg then -(un : Int) else (un : Int))

/-- Parse numbers: a float when a decimal point was seen and strconv.ParseFloat accepts
the buffer, else an integer when strconv.ParseInt accepts it. -/
def parseNumber (parseFloat : String → Option Nat) (decimalCount : Nat) (buffer : List Char) :
    Option Value :=
  match (if decimalCount > 0 then parseFloat (String.mk buffer) else none) with
  | some floatVal => some (.float floatVal)
  | none =>
    match ParseInt buffer with
    | some intVal => some (.int intVal)
    | none => none

/-- Check for booleans: strings.ToLower of the buffer is "false" or "true" (only ASCII
letters lower to the letters of these two words). -/
def parseBool (buffer : List Char) : Option Value :=
  let lower := buffer.map Char.toLower
  if lower = "false".data then some (.bool false)
  else if lower = "true".data then some (.bool true)
  else none

/-- What the source reads of the time that dateparse.ParseAny returns. -/
structure ParsedTime where
  Year : Int
  UnixNano : Int
deriving DecidableEq, Repr

/-- Check for string dates/times: Unix milliseconds when the year is not zero. -/
def parseTime (parseAny : String → Option ParsedTime) (originalDataString : String) :
    Option Value :=
  match parseAny originalDataString with
  | none => none
  | some timeVal =>
    if timeVal.Year != 0 then some (.int (Int.tdiv timeVal.UnixNano 1000000)) else none

/-- The part of ParseTypedValue after the scan, when pos is not zero: the first of
complex number, number, boolean, time that applies, else the original string. -/
def classify (parseFloat : String → Option Nat) (parseAny : String → Option ParsedTime)
    (originalDataString : String) (s : ScanState) : Value :=
  match (if s.complexSupported then parseComplex parseFloat s.outputBuffer else none) with
  | some v => v
  | none =>
    let numberSupported := if s.leadingZeroes then false else s.numberSupported
    match (if numberSupported then parseNumber parseFloat s.decimalCount s.outputBuffer
        else none) with
    | some v => v
    | none =>
      match (if (String.mk s.outputBuffer).utf8ByteSize < 6 then parseBool s.outputBuffer
          else none) with
      | some v => v
      | none =>
        match (if originalDataString.utf8ByteSize < 32 then
            parseTime parseAny originalDataString else none) with
        | some v => v
        | none => .str originalDataString

/-- ParseTypedValue attempts to parse the underlying type of a string. The parameters
stand for strconv.ParseFloat(s, 64) (the bit pattern when err is nil) and for
dateparse.ParseAny. The result is `none` for a run-time panic, `some none` for the zero
reflect.Value, `some (some v)` for reflect.ValueOf(v). -/
def ParseTypedValue (parseFloat : String → Option Nat)
    (parseAny : String → Option ParsedTime) (dataString : String) : Option (Option Value) :=
  if dataString == "" then some none
  else
    match moveTrailingSign (normalizeSeparators dataString.data) with
    | none => none
    | some chars =>
      let s := runeLoop chars initialScan
      if s.pos == 0 then some none
      else some (some (classify parseFloat parseAny dataString s))

/-! ## GetFieldValue (interfaces.getfieldvalue.go) -/

/-- Capitalize capitalizes the first letter of a string (package strings): the first byte
goes through strings.ToUpper. When the first character is not ASCII the first byte is
not a character of its own and the result is not valid UTF-8: it names no field, and
the model gives `none`. -/
def Capitalize (input : List Char) : Option (List Char) :=
  match input with
  | [] => some []
  | c :: rest => if c.toNat < 128 then some (c.toUpper :: rest) else none

/-- The loop at the start of GetFieldValue: reflect.ValueOf(value), then Elem as long as
the kind is Ptr; `none` is the zero Value (from a nil interface or a nil pointer). -/
def derefAll : Option Value → Option Value
  | none => none
  | some v => indirect v

/-- Model of reflectValue.FieldByName(name) in GetFieldValue: the outer `none` is the
panic of FieldByName on a Value that is not a struct, the inner `none` the zero Value. -/
def fieldByNameOf (reflectValue : Option Value) (name : Option (List Char)) :
    Option (Option (StructField × Value)) :=
  match reflectValue with
  | some (.struct _ fs) =>
    match name with
    | none => some none
    | some n => some (fieldByName fs (String.mk n))
  | _ => none

/-- Model of fieldValue.Interface() on a field: a panic (`none`) when the field is not
exported. -/
def fieldInterface (fv : StructField × Value) : Option (Option Value) :=
  if fv.1.exported then some (toAny fv.2) else none

/-- Resolve maps: MapIndex with the name as key, on a map with string keys. -/
def mapIndex (reflectValue : Option Value) (fieldName : List Char) : Option Value :=
  match reflectValue with
  | some (.map m) =>
    match List.lookup (String.mk fieldName) m with
    | some x => toAny x
    | none => none
  | _ => none

/-- GetFieldValue on the segments of the name between periods. The source cuts the name
at its first period and calls itself on the rest; the model follows the list of the
segments. The outer `none` is a run-time panic, the inner `none` the result nil. -/
def getFieldValuePath (value : Option Value) : List (List Char) → Option (Option Value)
  | [] => some none
  | [fieldName] =>
    if kindOf (derefAll value) = Kind.Map then some (mapIndex (derefAll value) fieldName)
    else
      match fieldByNameOf (derefAll value) (Capitalize fieldName) with
      | none => none
      | some none => some none
      | some (some fv) => fieldInterface fv
  | segment :: rest =>
    match fieldByNameOf (derefAll value) (Capitalize segment) with
    | none => none
    | some none => some none
    | some (some fv) =>
      match fieldInterface fv with
      | none => none
      | some inner => getFieldValuePath inner rest

/-- GetFieldValue returns the value of a named field. -/
def GetFieldValue (value : Option Value) (fieldName : String) : Option (Option Value) :=
  getFieldValuePath value (splitChars '.' fieldName.data)

/-! ## GetTagFieldNames (interfaces.getfieldnames.go) -/

/-- The name part of one iteration of the loop of getTagFieldNamesHelper: the variable
fieldTag after it, and the names with the one the field adds, if any. -/
def fieldNameStep (tag pfx : String) (f : StructField) (fieldNames : List String) :
    String × List String :=
  if tag.length > 0 then
    match tagLookup f.Tag tag with
    | some t =>
      let fieldTag := cutTag t
      let fieldTag := if pfx.length > 0 then pfx ++ "." ++ fieldTag else fieldTag
      (fieldTag, if fieldTag.length > 0 then fieldNames ++ [fieldTag] else fieldNames)
    | none => ("", fieldNames)
  else
    let fieldTag := f.Name
    let fieldTag := if pfx.length > 0 then pfx ++ "." ++ fieldTag else fieldTag
    (fieldTag, fieldNames ++ [fieldTag])

mutual
/-- The loop of getTagFieldNamesHelper over the fields of a struct. -/
def tagFieldNamesLoop (tag : String) : Fields → String → List String → List String
  | [], _, fieldNames => fieldNames
  | (f, v) :: rest, pfx, fieldNames =>
    tagFieldNamesLoop tag rest pfx
      (tagFieldNamesNested tag f v (fieldNameStep tag pfx f fieldNames).1
        (fieldNameStep tag pfx f fieldNames).2)
termination_by structural x => x
/-- The end of an iteration: the recursive call on a field that, once a pointer is
followed, is a struct and can be read through Interface. -/
def tagFieldNamesNested (tag : String) (f : StructField) :
    Value → String → List String → List String
  | .struct _ gs, fieldTag, fieldNames =>
    if f.exported then tagFieldNamesLoop tag gs fieldTag fieldNames else fieldNames
  | .ptr (.struct _ gs), fieldTag, fieldNames =>
    if f.exported then tagFieldNamesLoop tag gs fieldTag fieldNames else fieldNames
  | _, _, fieldNames => fieldNames
termination_by structural x => x
end

/-- getTagFieldNamesHelper returns the names of all fields of an object; `none` is the
panic of NumField on an input that is neither a struct nor a pointer to a struct. -/
def getTagFieldNamesHelper (input : Option Value) (tag pfx : String)
    (fieldNames : List String) : Option (List String) :=
  match structFields input with
  | some fs => some (tagFieldNamesLoop tag fs pfx fieldNames)
  | none => none

/-- GetAPIFieldNames returns the names of all fields of an object with an "api" tag. -/
def GetAPIFieldNames (input : Option Value) : Option (List String) :=
  getTagFieldNamesHelper input "api" "" []

/-- GetFieldNames returns the names of all fields of an object. -/
def GetFieldNames (input : Option Value) : Option (List String) :=
  getTagFieldNamesHelper input "" "" []

/-- GetTagFieldNames returns the names of all fields of an object. -/
def GetTagFieldNames (input : Option Value) (tag : String) : Option (List String) :=
  getTagFieldNamesHelper input tag "" []

/-! ## SetQueryFields (interfaces.setqueryfields.go, interfaces.sprint.go) -/

/-- The function Sprint of package interfaces: fmt.Sprint unless the input is nil. -/
def interfaces.Sprint (ext : Value → String) (input : Option Value) : String :=
  match input with
  | none => ""
  | some v => GoUtil.Sprint ext (some v)

/-- The maps queryValues and stringsMap of setQueryFieldsHelper: a map from string to
string, and a set of strings, kept as the list of its elements without repetition. -/
abbrev QueryState := DiffMap × List String

/-- The assignment stringsMap[queryValue] = struct{}{}. -/
def setInsert (stringsMap : List String) (queryValue : String) : List String :=
  if queryValue ∈ stringsMap then stringsMap else stringsMap ++ [queryValue]

/-- The statements guarded by queryValue != "": store the value under the key and record
it in the set. -/
def storeQueryValue (key queryValue : String) (st : QueryState) : QueryState :=
  if queryValue != "" then (mapSet st.1 key queryValue, setInsert st.2 queryValue) else st

/-- The type time.Time, seen through reflect: the struct named Time whose fields are wall,
ext and loc of package time. A struct type of another package may be named Time, but its
fields are not unexported fields of package time. -/
def isTimeTime : Value → Bool
  | .struct n fs =>
    n == "Time" && fs.map (fun fv => fv.1)
      == [⟨"wall", [], "time"⟩, ⟨"ext", [], "time"⟩, ⟨"loc", [], "time"⟩]
  | _ => false

/-- The text of one value of a map field: the type switch formats a time.Time, any other
value goes through Sprint. -/
def mapValueText (ext formatTime : Value → String) (x : Value) : String :=
  match toAny x with
  | some keyValue =>
    if isTimeTime keyValue then formatTime keyValue else interfaces.Sprint ext (some keyValue)
  | none => interfaces.Sprint ext none

/-- The case Map of the switch: every entry of a map with string keys. -/
def queryMapLoop (ext formatTime : Value → String) :
    List (String × Value) → QueryState → QueryState
  | [], st => st
  | (key, x) :: rest, st =>
    queryMapLoop ext formatTime rest (storeQueryValue key (mapValueText ext formatTime x) st)

/-- Handle shadow fields based on field type: the switch on the kind of the field, all
kinds but Struct. -/
def queryKind (ext formatTime : Value → String) (fieldID : String) :
    Value → QueryState → QueryState
  | .map m, st => queryMapLoop ext formatTime m st
  | .bool b, st => storeQueryValue fieldID (interfaces.Sprint ext (some (.bool b))) st
  | .complex re im, st =>
    storeQueryValue fieldID (interfaces.Sprint ext (some (.complex re im))) st
  | .float x, st => storeQueryValue fieldID (interfaces.Sprint ext (some (.float x))) st
  | .int i, st => storeQueryValue fieldID (interfaces.Sprint ext (some (.int i))) st
  | .nilIface, st => storeQueryValue fieldID (interfaces.Sprint ext none) st
  | .iface x, st => storeQueryValue fieldID (interfaces.Sprint ext (some x)) st
  | .str s, st => storeQueryValue fieldID (interfaces.Sprint ext (some (.str s))) st
  | .uint n, st => storeQueryValue fieldID (interfaces.Sprint ext (some (.uint n))) st
  | _, st => st

/-- The case Struct of the switch for a type named Time: the assertion
field.Interface().(time.Time) has no check and panics (`none`) on a struct of another
type named Time; a time.Time is formatted and stored. -/
def queryTime (formatTime : Value → String) (fieldID : String) (field : Value)
    (st : QueryState) : Option QueryState :=
  if isTimeTime field then some (storeQueryValue fieldID (formatTime field) st) else none

mutual
/-- The loop of setQueryFieldsHelper over the fields of a struct; `none` is a panic. -/
def queryFieldsLoop (ext formatTime : Value → String) :
    Fields → QueryState → Option QueryState
  | [], st => some st
  | (f, v) :: rest, st =>
    match queryField ext formatTime f v st with
    | none => none
    | some st1 => queryFieldsLoop ext formatTime rest st1
termination_by structural x => x
/-- One iteration: a field that cannot be read through Interface or has no api tag is
skipped; a pointer is followed once; a struct of a type named Time is asserted to be a
time.Time and formatted; on any other struct, a nested record, setQueryFieldsHelper is
called; every other kind goes through the switch. -/
def queryField (ext formatTime : Value → String) (f : StructField) :
    Value → QueryState → Option QueryState
  | .ptr (.struct n gs), st =>
    if f.exported then
      match tagLookup f.Tag "api" with
      | none => some st
      | some fieldID =>
        if n == timeString then queryTime formatTime (cutTag fieldID) (.struct n gs) st
        else queryFieldsLoop ext formatTime gs st
    else some st
  | .struct n gs, st =>
    if f.exported then
      match tagLookup f.Tag "api" with
      | none => some st
      | some fieldID =>
        if n == timeString then queryTime formatTime (cutTag fieldID) (.struct n gs) st
        else queryFieldsLoop ext formatTime gs st
    else some st
  | .ptr w, st =>
    if f.exported then
      match tagLookup f.Tag "api" with
      | none => some st
      | some fieldID => some (queryKind ext formatTime (cutTag fieldID) w st)
    else some st
  | v, st =>
    if f.exported then
      match tagLookup f.Tag "api" with
      | none => some st
      | some fieldID => some (queryKind ext formatTime (cutTag fieldID) v st)
    else some st
termination_by structural x => x
end

/-- The function setQueryFieldsHelper maps string versions of each field into
queryValues; `none` is a panic: that of NumField on an input that is neither a struct
nor a pointer to a struct, or that of the assertion on a time. -/
def setQueryFieldsHelper (ext formatTime : Value → String) (input : Option Value)
    (st : QueryState) : Option QueryState :=
  match structFields input with
  | some fs => queryFieldsLoop ext formatTime fs st
  | none => none

/-- Concatenate space-separated string values. -/
def joinValues : List String → String
  | [] => ""
  | [val] => val
  | val :: more => val ++ " " ++ joinValues more

/-- SetQueryFields maps string versions of each field into queryValues and concatenates
all values into allValues. The order in which Go ranges over stringsMap is not fixed:
`order` stands for it. The result is queryValues and the content of the buffer. -/
def SetQueryFields (ext formatTime : Value → String) (order : List String → List String)
    (input : Option Value) (queryValues : DiffMap) (allValues : String) :
    Option (DiffMap × String) :=
  match setQueryFieldsHelper ext formatTime input (queryValues, []) with
  | none => none
  | some st => some (st.1, allValues ++ joinValues (order st.2))

/-! ## SetEnvFieldValues (interfaces.setenvfieldvalues.go) -/

/-- How a call of SetEnvFieldValues ends: it returns nil, it returns an error, or it
panics. -/
inductive Ending where
  | ok
  | error (msg : String)
  | panic
deriving DecidableEq, Repr

/-- The switch on the kind of the field: the text of a variable for a field of kind
String is put between quotation marks unless it holds one. -/
def quoteEnvVar (v : Value) (envVar : String) : String :=
  if v.Kind = Kind.String then
    if '"' ∈ envVar.data then envVar else "\"" ++ envVar ++ "\""
  else envVar

/-- The loop of SetEnvFieldValues through each field. The function `env` is os.Getenv,
which yields the empty string for a variable that is not set; `unmarshal` is
jsoniter.Unmarshal into a new value of the type of the field, given here by its zero
value, and yields the decoded value or an error. Set panics on a field that cannot be
set. The result is the fields as the loop leaves them and how it ended. -/
def envFieldLoop (env : String → String) (unmarshal : String → Value → Except String Value)
    (canSet : Bool) : Fields → Fields × Ending
  | [] => ([], .ok)
  | (f, v) :: rest =>
    match tagLookup f.Tag "env" with
    | none => ((f, v) :: (envFieldLoop env unmarshal canSet rest).1,
        (envFieldLoop env unmarshal canSet rest).2)
    | some envVarName =>
      if env envVarName = "" then
        ((f, v) :: (envFieldLoop env unmarshal canSet rest).1,
          (envFieldLoop env unmarshal canSet rest).2)
      else
        match unmarshal (quoteEnvVar v (env envVarName)) (zeroValue v) with
        | .error msg => ((f, v) :: rest, .error msg)
        | .ok w =>
          if canSet && f.exported then
            ((f, w) :: (envFieldLoop env unmarshal canSet rest).1,
              (envFieldLoop env unmarshal canSet rest).2)
          else ((f, v) :: rest, .panic)

/-- SetEnvFieldValues sets field values based on environment variables. The result is
the argument `output` with the content the call leaves in it, and how the call ended:
an output that is neither a reflect.Value nor a pointer gives the error "pointer
required"; Type on the zero Value and NumField on a type that is not a struct panic. -/
def SetEnvFieldValues (env : String → String)
    (unmarshal : String → Value → Except String Value) : Arg → Arg × Ending
  | .rv (some (.struct n fs)) canSet =>
    (.rv (some (.struct n (envFieldLoop env unmarshal canSet fs).1)) canSet,
      (envFieldLoop env unmarshal canSet fs).2)
  | .rv v canSet => (.rv v canSet, .panic)
  | .any (some (.ptr (.struct n fs))) =>
    (.any (some (.ptr (.struct n (envFieldLoop env unmarshal true fs).1))),
      (envFieldLoop env unmarshal true fs).2)
  | .any (some (.ptr w)) => (.any (some (.ptr w)), .panic)
  | .any (some .nilPtr) => (.any (some .nilPtr), .panic)
  | .any v => (.any v, .error "pointer required")

/-! ## InjectVariables (interfaces.injectvariables.go) -/

/-- The call outputBuffer.Truncate(outputBuffer.Len() - 1): the last byte of the buffer
is removed, and Truncate panics on an empty buffer (`none`). The byte removed is the '$'
that the iteration before wrote (`InjectVariables_returns`). A buffer that ends with a
character of more than one byte would be left with a part of that character, which the
model does not represent: the result is `none` there as well. -/
def truncateLast (buffer : List Char) : Option (List Char) :=
  match buffer.getLast? with
  | some c => if c.toNat < 128 then some buffer.dropLast else none
  | none => none

/-- The error of InjectVariables for a name that is not a key of the map. -/
def notFound (name : String) : String := "input variable (" ++ name ++ ") not found"

/-- The loop of InjectVariables over the runes of the input, with the variables lastC,
hasVariable, inVariable, outputBuffer and variableBuffer, and the statements after the
loop. The map of the variables (named vars here) is a list of keys with values, the
value `none` being nil. The result is the value and the error that the function returns (an
error `none` is nil); the outer `none` is a run-time panic. -/
def injectLoop (ext : Value → String) (vars : List (String × Option Value))
    (input : String) :
    List Char → Char → Bool → Bool → List Char → List Char →
      Option (Option Value × Option String)
  | [], _, hasVariable, _, outputBuffer, _ =>
    if hasVariable then some (some (.str (String.mk outputBuffer)), none)
    else
      -- Individual variables not found. Treat entire input as a variable.
      match List.lookup input vars with
      | some output => some (output, none)
      | none => some (some (.str ""), some (notFound input))
  | c :: rest, lastC, hasVariable, inVariable, outputBuffer, variableBuffer =>
    if inVariable then
      if c = '}' then
        match List.lookup (String.mk variableBuffer) vars with
        | none => some (some (.str ""), some (notFound (String.mk variableBuffer)))
        | some variableValue =>
          injectLoop ext vars input rest c hasVariable false
            (outputBuffer ++ (Sprint ext variableValue).data) []
      else
        injectLoop ext vars input rest c hasVariable true outputBuffer
          (variableBuffer ++ [c])
    else
      if c = '\x7b' ∧ lastC = '$' then
        match truncateLast outputBuffer with
        | none => none
        | some truncated =>
          injectLoop ext vars input rest c true true truncated variableBuffer
      else
        injectLoop ext vars input rest c hasVariable false (outputBuffer ++ [c])
          variableBuffer

/-- InjectVariables injects input variables into a formatted string. -/
def InjectVariables (ext : Value → String) (input : String)
    (vars : List (String × Option Value)) : Option (Option Value × Option String) :=
  injectLoop ext vars input input.data (Char.ofNat 0) false false [] []

/-! ## Package strings of the standard library

Modelled from the documentation of the package. As for ParseTypedValue, a Go string is
the list of its characters, and positions and lengths are counted in characters. -/

/-- Model of strings.Index(s, substr): the index of the first instance of substr in s,
`none` standing for -1. -/
def stringsIndex : List Char → List Char → Option Nat
  | [], substr => if substr.isEmpty then some 0 else none
  | c :: rest, substr =>
    if substr.isPrefixOf (c :: rest) then some 0
    else (stringsIndex rest substr).map (fun i => i + 1)

/-- The scan of strings.Replace for an old string that is not empty: instances of old
that do not overlap are replaced from left to right; `skip` counts the characters of
the instance just replaced that are still to be passed over. -/
def stringsReplaceFrom (old new : List Char) : List Char → Nat → List Char
  | [], _ => []
  | _ :: rest, skip + 1 => stringsReplaceFrom old new rest skip
  | c :: rest, 0 =>
    if old.isPrefixOf (c :: rest) then new ++ stringsReplaceFrom old new rest (old.length - 1)
    else c :: stringsReplaceFrom old new rest 0

/-- Model of strings.Replace(s, old, new, -1): a copy of s with all instances of old that
do not overlap replaced by new; an empty old matches at the beginning of the string and
after each character. -/
def stringsReplace (s old new : List Char) : List Char :=
  if old.isEmpty then new ++ s.flatMap (fun c => c :: new)
  else stringsReplaceFrom old new s 0

/-- Model of strings.ToLower on ASCII text: the letters A to Z are mapped to lower case,
every other character is kept. -/
def stringsToLower (s : List Char) : List Char := s.map Char.toLower

/-- Model of strings.Trim(s, cutset): s with all leading and trailing characters of the
cutset removed. -/
def stringsTrim (s cutset : List Char) : List Char :=
  ((s.dropWhile (fun c => cutset.contains c)).reverse.dropWhile
    (fun c => cutset.contains c)).reverse

/-- Model of strconv.Itoa on a number that is not negative. -/
def Itoa (i : Nat) : List Char := (Nat.toDigits 10 i)

/-! ## SanitizeDirectory (io.go) -/

/-- SanitizeDirectory ensures a directory path is safe. -/
def SanitizeDirectory (input : String) : String :=
  String.mk (stringsReplace (stringsReplace input.data "/..".data []) "../".data [])

/-! ## Package strings of the repository (strings.go) -/

/-- FormatString, the loop: the variable i and the replacements from index i-1 on. -/
def formatStringLoop : List String → Nat → List Char → List Char
  | [], _, input => input
  | r :: rest, i, input =>
    formatStringLoop rest (i + 1) (stringsReplace input ('%' :: Itoa i) r.data)

/-- FormatString formats a string, replacing % numeric expressions with their
corresponding array values. -/
def FormatString (input : String) (replacements : List String) : String :=
  String.mk (formatStringLoop replacements 1 input.data)

/-- RemoveUnreadableCharacters, the loop over the runes: the variable inWhitespace and
the buffer. -/
def removeUnreadableLoop : List Char → Bool → List Char → List Char
  | [], _, buffer => buffer
  | c :: rest, inWhitespace, buffer =>
    if IsWhitespace c then
      if inWhitespace then removeUnreadableLoop rest inWhitespace buffer
      else removeUnreadableLoop rest true (buffer ++ [' '])
    else
      removeUnreadableLoop rest false
        (if c.toNat ≥ 32 ∧ c.toNat < 127 then buffer ++ [c] else buffer)

/-- RemoveUnreadableCharacters removes non-human readable characters. The error that the
source returns next to the string is always nil: reading from a string fails only at
its end. -/
def RemoveUnreadableCharacters (input : String) : String :=
  String.mk (stringsTrim (removeUnreadableLoop input.data true []) " \t\r\n".data)

/-- ReturnBetweenInsensitive returns the substring in haystack between startNeedle and
endNeedle, case insensitive. -/
def ReturnBetweenInsensitive (haystack startNeedle endNeedle : String) : String :=
  match stringsIndex (stringsToLower haystack.data) startNeedle.data with
  | some startPos =>
    match stringsIndex ((stringsToLower haystack.data).drop (startPos + startNeedle.length))
        endNeedle.data with
    | some endPos =>
      String.mk ((haystack.data.drop (startPos + startNeedle.length)).take endPos)
    | none => ""
  | none => ""

/-- One iteration of the loop of ReturnAllBetween, entered with startPos > -1: the new
values of startPos (`none` standing for -1) and of results. -/
def returnAllBetweenStep (haystack startNeedle endNeedle : List Char) (prevStartPos : Nat)
    (results : List String) : Option Nat × List String :=
  match stringsIndex (haystack.drop prevStartPos) startNeedle with
  | some startPos =>
    match stringsIndex (haystack.drop (prevStartPos + startPos + startNeedle.length))
        endNeedle with
    | some endPos =>
      (some (prevStartPos + startPos + startNeedle.length + endPos + endNeedle.length),
        results ++ [String.mk ((haystack.drop
          (prevStartPos + startPos + startNeedle.length)).take endPos)])
    | none => (none, results)
  | none => (none, results)

/-- The loop `for startPos > -1` of ReturnAllBetween, run for at most `fuel` iterations:
`none` when the loop is still running after them. -/
def returnAllBetweenLoop (haystack startNeedle endNeedle : List Char) :
    Nat → Nat → List String → Option (List String)
  | 0, _, _ => none
  | fuel + 1, startPos, results =>
    match returnAllBetweenStep haystack startNeedle endNeedle startPos results with
    | (some next, results1) =>
      returnAllBetweenLoop haystack startNeedle endNeedle fuel next results1
    | (none, results1) => some results1

/-- ReturnAllBetween returns all substrings in haystack between startNeedle and
endNeedle; `none` when the loop does not end within `fuel` iterations. -/
def ReturnAllBetween (fuel : Nat) (haystack startNeedle endNeedle : String) :
    Option (List String) :=
  returnAllBetweenLoop haystack.data startNeedle.data endNeedle.data fuel 0 []

/-! ## Permutations (strings.go) -/

/-- The three assignments that exchange input[i] and input[j]. The indices are below n,
which is at most the length of the slice, so no index is out of range. -/
def swapAt (input : List String) (i j : Nat) : List String :=
  (input.set i (input.getD j "")).set j (input.getD i "")

/-- The loop `for i := 0; i < n; i++` of the helper of Permutations, with the number of
iterations still to run: the call helper(input, n-1), then the exchange, which depends
on n being odd or even. The slice input is shared and changed in place; it is passed
along with output. -/
def permutationsLoop (n : Nat)
    (helper : List String → List (List String) → List String × List (List String)) :
    Nat → Nat → List String → List (List String) → List String × List (List String)
  | 0, _, input, output => (input, output)
  | remaining + 1, i, input, output =>
    permutationsLoop n helper remaining (i + 1)
      (if n % 2 = 1 then swapAt (helper input output).1 i (n - 1)
        else swapAt (helper input output).1 0 (n - 1))
      (helper input output).2

/-- The function helper of Permutations: the slice input and the list output after the
call helper(input, n). -/
def permutationsHelper : Nat → List String → List (List String) →
    List String × List (List String)
  | 0, input, output => (input, output)
  | n + 1, input, output =>
    if n + 1 = 1 then (input, output ++ [input])
    else permutationsLoop (n + 1) (permutationsHelper n) (n + 1) 0 input output

/-- Permutations returns all permutations made through combinations of input nodes. -/
def Permutations (input : List String) : List (List String) :=
  (permutationsHelper input.length input []).2

/-! ## InheritWithTag and OverwriteWithTag when an ancestor is output itself

Maps and slices of Go are references, and an ancestor may be the very pointer that is
passed as output. The functions above take every ancestor by its content at the time of
the call, which is what the code reads when no ancestor shares storage with output. The
functions of this section follow the code when an ancestor is output itself: what a loop
reads in such an ancestor is what output holds at that moment. -/

/-- An ancestor as the loop over the fields sees it: a value with storage of its own
(the zero reflect.Value is `none`), or the record of output itself. -/
inductive Source where
  | own (value : Option Value)
  | output

/-- An ancestor as it is passed: an argument with storage of its own, or the pointer (or
the reflect.Value) that is also passed as output. -/
inductive AliasedArg where
  | other (a : Arg)
  | output

/-- Unpack each ancestor. -/
def unpackSource : AliasedArg → Source
  | .other a => .own (unpackAncestor a)
  | .output => .output

/-- The ancestors as the loops with a single assignment read them. These loops leave at
their first assignment, so output does not change while they read, and an ancestor that
is output itself holds, in the field `f`, the value `current` that output holds when the
loop starts. -/
def resolveSources (f : StructField) (current : Value) : List Source → List (Option Value)
  | [] => []
  | .own a :: rest => a :: resolveSources f current rest
  | .output :: rest => some (.struct "" [(f, current)]) :: resolveSources f current rest

/-- The inner loop of case Slice on an ancestor that is output itself: the length was
read before the loop; the element of index j is read, at its turn, in the slice that
output holds then, and appended to it. `none` is the panic of Index out of range. -/
def appendOwnElements : Nat → Nat → Value → Option Value
  | 0, _, out => some out
  | remaining + 1, j, out =>
    match (sliceElems out)[j]? with
    | none => none
    | some x => appendOwnElements remaining (j + 1) (sliceAppend out x)

/-- Case Slice: copy all array values, regardless of whether output was empty. -/
def sliceAncestorsLoopAliased (name : String) : List Source → Value → Option Value
  | [], out => some out
  | .own a :: rest, out =>
    match ancestorField a name with
    | none => none
    | some af =>
      if kindOf af = Kind.Slice then
        sliceAncestorsLoopAliased name rest
          ((sliceElems (af.getD .nilSlice)).foldl sliceAppend out)
      else sliceAncestorsLoopAliased name rest out
  | .output :: rest, out =>
    match appendOwnElements (sliceElems out).length 0 out with
    | none => none
    | some out1 => sliceAncestorsLoopAliased name rest out1

/-- The inner loop of case Map on an ancestor that is output itself: every key of the map
is set to the value that MapIndex reads for it in the same map. -/
def setOwnEntries : List String → List (String × Value) → List (String × Value)
  | [], out => out
  | key :: keys, out =>
    match List.lookup key out with
    | none => setOwnEntries keys out
    | some x => setOwnEntries keys (mapSet out key x)

/-- Case Map, the copy: all map values of every ancestor, regardless of whether output
was empty. -/
def mapAncestorsLoopAliased (name : String) :
    List Source → List (String × Value) → Option (List (String × Value))
  | [], out => some out
  | .own a :: rest, out =>
    match ancestorField a name with
    | none => none
    | some (some (.map m)) =>
      mapAncestorsLoopAliased name rest (m.foldl (fun acc kv => mapSet acc kv.1 kv.2) out)
    | some _ => mapAncestorsLoopAliased name rest out
  | .output :: rest, out =>
    mapAncestorsLoopAliased name rest (setOwnEntries (out.map (fun kv => kv.1)) out)

/-- The sub-structures of the ancestors that are themselves structs; the sub-structure of
output itself is the struct that the nested call receives as output. -/
def structAncestorsAliased (name : String) : List Source → Option (List Source)
  | [] => some []
  | .own a :: rest =>
    match ancestorField a name with
    | none => none
    | some af =>
      match structAncestorsAliased name rest with
      | none => none
      | some more => if kindOf af = Kind.Struct then some (.own af :: more) else some more
  | .output :: rest =>
    match structAncestorsAliased name rest with
    | none => none
    | some more => some (.output :: more)

/-- The switch of InheritWithTag on the kind of a processed field, all kinds but Struct. -/
def inheritScalarAliased (tagName : String) (sources : List Source) (f : StructField) :
    Value → Option Value
  | .nilSlice => sliceAncestorsLoopAliased f.Name sources .nilSlice
  | .slice xs => sliceAncestorsLoopAliased f.Name sources (.slice xs)
  | .nilMap => (mapAncestorsLoopAliased f.Name sources []).map (fun m => Value.map m)
  | .map m => (mapAncestorsLoopAliased f.Name sources m).map (fun m => Value.map m)
  | v => inheritScalar tagName (resolveSources f v sources) f v

mutual
/-- Loop through each field (InheritWithTag). -/
def inheritFieldsAliased (canSet : Bool) (tagName : String) (sources : List Source) :
    Fields → Option Fields
  | [] => some []
  | (f, v) :: rest =>
    match inheritFieldAliased canSet tagName sources f v with
    | none => none
    | some v1 =>
      match inheritFieldsAliased canSet tagName sources rest with
      | none => none
      | some rest1 => some ((f, v1) :: rest1)
termination_by structural x => x
/-- One field of the loop of InheritWithTag. -/
def inheritFieldAliased (canSet : Bool) (tagName : String) (sources : List Source)
    (f : StructField) : Value → Option Value
  | .struct n ofs =>
    if canSet && f.exported && tagMatch tagName f then
      if n == timeString then
        setIfFound (.struct n ofs)
          (timeAncestorsLoop f.Name (resolveSources f (.struct n ofs) sources))
      else
        match structAncestorsAliased f.Name sources with
        | none => none
        | some [] => some (.struct n ofs)
        | some (a :: more) =>
          match inheritFieldsAliased true tagName (a :: more) ofs with
          | none => none
          | some ofs1 => some (.struct n ofs1)
    else some (.struct n ofs)
  | v =>
    if canSet && f.exported && tagMatch tagName f then
      inheritScalarAliased tagName sources f v
    else some v
termination_by structural x => x
end

/-- InheritWithTag inherits values from each ancestor if the output values are their
defaults, only if the tag exists. -/
def InheritWithTagAliased (output : Arg) (ancestors : List AliasedArg) (tagName : String) :
    Outcome :=
  if ancestors.length == 0 then .ok output
  else
    match output with
    | .rv (some (.struct n fs)) canSet =>
      match inheritFieldsAliased canSet tagName (ancestors.map unpackSource) fs with
      | none => .panic
      | some fs1 => .ok (.rv (some (.struct n fs1)) canSet)
    | .rv _ _ => .panic
    | .any (some (.ptr (.struct n fs))) =>
      match inheritFieldsAliased true tagName (ancestors.map unpackSource) fs with
      | none => .panic
      | some fs1 => .ok (.any (some (.ptr (.struct n fs1))))
    | .any (some (.ptr _)) => .panic
    | .any (some .nilPtr) => .panic
    | .any _ => .error "pointer required"

/-- One field of the loop of OverwriteWithTag. -/
def overwriteFieldAliased (canSet : Bool) (tagName : String) (sources : List Source)
    (f : StructField) (v : Value) : Option Value :=
  if canSet && f.exported && tagMatch tagName f then
    match v with
    | .nilSlice => sliceAncestorsLoopAliased f.Name sources .nilSlice
    | .slice xs => sliceAncestorsLoopAliased f.Name sources (.slice xs)
    | .nilMap => (mapAncestorsLoopAliased f.Name sources []).map (fun m => Value.map m)
    | .map m => (mapAncestorsLoopAliased f.Name sources m).map (fun m => Value.map m)
    | .struct n ofs =>
      if n == "Time" then
        setIfFound (.struct n ofs)
          (timeAncestorsLoop f.Name (resolveSources f (.struct n ofs) sources))
      else
        match structAncestorsAliased f.Name sources with
        | none => none
        | some [] => some (.struct n ofs)
        | some (a :: more) =>
          match inheritFieldsAliased true tagName (a :: more) ofs with
          | none => none
          | some ofs1 => some (.struct n ofs1)
    | other => overwriteField canSet tagName (resolveSources f other sources) f other
  else some v

/-- Loop through each field (OverwriteWithTag). -/
def overwriteFieldsAliased (canSet : Bool) (tagName : String) (sources : List Source) :
    Fields → Option Fields
  | [] => some []
  | (f, v) :: rest =>
    match overwriteFieldAliased canSet tagName sources f v with
    | none => none
    | some v1 =>
      match overwriteFieldsAliased canSet tagName sources rest with
      | none => none
      | some rest1 => some ((f, v1) :: rest1)

/-- OverwriteWithTag: equivalent to InheritWithTag without the default checks. -/
def OverwriteWithTagAliased (output : Arg) (ancestors : List AliasedArg) (tagName : String) :
    Outcome :=
  if ancestors.length == 0 then .ok output
  else
    match output with
    | .rv (some (.struct n fs)) canSet =>
      match overwriteFieldsAliased canSet tagName (ancestors.map unpackSource) fs with
      | none => .panic
      | some fs1 => .ok (.rv (some (.struct n fs1)) canSet)
    | .rv _ _ => .panic
    | .any (some (.ptr (.struct n fs))) =>
      match overwriteFieldsAliased true tagName (ancestors.map unpackSource) fs with
      | none => .panic
      | some fs1 => .ok (.any (some (.ptr (.struct n fs1))))
    | .any (some (.ptr _)) => .panic
    | .any (some .nilPtr) => .panic
    | .any _ => .error "pointer required"

/-! ## Predicates on values used by the statements -/

mutual
/-- Well-formed values: the keys of every map are distinct and so are the field names
of every struct, at every depth. -/
def wellFormed : Value → Bool
  | .iface v => wellFormed v
  | .ptr v => wellFormed v
  | .map m => decide ((m.map (fun kv => kv.1)).Nodup) && wellFormedEntries m
  | .slice xs => wellFormedList xs
  | .struct _ fs => decide ((fs.map (fun fv => fv.1.Name)).Nodup) && wellFormedFields fs
  | _ => true
termination_by structural x => x
/-- Well-formed map values. -/
def wellFormedEntries : List (String × Value) → Bool
  | [] => true
  | (_, v) :: rest => wellFormed v && wellFormedEntries rest
termination_by structural x => x
/-- Well-formed slice elements. -/
def wellFormedList : List Value → Bool
  | [] => true
  | v :: rest => wellFormed v && wellFormedList rest
termination_by structural x => x
/-- Well-formed field values. -/
def wellFormedFields : Fields → Bool
  | [] => true
  | (_, v) :: rest => wellFormed v && wellFormedFields rest
termination_by structural x => x
end

mutual
/-- Values that hold neither a NaN nor a function that is not nil, at any depth: the
values Go's == and reflect.DeepEqual find equal to themselves. -/
def noNaNFunc : Value → Bool
  | .float x => !f64IsNaN x
  | .complex re im => !f64IsNaN re && !f64IsNaN im
  | .func addr => addr == 0
  | .iface v => noNaNFunc v
  | .ptr v => noNaNFunc v
  | .map m => noNaNFuncEntries m
  | .slice xs => noNaNFuncList xs
  | .struct _ fs => noNaNFuncFields fs
  | _ => true
termination_by structural x => x
/-- The same for the values of a map. -/
def noNaNFuncEntries : List (String × Value) → Bool
  | [] => true
  | (_, v) :: rest => noNaNFunc v && noNaNFuncEntries rest
termination_by structural x => x
/-- The same for the elements of a slice. -/
def noNaNFuncList : List Value → Bool
  | [] => true
  | v :: rest => noNaNFunc v && noNaNFuncList rest
termination_by structural x => x
/-- The same for the fields of a struct. -/
def noNaNFuncFields : Fields → Bool
  | [] => true
  | (_, v) :: rest => noNaNFunc v && noNaNFuncFields rest
termination_by structural x => x
end

/-- A field that CalculateDiff can compare with itself: without an api tag or behind a
nil pointer anything goes; otherwise the field is exported and its value is well formed
and free of NaN and of functions. -/
def selfComparable (fv : StructField × Value) : Bool :=
  match tagLookup fv.1.Tag "api", indirect fv.2 with
  | some _, some v => fv.1.exported && wellFormed v && noNaNFunc v
  | _, _ => true

/-! ## Auxiliary definitions for the map case of CalculateDiff -/

/-- One optional assignment to diffFields. -/
def applyWrite (d : DiffMap) : Option (String × String) → DiffMap
  | none => d
  | some kv => mapSet d kv.1 kv.2

/-- The assignment the first loop of the map case makes for one entry of the before map. -/
def beforeWrite (ext : Value → String) (fieldTag : String) (afterMap : List (String × Value))
    (kv : String × Value) : Option (String × String) :=
  match List.lookup kv.1 afterMap with
  | some afterMapValue =>
    if !(DeepEqual (toAny kv.2) (toAny afterMapValue)) then
      some (fieldTag ++ accessorCharacter ++ kv.1, Sprint ext (toAny afterMapValue))
    else none
  | none => some ("-" ++ fieldTag ++ accessorCharacter ++ kv.1, Sprint ext (toAny kv.2))

/-- The assignment the second loop of the map case makes for one entry of the after map. -/
def afterWrite (ext : Value → String) (fieldTag : String) (beforeMap : List (String × Value))
    (kv : String × Value) : Option (String × String) :=
  match List.lookup kv.1 beforeMap with
  | some _ => none
  | none => some (fieldTag ++ accessorCharacter ++ kv.1, Sprint ext (toAny kv.2))

/-! ## Notions used by the statements on single fields of CalculateDiff

These follow the words of the specification, not the code: the external name of a field
is its tag value without the modifiers that follow the first comma, and a field path is
the underscore-joined sequence of the external names that lead to the field. -/

/-- The external name of a field: the text of its api tag before the first comma. -/
def externalName (tagValue : String) : String :=
  String.mk (tagValue.data.takeWhile (fun c => decide (c ≠ ',')))

/-- The path of a field of external name `name` that sits directly in a record of path
`enclosing`: the two joined by an underscore; the name alone at the top level and in a
record whose own path is empty. -/
def externalPath (enclosing name : String) : String :=
  if enclosing = "" then name else enclosing ++ "_" ++ name

/-- A set of keys of the result: a single key, or every key that starts with a text. -/
inductive KeyPattern where
  | key (text : String)
  | under (start : String)

/-- Whether a key belongs to the set. -/
def KeyPattern.covers : KeyPattern → String → Prop
  | .key text, κ => κ = text
  | .under start, κ => start.data <+: κ.data

/-- Whether two sets of keys can have a key in common. -/
def KeyPattern.meets : KeyPattern → KeyPattern → Bool
  | .key a, .key b => a == b
  | .key a, .under q => q.data.isPrefixOf a.data
  | .under p, .key b => p.data.isPrefixOf b.data
  | .under p, .under q => p.data.isPrefixOf q.data || q.data.isPrefixOf p.data

/-- The keys that belong to a field of path `q` itself: `q` and its removal key. -/
def ownKeys (q : String) : List KeyPattern := [.key q, .key ("-" ++ q)]

/-- The keys that belong to the entries of a map field of path `q`: the keys that start
with `q` and an underscore, with or without the removal mark. -/
def entryKeys (q : String) : List KeyPattern := [.under (q ++ "_"), .under ("-" ++ q ++ "_")]

mutual
/-- Whether a key of the set `pat` can belong to one of the fields `fs` of a record of
path `enclosing`, going by the tags and the kinds of the fields alone. -/
def mayWriteFields (pat : KeyPattern) : Fields → String → Bool
  | [], _ => false
  | (f, raw) :: rest, enclosing =>
    mayWriteField pat f raw enclosing || mayWriteFields pat rest enclosing
termination_by structural x => x
/-- Whether a key of the set `pat` can belong to the field `f` of a record of path
`enclosing`: never for a field without api tag or behind a nil pointer; otherwise the
keys of the field itself, those of its entries when it holds a map, and those of its own
fields when it holds a record. -/
def mayWriteField (pat : KeyPattern) (f : StructField) : Value → String → Bool
  | .nilPtr, _ => false
  | .ptr v, enclosing => mayWriteField pat f v enclosing
  | .struct _ fs, enclosing =>
    match tagLookup f.Tag "api" with
    | none => false
    | some t =>
      (ownKeys (externalPath enclosing (externalName t))).any pat.meets
        || mayWriteFields pat fs (externalPath enclosing (externalName t))
  | .map _, enclosing =>
    match tagLookup f.Tag "api" with
    | none => false
    | some t =>
      (ownKeys (externalPath enclosing (externalName t))).any pat.meets
        || (entryKeys (externalPath enclosing (externalName t))).any pat.meets
  | .nilMap, enclosing =>
    match tagLookup f.Tag "api" with
    | none => false
    | some t =>
      (ownKeys (externalPath enclosing (externalName t))).any pat.meets
        || (entryKeys (externalPath enclosing (externalName t))).any pat.meets
  | _, enclosing =>
    match tagLookup f.Tag "api" with
    | none => false
    | some t => (ownKeys (externalPath enclosing (externalName t))).any pat.meets
termination_by structural x => x
end

/-- The field `f` of path `p` is reached from the records `bfs` (before) and `afs`
(after) of path `enclosing`: either it is one of the fields of `bfs`, `afs` has a field of
the same name, and `p` is the path of its external name; or it is reached from a nested
record, held by an api tagged field of `bfs` and by the field of the same name of `afs`,
the two nested records being different and the one of after not the zero value of its
type. At every level, no key of the sets `pats` can belong to another field of the
record. `raw` and `wraw` are what the field holds in before and in after. -/
inductive FieldAt (pats : List KeyPattern) :
    Fields → Fields → String → String → StructField → StructField → Value → Value → Prop where
  | here (bfs afs pre post : Fields) (enclosing p t : String) (f g : StructField)
      (raw wraw : Value)
      (hb : bfs = pre ++ (f, raw) :: post)
      (ha : fieldByName afs f.Name = some (g, wraw))
      (htag : tagLookup f.Tag "api" = some t)
      (hp : p = externalPath enclosing (externalName t))
      (hothers : ∀ pat, pat ∈ pats → mayWriteFields pat (pre ++ post) enclosing = false) :
      FieldAt pats bfs afs enclosing p f g raw wraw
  | inside (bfs afs pre post : Fields) (enclosing p t0 : String) (f0 g0 : StructField)
      (raw0 wraw0 : Value) (n m : String) (bfs0 afs0 : Fields) (f g : StructField)
      (raw wraw : Value)
      (hb : bfs = pre ++ (f0, raw0) :: post)
      (hraw : indirect raw0 = some (.struct n bfs0))
      (ha : fieldByName afs f0.Name = some (g0, wraw0))
      (hwraw : indirect wraw0 = some (.struct m afs0))
      (htag : tagLookup f0.Tag "api" = some t0)
      (hdiff : DeepEqual (some (.struct n bfs0)) (some (.struct m afs0)) = false)
      (hzero : DeepEqual (some (.struct m afs0)) (toAny (zeroValue raw0)) = false)
      (hothers : ∀ pat, pat ∈ pats → mayWriteFields pat (pre ++ post) enclosing = false)
      (hin : FieldAt pats bfs0 afs0 (externalPath enclosing (externalName t0)) p f g raw wraw) :
      FieldAt pats bfs afs enclosing p f g raw wraw

/-! ## Notions used by the statements on Inherit and Overwrite -/

/-- The struct a call of InheritWithTag or OverwriteWithTag works on: its type name, its
fields and whether they can be set (output passed as a pointer to a struct, or as a
reflect.Value of struct kind). -/
def outputStruct : Arg → Option (String × Fields × Bool)
  | .rv (some (.struct n fs)) canSet => some (n, fs, canSet)
  | .any (some (.ptr (.struct n fs))) => some (n, fs, true)
  | _ => none

/-- The argument `output` once the fields of its struct are replaced. -/
def withFields : Arg → Fields → Arg
  | .rv (some (.struct n _)) canSet, fs => .rv (some (.struct n fs)) canSet
  | .any (some (.ptr (.struct n _))), fs => .any (some (.ptr (.struct n fs)))
  | a, _ => a

/-- The default (zero, empty) values of the kinds integer, unsigned integer, float,
complex and string. -/
def isDefault : Value → Bool
  | .int i => i == 0
  | .uint n => n == 0
  | .float x => f64IsZero x
  | .complex re im => f64IsZero re && f64IsZero im
  | .str s => s == ""
  | _ => false

/-- The first value of a sequence that is not a default value. -/
def firstNonDefault (xs : List Value) : Option Value :=
  xs.find? (fun x => !isDefault x)

/-- The kinds of the claims on numbers and strings. -/
def numberOrString (v : Value) : Bool :=
  v.Kind == Kind.Int || v.Kind == Kind.Uint || v.Kind == Kind.Float64
    || v.Kind == Kind.Complex128 || v.Kind == Kind.String

/-- Every ancestor, once unpacked, is a struct with a field of the given name, and the
values of these fields, of the same kind as `v`, are `avs` in list order (the records
have the same shape). -/
def AncestorValues (ancestors : List Arg) (name : String) (v : Value) (avs : List Value) : Prop :=
  List.Forall₂
    (fun a x => ancestorField (unpackAncestor a) name = some (some x) ∧ x.Kind = v.Kind)
    ancestors avs

/-- What the claim on Inherit expects in a field of a number or string kind: the first
value of the sequence output, a1, ..., an that is not a default value; the value of
output, then a default value itself, when there is none. -/
def inheritedValue (v : Value) (avs : List Value) : Value :=
  (firstNonDefault (v :: avs)).getD v

/-- What the claim on Overwrite expects in a field of a number or string kind: for an
integer the value of the first ancestor; otherwise the first ancestor value that is not
a default value, and the value of output when there is none. -/
def overwrittenValue (v : Value) (avs : List Value) : Value :=
  match v.Kind, avs with
  | Kind.Int, a1 :: _ => a1
  | Kind.Int, [] => v
  | _, _ => (firstNonDefault avs).getD v

/-- The argument is an ordinary Go value that is not a pointer (nil included): it is
neither a pointer nor a reflect.Value. -/
def plainNonPointer (output : Arg) : Prop :=
  ∃ v, output = .any v ∧ kindOf v ≠ Kind.Ptr

/-! ## Inherit into a zero-valued record -/

mutual
/-- What Inherit leaves in an exported field of the zero-valued record when the only
ancestor holds `v` in the field of the same name. -/
def inheritedFromZero : Value → Value
  | .bool _ => .bool false
  | .int i => .int i
  | .uint n => .uint n
  | .float x => if f64IsZero x then .float 0 else .float x
  | .complex re im => if f64IsZero re && f64IsZero im then .complex 0 0 else .complex re im
  | .str s => .str s
  | .func _ => .func 0
  | .chan _ => .chan 0
  | .nilIface => .nilIface
  | .iface _ => .nilIface
  | .nilPtr => .nilPtr
  | .ptr w => .ptr w
  | .nilMap => .map []
  | .map m => .map (m.foldl (fun acc kv => mapSet acc kv.1 kv.2) [])
  | .nilSlice => .nilSlice
  | .slice xs => xs.foldl sliceAppend .nilSlice
  | .struct n fs =>
    if n == timeString then .struct n fs else .struct n (inheritedFieldsFromZero fs)
termination_by structural x => x
/-- The same for the fields of a record; a field that is not exported keeps its zero value. -/
def inheritedFieldsFromZero : Fields → Fields
  | [] => []
  | (f, v) :: rest =>
    (f, if f.exported then inheritedFromZero v else zeroValue v) :: inheritedFieldsFromZero rest
termination_by structural x => x
end

mutual
/-- The field values that Inherit carries over to a zero-valued record: numbers, strings,
pointers, timestamps, maps that are not nil, slices that are nil or not empty, and nested
records made of exported fields of these sorts; a boolean, an interface, a function or a
channel (inside a nested record) only when it holds its zero value. -/
def inheritable : Value → Bool
  | .bool b => !b
  | .func addr => addr == 0
  | .chan addr => addr == 0
  | .iface _ => false
  | .nilMap => false
  | .slice xs => !xs.isEmpty
  | .struct n fs => n == timeString || inheritableFields fs
  | _ => true
termination_by structural x => x
/-- Every field is exported and holds an inheritable value. -/
def inheritableFields : Fields → Bool
  | [] => true
  | (f, v) :: rest => f.exported && inheritable v && inheritableFields rest
termination_by structural x => x
end

/-! ## Notions used by the idempotence of Overwrite -/

mutual
/-- A record without a slice field at any depth: neither the record nor a record nested
in it has a field of slice kind. -/
def noSliceField : Value → Bool
  | .nilSlice => false
  | .slice _ => false
  | .struct _ fs => noSliceFields fs
  | _ => true
termination_by structural x => x
/-- No slice among the fields, at any depth. -/
def noSliceFields : Fields → Bool
  | [] => true
  | (_, v) :: rest => noSliceField v && noSliceFields rest
termination_by structural x => x
end

mutual
/-- Records of the same shape: the same type name and the same fields, each of the same
kind, nested records of the same shape in turn. -/
def sameShape : Value → Value → Bool
  | .struct n fs, w =>
    match w with
    | .struct m gs => n == m && sameShapeFields fs gs
    | _ => false
  | v, w => v.Kind == w.Kind
termination_by structural x => x
/-- The same field descriptors, position by position, with values of the same shape. -/
def sameShapeFields : Fields → Fields → Bool
  | [], gs => gs.isEmpty
  | (f, v) :: rest, gs =>
    match gs with
    | (g, w) :: others => f == g && sameShape v w && sameShapeFields rest others
    | [] => false
termination_by structural x => x
end

/-! ## Notions used by the statements on the kinds of fields of Inherit and Overwrite -/

/-- The entries an ancestor contributes to a map field: those of its field of the same
name when that field is a map that is not nil, none otherwise. -/
def entriesOf : Option Value → List (String × Value)
  | some (.map m) => m
  | _ => []

/-- The value bound to a key by the last map of a list that contains the key. -/
def lastBinding (k : String) : List (List (String × Value)) → Option Value
  | [] => none
  | m :: rest =>
    match lastBinding k rest with
    | some x => some x
    | none => List.lookup k m

/-- The elements an ancestor contributes to a slice field: those of its field of the same
name when that field is a slice, none otherwise. -/
def elemsOf : Option Value → List Value
  | some (.slice xs) => xs
  | _ => []

/-- OR of the boolean field of output and of the ancestors. -/
def orOfAll (b : Bool) (abs : List Bool) : Bool := b || abs.any id

/-- AND of the boolean field of output and of the ancestors. -/
def andOfAll (b : Bool) (abs : List Bool) : Bool := b && abs.all id

mutual
/-- Fields without the tag are kept: `new` has the fields of `old`, a field that does not
carry the tag holds exactly the value it held, and a nested record (not a timestamp)
that carries the tag keeps, in turn, its fields without the tag. -/
def keepsUntagged (tagName : String) : Fields → Fields → Prop
  | [], new => new = []
  | (f, v) :: rest, new =>
    match new with
    | [] => False
    | (g, w) :: others =>
      g = f ∧ keepsUntaggedValue tagName ((tagLookup f.Tag tagName).isSome) v w
        ∧ keepsUntagged tagName rest others
termination_by structural x => x
/-- The same for one field value, `tagged` telling whether the field carries the tag. -/
def keepsUntaggedValue (tagName : String) (tagged : Bool) : Value → Value → Prop
  | .struct n fs, w =>
    if tagged then
      n = timeString ∨ ∃ gs, w = .struct n gs ∧ keepsUntagged tagName fs gs
    else w = .struct n fs
  | v, w => tagged = true ∨ w = v
termination_by structural x => x
end

/-! ## Notions used by the statements on ParseTypedValue -/

/-- Groups of characters separated by single occurrences of a separator. -/
def joinWith (sep : Char) : List (List Char) → List Char
  | [] => []
  | [g] => g
  | g :: h :: t => g ++ sep :: joinWith sep (h :: t)

/-- A group of ASCII digits that is not empty. -/
def digitGroup (g : List Char) : Bool := !g.isEmpty && g.all Char.isDigit

/-- The number that a string of decimal digits writes. -/
def decimalValue (ds : List Char) : Nat :=
  ds.foldl (fun acc c => acc * 10 + (c.toNat - 48)) 0

/-- The variables after a scan that met only digits, commas and periods, without a
leading zero and with at most one period: the buffer, the number of periods and the
number of characters counted. -/
def plainScan (buffer : List Char) (decimalCount pos : Nat) : ScanState :=
  { outputBuffer := buffer, decimalCount := decimalCount, hasI := false, hasOperand := false,
    leadingZeroes := false, pos := pos, complexSupported := true, numberSupported := true }

/-- The variables after the scan of a sign at the first position followed by digits: the
buffer and the number of characters counted. -/
def signedScan (buffer : List Char) (pos : Nat) : ScanState :=
  { outputBuffer := buffer, decimalCount := 0, hasI := false, hasOperand := true,
    leadingZeroes := false, pos := pos, complexSupported := true, numberSupported := true }

/-- The variables after the scan of digits that start with 0: the buffer and the number
of characters counted. -/
def zeroScan (buffer : List Char) (pos : Nat) : ScanState :=
  { outputBuffer := buffer, decimalCount := 0, hasI := false, hasOperand := false,
    leadingZeroes := true, pos := pos, complexSupported := true, numberSupported := true }

/-- The characters that the claim on booleans deletes from the input: whitespace, commas,
parentheses, square brackets and braces. -/
def isDeleted (c : Char) : Bool :=
  IsWhitespace c || c == ',' || c == '(' || c == ')' || c == '[' || c == ']'
    || c == '\x7b' || c == '\x7d'

/-- The token obtained by deleting these characters. -/
def cleanToken (cs : List Char) : List Char := cs.filter (fun c => !isDeleted c)

/-- The characters of the input that are not whitespace, which are the ones the scan
counts. -/
def counted (cs : List Char) : List Char := cs.filter (fun c => !IsWhitespace c)

/-- The words true and false. -/
def boolWord (b : Bool) : List Char :=
  if b then ['t', 'r', 'u', 'e'] else ['f', 'a', 'l', 's', 'e']

/-- The variables after the default case of the switch wrote a character. -/
def ScanState.letter (s : ScanState) (c : Char) : ScanState :=
  { outputBuffer := s.outputBuffer ++ [c], decimalCount := s.decimalCount, hasI := s.hasI,
    hasOperand := s.hasOperand, leadingZeroes := s.leadingZeroes, pos := s.pos,
    complexSupported := false, numberSupported := false }

/-! ## Notions used by the statements on SetQueryFields -/

/-- The kinds called scalar here: booleans, integers, floating-point and complex numbers,
and strings. -/
def isScalar : Value → Bool
  | .bool _ => true
  | .int _ => true
  | .uint _ => true
  | .float _ => true
  | .complex _ _ => true
  | .str _ => true
  | _ => false

/-- The external name of a field, if it has an api tag. -/
def fieldKey (f : StructField) : List String :=
  match tagLookup f.Tag "api" with
  | some t => [cutTag t]
  | none => []

/-- The keys of a map value. -/
def mapKeys : Value → List String
  | .map m => m.map Prod.fst
  | _ => []

mutual
/-- The names under which a list of fields may store a value: the external names of the
fields, the keys of their maps, and the same for the fields of nested records. -/
def queryKeys : Fields → List String
  | [] => []
  | (f, v) :: rest => queryKeysOf f v ++ queryKeys rest
termination_by structural x => x
/-- The same for one field. -/
def queryKeysOf (f : StructField) : Value → List String
  | .ptr (.struct _ gs) => fieldKey f ++ queryKeys gs
  | .struct _ gs => fieldKey f ++ queryKeys gs
  | .ptr w => fieldKey f ++ mapKeys w
  | v => fieldKey f ++ mapKeys v
termination_by structural x => x
end

/-- The value behind a field of pointer kind: `field = field.Elem()`. -/
def elemOnce : Value → Value
  | .ptr w => w
  | v => v

/-- The switch of setQueryFieldsHelper on the kind of a field, with the case Struct. -/
def queryBody (ext formatTime : Value → String) (fieldID : String) :
    Value → QueryState → Option QueryState
  | .struct n gs, st =>
    if n == timeString then queryTime formatTime fieldID (.struct n gs) st
    else queryFieldsLoop ext formatTime gs st
  | v, st => some (queryKind ext formatTime fieldID v st)

/-- A store as the specification sees it: a text is stored under a name unless it is
empty. -/
def textPair (name text : String) : List (String × String) :=
  if text = "" then [] else [(name, text)]

/-- What a field that is no record stores, by the name of the field: a scalar or an
interface its stringified value; a map, for each entry and under the key of the entry,
the stringified value of the entry, or the formatted time when the entry is a time.Time;
any other field nothing. -/
def kindPairs (ext formatTime : Value → String) (name : String) (v : Value) :
    List (String × String) :=
  match v with
  | .map m => m.flatMap (fun kx => textPair kx.1 (mapValueText ext formatTime kx.2))
  | _ =>
    if isScalar v || v.Kind == Kind.Interface then
      textPair name (interfaces.Sprint ext (toAny v))
    else []

mutual
/-- The stores of SetQueryFields on a list of fields, in the order in which they are
made, each as the pair of a name and a text: for every exported field with an api tag,
under its external name, the stringified value of a scalar, the formatted time of a
field of a type named Time, the stores of the entries of a map, and the stores of the
fields of a nested record in turn; a pointer is followed once. -/
def storedPairs (ext formatTime : Value → String) : Fields → List (String × String)
  | [] => []
  | (f, v) :: rest => storedPairsOf ext formatTime f v ++ storedPairs ext formatTime rest
termination_by structural x => x
/-- The same for one field. -/
def storedPairsOf (ext formatTime : Value → String) (f : StructField) :
    Value → List (String × String)
  | .ptr (.struct n gs) =>
    if f.exported then
      match tagLookup f.Tag "api" with
      | none => []
      | some t =>
        if n == timeString then textPair (cutTag t) (formatTime (.struct n gs))
        else storedPairs ext formatTime gs
    else []
  | .struct n gs =>
    if f.exported then
      match tagLookup f.Tag "api" with
      | none => []
      | some t =>
        if n == timeString then textPair (cutTag t) (formatTime (.struct n gs))
        else storedPairs ext formatTime gs
    else []
  | .ptr w =>
    if f.exported then
      match tagLookup f.Tag "api" with
      | none => []
      | some t => kindPairs ext formatTime (cutTag t) w
    else []
  | v =>
    if f.exported then
      match tagLookup f.Tag "api" with
      | none => []
      | some t => kindPairs ext formatTime (cutTag t) v
    else []
termination_by structural x => x
end

mutual
/-- Every field of a struct type named Time that SetQueryFields reaches is a time.Time:
the exported fields with an api tag, and in turn those of the nested records among
them. -/
def timeFieldsAreTimes : Fields → Bool
  | [] => true
  | (f, v) :: rest => timeFieldIsTime f v && timeFieldsAreTimes rest
termination_by structural x => x
/-- The same for one field. -/
def timeFieldIsTime (f : StructField) : Value → Bool
  | .ptr (.struct n gs) =>
    if f.exported then
      match tagLookup f.Tag "api" with
      | none => true
      | some _ => if n == timeString then isTimeTime (.struct n gs) else timeFieldsAreTimes gs
    else true
  | .struct n gs =>
    if f.exported then
      match tagLookup f.Tag "api" with
      | none => true
      | some _ => if n == timeString then isTimeTime (.struct n gs) else timeFieldsAreTimes gs
    else true
  | _ => true
termination_by structural x => x
end

/-- The stores of a field of kind Struct or of any other kind, once the guards are
passed. -/
def bodyPairs (ext formatTime : Value → String) (name : String) :
    Value → List (String × String)
  | .struct n gs =>
    if n == timeString then textPair name (formatTime (.struct n gs))
    else storedPairs ext formatTime gs
  | v => kindPairs ext formatTime name v

/-- The assertion on a field of kind Struct, once the guards are passed. -/
def bodyIsTime : Value → Bool
  | .struct n gs => if n == timeString then isTimeTime (.struct n gs) else timeFieldsAreTimes gs
  | _ => true

/-- The two maps of setQueryFieldsHelper after a list of stores, made in order. -/
def applyPairs (pairs : List (String × String)) (st : QueryState) : QueryState :=
  pairs.foldl (fun st p => (mapSet st.1 p.1 p.2, setInsert st.2 p.2)) st

/-! ## Notions used by the statements on Permutations -/

/-- What a call helper(input, k) does, k being at least 1, on a slice that holds w, then
z, then suf, w and z making up its first k elements: the first k elements are left as
they were when k is even and turned by one place, z coming first, when k is odd; the
lists appended to output are arrangements of the first k elements followed by suf: k!
of them, all different when the k elements are. -/
def HelperSpec (k : Nat) : Prop :=
  ∀ (w : List String) (z : String) (suf : List String) (out : List (List String)),
    w.length + 1 = k →
    ∃ L : List (List String),
      permutationsHelper k ((w ++ [z]) ++ suf) out
        = ((if k % 2 = 1 then z :: w else w ++ [z]) ++ suf,
            out ++ L.map (fun q => q ++ suf))
      ∧ L.length = k.factorial ∧ (∀ q ∈ L, q.Perm (w ++ [z]))
      ∧ ((w ++ [z]).Nodup → L.Nodup)

/-- What some iterations of the loop append to output: `count` arrangements of P, each
ending with one of `lasts`, all different when the elements of P are. -/
def LoopOutputs (P lasts : List String) (count : Nat) (L : List (List String)) : Prop :=
  L.length = count ∧ (∀ q ∈ L, q.Perm P ∧ ∃ x ∈ lasts, q.getLast? = some x)
    ∧ (P.Nodup → L.Nodup)

/-- A sufficient condition for strconv.ParseFloat(s, 64) to report ErrRange: the text is
an integer part of decimal digits, a period and decimal digits, and the integer part
alone is at least 2^1024, beyond every float64. -/
def beyondFloat64 (s : List Char) : Bool :=
  let integerPart := s.takeWhile (fun c => c != '.')
  let fraction := (s.dropWhile (fun c => c != '.')).drop 1
  fraction.all Char.isDigit &&
    match parseUintDigits integerPart 0 with
    | some n => decide (n ≥ 2 ^ 1024)
    | none => false

/-- A reading of strconv.ParseFloat(s, 64) that follows the range of float64: err is
ErrRange (`none`) on a text beyond the range, every other text is read by `read`. -/
def parseFloatRange (read : String → Option Nat) (s : String) : Option Nat :=
  if beyondFloat64 s.data then none else read s

/-- What ParseTypedValue returns for a text in which it found no number and no boolean:
Unix milliseconds when the text is shorter than 32 bytes and dateparse reads a time in
it, else the text itself. -/
def timeOrString (parseAny : String → Option ParsedTime) (originalDataString : String) :
    Value :=
  (if originalDataString.utf8ByteSize < 32 then parseTime parseAny originalDataString
    else none).getD (.str originalDataString)

/-! ## Notions used by the statements on maps and slices when an ancestor is output itself -/

/-- The entries that an ancestor contributes to a map field named `name`: an ancestor
with storage of its own contributes the entries of its field of that name (none for a nil
map or a field that is not a map), its keys being distinct; an ancestor that is output
itself contributes none, every key being set to the value it has. -/
def SourceEntries (name : String) : Source → List (String × Value) → Prop
  | .own a, m =>
    ∃ x, ancestorField a name = some x ∧ m = entriesOf x ∧ (m.map (fun kv => kv.1)).Nodup
  | .output, m => m = []

/-- The elements that an ancestor holds for a slice field named `name`: `some xs` for an
ancestor with storage of its own whose field of that name holds `xs` (nothing for a field
that is not a slice), `none` for an ancestor that is output itself. -/
def SourceElems (name : String) : Source → Option (List Value) → Prop
  | .own a, some xs => ∃ x, ancestorField a name = some x ∧ xs = elemsOf x
  | .output, none => True
  | _, _ => False

/-- The elements of a slice after the ancestors, taken in list order, were appended: an
ancestor with storage of its own appends its elements, an ancestor that is output itself
(`none`) appends the elements the slice holds at that moment. -/
def sliceAfter (base : List Value) : List (Option (List Value)) → List Value
  | [] => base
  | some xs :: rest => sliceAfter (base ++ xs) rest
  | none :: rest => sliceAfter (base ++ base) rest

/-! ## Records used as concrete inputs -/

/-- The record with one api tagged float64 field F holding a NaN. -/
def nanRecord : Value := .struct "S" [(⟨"F", [("api", "f")], ""⟩, .float f64NaN)]

/-- A record whose optional field P points to 5. -/
def pointerSet : Value := .struct "S" [(⟨"P", [("api", "p")], ""⟩, .ptr (.int 5))]

/-- The same record with the optional field P nil. -/
def pointerNil : Value := .struct "S" [(⟨"P", [("api", "p")], ""⟩, .nilPtr)]

/-- The type SampleSubstruct of the tests, with the given values of MapVal and SliceVal. -/
def sampleSubstruct (mapVal sliceVal : Value) : Value :=
  .struct "SampleSubstruct"
    [(⟨"FuncCal", [], ""⟩, .func 0),
     (⟨"MapVal", [("api", "mapVal"), ("inherit", "dynamic")], ""⟩, mapVal),
     (⟨"SliceVal", [("api", "sliceVal")], ""⟩, sliceVal)]

/-- A time.Time, seen through reflect: three unexported fields. -/
def timeValue (wall : Nat) (ext : Int) : Value :=
  .struct "Time"
    [(⟨"wall", [], "time"⟩, .uint wall), (⟨"ext", [], "time"⟩, .int ext),
     (⟨"loc", [], "time"⟩, .nilPtr)]

/-- The type SampleStruct of the tests, field by field. -/
def sampleStruct (boolVal boolPointerVal floatVal intVal interfaceVal stringVal substructVal
    timeVal timePointerVal uintVal : Value) : Value :=
  .struct "SampleStruct"
    [(⟨"BoolVal", [("api", "boolVal,omitempty"), ("inherit", "dynamic"), ("testtag", "boolVal")], ""⟩,
        boolVal),
     (⟨"BoolPointerVal", [("api", "boolPointerVal"), ("inherit", "dynamic")], ""⟩, boolPointerVal),
     (⟨"FloatVal", [("api", "floatVal"), ("inherit", "dynamic")], ""⟩, floatVal),
     (⟨"IntVal", [("api", "intVal")], ""⟩, intVal),
     (⟨"InterfaceVal", [("api", "interfaceVal")], ""⟩, interfaceVal),
     (⟨"StringVal", [("api", "stringVal"), ("inherit", "dynamic"), ("testtag", "stringVal")], ""⟩,
        stringVal),
     (⟨"SubstructVal", [("api", ",inline"), ("inherit", "dynamic")], ""⟩, substructVal),
     (⟨"TimeVal", [("api", "timeVal,omitempty"), ("inherit", "dynamic")], ""⟩, timeVal),
     (⟨"TimePointerVal", [("api", "timePointerVal"), ("inherit", "dynamic")], ""⟩, timePointerVal),
     (⟨"UintVal", [("api", "uintVal"), ("testtag", "uintVal")], ""⟩, uintVal)]

/-- The record `before` of TestCalculateDiff (9.99 is the float64 0x4023FAE147AE147B). -/
def diffBefore : Value :=
  sampleStruct (.bool true) (.ptr (.bool false)) (.float 0x4023FAE147AE147B) (.int 10) .nilIface
    (.str "before value")
    (sampleSubstruct (.map [("A", .str "1"), ("B", .str "2")]) .nilSlice)
    (timeValue 0 0) .nilPtr (.uint 87)

/-- The record `after` of TestCalculateDiff. -/
def diffAfter : Value :=
  sampleStruct (.bool false) (.ptr (.bool true)) (.float 0x4023FAE147AE147B) (.int 25) .nilIface
    (.str "after value")
    (sampleSubstruct (.map [("C", .str "3"), ("B", .str "2")]) .nilSlice)
    (timeValue 0 0) .nilPtr (.uint 0)

/-- The record `parent` of TestInherit (82471.1419 is the float64 0x40F422724538EF35;
the time is an arbitrary one that is not zero). -/
def inheritParent : Value :=
  sampleStruct (.bool true) (.ptr (.bool true)) (.float 0x40F422724538EF35) (.int 12) .nilIface
    (.str "parent") (sampleSubstruct (.map [("key1", .str "val1")]) .nilSlice)
    (timeValue 7 9) (.ptr (timeValue 7 9)) (.uint 0)

/-- The record `child` of TestInherit, partial inheritance. -/
def inheritChild : Value :=
  sampleStruct (.bool false) .nilPtr (.float 0) (.int 0) .nilIface
    (.str "child") (sampleSubstruct (.map [("key2", .str "val2")]) .nilSlice)
    (timeValue 0 0) .nilPtr (.uint 98)

/-- The record `parent` of TestOverwrite. -/
def overwriteParent : Value :=
  sampleStruct (.bool true) .nilPtr (.float 0x40F422724538EF35) (.int 12) .nilIface
    (.str "parent") (sampleSubstruct (.map [("key1", .str "val1")]) .nilSlice)
    (timeValue 0 0) .nilPtr (.uint 99)

/-- The record `child` of TestOverwrite, partial inheritance. -/
def overwriteChild : Value :=
  sampleStruct (.bool false) .nilPtr (.float 0) (.int 0) .nilIface
    (.str "child") (sampleSubstruct (.map [("key2", .str "val2")]) .nilSlice)
    (timeValue 0 0) .nilPtr (.uint 250)

/-- A record whose only field is a map that is nil. -/
def nilMapRecord : Value := .struct "S" [(⟨"M", [("api", "m")], ""⟩, .nilMap)]

/-- A record type without slices: a string, an unsigned integer, a map, an optional
integer and a nested record with a float and a map. -/
def plainRecord (name count tags opt x inner : Value) : Value :=
  .struct "Plain"
    [(⟨"Name", [("api", "name")], ""⟩, name),
     (⟨"Count", [("api", "count")], ""⟩, count),
     (⟨"Tags", [("api", "tags")], ""⟩, tags),
     (⟨"Opt", [("api", "opt")], ""⟩, opt),
     (⟨"Nested", [("api", "nested")], ""⟩,
       .struct "Inner" [(⟨"X", [("api", "x")], ""⟩, x), (⟨"Labels", [("api", "labels")], ""⟩, inner)])]

/-- An output record of type Plain. -/
def plainChild : Value :=
  plainRecord (.str "child") (.uint 250) (.map [("k2", .str "v2")]) .nilPtr (.float 0) .nilMap

/-- An ancestor record of type Plain. -/
def plainParent : Value :=
  plainRecord (.str "parent") (.uint 99) (.map [("k1", .str "v1"), ("k2", .str "w2")])
    (.ptr (.int 7)) (.float 0x4023FAE147AE147B) (.map [("l", .str "m")])

/-- A record type with a nested record that holds a string, a float and an unsigned
integer. -/
def nestedRecord (title name ratio count : Value) : Value :=
  .struct "Outer"
    [(⟨"Title", [("inherit", "dynamic")], ""⟩, title),
     (⟨"Inner", [("inherit", "dynamic")], ""⟩,
       .struct "Inner"
         [(⟨"Name", [("inherit", "dynamic")], ""⟩, name),
          (⟨"Ratio", [("inherit", "dynamic")], ""⟩, ratio),
          (⟨"Count", [("inherit", "dynamic")], ""⟩, count)])]

/-- An output record of type Outer (1.5 is the float64 0x3FF8000000000000). -/
def nestedChild : Value :=
  nestedRecord (.str "child") (.str "child") (.float 0x3FF8000000000000) (.uint 5)

/-- An ancestor record of type Outer (2.5 is the float64 0x4004000000000000). -/
def nestedParent : Value :=
  nestedRecord (.str "parent") (.str "parent") (.float 0x4004000000000000) (.uint 9)

/-- A record type with boolean fields: one with the strategy "or", one with the strategy
"and", one with the tag inherit only and one without a tag. -/
def flagsRecord (anyVal allVal tagged plain : Value) : Value :=
  .struct "Flags"
    [(⟨"Any", [("inherit", "dynamic"), ("inheritbool", "or")], ""⟩, anyVal),
     (⟨"All", [("inherit", "dynamic"), ("inheritbool", "and")], ""⟩, allVal),
     (⟨"Tagged", [("inherit", "dynamic")], ""⟩, tagged),
     (⟨"Plain", [], ""⟩, plain)]

/-- The values of strconv.ParseFloat on the literals used as concrete inputs (the float64
of 15 is 0x402E000000000000, of 25 is 0x4039000000000000, of 1.5 is 0x3FF8000000000000, of
2.5 is 0x4004000000000000, of 12345.678 is 0x40C81CD6C8B43958, of 9 is
0x4022000000000000); every other string is rejected. -/
def sampleParseFloat (s : String) : Option Nat :=
  if s = "15" then some 0x402E000000000000
  else if s = "25" then some 0x4039000000000000
  else if s = "1.5" then some 0x3FF8000000000000
  else if s = "2.5" then some 0x4004000000000000
  else if s = "12345.678" then some 0x40C81CD6C8B43958
  else if s = "9" then some 0x4022000000000000
  else none

/-- A record whose only field, named _x, is not exported. -/
def hiddenRecord : Value := .struct "S" [(⟨"_x", [], "main"⟩, .int 5)]

/-- A record with a nested record Sub tagged api:"sub", which holds in turn a nested
record Deep tagged api:",inline" with one field X tagged api:"x". -/
def inlineNested : Value :=
  .struct "Outer"
    [(⟨"Sub", [("api", "sub")], ""⟩,
       .struct "Inner"
         [(⟨"Deep", [("api", ",inline")], ""⟩,
            .struct "Leaf" [(⟨"X", [("api", "x")], ""⟩, .int 1)])])]

/-- The record of TestSetQueryFields (45.67 is the float64 0x4046D5C28F5C28F6). -/
def queryRecord : Value :=
  sampleStruct (.bool true) .nilPtr (.float 0x4046D5C28F5C28F6) (.int 89) .nilIface
    (.str "aaabbb")
    (sampleSubstruct (.map [("aa", .str "123"), ("bb", .str "456"), ("cc", .str "789")])
      .nilSlice)
    (timeValue 7 9) (.ptr (timeValue 7 9)) (.uint 0)

/-- The rendering of 45.67 by fmt.Sprint. -/
def sampleExt : Value → String
  | .float 0x4046D5C28F5C28F6 => "45.67"
  | _ => ""

/-- The time of TestSetQueryFields in the layout of SetQueryFields. -/
def sampleFormatTime (_ : Value) : String := "Monday August 27 16:19:44 2018 +0000"

/-- The type SampleEnvStruct of the tests, field by field. -/
def sampleEnvStruct (boolVal1 boolVal2 intVal setStringVal stringVal : Value) : Value :=
  .struct "SampleEnvStruct"
    [(⟨"BoolVal1", [("default", "false"), ("env", "SAMPLE_BOOLVAL1")], ""⟩, boolVal1),
     (⟨"BoolVal2", [("default", "true"), ("env", "SAMPLE_BOOLVAL2")], ""⟩, boolVal2),
     (⟨"IntVal", [("default", "56"), ("env", "SAMPLE_INTVAL")], ""⟩, intVal),
     (⟨"SetStringVal", [("default", "test"), ("env", "SAMPLE_SETSTRINGVAL")], ""⟩,
        setStringVal),
     (⟨"StringVal", [("default", "test"), ("env", "SAMPLE_STRINGVAL")], ""⟩, stringVal)]

/-- The environment of TestSetEnvFieldValues. -/
def sampleEnv (name : String) : String :=
  if name = "SAMPLE_BOOLVAL1" then "true"
  else if name = "SAMPLE_BOOLVAL2" then "false"
  else if name = "SAMPLE_INTVAL" then "60606"
  else if name = "SAMPLE_SETSTRINGVAL" then "replaced"
  else if name = "SAMPLE_STRINGVAL" then "lalala"
  else ""

/-- An environment in which only SAMPLE_SETSTRINGVAL is set. -/
def sparseEnv (name : String) : String :=
  if name = "SAMPLE_SETSTRINGVAL" then "replaced" else ""

/-- What the JSON decoder yields on the texts of TestSetEnvFieldValues. -/
def sampleUnmarshal (text : String) : Value → Except String Value
  | .nilPtr =>
    if text = "true" then .ok (.ptr (.bool true))
    else if text = "false" then .ok (.ptr (.bool false))
    else .error "invalid"
  | .int _ => if text = "60606" then .ok (.int 60606) else .error "invalid"
  | .str _ =>
    if text = "\"replaced\"" then .ok (.str "replaced")
    else if text = "\"lalala\"" then .ok (.str "lalala")
    else .error "invalid"
  | _ => .error "invalid"

/-- A record whose only field T, tagged api:"t", holds the given time. -/
def timeRecord (wall : Nat) (ext : Int) : Value :=
  .struct "S" [(⟨"T", [("api", "t")], ""⟩, timeValue wall ext)]

/-- A record with a field A tagged api with the given value, declared before a nested
record N that has no tag and holds one field X tagged api:"x". -/
def siblingRecord (t : String) : Value :=
  .struct "Outer"
    [(⟨"A", [("api", t)], ""⟩, .int 1),
     (⟨"N", [], ""⟩, .struct "Inner" [(⟨"X", [("api", "x")], ""⟩, .int 2)])]

/-- A record of the type of nanRecord whose float field holds 1. -/
def oneRecord : Value := .struct "S" [(⟨"F", [("api", "f")], ""⟩, .float 0x3FF0000000000000)]

/-- A group of 310 digits: 1 followed by 309 zeroes. -/
def hugeGroup : List Char := '1' :: List.replicate 309 '0'

/-- The German form of 1 followed by 310 zeroes, with the fraction 5. -/
def hugeGerman : String := String.mk (joinWith '.' [hugeGroup, ['0']] ++ ',' :: ['5'])

/-- The US form of the same number. -/
def hugeUS : String := String.mk (joinWith ',' [hugeGroup, ['0']] ++ '.' :: ['5'])

/-- A record with a field of a struct type named Time that is not time.Time: a time of
day, with exported fields. -/
def foreignTimeRecord : Value :=
  .struct "Meeting"
    [(⟨"Title", [("api", "title")], ""⟩, .str "standup"),
     (⟨"When", [("api", "when")], ""⟩,
       .struct "Time" [(⟨"Hour", [], ""⟩, .int 9), (⟨"Minute", [], ""⟩, .int 30)])]

/-- A record type with two integer fields of the same external name. -/
def twinRecord (a b : Value) : Value :=
  .struct "Twin" [(⟨"A", [("api", "x")], ""⟩, a), (⟨"B", [("api", "x")], ""⟩, b)]

/-- A record type with two map fields of the same external name. -/
def twinMapRecord (a b : Value) : Value :=
  .struct "TwinMap" [(⟨"A", [("api", "m")], ""⟩, a), (⟨"B", [("api", "m")], ""⟩, b)]

/-- A record type with a nested record inside a nested record, all with modifiers in
their tags: Meta holds a count, a map of labels and the record Deep, which holds a flag
and a level. -/
def deepRecord (title count labels flag level : Value) : Value :=
  .struct "Outer"
    [(⟨"Title", [("api", "title")], ""⟩, title),
     (⟨"Meta", [("api", "meta,omitempty")], ""⟩,
       .struct "Meta"
         [(⟨"Count", [("api", "count,omitempty")], ""⟩, count),
          (⟨"Labels", [("api", "labels,omitempty")], ""⟩, labels),
          (⟨"Deep", [("api", "deep,omitempty")], ""⟩,
            .struct "Deep"
              [(⟨"Flag", [("api", "flag,omitempty")], ""⟩, flag),
               (⟨"Level", [("api", "level")], ""⟩, level)])])]

/-- A record of type Outer. -/
def deepBefore : Value :=
  deepRecord (.str "t") (.int 5) (.map [("a", .str "1"), ("b", .str "2")]) (.bool true)
    (.uint 3)

/-- The same record after its count was reset, a label replaced and the flag cleared. -/
def deepAfter : Value :=
  deepRecord (.str "t") (.int 0) (.map [("b", .str "2"), ("c", .str "3")]) (.bool false)
    (.uint 3)

/-- The fields of a record. -/
def fieldsOf (v : Value) : Fields := (structFields (some v)).getD []

/-! # Theorems -/

/-! ## Association lists -/

theorem lookup_mapSet_self {β : Type} (m : List (String × β)) (k : String) (v : β) :
    List.lookup k (mapSet m k v) = some v := by
  induction m with
  | nil => simp [mapSet, List.lookup]
  | cons hd tl ih =>
    obtain ⟨k0, v0⟩ := hd
    by_cases h : k0 = k
    · simp [mapSet, h, List.lookup]
    · have h2 : (k == k0) = false := by
        simp only [beq_eq_false_iff_ne, ne_eq]
        exact fun e => h e.symm
      simp [mapSet, h, List.lookup, h2, ih]

theorem lookup_mapSet_ne {β : Type} (m : List (String × β)) (k k2 : String) (v : β)
    (hne : k ≠ k2) : List.lookup k2 (mapSet m k v) = List.lookup k2 m := by
  induction m with
  | nil =>
    have h2 : (k2 == k) = false := by
      simp only [beq_eq_false_iff_ne, ne_eq]
      exact fun e => hne e.symm
    simp [mapSet, List.lookup, h2]
  | cons hd tl ih =>
    obtain ⟨k0, v0⟩ := hd
    by_cases h : k0 = k
    · subst h
      have h2 : (k2 == k0) = false := by
        simp only [beq_eq_false_iff_ne, ne_eq]
        exact fun e => hne e.symm
      simp [mapSet, List.lookup, h2]
    · by_cases h3 : k2 = k0
      · subst h3
        simp [mapSet, h, List.lookup]
      · have h4 : (k2 == k0) = false := by
          simp only [beq_eq_false_iff_ne, ne_eq]
          exact h3
        simp [mapSet, h, List.lookup, h4, ih]

/-- Setting a key to the value it already has changes nothing. -/
theorem mapSet_of_lookup {β : Type} (m : List (String × β)) (k : String) (v : β)
    (h : List.lookup k m = some v) : mapSet m k v = m := by
  induction m with
  | nil => simp [List.lookup] at h
  | cons hd tl ih =>
    obtain ⟨k0, v0⟩ := hd
    by_cases hk : k0 = k
    · subst hk
      simp [List.lookup] at h
      simp [mapSet, h]
    · have h2 : (k == k0) = false := by
        simp only [beq_eq_false_iff_ne, ne_eq]
        exact fun e => hk e.symm
      simp [List.lookup, h2] at h
      simp [mapSet, hk, ih h]

theorem lookup_of_mem_nodup {β : Type} (m : List (String × β)) (k : String) (v : β)
    (hn : (m.map (fun kv => kv.1)).Nodup) (hm : (k, v) ∈ m) : List.lookup k m = some v := by
  induction m with
  | nil => simp at hm
  | cons hd tl ih =>
    obtain ⟨k0, v0⟩ := hd
    simp only [List.map_cons, List.nodup_cons] at hn
    rcases List.mem_cons.mp hm with h | h
    · cases h
      simp [List.lookup]
    · have hk : (k == k0) = false := by
        simp only [beq_eq_false_iff_ne, ne_eq]
        intro e
        subst e
        exact hn.1 (List.mem_map.mpr ⟨(k, v), h, rfl⟩)
      simp [List.lookup, hk, ih hn.2 h]

theorem fieldByName_of_mem (fs : Fields) (f : StructField) (v : Value)
    (hn : (fs.map (fun fv => fv.1.Name)).Nodup) (hm : (f, v) ∈ fs) :
    fieldByName fs f.Name = some (f, v) := by
  induction fs with
  | nil => simp at hm
  | cons hd tl ih =>
    obtain ⟨g, w⟩ := hd
    simp only [List.map_cons, List.nodup_cons] at hn
    rcases List.mem_cons.mp hm with h | h
    · cases h
      simp [fieldByName, List.find?]
    · have hk : (g.Name == f.Name) = false := by
        simp only [beq_eq_false_iff_ne, ne_eq]
        intro e
        apply hn.1
        rw [e]
        exact List.mem_map.mpr ⟨(f, v), h, rfl⟩
      have := ih hn.2 h
      simp only [fieldByName] at this
      simp [fieldByName, List.find?, hk, this]

/-! ## reflect.DeepEqual on a value and itself -/

theorem f64Eq_self (a : Nat) (h : f64IsNaN a = false) : f64Eq a a = true := by
  simp [f64Eq, h]

theorem deepMapEqual_of_lookup (other : List (String × Value)) :
    ∀ (rest : List (String × Value)),
      (∀ k v, (k, v) ∈ rest → List.lookup k other = some v ∧ deepValueEqual v v = true) →
      deepMapEqual rest other = true
  | [], _ => rfl
  | (k, v) :: rest, h => by
    have h1 := h k v (List.mem_cons_self _ _)
    have h2 := deepMapEqual_of_lookup other rest
      (fun k2 v2 hm => h k2 v2 (List.mem_cons_of_mem _ hm))
    show ((match List.lookup k other with
      | some w => deepValueEqual v w
      | none => false) && deepMapEqual rest other) = true
    rw [h1.1, h2]
    simp [h1.2]

mutual
theorem deepValueEqual_refl :
    ∀ (v : Value), wellFormed v = true → noNaNFunc v = true → deepValueEqual v v = true
  | .bool b, _, _ => by show (b == b) = true; simp
  | .int i, _, _ => by show (i == i) = true; simp
  | .uint n, _, _ => by show (n == n) = true; simp
  | .float x, _, hn => by
    show f64Eq x x = true
    apply f64Eq_self
    simpa [noNaNFunc] using hn
  | .complex re im, _, hn => by
    show (f64Eq re re && f64Eq im im) = true
    simp only [noNaNFunc, Bool.and_eq_true, Bool.not_eq_true'] at hn
    simp [f64Eq_self re hn.1, f64Eq_self im hn.2]
  | .str s, _, _ => by show (s == s) = true; simp
  | .func a, _, hn => by
    show (a == 0 && a == 0) = true
    simp only [noNaNFunc] at hn
    simp [hn]
  | .chan a, _, _ => by show (a == a) = true; simp
  | .nilIface, _, _ => rfl
  | .iface v, hw, hn => by
    show deepValueEqual v v = true
    exact deepValueEqual_refl v (by simpa [wellFormed] using hw) (by simpa [noNaNFunc] using hn)
  | .nilPtr, _, _ => rfl
  | .ptr v, hw, hn => by
    show deepValueEqual v v = true
    exact deepValueEqual_refl v (by simpa [wellFormed] using hw) (by simpa [noNaNFunc] using hn)
  | .nilMap, _, _ => rfl
  | .map m, hw, hn => by
    show (m.length == m.length && deepMapEqual m m) = true
    simp only [wellFormed, Bool.and_eq_true, decide_eq_true_eq] at hw
    simp only [noNaNFunc] at hn
    have hall := deepEntries_refl m hw.2 hn
    have := deepMapEqual_of_lookup m m
      (fun k v hm => ⟨lookup_of_mem_nodup m k v hw.1 hm, hall k v hm⟩)
    simp [this]
  | .nilSlice, _, _ => rfl
  | .slice xs, hw, hn => by
    show deepSliceEqual xs xs = true
    exact deepSliceEqual_refl xs (by simpa [wellFormed] using hw) (by simpa [noNaNFunc] using hn)
  | .struct n fs, hw, hn => by
    show (n == n && deepFieldsEqual fs fs) = true
    simp only [wellFormed, Bool.and_eq_true, decide_eq_true_eq] at hw
    simp only [noNaNFunc] at hn
    simp [deepFieldsEqual_refl fs hw.2 hn]
theorem deepEntries_refl :
    ∀ (m : List (String × Value)), wellFormedEntries m = true → noNaNFuncEntries m = true →
      ∀ k v, (k, v) ∈ m → deepValueEqual v v = true
  | [], _, _ => by intro k v hm; simp at hm
  | (k0, v0) :: rest, hw, hn => by
    intro k v hm
    simp only [wellFormedEntries, Bool.and_eq_true] at hw
    simp only [noNaNFuncEntries, Bool.and_eq_true] at hn
    rcases List.mem_cons.mp hm with h | h
    · cases h
      exact deepValueEqual_refl v0 hw.1 hn.1
    · exact deepEntries_refl rest hw.2 hn.2 k v h
theorem deepSliceEqual_refl :
    ∀ (xs : List Value), wellFormedList xs = true → noNaNFuncList xs = true →
      deepSliceEqual xs xs = true
  | [], _, _ => rfl
  | v :: rest, hw, hn => by
    simp only [wellFormedList, Bool.and_eq_true] at hw
    simp only [noNaNFuncList, Bool.and_eq_true] at hn
    show (deepValueEqual v v && deepSliceEqual rest rest) = true
    rw [deepValueEqual_refl v hw.1 hn.1, deepSliceEqual_refl rest hw.2 hn.2]
    rfl
theorem deepFieldsEqual_refl :
    ∀ (fs : Fields), wellFormedFields fs = true → noNaNFuncFields fs = true →
      deepFieldsEqual fs fs = true
  | [], _, _ => rfl
  | (f, v) :: rest, hw, hn => by
    simp only [wellFormedFields, Bool.and_eq_true] at hw
    simp only [noNaNFuncFields, Bool.and_eq_true] at hn
    show (f == f && deepValueEqual v v && deepFieldsEqual rest rest) = true
    rw [deepValueEqual_refl v hw.1 hn.1, deepFieldsEqual_refl rest hw.2 hn.2]
    simp
end

theorem DeepEqual_toAny_self (v : Value) (hw : wellFormed v = true) (hn : noNaNFunc v = true) :
    DeepEqual (toAny v) (toAny v) = true := by
  cases v with
  | nilIface => rfl
  | iface w =>
    show deepValueEqual w w = true
    exact deepValueEqual_refl w (by simpa [wellFormed] using hw) (by simpa [noNaNFunc] using hn)
  | _ => exact deepValueEqual_refl _ hw hn

/-! ## CalculateDiff: the loops -/

theorem beforeFieldBody_eq_aux (ext : Value → String) (afterFields : Fields) (pfx : String)
    (f : StructField) (declared : Value) :
    ∀ (cur : Value) (p : List String) (d : DiffMap),
      beforeFieldBody ext afterFields pfx f declared cur p d =
        match indirect cur with
        | none => some (p, d)
        | some beforeField =>
          match fieldPrelude ext afterFields pfx f declared beforeField p d with
          | none => none
          | some (.next p d) => some (p, d)
          | some (.dispatch p fieldTag afterField afterFieldInterface) =>
            match kindSwitch ext beforeField fieldTag afterField afterFieldInterface d with
            | none => none
            | some d => some (p, d)
  | .ptr v, p, d => by
    rw [beforeFieldBody, indirect]
    exact beforeFieldBody_eq_aux ext afterFields pfx f declared v p d
  | .nilPtr, p, d => by rw [beforeFieldBody, indirect]
  | .struct n bfs, p, d => by
    have hs : structFields (some (.struct n bfs)) = some bfs := rfl
    simp only [beforeFieldBody, indirect, kindSwitch, calculateDiffHelper, hs]
    generalize fieldPrelude ext afterFields pfx f declared (.struct n bfs) p d = r
    rcases r with _ | ⟨_ | ⟨p1, tag, aF, aI⟩⟩
    · rfl
    · rfl
    · simp only []
      cases structFields aI with
      | none => rfl
      | some afs =>
        simp only []
        cases beforeFieldLoop ext afs tag bfs [] d with
        | none => rfl
        | some pd => rfl
  | .map m, p, d | .nilMap, p, d
  | .bool _, p, d | .int _, p, d | .uint _, p, d | .float _, p, d | .complex _ _, p, d
  | .str _, p, d | .func _, p, d | .chan _, p, d | .nilIface, p, d | .iface _, p, d
  | .nilSlice, p, d | .slice _, p, d => by
    simp only [beforeFieldBody, indirect, kindSwitch]

/-- The body of the first loop is the sequential program bodySpec. -/
theorem beforeFieldBody_eq (ext : Value → String) (afterFields : Fields) (pfx : String)
    (f : StructField) (raw : Value) (p : List String) (d : DiffMap) :
    beforeFieldBody ext afterFields pfx f raw raw p d = bodySpec ext afterFields pfx f raw p d :=
  beforeFieldBody_eq_aux ext afterFields pfx f raw raw p d

theorem beforeFieldLoop_cons (ext : Value → String) (afterFields : Fields) (pfx : String)
    (f : StructField) (raw : Value) (rest : Fields) (p : List String) (d : DiffMap) :
    beforeFieldLoop ext afterFields pfx ((f, raw) :: rest) p d =
      match bodySpec ext afterFields pfx f raw p d with
      | none => none
      | some (p1, d1) => beforeFieldLoop ext afterFields pfx rest p1 d1 := by
  rw [beforeFieldLoop, beforeFieldBody_eq]

theorem beforeFieldLoop_nil (ext : Value → String) (afterFields : Fields) (pfx : String)
    (p : List String) (d : DiffMap) :
    beforeFieldLoop ext afterFields pfx [] p d = some (p, d) := by
  rw [beforeFieldLoop]

/-- The second loop never changes diffFields: the path is stored in processedFields
right before the lookup that guards the addition. -/
theorem afterFieldLoop_eq (ext : Value → String) (pfx : String) :
    ∀ (afs : Fields) (p : List String) (d : DiffMap), afterFieldLoop ext pfx afs p d = d
  | [], p, d => by rw [afterFieldLoop]
  | (f, raw) :: rest, p, d => by
    rw [afterFieldLoop]
    cases indirect raw with
    | none => exact afterFieldLoop_eq ext pfx rest p d
    | some afterField =>
      simp only []
      split
      · exact afterFieldLoop_eq ext pfx rest p d
      · cases tagLookup f.Tag "api" with
        | none => exact afterFieldLoop_eq ext pfx rest p d
        | some t =>
          simp only [List.contains_cons, beq_self_eq_true, Bool.true_or, Bool.not_true,
            Bool.false_eq_true, ↓reduceIte]
          exact afterFieldLoop_eq ext pfx rest _ d

/-! ## CalculateDiff of a record and itself -/

theorem bodySpec_self (ext : Value → String) (fs : Fields) (pfx : String)
    (f : StructField) (raw : Value) (p : List String) (d : DiffMap)
    (hf : fieldByName fs f.Name = some (f, raw)) (hc : selfComparable (f, raw) = true) :
    ∃ p1, bodySpec ext fs pfx f raw p d = some (p1, d) := by
  unfold bodySpec
  cases hi : indirect raw with
  | none => exact ⟨p, rfl⟩
  | some cur =>
    simp only [fieldPrelude]
    cases ht : tagLookup f.Tag "api" with
    | none => exact ⟨p, rfl⟩
    | some t =>
      simp only [selfComparable, ht, hi, Bool.and_eq_true] at hc
      obtain ⟨⟨he, hw⟩, hn⟩ := hc
      simp only [hf, hi, he, DeepEqual_toAny_self cur hw hn]
      exact ⟨_, rfl⟩

theorem beforeFieldLoop_self (ext : Value → String) (fs : Fields) (pfx : String) :
    ∀ (rest : Fields) (p : List String) (d : DiffMap),
      (∀ fv, fv ∈ rest → fieldByName fs fv.1.Name = some fv ∧ selfComparable fv = true) →
      ∃ p1, beforeFieldLoop ext fs pfx rest p d = some (p1, d)
  | [], p, d, _ => ⟨p, beforeFieldLoop_nil ext fs pfx p d⟩
  | (f, raw) :: rest, p, d, h => by
    obtain ⟨hf, hc⟩ := h (f, raw) (List.mem_cons_self _ _)
    obtain ⟨p1, h1⟩ := bodySpec_self ext fs pfx f raw p d hf hc
    rw [beforeFieldLoop_cons, h1]
    exact beforeFieldLoop_self ext fs pfx rest p1 d
      (fun fv hm => h fv (List.mem_cons_of_mem _ hm))

/-- C1, as stated, fails: the difference between the record nanRecord and itself is
not the empty mapping but the single entry f = NaN, because reflect.DeepEqual does not
find a NaN equal to itself. -/
theorem CalculateDiff_self_nan :
    CalculateDiff (fun _ => "") (some nanRecord) (some nanRecord) = some [("f", "NaN")] := by
  decide

/-- C1 (amended): for every record (a struct, passed by value or through a pointer)
with distinct field names whose api tagged fields, unless behind a nil pointer, are
exported and hold well-formed values free of NaN and of functions, CalculateDiff of the
record and itself returns the empty mapping: a present map without keys. -/
theorem CalculateDiff_self_empty (ext : Value → String) (R : Value) (fs : Fields)
    (hR : structFields (some R) = some fs)
    (hnames : (fs.map (fun fv => fv.1.Name)).Nodup)
    (hfields : ∀ fv, fv ∈ fs → selfComparable fv = true) :
    CalculateDiff ext (some R) (some R) = some [] := by
  obtain ⟨p1, h1⟩ := beforeFieldLoop_self ext fs "" fs [] []
    (fun fv hm => ⟨fieldByName_of_mem fs fv.1 fv.2 hnames hm, hfields fv hm⟩)
  simp only [CalculateDiff, calculateDiffHelper, hR, h1, afterFieldLoop_eq]

/-- Witness of C1 (amended): a record with a nested record, a map, a pointer and an
untagged function. -/
theorem CalculateDiff_self_empty_witness :
    CalculateDiff (fun _ => "")
      (some (.struct "S" [(⟨"A", [("api", "a")], ""⟩, .int 3),
        (⟨"M", [("api", "m")], ""⟩, .map [("x", .str "1")]),
        (⟨"P", [("api", "p")], ""⟩, .ptr (.float 0)),
        (⟨"N", [("api", ",inline")], ""⟩, .struct "T" [(⟨"B", [("api", "b")], ""⟩, .bool true)]),
        (⟨"g", [], "pkg"⟩, .func 7)]))
      (some (.struct "S" [(⟨"A", [("api", "a")], ""⟩, .int 3),
        (⟨"M", [("api", "m")], ""⟩, .map [("x", .str "1")]),
        (⟨"P", [("api", "p")], ""⟩, .ptr (.float 0)),
        (⟨"N", [("api", ",inline")], ""⟩, .struct "T" [(⟨"B", [("api", "b")], ""⟩, .bool true)]),
        (⟨"g", [], "pkg"⟩, .func 7)])) = some [] :=
  CalculateDiff_self_empty _ _ _ rfl (by decide) (by decide)

/-- C4: the code drops the removal of an optional field. Before, P points to 5; after, P
is nil; the claim asks for the entry -p = 5, the code returns the empty mapping
(indirectAfterLoop leaves the body of the loop as soon as it meets the nil pointer). -/
theorem CalculateDiff_pointer_removal_lost (ext : Value → String) :
    CalculateDiff ext (some pointerSet) (some pointerNil) = some [] := by
  rfl

/-- C5: the code drops the addition of an optional field. Before, P is nil; after, P
points to 5; the claim asks for the entry p = 5, the code returns the empty mapping: the
second loop stores the path in processedFields and then finds it there, so that on no
input at all does it add an entry to diffFields. -/
theorem CalculateDiff_pointer_addition_lost (ext : Value → String) :
    CalculateDiff ext (some pointerNil) (some pointerSet) = some []
      ∧ ∀ (pfx : String) (afs : Fields) (p : List String) (d : DiffMap),
          afterFieldLoop ext pfx afs p d = d :=
  ⟨rfl, afterFieldLoop_eq ext⟩

/-! ## CalculateDiff: one field among the others -/

theorem beforeFieldLoop_append (ext : Value → String) (afs : Fields) (pfx : String) :
    ∀ (pre : Fields) (f : StructField) (raw : Value) (post : Fields) (p : List String)
      (d : DiffMap),
      beforeFieldLoop ext afs pfx (pre ++ (f, raw) :: post) p d =
        match beforeFieldLoop ext afs pfx pre p d with
        | none => none
        | some (p1, d1) =>
          match bodySpec ext afs pfx f raw p1 d1 with
          | none => none
          | some (p2, d2) => beforeFieldLoop ext afs pfx post p2 d2
  | [], f, raw, post, p, d => by
    rw [List.nil_append, beforeFieldLoop_cons, beforeFieldLoop_nil]
  | (g, w) :: pre, f, raw, post, p, d => by
    rw [List.cons_append, beforeFieldLoop_cons, beforeFieldLoop_cons]
    cases bodySpec ext afs pfx g w p d with
    | none => rfl
    | some pd => exact beforeFieldLoop_append ext afs pfx pre f raw post pd.1 pd.2

theorem ne_minus_append (p : String) : p ≠ "-" ++ p := by
  intro h
  have h1 := congrArg String.length h
  rw [String.length_append] at h1
  have h2 : "-".length = 1 := rfl
  omega

/-- What the body does for a field that holds a number, a string or a boolean and whose
value changed: one entry, a removal when the new value is the zero value (booleans
apart), an update otherwise. -/
theorem bodySpec_scalar (ext : Value → String) (afs : Fields) (pfx : String)
    (f g : StructField) (v wraw w : Value) (t : String) (p : List String) (d : DiffMap)
    (hkind : v.Kind = Kind.Int ∨ v.Kind = Kind.Uint ∨ v.Kind = Kind.Float64
      ∨ v.Kind = Kind.String ∨ v.Kind = Kind.Bool)
    (htag : tagLookup f.Tag "api" = some t)
    (hafter : fieldByName afs f.Name = some (g, wraw))
    (hw : indirect wraw = some w)
    (hf : f.exported = true) (hg : g.exported = true)
    (hdiff : DeepEqual (some v) (toAny w) = false) :
    bodySpec ext afs pfx f v p d =
      some (fieldPath pfx t :: p,
        if v.Kind ≠ Kind.Bool ∧ DeepEqual (toAny w) (some (zeroValue v)) = true then
          mapSet d ("-" ++ fieldPath pfx t) (Sprint ext (some v))
        else mapSet d (fieldPath pfx t) (Sprint ext (toAny w))) := by
  have hi : indirect v = some v := by
    cases v <;> simp [Value.Kind] at hkind <;> rfl
  have ha : toAny v = some v := by
    cases v <;> simp [Value.Kind] at hkind <;> rfl
  have hz : toAny (zeroValue v) = some (zeroValue v) := by
    cases v <;> simp [Value.Kind] at hkind <;> rfl
  have hk : ∀ tag aI, kindSwitch ext v tag w aI d = some (mapSet d tag (Sprint ext aI)) := by
    intro tag aI
    cases v <;> simp [Value.Kind] at hkind <;> rfl
  unfold bodySpec
  rw [hi]
  simp only [fieldPrelude, htag, hafter, hw, hf, hg, ha, hz, hdiff, Bool.not_true,
    Bool.false_eq_true, ↓reduceIte, Bool.not_false]
  by_cases hc : v.Kind ≠ Kind.Bool ∧ DeepEqual (toAny w) (some (zeroValue v)) = true
  · have hc1 : (v.Kind != Kind.Bool && DeepEqual (toAny w) (some (zeroValue v))) = true := by
      simp only [Bool.and_eq_true, bne_iff_ne]
      exact hc
    rw [if_pos hc, if_pos hc1]
  · have hc1 : ¬ ((v.Kind != Kind.Bool && DeepEqual (toAny w) (some (zeroValue v))) = true) := by
      simp only [Bool.and_eq_true, bne_iff_ne]
      exact hc
    rw [if_neg hc, if_neg hc1]
    simp only [hk]

/-! ## The map case of CalculateDiff -/

theorem mem_of_lookup {β : Type} (m : List (String × β)) (k : String) (v : β)
    (h : List.lookup k m = some v) : (k, v) ∈ m := by
  induction m with
  | nil => simp [List.lookup] at h
  | cons hd tl ih =>
    obtain ⟨k0, v0⟩ := hd
    by_cases hk : k = k0
    · subst hk
      simp [List.lookup] at h
      subst h
      exact List.mem_cons_self _ _
    · have h2 : (k == k0) = false := by
        simp only [beq_eq_false_iff_ne, ne_eq]
        exact hk
      simp [List.lookup, h2] at h
      exact List.mem_cons_of_mem _ (ih h)

theorem applyWrites_frame (κ : String) :
    ∀ (ws : List (Option (String × String))) (d : DiffMap),
      (∀ kv, some kv ∈ ws → kv.1 ≠ κ) →
      List.lookup κ (ws.foldl applyWrite d) = List.lookup κ d
  | [], d, _ => rfl
  | none :: ws, d, h => by
    rw [List.foldl_cons]
    exact applyWrites_frame κ ws d (fun kv hm => h kv (List.mem_cons_of_mem _ hm))
  | some kv :: ws, d, h => by
    rw [List.foldl_cons]
    rw [applyWrites_frame κ ws _ (fun kv2 hm => h kv2 (List.mem_cons_of_mem _ hm))]
    exact lookup_mapSet_ne d kv.1 κ kv.2 (h kv (List.mem_cons_self _ _))

theorem applyWrites_hit (κ s : String) :
    ∀ (ws : List (Option (String × String))) (d : DiffMap),
      some (κ, s) ∈ ws → (∀ s2, some (κ, s2) ∈ ws → s2 = s) →
      List.lookup κ (ws.foldl applyWrite d) = some s
  | [], d, hm, _ => by simp at hm
  | w :: ws, d, hm, hu => by
    rw [List.foldl_cons]
    by_cases hin : some (κ, s) ∈ ws
    · exact applyWrites_hit κ s ws _ hin (fun s2 h2 => hu s2 (List.mem_cons_of_mem _ h2))
    · have hw : w = some (κ, s) := by
        rcases List.mem_cons.mp hm with h | h
        · exact h.symm
        · exact absurd h hin
      subst hw
      rw [applyWrites_frame κ ws]
      · exact lookup_mapSet_self d κ s
      · intro kv hkv hk
        apply hin
        have : kv = (κ, s) := by
          obtain ⟨a, b⟩ := kv
          simp only at hk
          subst hk
          rw [hu b (List.mem_cons_of_mem _ hkv)]
        rw [← this]
        exact hkv

theorem mapBeforeLoop_eq (ext : Value → String) (fieldTag : String)
    (am : List (String × Value)) :
    ∀ (rest : List (String × Value)) (d : DiffMap),
      mapBeforeLoop ext fieldTag am rest d =
        (rest.map (beforeWrite ext fieldTag am)).foldl applyWrite d
  | [], d => rfl
  | (k, bv) :: rest, d => by
    rw [mapBeforeLoop, List.map_cons, List.foldl_cons]
    simp only [beforeWrite]
    cases List.lookup k am with
    | none => exact mapBeforeLoop_eq ext fieldTag am rest _
    | some av =>
      simp only []
      split
      · exact mapBeforeLoop_eq ext fieldTag am rest _
      · exact mapBeforeLoop_eq ext fieldTag am rest _

theorem mapAfterLoop_eq (ext : Value → String) (fieldTag : String)
    (bm : List (String × Value)) :
    ∀ (rest : List (String × Value)) (d : DiffMap),
      mapAfterLoop ext fieldTag bm rest d =
        (rest.map (afterWrite ext fieldTag bm)).foldl applyWrite d
  | [], d => rfl
  | (k, av) :: rest, d => by
    rw [mapAfterLoop, List.map_cons, List.foldl_cons]
    simp only [afterWrite]
    cases List.lookup k bm with
    | none => exact mapAfterLoop_eq ext fieldTag bm rest _
    | some bv => exact mapAfterLoop_eq ext fieldTag bm rest _

theorem mapCase_eq (ext : Value → String) (fieldTag : String)
    (bm am : List (String × Value)) (d : DiffMap) :
    mapCase ext fieldTag bm (.map am) d =
      (bm.map (beforeWrite ext fieldTag am) ++ am.map (afterWrite ext fieldTag bm)).foldl
        applyWrite d := by
  simp only [mapCase, mapEntries, mapBeforeLoop_eq, mapAfterLoop_eq, List.foldl_append]

theorem key_cancel (a k k2 : String) (h : a ++ k = a ++ k2) : k = k2 := by
  have h1 := congrArg String.data h
  simp only [String.data_append] at h1
  exact String.ext (List.append_cancel_left h1)

theorem minus_chars : ∀ (P K K2 : List Char), '-' :: (P ++ '_' :: K) ≠ P ++ '_' :: K2
  | [], K, K2 => by simp
  | c :: P, K, K2 => by
    intro h
    simp only [List.cons_append, List.cons.injEq] at h
    obtain ⟨hc, h2⟩ := h
    subst hc
    exact minus_chars P K K2 h2

/-- A removal key never coincides with an update key of the same field. -/
theorem minus_key_ne (p k k2 : String) :
    "-" ++ p ++ accessorCharacter ++ k ≠ p ++ accessorCharacter ++ k2 := by
  intro h
  have h1 := congrArg String.data h
  simp only [String.data_append, accessorCharacter] at h1
  exact minus_chars p.data k.data k2.data (by simpa using h1)

theorem beforeWrite_mem (ext : Value → String) (fieldTag : String)
    (bm am : List (String × Value)) (kv : String × String)
    (h : some kv ∈ bm.map (beforeWrite ext fieldTag am)) :
    ∃ k bv, (k, bv) ∈ bm ∧
      ((∃ av, List.lookup k am = some av ∧ DeepEqual (toAny bv) (toAny av) = false
          ∧ kv = (fieldTag ++ accessorCharacter ++ k, Sprint ext (toAny av)))
        ∨ (List.lookup k am = none
          ∧ kv = ("-" ++ fieldTag ++ accessorCharacter ++ k, Sprint ext (toAny bv)))) := by
  obtain ⟨⟨k, bv⟩, hm, he⟩ := List.mem_map.mp h
  refine ⟨k, bv, hm, ?_⟩
  simp only [beforeWrite] at he
  cases hl : List.lookup k am with
  | none =>
    rw [hl] at he
    simp only [Option.some.injEq] at he
    exact Or.inr ⟨rfl, he.symm⟩
  | some av =>
    rw [hl] at he
    simp only [] at he
    by_cases hd : DeepEqual (toAny bv) (toAny av) = true
    · simp [hd] at he
    · simp only [Bool.not_eq_true] at hd
      simp only [hd, Bool.not_false, ↓reduceIte, Option.some.injEq] at he
      exact Or.inl ⟨av, rfl, hd, he.symm⟩

theorem afterWrite_mem (ext : Value → String) (fieldTag : String)
    (bm am : List (String × Value)) (kv : String × String)
    (h : some kv ∈ am.map (afterWrite ext fieldTag bm)) :
    ∃ k av, (k, av) ∈ am ∧ List.lookup k bm = none
      ∧ kv = (fieldTag ++ accessorCharacter ++ k, Sprint ext (toAny av)) := by
  obtain ⟨⟨k, av⟩, hm, he⟩ := List.mem_map.mp h
  refine ⟨k, av, hm, ?_⟩
  simp only [afterWrite] at he
  cases hl : List.lookup k bm with
  | none =>
    rw [hl] at he
    simp only [Option.some.injEq] at he
    exact ⟨rfl, he.symm⟩
  | some bv =>
    rw [hl] at he
    simp at he

theorem mapCase_changed (ext : Value → String) (fieldTag : String)
    (bm am : List (String × Value)) (d : DiffMap) (k : String) (av : Value)
    (ham : (am.map (fun kv => kv.1)).Nodup)
    (hk : List.lookup k am = some av)
    (hb : List.lookup k bm = none
      ∨ ∃ bv, List.lookup k bm = some bv ∧ DeepEqual (toAny bv) (toAny av) = false) :
    List.lookup (fieldTag ++ accessorCharacter ++ k) (mapCase ext fieldTag bm (.map am) d)
      = some (Sprint ext (toAny av)) := by
  rw [mapCase_eq]
  apply applyWrites_hit
  · rcases hb with hb | ⟨bv, hb, hd⟩
    · apply List.mem_append_right
      apply List.mem_map.mpr
      refine ⟨(k, av), mem_of_lookup am k av hk, ?_⟩
      simp [afterWrite, hb]
    · apply List.mem_append_left
      apply List.mem_map.mpr
      refine ⟨(k, bv), mem_of_lookup bm k bv hb, ?_⟩
      simp [beforeWrite, hk, hd]
  · intro s2 hs2
    rcases List.mem_append.mp hs2 with h | h
    · obtain ⟨k2, bv2, _, h2 | h2⟩ := beforeWrite_mem ext fieldTag bm am _ h
      · obtain ⟨av2, hl, _, he⟩ := h2
        simp only [Prod.mk.injEq] at he
        have hkk := key_cancel _ _ _ he.1
        subst hkk
        rw [hk] at hl
        cases hl
        exact he.2
      · exact absurd h2.2 (by
          simp only [Prod.mk.injEq, not_and]
          intro he
          exact absurd he.symm (minus_key_ne fieldTag k2 k))
    · obtain ⟨k2, av2, hm, _, he⟩ := afterWrite_mem ext fieldTag bm am _ h
      simp only [Prod.mk.injEq] at he
      have hkk := key_cancel _ _ _ he.1
      subst hkk
      have := lookup_of_mem_nodup am k av2 ham hm
      rw [hk] at this
      cases this
      exact he.2

theorem mapCase_removed (ext : Value → String) (fieldTag : String)
    (bm am : List (String × Value)) (d : DiffMap) (k : String) (bv : Value)
    (hbm : (bm.map (fun kv => kv.1)).Nodup)
    (hk : List.lookup k bm = some bv) (ha : List.lookup k am = none) :
    List.lookup ("-" ++ fieldTag ++ accessorCharacter ++ k) (mapCase ext fieldTag bm (.map am) d)
      = some (Sprint ext (toAny bv)) := by
  rw [mapCase_eq]
  apply applyWrites_hit
  · apply List.mem_append_left
    apply List.mem_map.mpr
    refine ⟨(k, bv), mem_of_lookup bm k bv hk, ?_⟩
    simp [beforeWrite, ha]
  · intro s2 hs2
    rcases List.mem_append.mp hs2 with h | h
    · obtain ⟨k2, bv2, hm, h2 | h2⟩ := beforeWrite_mem ext fieldTag bm am _ h
      · obtain ⟨av2, _, _, he⟩ := h2
        simp only [Prod.mk.injEq] at he
        exact absurd he.1 (minus_key_ne fieldTag k k2)
      · obtain ⟨_, he⟩ := h2
        simp only [Prod.mk.injEq] at he
        have hkk := key_cancel _ _ _ he.1
        subst hkk
        have := lookup_of_mem_nodup bm k bv2 hbm hm
        rw [hk] at this
        cases this
        exact he.2
    · obtain ⟨k2, av2, _, _, he⟩ := afterWrite_mem ext fieldTag bm am _ h
      simp only [Prod.mk.injEq] at he
      exact absurd he.1 (minus_key_ne fieldTag k k2)

theorem mapCase_same (ext : Value → String) (fieldTag : String)
    (bm am : List (String × Value)) (d : DiffMap) (k : String) (bv av : Value)
    (hbm : (bm.map (fun kv => kv.1)).Nodup)
    (hk : List.lookup k bm = some bv) (ha : List.lookup k am = some av)
    (hd : DeepEqual (toAny bv) (toAny av) = true) :
    List.lookup (fieldTag ++ accessorCharacter ++ k) (mapCase ext fieldTag bm (.map am) d)
        = List.lookup (fieldTag ++ accessorCharacter ++ k) d
      ∧ List.lookup ("-" ++ fieldTag ++ accessorCharacter ++ k)
          (mapCase ext fieldTag bm (.map am) d)
        = List.lookup ("-" ++ fieldTag ++ accessorCharacter ++ k) d := by
  rw [mapCase_eq]
  constructor
  · apply applyWrites_frame
    intro kv hkv hkey
    rcases List.mem_append.mp hkv with h | h
    · obtain ⟨k2, bv2, hm, h2 | h2⟩ := beforeWrite_mem ext fieldTag bm am _ h
      · obtain ⟨av2, hl, hne, he⟩ := h2
        rw [he] at hkey
        have hkk := key_cancel _ _ _ hkey
        subst hkk
        have := lookup_of_mem_nodup bm k2 bv2 hbm hm
        rw [hk] at this
        cases this
        rw [ha] at hl
        cases hl
        rw [hd] at hne
        cases hne
      · obtain ⟨_, he⟩ := h2
        rw [he] at hkey
        exact minus_key_ne fieldTag k2 k hkey
    · obtain ⟨k2, av2, _, hl, he⟩ := afterWrite_mem ext fieldTag bm am _ h
      rw [he] at hkey
      have hkk := key_cancel _ _ _ hkey
      subst hkk
      rw [hk] at hl
      cases hl
  · apply applyWrites_frame
    intro kv hkv hkey
    rcases List.mem_append.mp hkv with h | h
    · obtain ⟨k2, bv2, hm, h2 | h2⟩ := beforeWrite_mem ext fieldTag bm am _ h
      · obtain ⟨av2, _, _, he⟩ := h2
        rw [he] at hkey
        exact minus_key_ne fieldTag k k2 hkey.symm
      · obtain ⟨hl, he⟩ := h2
        rw [he] at hkey
        have hkk := key_cancel _ _ _ hkey
        subst hkk
        rw [ha] at hl
        cases hl
    · obtain ⟨k2, av2, _, _, he⟩ := afterWrite_mem ext fieldTag bm am _ h
      rw [he] at hkey
      exact minus_key_ne fieldTag k k2 hkey.symm

theorem deepValueEqual_map_zero (am : List (String × Value)) (raw : Value) :
    DeepEqual (some (.map am)) (toAny (zeroValue raw)) = false := by
  cases raw <;> rfl

/-- What the body does for a field of map kind whose new value is a map that is not nil
and differs from the old one: the two loops of the map case. -/
theorem bodySpec_map (ext : Value → String) (afs : Fields) (pfx : String)
    (f g : StructField) (vraw v wraw : Value) (bm am : List (String × Value)) (t : String)
    (p : List String) (d : DiffMap)
    (hv : indirect vraw = some v) (hbm : mapEntries v = some bm)
    (htag : tagLookup f.Tag "api" = some t)
    (hafter : fieldByName afs f.Name = some (g, wraw))
    (hw : indirect wraw = some (.map am))
    (hf : f.exported = true) (hg : g.exported = true)
    (hdiff : DeepEqual (toAny v) (some (.map am)) = false) :
    bodySpec ext afs pfx f vraw p d =
      some (fieldPath pfx t :: p, mapCase ext (fieldPath pfx t) bm (.map am) d) := by
  have ha : toAny (.map am) = some (.map am) := rfl
  have hk : ∀ tag aI, kindSwitch ext v tag (.map am) aI d
      = some (mapCase ext tag bm (.map am) d) := by
    intro tag aI
    cases v <;> simp [mapEntries] at hbm
    · subst hbm; rfl
    · subst hbm; rfl
  unfold bodySpec
  rw [hv]
  simp only [fieldPrelude, htag, hafter, hw, hf, hg, ha, hdiff, deepValueEqual_map_zero,
    Bool.not_true, Bool.false_eq_true, ↓reduceIte, Bool.not_false, Bool.and_false, hk]

/-! ## CalculateDiff: claims on single fields -/

theorem bodySpec_exported (ext : Value → String) (afs : Fields) (pfx : String)
    (f g : StructField) (raw cur wraw w : Value) (t : String) (p : List String) (d : DiffMap)
    (r : List String × DiffMap)
    (hi : indirect raw = some cur)
    (htag : tagLookup f.Tag "api" = some t)
    (hafter : fieldByName afs f.Name = some (g, wraw))
    (hw : indirect wraw = some w)
    (h : bodySpec ext afs pfx f raw p d = some r) :
    f.exported = true ∧ g.exported = true := by
  unfold bodySpec at h
  rw [hi] at h
  simp only [fieldPrelude, htag, hafter, hw] at h
  cases hf : f.exported <;> cases hg : g.exported <;> simp [hf, hg] at h ⊢

/-! ## CalculateDiff: the keys of a field and the keys of the other fields -/

/-- The path the code builds for a field is the path of the specification: the tag
without its modifiers, joined to the enclosing path by an underscore. -/
theorem fieldPath_eq (pfx t : String) :
    fieldPath pfx t = externalPath pfx (externalName t) := by
  have hc : cutTag t = externalName t := by
    unfold cutTag externalName
    congr 2
    funext c
    by_cases h : c = ',' <;> simp [h]
  unfold fieldPath externalPath accessorCharacter
  rw [hc]
  by_cases h : pfx = ""
  · subst h
    rfl
  · have hl : pfx.length > 0 := by
      rcases pfx with ⟨l⟩
      cases l with
      | nil => exact absurd rfl h
      | cons c l => simp [String.length]
    rw [if_pos hl, if_neg h]

theorem meets_of_covers (a b : KeyPattern) (κ : String) (ha : a.covers κ) (hb : b.covers κ) :
    a.meets b = true := by
  cases a with
  | key x =>
    cases b with
    | key y =>
      simp only [KeyPattern.covers] at ha hb
      subst ha
      simp [KeyPattern.meets, hb]
    | under q =>
      simp only [KeyPattern.covers] at ha hb
      subst ha
      simp only [KeyPattern.meets]
      exact List.isPrefixOf_iff_prefix.mpr hb
  | under p =>
    cases b with
    | key y =>
      simp only [KeyPattern.covers] at ha hb
      subst hb
      simp only [KeyPattern.meets]
      exact List.isPrefixOf_iff_prefix.mpr ha
    | under q =>
      simp only [KeyPattern.covers] at ha hb
      simp only [KeyPattern.meets, Bool.or_eq_true]
      rcases List.prefix_or_prefix_of_prefix ha hb with h | h
      · exact Or.inl (List.isPrefixOf_iff_prefix.mpr h)
      · exact Or.inr (List.isPrefixOf_iff_prefix.mpr h)

/-- A key of a set that meets none of the keys of a field is neither its path nor its
removal key. -/
theorem ownKeys_ne (pat : KeyPattern) (κ q : String) (hκ : pat.covers κ)
    (h : (ownKeys q).any pat.meets = false) : κ ≠ q ∧ κ ≠ "-" ++ q := by
  simp only [ownKeys, List.any_cons, List.any_nil, Bool.or_false, Bool.or_eq_false_iff] at h
  constructor
  · intro e
    have := meets_of_covers pat (.key q) κ hκ e
    rw [h.1] at this
    cases this
  · intro e
    have := meets_of_covers pat (.key ("-" ++ q)) κ hκ e
    rw [h.2] at this
    cases this

/-- A key of a set that meets none of the entry keys of a map field does not start with
the path of the field and an underscore, with or without the removal mark. -/
theorem entryKeys_ne (pat : KeyPattern) (κ q : String) (hκ : pat.covers κ)
    (h : (entryKeys q).any pat.meets = false) (k : String) :
    κ ≠ q ++ accessorCharacter ++ k ∧ κ ≠ "-" ++ q ++ accessorCharacter ++ k := by
  simp only [entryKeys, List.any_cons, List.any_nil, Bool.or_false, Bool.or_eq_false_iff] at h
  constructor
  · intro e
    have hc : (KeyPattern.under (q ++ "_")).covers κ := by
      simp only [KeyPattern.covers]
      rw [e]
      simp only [accessorCharacter, String.data_append]
      exact List.prefix_append _ _
    have := meets_of_covers pat _ κ hκ hc
    rw [h.1] at this
    cases this
  · intro e
    have hc : (KeyPattern.under ("-" ++ q ++ "_")).covers κ := by
      simp only [KeyPattern.covers]
      rw [e]
      simp only [accessorCharacter, String.data_append]
      exact List.prefix_append _ _
    have := meets_of_covers pat _ κ hκ hc
    rw [h.2] at this
    cases this

/-- The map case writes entry keys of the field only. -/
theorem mapCase_frame (ext : Value → String) (q : String) (bm : List (String × Value))
    (aF : Value) (d : DiffMap) (κ : String)
    (h : ∀ k, κ ≠ q ++ accessorCharacter ++ k ∧ κ ≠ "-" ++ q ++ accessorCharacter ++ k) :
    List.lookup κ (mapCase ext q bm aF d) = List.lookup κ d := by
  unfold mapCase
  cases hme : mapEntries aF with
  | none => rfl
  | some am =>
    simp only [mapBeforeLoop_eq, mapAfterLoop_eq]
    rw [applyWrites_frame, applyWrites_frame]
    · intro kv hkv hkey
      obtain ⟨k, bv, _, h2 | h2⟩ := beforeWrite_mem ext q bm am kv hkv
      · obtain ⟨av, _, _, he⟩ := h2
        rw [he] at hkey
        exact (h k).1 hkey.symm
      · obtain ⟨_, he⟩ := h2
        rw [he] at hkey
        exact (h k).2 hkey.symm
    · intro kv hkv hkey
      obtain ⟨k, av, _, _, he⟩ := afterWrite_mem ext q bm am kv hkv
      rw [he] at hkey
      exact (h k).1 hkey.symm

/-- What the common part of the body leaves behind: without api tag nothing changes;
with a tag, either the removal key of the path is written, or nothing, or the switch on
the kind is reached with the path of the field. -/
theorem fieldPrelude_frame (ext : Value → String) (afs : Fields) (pfx : String)
    (f : StructField) (declared bF : Value) (pp : List String) (d : DiffMap) (step : Step)
    (κ : String)
    (h : fieldPrelude ext afs pfx f declared bF pp d = some step) :
    (tagLookup f.Tag "api" = none ∧ step = .next pp d)
      ∨ ∃ t, tagLookup f.Tag "api" = some t
        ∧ ((∃ p1 d1, step = .next p1 d1
            ∧ (κ ≠ "-" ++ fieldPath pfx t → List.lookup κ d1 = List.lookup κ d))
          ∨ (∃ p1 aF aI, step = .dispatch p1 (fieldPath pfx t) aF aI)) := by
  unfold fieldPrelude at h
  cases ht : tagLookup f.Tag "api" with
  | none =>
    rw [ht] at h
    simp only [Option.some.injEq] at h
    exact Or.inl ⟨rfl, h.symm⟩
  | some t =>
    right
    refine ⟨t, rfl, ?_⟩
    rw [ht] at h
    simp only [] at h
    cases ha : fieldByName afs f.Name with
    | none =>
      rw [ha] at h
      simp only [] at h
      by_cases h1 : (!f.exported) = true
      · rw [if_pos h1] at h
        cases h
      · rw [if_neg h1] at h
        by_cases h2 : (fieldPath pfx t != "") = true
        · rw [if_pos h2] at h
          simp only [Option.some.injEq] at h
          left
          exact ⟨_, _, h.symm, fun hne => lookup_mapSet_ne _ _ _ _ (Ne.symm hne)⟩
        · rw [if_neg h2] at h
          cases h
    | some gw =>
      obtain ⟨g, wraw⟩ := gw
      rw [ha] at h
      simp only [] at h
      cases hi : indirect wraw with
      | none =>
        rw [hi] at h
        simp only [Option.some.injEq] at h
        left
        exact ⟨_, _, h.symm, fun _ => rfl⟩
      | some w =>
        rw [hi] at h
        simp only [] at h
        by_cases h1 : (!f.exported) = true
        · rw [if_pos h1] at h
          cases h
        · rw [if_neg h1] at h
          by_cases h2 : (!g.exported) = true
          · rw [if_pos h2] at h
            cases h
          · rw [if_neg h2] at h
            by_cases h3 : (!(DeepEqual (toAny bF) (toAny w))) = true
            · rw [if_pos h3] at h
              by_cases h4 : (bF.Kind != Kind.Bool
                  && DeepEqual (toAny w) (toAny (zeroValue declared))) = true
              · rw [if_pos h4] at h
                simp only [Option.some.injEq] at h
                left
                exact ⟨_, _, h.symm, fun hne => lookup_mapSet_ne _ _ _ _ (Ne.symm hne)⟩
              · rw [if_neg h4] at h
                simp only [Option.some.injEq] at h
                right
                exact ⟨_, _, _, h.symm⟩
            · rw [if_neg h3] at h
              simp only [Option.some.injEq] at h
              left
              exact ⟨_, _, h.symm, fun _ => rfl⟩

/-- The body of the loop for a field that holds no record: only keys of the field and,
for a map, of its entries are written. -/
theorem flat_frame (ext : Value → String) (pat : KeyPattern) (κ : String)
    (hκ : pat.covers κ) (afs : Fields) (pfx : String) (f : StructField)
    (declared bF : Value) (pp : List String) (d : DiffMap) (step : Step)
    (hown : ∀ t, tagLookup f.Tag "api" = some t →
      (ownKeys (externalPath pfx (externalName t))).any pat.meets = false)
    (hent : ∀ t, tagLookup f.Tag "api" = some t → bF.Kind = Kind.Map →
      (entryKeys (externalPath pfx (externalName t))).any pat.meets = false)
    (hns : bF.Kind ≠ Kind.Struct)
    (h : fieldPrelude ext afs pfx f declared bF pp d = some step) :
    (∀ p1 d1, step = .next p1 d1 → List.lookup κ d1 = List.lookup κ d)
      ∧ (∀ p1 tag aF aI d1, step = .dispatch p1 tag aF aI →
          kindSwitch ext bF tag aF aI d = some d1 → List.lookup κ d1 = List.lookup κ d) := by
  rcases fieldPrelude_frame ext afs pfx f declared bF pp d step κ h with
    ⟨_, hs⟩ | ⟨t, ht, ⟨p2, d2, hs, hfr⟩ | ⟨p2, aF2, aI2, hs⟩⟩
  · subst hs
    refine ⟨?_, ?_⟩
    · intro p1 d1 e
      cases e
      rfl
    · intro p1 tag aF aI d1 e
      cases e
  · subst hs
    have hne := ownKeys_ne pat κ _ hκ (hown t ht)
    rw [← fieldPath_eq] at hne
    refine ⟨?_, ?_⟩
    · intro p1 d1 e
      cases e
      exact hfr hne.2
    · intro p1 tag aF aI d1 e
      cases e
  · subst hs
    have hne := ownKeys_ne pat κ _ hκ (hown t ht)
    rw [← fieldPath_eq] at hne
    refine ⟨?_, ?_⟩
    · intro p1 d1 e
      cases e
    · intro p1 tag aF aI d1 e hk
      cases e
      cases bF with
      | struct n fs => exact absurd rfl hns
      | map m =>
        simp only [kindSwitch, Option.some.injEq] at hk
        subst hk
        apply mapCase_frame
        have hk2 := hent t ht rfl
        rw [← fieldPath_eq] at hk2
        exact entryKeys_ne pat κ _ hκ hk2
      | nilMap =>
        simp only [kindSwitch, Option.some.injEq] at hk
        subst hk
        apply mapCase_frame
        have hk2 := hent t ht rfl
        rw [← fieldPath_eq] at hk2
        exact entryKeys_ne pat κ _ hκ hk2
      | _ =>
        simp only [kindSwitch, Option.some.injEq] at hk
        subst hk
        exact lookup_mapSet_ne _ _ _ _ (Ne.symm hne.1)

mutual
/-- Fields to which no key of a set can belong leave every key of the set as it was. -/
theorem mayWriteFields_frame (ext : Value → String) (pat : KeyPattern) (κ : String)
    (hκ : pat.covers κ) :
    ∀ (fs afs : Fields) (pfx : String) (pp : List String) (d : DiffMap) (p1 : List String)
      (d1 : DiffMap), mayWriteFields pat fs pfx = false →
      beforeFieldLoop ext afs pfx fs pp d = some (p1, d1) →
      List.lookup κ d1 = List.lookup κ d
  | [], afs, pfx, pp, d, p1, d1, _, h => by
    rw [beforeFieldLoop] at h
    cases h
    rfl
  | (f, raw) :: rest, afs, pfx, pp, d, p1, d1, hm, h => by
    rw [mayWriteFields, Bool.or_eq_false_iff] at hm
    rw [beforeFieldLoop] at h
    cases hb : beforeFieldBody ext afs pfx f raw raw pp d with
    | none =>
      rw [hb] at h
      cases h
    | some pd =>
      obtain ⟨p2, d2⟩ := pd
      rw [hb] at h
      simp only [] at h
      rw [mayWriteFields_frame ext pat κ hκ rest afs pfx p2 d2 p1 d1 hm.2 h]
      exact mayWriteField_frame ext pat κ hκ raw f raw afs pfx pp d p2 d2 hm.1 hb
theorem mayWriteField_frame (ext : Value → String) (pat : KeyPattern) (κ : String)
    (hκ : pat.covers κ) :
    ∀ (cur : Value) (f : StructField) (declared : Value) (afs : Fields) (pfx : String)
      (pp : List String) (d : DiffMap) (p1 : List String) (d1 : DiffMap),
      mayWriteField pat f cur pfx = false →
      beforeFieldBody ext afs pfx f declared cur pp d = some (p1, d1) →
      List.lookup κ d1 = List.lookup κ d
  | .nilPtr, f, declared, afs, pfx, pp, d, p1, d1, _, h => by
    rw [beforeFieldBody] at h
    cases h
    rfl
  | .ptr v, f, declared, afs, pfx, pp, d, p1, d1, hm, h => by
    rw [beforeFieldBody] at h
    rw [mayWriteField] at hm
    exact mayWriteField_frame ext pat κ hκ v f declared afs pfx pp d p1 d1 hm h
  | .struct n bfs, f, declared, afs, pfx, pp, d, p1, d1, hm, h => by
    rw [beforeFieldBody] at h
    rw [mayWriteField] at hm
    cases hs : fieldPrelude ext afs pfx f declared (.struct n bfs) pp d with
    | none =>
      rw [hs] at h
      cases h
    | some step =>
      rw [hs] at h
      rcases fieldPrelude_frame ext afs pfx f declared (.struct n bfs) pp d step κ hs with
        ⟨_, e⟩ | ⟨t, ht, ⟨p2, d2, e, hfr⟩ | ⟨p2, aF2, aI2, e⟩⟩
      · subst e
        simp only [Option.some.injEq, Prod.mk.injEq] at h
        rw [h.2]
      · subst e
        simp only [Option.some.injEq, Prod.mk.injEq] at h
        rw [ht] at hm
        simp only [Bool.or_eq_false_iff] at hm
        have hne := ownKeys_ne pat κ _ hκ hm.1
        rw [← fieldPath_eq] at hne
        rw [← h.2]
        exact hfr hne.2
      · subst e
        simp only [] at h
        rw [ht] at hm
        simp only [Bool.or_eq_false_iff] at hm
        cases hsf : structFields aI2 with
        | none =>
          rw [hsf] at h
          cases h
        | some afs2 =>
          rw [hsf] at h
          simp only [] at h
          cases hl : beforeFieldLoop ext afs2 (fieldPath pfx t) bfs [] d with
          | none =>
            rw [hl] at h
            cases h
          | some pd =>
            obtain ⟨p3, d3⟩ := pd
            rw [hl] at h
            simp only [Option.some.injEq, Prod.mk.injEq, afterFieldLoop_eq] at h
            rw [← h.2]
            have hm2 := hm.2
            rw [← fieldPath_eq] at hm2
            exact mayWriteFields_frame ext pat κ hκ bfs afs2 (fieldPath pfx t) [] d p3 d3 hm2 hl
  | .map m, f, declared, afs, pfx, pp, d, p1, d1, hm, h
  | .nilMap, f, declared, afs, pfx, pp, d, p1, d1, hm, h => by
    rw [beforeFieldBody] at h
    rw [mayWriteField] at hm
    cases hs : fieldPrelude ext afs pfx f declared _ pp d with
    | none =>
      rw [hs] at h
      cases h
    | some step =>
      rw [hs] at h
      have hfl := flat_frame ext pat κ hκ afs pfx f declared _ pp d step
        (fun t ht => by
          rw [ht] at hm
          simp only [Bool.or_eq_false_iff] at hm
          exact hm.1)
        (fun t ht _ => by
          rw [ht] at hm
          simp only [Bool.or_eq_false_iff] at hm
          exact hm.2)
        (by simp [Value.Kind]) hs
      cases step with
      | next p2 d2 =>
        simp only [Option.some.injEq, Prod.mk.injEq] at h
        rw [← h.2]
        exact hfl.1 p2 d2 rfl
      | dispatch p2 tag aF aI =>
        simp only [Option.some.injEq, Prod.mk.injEq] at h
        rw [← h.2]
        exact hfl.2 p2 tag aF aI _ rfl rfl
  | .bool _, f, declared, afs, pfx, pp, d, p1, d1, hm, h
  | .int _, f, declared, afs, pfx, pp, d, p1, d1, hm, h
  | .uint _, f, declared, afs, pfx, pp, d, p1, d1, hm, h
  | .float _, f, declared, afs, pfx, pp, d, p1, d1, hm, h
  | .complex _ _, f, declared, afs, pfx, pp, d, p1, d1, hm, h
  | .str _, f, declared, afs, pfx, pp, d, p1, d1, hm, h
  | .func _, f, declared, afs, pfx, pp, d, p1, d1, hm, h
  | .chan _, f, declared, afs, pfx, pp, d, p1, d1, hm, h
  | .nilIface, f, declared, afs, pfx, pp, d, p1, d1, hm, h
  | .iface _, f, declared, afs, pfx, pp, d, p1, d1, hm, h
  | .nilSlice, f, declared, afs, pfx, pp, d, p1, d1, hm, h
  | .slice _, f, declared, afs, pfx, pp, d, p1, d1, hm, h => by
    simp only [beforeFieldBody] at h
    simp only [mayWriteField] at hm
    cases hs : fieldPrelude ext afs pfx f declared _ pp d with
    | none =>
      rw [hs] at h
      cases h
    | some step =>
      rw [hs] at h
      have hfl := flat_frame ext pat κ hκ afs pfx f declared _ pp d step
        (fun t ht => by
          rw [ht] at hm
          exact hm)
        (fun t ht hk => by simp [Value.Kind] at hk)
        (by simp [Value.Kind]) hs
      cases step with
      | next p2 d2 =>
        simp only [Option.some.injEq, Prod.mk.injEq] at h
        rw [← h.2]
        exact hfl.1 p2 d2 rfl
      | dispatch p2 tag aF aI =>
        simp only [Option.some.injEq, Prod.mk.injEq] at h
        rw [← h.2]
        exact hfl.2 p2 tag aF aI _ rfl rfl
end

/-- The same for every set of a list of sets of keys. -/
theorem mayWrite_frame (ext : Value → String) (pats : List KeyPattern) (fs afs : Fields)
    (pfx : String) (pp : List String) (d : DiffMap) (p1 : List String) (d1 : DiffMap)
    (hm : ∀ pat, pat ∈ pats → mayWriteFields pat fs pfx = false)
    (h : beforeFieldLoop ext afs pfx fs pp d = some (p1, d1))
    (κ : String) (hκ : ∃ pat, pat ∈ pats ∧ pat.covers κ) :
    List.lookup κ d1 = List.lookup κ d := by
  obtain ⟨pat, hpat, hc⟩ := hκ
  exact mayWriteFields_frame ext pat κ hc fs afs pfx pp d p1 d1 (hm pat hpat) h

theorem mayWriteFields_append (pat : KeyPattern) (pfx : String) :
    ∀ (pre post : Fields), mayWriteFields pat (pre ++ post) pfx
      = (mayWriteFields pat pre pfx || mayWriteFields pat post pfx)
  | [], post => by rw [List.nil_append, mayWriteFields, Bool.false_or]
  | (f, raw) :: pre, post => by
    rw [List.cons_append, mayWriteFields, mayWriteFields, mayWriteFields_append pat pfx pre post,
      Bool.or_assoc]

/-- The body of the loop for a field that holds a record which changed and is not the
zero value in after: the first loop on the fields of the nested records, with the path
of the field as prefix. -/
theorem bodySpec_struct (ext : Value → String) (afs : Fields) (pfx : String)
    (f g : StructField) (raw wraw : Value) (n m : String) (bfs0 afs0 : Fields) (t : String)
    (p : List String) (d : DiffMap) (p2 : List String) (d2 : DiffMap)
    (hraw : indirect raw = some (.struct n bfs0))
    (htag : tagLookup f.Tag "api" = some t)
    (hafter : fieldByName afs f.Name = some (g, wraw))
    (hw : indirect wraw = some (.struct m afs0))
    (hdiff : DeepEqual (some (.struct n bfs0)) (some (.struct m afs0)) = false)
    (hzero : DeepEqual (some (.struct m afs0)) (toAny (zeroValue raw)) = false)
    (h : bodySpec ext afs pfx f raw p d = some (p2, d2)) :
    ∃ p3, beforeFieldLoop ext afs0 (fieldPath pfx t) bfs0 [] d = some (p3, d2) := by
  obtain ⟨hf, hg⟩ := bodySpec_exported ext afs pfx f g raw _ wraw _ t p d _ hraw htag hafter hw h
  unfold bodySpec at h
  rw [hraw] at h
  have ha1 : toAny (.struct n bfs0) = some (.struct n bfs0) := rfl
  have ha2 : toAny (.struct m afs0) = some (.struct m afs0) := rfl
  have hs1 : structFields (some (.struct n bfs0)) = some bfs0 := rfl
  have hs2 : structFields (some (.struct m afs0)) = some afs0 := rfl
  simp only [fieldPrelude, htag, hafter, hw, hf, hg, ha1, ha2, hdiff, hzero, Bool.not_true,
    Bool.false_eq_true, ↓reduceIte, Bool.not_false, Bool.and_false, kindSwitch,
    calculateDiffHelper, hs1, hs2, afterFieldLoop_eq] at h
  cases hl : beforeFieldLoop ext afs0 (fieldPath pfx t) bfs0 [] d with
  | none =>
    rw [hl] at h
    simp at h
  | some pd =>
    obtain ⟨p3, d3⟩ := pd
    rw [hl] at h
    simp only [Option.some.injEq, Prod.mk.injEq] at h
    exact ⟨p3, by rw [h.2]⟩

/-- The run of the first loop on a record from which a field is reached comes down to
the body of the loop for that field: the keys of the sets are absent before it and
keep afterwards what it gives them. -/
theorem FieldAt_run (ext : Value → String) (pats : List KeyPattern)
    (bfs afs : Fields) (pfx p : String) (f g : StructField) (raw wraw : Value)
    (hat : FieldAt pats bfs afs pfx p f g raw wraw) :
    ∀ (pp : List String) (d0 : DiffMap) (p3 : List String) (res : DiffMap),
      (∀ κ, (∃ pat, pat ∈ pats ∧ pat.covers κ) → List.lookup κ d0 = none) →
      beforeFieldLoop ext afs pfx bfs pp d0 = some (p3, res) →
      ∃ afs1 pfx1 t p1 d1 p2 d2,
        tagLookup f.Tag "api" = some t ∧ fieldPath pfx1 t = p
        ∧ fieldByName afs1 f.Name = some (g, wraw)
        ∧ bodySpec ext afs1 pfx1 f raw p1 d1 = some (p2, d2)
        ∧ (∀ κ, (∃ pat, pat ∈ pats ∧ pat.covers κ) → List.lookup κ d1 = none)
        ∧ (∀ κ, (∃ pat, pat ∈ pats ∧ pat.covers κ) → List.lookup κ res = List.lookup κ d2) := by
  induction hat with
  | here bfs afs pre post enclosing p t f g raw wraw hb ha htag hp hothers =>
    intro pp d0 p3 res h0 hrun
    subst hb
    rw [beforeFieldLoop_append] at hrun
    cases h1 : beforeFieldLoop ext afs enclosing pre pp d0 with
    | none =>
      rw [h1] at hrun
      cases hrun
    | some pd1 =>
      obtain ⟨p1, d1⟩ := pd1
      rw [h1] at hrun
      simp only [] at hrun
      cases h2 : bodySpec ext afs enclosing f raw p1 d1 with
      | none =>
        rw [h2] at hrun
        cases hrun
      | some pd2 =>
        obtain ⟨p2, d2⟩ := pd2
        rw [h2] at hrun
        simp only [] at hrun
        have hpre : ∀ pat, pat ∈ pats → mayWriteFields pat pre enclosing = false := by
          intro pat hpat
          have := hothers pat hpat
          rw [mayWriteFields_append, Bool.or_eq_false_iff] at this
          exact this.1
        have hpost : ∀ pat, pat ∈ pats → mayWriteFields pat post enclosing = false := by
          intro pat hpat
          have := hothers pat hpat
          rw [mayWriteFields_append, Bool.or_eq_false_iff] at this
          exact this.2
        refine ⟨afs, enclosing, t, p1, d1, p2, d2, htag, ?_, ha, h2, ?_, ?_⟩
        · rw [hp, fieldPath_eq]
        · intro κ hκ
          rw [mayWrite_frame ext pats pre afs enclosing pp d0 p1 d1 hpre h1 κ hκ]
          exact h0 κ hκ
        · intro κ hκ
          exact mayWrite_frame ext pats post afs enclosing p2 d2 p3 res hpost hrun κ hκ
  | inside bfs afs pre post enclosing p t0 f0 g0 raw0 wraw0 n m bfs0 afs0 f g raw wraw hb hraw ha
      hwraw htag hdiff hzero hothers _ ih =>
    intro pp d0 p3 res h0 hrun
    subst hb
    rw [beforeFieldLoop_append] at hrun
    cases h1 : beforeFieldLoop ext afs enclosing pre pp d0 with
    | none =>
      rw [h1] at hrun
      cases hrun
    | some pd1 =>
      obtain ⟨p1, d1⟩ := pd1
      rw [h1] at hrun
      simp only [] at hrun
      cases h2 : bodySpec ext afs enclosing f0 raw0 p1 d1 with
      | none =>
        rw [h2] at hrun
        cases hrun
      | some pd2 =>
        obtain ⟨p2, d2⟩ := pd2
        rw [h2] at hrun
        simp only [] at hrun
        have hpre : ∀ pat, pat ∈ pats → mayWriteFields pat pre enclosing = false := by
          intro pat hpat
          have := hothers pat hpat
          rw [mayWriteFields_append, Bool.or_eq_false_iff] at this
          exact this.1
        have hpost : ∀ pat, pat ∈ pats → mayWriteFields pat post enclosing = false := by
          intro pat hpat
          have := hothers pat hpat
          rw [mayWriteFields_append, Bool.or_eq_false_iff] at this
          exact this.2
        have hd1 : ∀ κ, (∃ pat, pat ∈ pats ∧ pat.covers κ) → List.lookup κ d1 = none := by
          intro κ hκ
          rw [mayWrite_frame ext pats pre afs enclosing pp d0 p1 d1 hpre h1 κ hκ]
          exact h0 κ hκ
        obtain ⟨p4, hin⟩ := bodySpec_struct ext afs enclosing f0 g0 raw0 wraw0 n m bfs0 afs0 t0
          p1 d1 p2 d2 hraw htag ha hwraw hdiff hzero h2
        rw [fieldPath_eq] at hin
        obtain ⟨afs1, pfx1, t, q1, e1, q2, e2, r1, r2, r3, r4, r5, r6⟩ := ih [] d1 p4 d2 hd1 hin
        refine ⟨afs1, pfx1, t, q1, e1, q2, e2, r1, r2, r3, r4, r5, ?_⟩
        intro κ hκ
        rw [mayWrite_frame ext pats post afs enclosing p2 d2 p3 res hpost hrun κ hκ]
        exact r6 κ hκ

theorem others_of_all (pats : List KeyPattern) (fs : Fields) (pfx : String)
    (h : pats.all (fun pat => !mayWriteFields pat fs pfx) = true) :
    ∀ pat, pat ∈ pats → mayWriteFields pat fs pfx = false := by
  intro pat hpat
  have := List.all_eq_true.mp h pat hpat
  simpa using this

/-- C2, as stated, fails on two counts. A field is not alone with its path: in the record
type Twin the fields A and B have the same external name x; when A goes from 1 to 2 and B
from 87 to 0, the result binds x to 2 for A and also holds the key -x, written for B. And
the fields of a nested record are not looked at when the nested record of after is the
zero value of its type: when the flag of Deep in Meta goes from true to false, the level
of Deep being 0, the result has the removal key of Deep and no key meta_deep_flag. -/
theorem CalculateDiff_scalar_field_not_alone :
    (∃ res, CalculateDiff (fun _ => "") (some (twinRecord (.int 1) (.int 87)))
        (some (twinRecord (.int 2) (.int 0))) = some res
      ∧ List.lookup "x" res = some "2" ∧ List.lookup "-x" res = some "87")
    ∧ (∃ res, CalculateDiff (fun _ => "")
        (some (deepRecord (.str "t") (.int 5) .nilMap (.bool true) (.uint 0)))
        (some (deepRecord (.str "t") (.int 5) .nilMap (.bool false) (.uint 0))) = some res
      ∧ List.lookup "meta_deep_flag" res = none
      ∧ (List.lookup "-meta_deep" res).isSome = true) :=
  ⟨⟨[("x", "2"), ("-x", "87")], rfl, rfl, rfl⟩, ⟨_, rfl, rfl, rfl⟩⟩

/-- C2 (amended): take an api tagged field of before that is no pointer and holds an
integer, an unsigned integer, a float, a string or a boolean, reached from the top
through nested records (FieldAt), and let p be its path: the external names (tag values
up to the first comma) of the enclosing fields and of the field, joined by underscores.
Let the field of the same name in after hold a value `w` that differs from the one of
before, let no other field of the records on the way be able to write the key p or the
key "-" + p, and let CalculateDiff return. If the field is no boolean and `w` is deeply
equal to the zero value of the field's type, the result binds "-" + p to the rendering of
the before value and has no key p; otherwise it binds p to the rendering of `w` and has
no key "-" + p. -/
theorem CalculateDiff_scalar_field_at (ext : Value → String) (before after : Value)
    (bfs afs : Fields) (p : String) (f g : StructField) (v wraw w : Value) (res : DiffMap)
    (hb : structFields (some before) = some bfs)
    (ha : structFields (some after) = some afs)
    (hat : FieldAt [.key p, .key ("-" ++ p)] bfs afs "" p f g v wraw)
    (hkind : v.Kind = Kind.Int ∨ v.Kind = Kind.Uint ∨ v.Kind = Kind.Float64
      ∨ v.Kind = Kind.String ∨ v.Kind = Kind.Bool)
    (hw : indirect wraw = some w)
    (hdiff : DeepEqual (some v) (toAny w) = false)
    (hres : CalculateDiff ext (some before) (some after) = some res) :
    if v.Kind ≠ Kind.Bool ∧ DeepEqual (toAny w) (some (zeroValue v)) = true then
      List.lookup ("-" ++ p) res = some (Sprint ext (some v)) ∧ List.lookup p res = none
    else
      List.lookup p res = some (Sprint ext (toAny w)) ∧ List.lookup ("-" ++ p) res = none := by
  simp only [CalculateDiff, calculateDiffHelper, hb, ha, afterFieldLoop_eq] at hres
  cases hrun : beforeFieldLoop ext afs "" bfs [] [] with
  | none =>
    rw [hrun] at hres
    cases hres
  | some pd =>
    obtain ⟨p3, d3⟩ := pd
    rw [hrun] at hres
    simp only [Option.some.injEq] at hres
    subst hres
    obtain ⟨afs1, pfx1, t, p1, d1, p2, d2, htag, hpath, hafter, hbody, hnone, hkeep⟩ :=
      FieldAt_run ext _ bfs afs "" p f g v wraw hat [] [] p3 d3 (fun κ _ => rfl) hrun
    have hi : indirect v = some v := by
      cases v <;> simp [Value.Kind] at hkind <;> rfl
    obtain ⟨hf, hg⟩ :=
      bodySpec_exported ext afs1 pfx1 f g v v wraw w t p1 d1 _ hi htag hafter hw hbody
    rw [bodySpec_scalar ext afs1 pfx1 f g v wraw w t p1 d1 hkind htag hafter hw hf hg hdiff,
      hpath] at hbody
    simp only [Option.some.injEq, Prod.mk.injEq] at hbody
    obtain ⟨_, hd2⟩ := hbody
    have c1 : ∃ pat, pat ∈ [KeyPattern.key p, KeyPattern.key ("-" ++ p)] ∧ pat.covers p :=
      ⟨.key p, List.mem_cons_self _ _, rfl⟩
    have c2 : ∃ pat, pat ∈ [KeyPattern.key p, KeyPattern.key ("-" ++ p)]
        ∧ pat.covers ("-" ++ p) :=
      ⟨.key ("-" ++ p), List.mem_cons_of_mem _ (List.mem_cons_self _ _), rfl⟩
    rw [hkeep p c1, hkeep _ c2, ← hd2]
    split
    · rw [lookup_mapSet_self, lookup_mapSet_ne _ _ _ _ (ne_minus_append _).symm]
      exact ⟨rfl, hnone p c1⟩
    · rw [lookup_mapSet_self, lookup_mapSet_ne _ _ _ _ (ne_minus_append _)]
      exact ⟨rfl, hnone _ c2⟩

/-- Witness of C2 (amended) on the records of TestCalculateDiff, where intVal goes from
10 to 25, uintVal from 87 to 0 and boolVal (tag boolVal,omitempty) from true to false,
and on a record with nested records, where the count of Meta goes from 5 to 0 and the
flag of Deep in Meta from true to false. -/
theorem CalculateDiff_scalar_field_at_witness :
    (∃ res, CalculateDiff (fun _ => "") (some diffBefore) (some diffAfter) = some res
      ∧ (List.lookup "intVal" res = some "25" ∧ List.lookup "-intVal" res = none)
      ∧ (List.lookup "-uintVal" res = some "87" ∧ List.lookup "uintVal" res = none)
      ∧ (List.lookup "boolVal" res = some "false" ∧ List.lookup "-boolVal" res = none))
    ∧ (∃ res, CalculateDiff (fun _ => "") (some deepBefore) (some deepAfter) = some res
      ∧ (List.lookup "-meta_count" res = some "5" ∧ List.lookup "meta_count" res = none)
      ∧ (List.lookup "meta_deep_flag" res = some "false"
        ∧ List.lookup "-meta_deep_flag" res = none)) := by
  have hres1 : CalculateDiff (fun _ => "") (some diffBefore) (some diffAfter)
      = some [("boolVal", "false"), ("boolPointerVal", "true"), ("intVal", "25"),
        ("stringVal", "after value"), ("-mapVal_A", "1"), ("mapVal_C", "3"),
        ("-uintVal", "87")] := by decide
  have hres2 : CalculateDiff (fun _ => "") (some deepBefore) (some deepAfter)
      = some [("-meta_count", "5"), ("-meta_labels_a", "1"), ("meta_labels_c", "3"),
        ("meta_deep_flag", "false")] := by decide
  refine ⟨⟨_, hres1, ?_, ?_, ?_⟩, ⟨_, hres2, ?_, ?_⟩⟩
  · exact CalculateDiff_scalar_field_at (fun _ => "") diffBefore diffAfter
      (fieldsOf diffBefore) (fieldsOf diffAfter) "intVal"
      ⟨"IntVal", [("api", "intVal")], ""⟩ ⟨"IntVal", [("api", "intVal")], ""⟩
      (.int 10) (.int 25) (.int 25) _ rfl rfl
      (FieldAt.here _ _ ((fieldsOf diffBefore).take 3) ((fieldsOf diffBefore).drop 4) ""
        "intVal" "intVal" _ _ _ _ rfl rfl rfl (by decide) (others_of_all _ _ _ (by decide)))
      (by decide) rfl (by decide) hres1
  · exact CalculateDiff_scalar_field_at (fun _ => "") diffBefore diffAfter
      (fieldsOf diffBefore) (fieldsOf diffAfter) "uintVal"
      ⟨"UintVal", [("api", "uintVal"), ("testtag", "uintVal")], ""⟩
      ⟨"UintVal", [("api", "uintVal"), ("testtag", "uintVal")], ""⟩
      (.uint 87) (.uint 0) (.uint 0) _ rfl rfl
      (FieldAt.here _ _ ((fieldsOf diffBefore).take 9) [] ""
        "uintVal" "uintVal" _ _ _ _ rfl rfl rfl (by decide) (others_of_all _ _ _ (by decide)))
      (by decide) rfl (by decide) hres1
  · exact CalculateDiff_scalar_field_at (fun _ => "") diffBefore diffAfter
      (fieldsOf diffBefore) (fieldsOf diffAfter) "boolVal"
      ⟨"BoolVal", [("api", "boolVal,omitempty"), ("inherit", "dynamic"), ("testtag", "boolVal")], ""⟩
      ⟨"BoolVal", [("api", "boolVal,omitempty"), ("inherit", "dynamic"), ("testtag", "boolVal")], ""⟩
      (.bool true) (.bool false) (.bool false) _ rfl rfl
      (FieldAt.here _ _ [] ((fieldsOf diffBefore).drop 1) ""
        "boolVal" "boolVal,omitempty" _ _ _ _ rfl rfl rfl (by decide)
        (others_of_all _ _ _ (by decide)))
      (by decide) rfl (by decide) hres1
  · exact CalculateDiff_scalar_field_at (fun _ => "") deepBefore deepAfter
      (fieldsOf deepBefore) (fieldsOf deepAfter) "meta_count"
      ⟨"Count", [("api", "count,omitempty")], ""⟩ ⟨"Count", [("api", "count,omitempty")], ""⟩
      (.int 5) (.int 0) (.int 0) _ rfl rfl
      (FieldAt.inside _ _ ((fieldsOf deepBefore).take 1) [] "" "meta_count" "meta,omitempty"
        ⟨"Meta", [("api", "meta,omitempty")], ""⟩ ⟨"Meta", [("api", "meta,omitempty")], ""⟩
        _ _ "Meta" "Meta" _ _ _ _ _ _ rfl rfl rfl rfl rfl (by decide) (by decide)
        (others_of_all _ _ _ (by decide))
        (FieldAt.here _ _ [] _ _ "meta_count" "count,omitempty" _ _ _ _ rfl rfl rfl (by decide)
          (others_of_all _ _ _ (by decide))))
      (by decide) rfl (by decide) hres2
  · exact CalculateDiff_scalar_field_at (fun _ => "") deepBefore deepAfter
      (fieldsOf deepBefore) (fieldsOf deepAfter) "meta_deep_flag"
      ⟨"Flag", [("api", "flag,omitempty")], ""⟩ ⟨"Flag", [("api", "flag,omitempty")], ""⟩
      (.bool true) (.bool false) (.bool false) _ rfl rfl
      (FieldAt.inside _ _ ((fieldsOf deepBefore).take 1) [] "" "meta_deep_flag" "meta,omitempty"
        ⟨"Meta", [("api", "meta,omitempty")], ""⟩ ⟨"Meta", [("api", "meta,omitempty")], ""⟩
        _ _ "Meta" "Meta" _ _ _ _ _ _ rfl rfl rfl rfl rfl (by decide) (by decide)
        (others_of_all _ _ _ (by decide))
        (FieldAt.inside _ _
          [(⟨"Count", [("api", "count,omitempty")], ""⟩, .int 5),
           (⟨"Labels", [("api", "labels,omitempty")], ""⟩, .map [("a", .str "1"), ("b", .str "2")])]
          [] _ "meta_deep_flag" "deep,omitempty"
          ⟨"Deep", [("api", "deep,omitempty")], ""⟩ ⟨"Deep", [("api", "deep,omitempty")], ""⟩
          _ _ "Deep" "Deep" _ _ _ _ _ _ rfl rfl rfl rfl rfl (by decide) (by decide)
          (others_of_all _ _ _ (by decide))
          (FieldAt.here _ _ [] _ _ "meta_deep_flag" "flag,omitempty" _ _ _ _ rfl rfl rfl
            (by decide) (others_of_all _ _ _ (by decide)))))
      (by decide) rfl (by decide) hres2

/-- C3, as stated, fails: a map field is not alone with its path. In the record type
TwinMap the fields A and B have the same external name m; the map of A goes from {a:1}
to {a:1, c:3}, the map of B from {a:1} to {a:9}. The maps of A hold the same value for
the key a, and yet the result has an entry m_a, written for B. -/
theorem CalculateDiff_map_field_not_alone :
    ∃ res, CalculateDiff (fun _ => "")
        (some (twinMapRecord (.map [("a", .str "1")]) (.map [("a", .str "1")])))
        (some (twinMapRecord (.map [("a", .str "1"), ("c", .str "3")]) (.map [("a", .str "9")])))
        = some res
      ∧ List.lookup "m_c" res = some "3" ∧ List.lookup "m_a" res = some "9" :=
  ⟨[("m_c", "3"), ("m_a", "9")], rfl, rfl, rfl⟩

/-- C3 (amended): take an api tagged field of before whose value (behind pointers, if
any) is a string keyed map `bm`, reached from the top through nested records (FieldAt),
and let p be its path: the external names (tag values up to the first comma) of the
enclosing fields and of the field, joined by underscores. Let the field of the same name
in after hold a map `am` that is not nil and not deeply equal to the one of before, let
no other field of the records on the way be able to write a key that starts with p and
an underscore, with or without the removal mark, and let CalculateDiff return. Then for
every key k: a key of `am` that is new or bound to a different value has p_k bound to the
rendering of am[k]; a key of `bm` that is not in `am` has -p_k bound to the rendering of
bm[k]; a key bound to deeply equal values in both maps has neither entry. -/
theorem CalculateDiff_map_field_at (ext : Value → String) (before after : Value)
    (bfs afs : Fields) (p : String) (f g : StructField) (vraw v wraw : Value)
    (bm am : List (String × Value)) (res : DiffMap)
    (hb : structFields (some before) = some bfs)
    (ha : structFields (some after) = some afs)
    (hat : FieldAt [.under (p ++ "_"), .under ("-" ++ p ++ "_")] bfs afs "" p f g vraw wraw)
    (hv : indirect vraw = some v) (hbm : mapEntries v = some bm)
    (hw : indirect wraw = some (.map am))
    (hdiff : DeepEqual (toAny v) (some (.map am)) = false)
    (hkb : (bm.map (fun kv => kv.1)).Nodup) (hka : (am.map (fun kv => kv.1)).Nodup)
    (hres : CalculateDiff ext (some before) (some after) = some res) :
    ∀ k,
      (∀ av, List.lookup k am = some av →
        (List.lookup k bm = none
          ∨ ∃ bv, List.lookup k bm = some bv ∧ DeepEqual (toAny bv) (toAny av) = false) →
        List.lookup (p ++ "_" ++ k) res = some (Sprint ext (toAny av)))
      ∧ (∀ bv, List.lookup k bm = some bv → List.lookup k am = none →
        List.lookup ("-" ++ p ++ "_" ++ k) res = some (Sprint ext (toAny bv)))
      ∧ (∀ bv av, List.lookup k bm = some bv → List.lookup k am = some av →
        DeepEqual (toAny bv) (toAny av) = true →
        List.lookup (p ++ "_" ++ k) res = none
          ∧ List.lookup ("-" ++ p ++ "_" ++ k) res = none) := by
  simp only [CalculateDiff, calculateDiffHelper, hb, ha, afterFieldLoop_eq] at hres
  cases hrun : beforeFieldLoop ext afs "" bfs [] [] with
  | none =>
    rw [hrun] at hres
    cases hres
  | some pd =>
    obtain ⟨p3, d3⟩ := pd
    rw [hrun] at hres
    simp only [Option.some.injEq] at hres
    subst hres
    obtain ⟨afs1, pfx1, t, p1, d1, p2, d2, htag, hpath, hafter, hbody, hnone, hkeep⟩ :=
      FieldAt_run ext _ bfs afs "" p f g vraw wraw hat [] [] p3 d3 (fun κ _ => rfl) hrun
    obtain ⟨hf, hg⟩ :=
      bodySpec_exported ext afs1 pfx1 f g vraw v wraw _ t p1 d1 _ hv htag hafter hw hbody
    rw [bodySpec_map ext afs1 pfx1 f g vraw v wraw bm am t p1 d1 hv hbm htag hafter hw hf hg
      hdiff, hpath] at hbody
    simp only [Option.some.injEq, Prod.mk.injEq] at hbody
    obtain ⟨_, hd2⟩ := hbody
    have c1 : ∀ k, ∃ pat, pat ∈ [KeyPattern.under (p ++ "_"), KeyPattern.under ("-" ++ p ++ "_")]
        ∧ pat.covers (p ++ "_" ++ k) := by
      intro k
      refine ⟨.under (p ++ "_"), List.mem_cons_self _ _, ?_⟩
      simp only [KeyPattern.covers, String.data_append]
      exact List.prefix_append _ _
    have c2 : ∀ k, ∃ pat, pat ∈ [KeyPattern.under (p ++ "_"), KeyPattern.under ("-" ++ p ++ "_")]
        ∧ pat.covers ("-" ++ p ++ "_" ++ k) := by
      intro k
      refine ⟨.under ("-" ++ p ++ "_"), List.mem_cons_of_mem _ (List.mem_cons_self _ _), ?_⟩
      simp only [KeyPattern.covers, String.data_append]
      exact List.prefix_append _ _
    intro k
    refine ⟨?_, ?_, ?_⟩
    · intro av hav hbv
      rw [hkeep _ (c1 k), ← hd2]
      exact mapCase_changed ext _ bm am d1 k av hka hav hbv
    · intro bv hbv hav
      rw [hkeep _ (c2 k), ← hd2]
      exact mapCase_removed ext _ bm am d1 k bv hkb hbv hav
    · intro bv av hbv hav hd
      rw [hkeep _ (c1 k), hkeep _ (c2 k), ← hd2]
      obtain ⟨e1, e2⟩ := mapCase_same ext p bm am d1 k bv av hkb hbv hav hd
      exact ⟨e1.trans (hnone _ (c1 k)), e2.trans (hnone _ (c2 k))⟩

/-- Witness of C3 (amended) on the records of TestCalculateDiff, where the map mapVal of
the inline nested record goes from {A:1, B:2} to {C:3, B:2}, and on a record with nested
records, where the labels of Meta (tag labels,omitempty) go from {a:1, b:2} to
{b:2, c:3}. -/
theorem CalculateDiff_map_field_at_witness :
    (∃ res, CalculateDiff (fun _ => "") (some diffBefore) (some diffAfter) = some res
      ∧ List.lookup "-mapVal_A" res = some "1" ∧ List.lookup "mapVal_C" res = some "3"
      ∧ List.lookup "mapVal_B" res = none ∧ List.lookup "-mapVal_B" res = none)
    ∧ (∃ res, CalculateDiff (fun _ => "") (some deepBefore) (some deepAfter) = some res
      ∧ List.lookup "-meta_labels_a" res = some "1"
      ∧ List.lookup "meta_labels_c" res = some "3"
      ∧ List.lookup "meta_labels_b" res = none ∧ List.lookup "-meta_labels_b" res = none) := by
  have hres1 : CalculateDiff (fun _ => "") (some diffBefore) (some diffAfter)
      = some [("boolVal", "false"), ("boolPointerVal", "true"), ("intVal", "25"),
        ("stringVal", "after value"), ("-mapVal_A", "1"), ("mapVal_C", "3"),
        ("-uintVal", "87")] := by decide
  have hres2 : CalculateDiff (fun _ => "") (some deepBefore) (some deepAfter)
      = some [("-meta_count", "5"), ("-meta_labels_a", "1"), ("meta_labels_c", "3"),
        ("meta_deep_flag", "false")] := by decide
  have h1 := CalculateDiff_map_field_at (fun _ => "") diffBefore diffAfter
    (fieldsOf diffBefore) (fieldsOf diffAfter) "mapVal"
    ⟨"MapVal", [("api", "mapVal"), ("inherit", "dynamic")], ""⟩
    ⟨"MapVal", [("api", "mapVal"), ("inherit", "dynamic")], ""⟩
    (.map [("A", .str "1"), ("B", .str "2")]) (.map [("A", .str "1"), ("B", .str "2")])
    (.map [("C", .str "3"), ("B", .str "2")])
    [("A", .str "1"), ("B", .str "2")] [("C", .str "3"), ("B", .str "2")] _ rfl rfl
    (FieldAt.inside _ _ ((fieldsOf diffBefore).take 6) ((fieldsOf diffBefore).drop 7) ""
      "mapVal" ",inline"
      ⟨"SubstructVal", [("api", ",inline"), ("inherit", "dynamic")], ""⟩
      ⟨"SubstructVal", [("api", ",inline"), ("inherit", "dynamic")], ""⟩
      _ _ "SampleSubstruct" "SampleSubstruct" _ _ _ _ _ _ rfl rfl rfl rfl rfl (by decide)
      (by decide) (others_of_all _ _ _ (by decide))
      (FieldAt.here _ _ [(⟨"FuncCal", [], ""⟩, .func 0)]
        [(⟨"SliceVal", [("api", "sliceVal")], ""⟩, .nilSlice)] _ "mapVal" "mapVal" _ _ _ _
        rfl rfl rfl (by decide) (others_of_all _ _ _ (by decide))))
    rfl rfl rfl (by decide) (by decide) (by decide) hres1
  have h2 := CalculateDiff_map_field_at (fun _ => "") deepBefore deepAfter
    (fieldsOf deepBefore) (fieldsOf deepAfter) "meta_labels"
    ⟨"Labels", [("api", "labels,omitempty")], ""⟩ ⟨"Labels", [("api", "labels,omitempty")], ""⟩
    (.map [("a", .str "1"), ("b", .str "2")]) (.map [("a", .str "1"), ("b", .str "2")])
    (.map [("b", .str "2"), ("c", .str "3")])
    [("a", .str "1"), ("b", .str "2")] [("b", .str "2"), ("c", .str "3")] _ rfl rfl
    (FieldAt.inside _ _ ((fieldsOf deepBefore).take 1) [] "" "meta_labels" "meta,omitempty"
      ⟨"Meta", [("api", "meta,omitempty")], ""⟩ ⟨"Meta", [("api", "meta,omitempty")], ""⟩
      _ _ "Meta" "Meta" _ _ _ _ _ _ rfl rfl rfl rfl rfl (by decide) (by decide)
      (others_of_all _ _ _ (by decide))
      (FieldAt.here _ _ [(⟨"Count", [("api", "count,omitempty")], ""⟩, .int 5)] _ _
        "meta_labels" "labels,omitempty" _ _ _ _ rfl rfl rfl (by decide)
        (others_of_all _ _ _ (by decide))))
    rfl rfl rfl (by decide) (by decide) (by decide) hres2
  refine ⟨⟨_, hres1, ?_, ?_, ?_, ?_⟩, ⟨_, hres2, ?_, ?_, ?_, ?_⟩⟩
  · exact (h1 "A").2.1 (.str "1") rfl rfl
  · exact (h1 "C").1 (.str "3") rfl (Or.inl rfl)
  · exact ((h1 "B").2.2 (.str "2") (.str "2") rfl rfl rfl).1
  · exact ((h1 "B").2.2 (.str "2") (.str "2") rfl rfl rfl).2
  · exact (h2 "a").2.1 (.str "1") rfl rfl
  · exact (h2 "c").1 (.str "3") rfl (Or.inl rfl)
  · exact ((h2 "b").2.2 (.str "2") (.str "2") rfl rfl rfl).1
  · exact ((h2 "b").2.2 (.str "2") (.str "2") rfl rfl rfl).2

/-! ## InheritWithTag and OverwriteWithTag: the loop over the fields -/

theorem inheritFields_split (canSet : Bool) (tagName : String) (avals : List (Option Value)) :
    ∀ (pre : Fields) (f : StructField) (v : Value) (post fs1 : Fields),
      inheritFields canSet tagName avals (pre ++ (f, v) :: post) = some fs1 →
      ∃ v1, inheritField canSet tagName avals f v = some v1
        ∧ fs1[pre.length]? = some (f, v1)
  | [], f, v, post, fs1, h => by
    rw [List.nil_append, inheritFields] at h
    cases h1 : inheritField canSet tagName avals f v with
    | none => simp [h1] at h
    | some v1 =>
      rw [h1] at h
      simp only [] at h
      cases h2 : inheritFields canSet tagName avals post with
      | none => simp [h2] at h
      | some post1 =>
        rw [h2] at h
        simp only [Option.some.injEq] at h
        subst h
        exact ⟨v1, rfl, by simp⟩
  | (g, w) :: pre, f, v, post, fs1, h => by
    rw [List.cons_append, inheritFields] at h
    cases h1 : inheritField canSet tagName avals g w with
    | none => simp [h1] at h
    | some w1 =>
      rw [h1] at h
      simp only [] at h
      cases h2 : inheritFields canSet tagName avals (pre ++ (f, v) :: post) with
      | none => simp [h2] at h
      | some rest1 =>
        rw [h2] at h
        simp only [Option.some.injEq] at h
        subst h
        obtain ⟨v1, hv, hget⟩ := inheritFields_split canSet tagName avals pre f v post rest1 h2
        exact ⟨v1, hv, by simpa using hget⟩

theorem overwriteFields_split (canSet : Bool) (tagName : String) (avals : List (Option Value)) :
    ∀ (pre : Fields) (f : StructField) (v : Value) (post fs1 : Fields),
      overwriteFields canSet tagName avals (pre ++ (f, v) :: post) = some fs1 →
      ∃ v1, overwriteField canSet tagName avals f v = some v1
        ∧ fs1[pre.length]? = some (f, v1)
  | [], f, v, post, fs1, h => by
    rw [List.nil_append, overwriteFields] at h
    cases h1 : overwriteField canSet tagName avals f v with
    | none => simp [h1] at h
    | some v1 =>
      rw [h1] at h
      simp only [] at h
      cases h2 : overwriteFields canSet tagName avals post with
      | none => simp [h2] at h
      | some post1 =>
        rw [h2] at h
        simp only [Option.some.injEq] at h
        subst h
        exact ⟨v1, rfl, by simp⟩
  | (g, w) :: pre, f, v, post, fs1, h => by
    rw [List.cons_append, overwriteFields] at h
    cases h1 : overwriteField canSet tagName avals g w with
    | none => simp [h1] at h
    | some w1 =>
      rw [h1] at h
      simp only [] at h
      cases h2 : overwriteFields canSet tagName avals (pre ++ (f, v) :: post) with
      | none => simp [h2] at h
      | some rest1 =>
        rw [h2] at h
        simp only [Option.some.injEq] at h
        subst h
        obtain ⟨v1, hv, hget⟩ := overwriteFields_split canSet tagName avals pre f v post rest1 h2
        exact ⟨v1, hv, by simpa using hget⟩

/-- A call with ancestors on a struct returns no error exactly when the loop over the
fields does not panic, and then output holds the fields the loop computed. -/
theorem InheritWithTag_ok (output : Arg) (ancestors : List Arg) (tagName : String)
    (n : String) (fs : Fields) (c : Bool) (out1 : Arg)
    (hs : outputStruct output = some (n, fs, c)) (hne : ancestors ≠ [])
    (h : InheritWithTag output ancestors tagName = .ok out1) :
    ∃ fs1, inheritFields c tagName (ancestors.map unpackAncestor) fs = some fs1
      ∧ out1 = withFields output fs1 := by
  have hl : (ancestors.length == 0) = false := by
    cases ancestors with
    | nil => exact absurd rfl hne
    | cons a l => rfl
  unfold InheritWithTag at h
  rw [hl] at h
  simp only [Bool.false_eq_true, ↓reduceIte] at h
  unfold outputStruct at hs
  split at hs
  · simp only [Option.some.injEq, Prod.mk.injEq] at hs
    obtain ⟨rfl, rfl, rfl⟩ := hs
    simp only [] at h
    cases h1 : inheritFields _ tagName (ancestors.map unpackAncestor) _ with
    | none => simp [h1] at h
    | some fs1 =>
      rw [h1] at h
      simp only [Outcome.ok.injEq] at h
      exact ⟨fs1, rfl, by rw [← h]; rfl⟩
  · simp only [Option.some.injEq, Prod.mk.injEq] at hs
    obtain ⟨rfl, rfl, rfl⟩ := hs
    simp only [] at h
    cases h1 : inheritFields true tagName (ancestors.map unpackAncestor) _ with
    | none => simp [h1] at h
    | some fs1 =>
      rw [h1] at h
      simp only [Outcome.ok.injEq] at h
      exact ⟨fs1, rfl, by rw [← h]; rfl⟩
  · cases hs

theorem OverwriteWithTag_ok (output : Arg) (ancestors : List Arg) (tagName : String)
    (n : String) (fs : Fields) (c : Bool) (out1 : Arg)
    (hs : outputStruct output = some (n, fs, c)) (hne : ancestors ≠ [])
    (h : OverwriteWithTag output ancestors tagName = .ok out1) :
    ∃ fs1, overwriteFields c tagName (ancestors.map unpackAncestor) fs = some fs1
      ∧ out1 = withFields output fs1 := by
  have hl : (ancestors.length == 0) = false := by
    cases ancestors with
    | nil => exact absurd rfl hne
    | cons a l => rfl
  unfold OverwriteWithTag at h
  rw [hl] at h
  simp only [Bool.false_eq_true, ↓reduceIte] at h
  unfold outputStruct at hs
  split at hs
  · simp only [Option.some.injEq, Prod.mk.injEq] at hs
    obtain ⟨rfl, rfl, rfl⟩ := hs
    simp only [] at h
    cases h1 : overwriteFields _ tagName (ancestors.map unpackAncestor) _ with
    | none => simp [h1] at h
    | some fs1 =>
      rw [h1] at h
      simp only [Outcome.ok.injEq] at h
      exact ⟨fs1, rfl, by rw [← h]; rfl⟩
  · simp only [Option.some.injEq, Prod.mk.injEq] at hs
    obtain ⟨rfl, rfl, rfl⟩ := hs
    simp only [] at h
    cases h1 : overwriteFields true tagName (ancestors.map unpackAncestor) _ with
    | none => simp [h1] at h
    | some fs1 =>
      rw [h1] at h
      simp only [Outcome.ok.injEq] at h
      exact ⟨fs1, rfl, by rw [← h]; rfl⟩
  · cases hs

/-! ## The loops over the ancestors, on records of the same shape -/

theorem string_length_pos (s : String) : (decide (s.length > 0)) = !(s == "") := by
  by_cases h : s = ""
  · subst h
    rfl
  · have h1 : s.length ≠ 0 := by
      intro h0
      apply h
      apply String.ext
      exact List.length_eq_zero.mp h0
    have h2 : (s == "") = false := by
      simp only [beq_eq_false_iff_ne, ne_eq]
      exact h
    rw [h2]
    simp only [Bool.not_false, decide_eq_true_eq]
    omega

theorem firstNonDefault_cons (x : Value) (xs : List Value) :
    firstNonDefault (x :: xs) = if isDefault x = true then firstNonDefault xs else some x := by
  unfold firstNonDefault
  rw [List.find?]
  cases isDefault x <;> rfl

theorem setIfFound_some (v : Value) (r : Option Value) :
    setIfFound v (some r) = some (r.getD v) := by
  cases r <;> rfl

theorem intAncestorsLoop_spec (name : String) (avals : List (Option Value))
    (avs : List Value)
    (h : List.Forall₂ (fun a x => ancestorField a name = some (some x) ∧ x.Kind = Kind.Int)
      avals avs) :
    intAncestorsLoop name avals = some (firstNonDefault avs) := by
  induction h with
  | nil => rfl
  | @cons a x avals avs hax _ ih =>
    obtain ⟨ha, hk⟩ := hax
    cases x <;> simp [Value.Kind] at hk
    rename_i i
    rw [intAncestorsLoop, ha, firstNonDefault_cons]
    simp only [reflectIndirect]
    show (if (i != 0) = true then some (some (Value.int i)) else intAncestorsLoop name avals)
      = some (if (i == 0) = true then firstNonDefault avs else some (Value.int i))
    by_cases hi : i = 0
    · subst hi
      simpa using ih
    · simp [hi]

theorem uintAncestorsLoop_spec (name : String) (avals : List (Option Value))
    (avs : List Value)
    (h : List.Forall₂ (fun a x => ancestorField a name = some (some x) ∧ x.Kind = Kind.Uint)
      avals avs) :
    uintAncestorsLoop name avals = some (firstNonDefault avs) := by
  induction h with
  | nil => rfl
  | @cons a x avals avs hax _ ih =>
    obtain ⟨ha, hk⟩ := hax
    cases x <;> simp [Value.Kind] at hk
    rename_i i
    rw [uintAncestorsLoop, ha, firstNonDefault_cons]
    show (if (i != 0) = true then some (some (Value.uint i)) else uintAncestorsLoop name avals)
      = some (if (i == 0) = true then firstNonDefault avs else some (Value.uint i))
    by_cases hi : i = 0
    · subst hi
      simpa using ih
    · simp [hi]

theorem floatAncestorsLoop_spec (name : String) (avals : List (Option Value))
    (avs : List Value)
    (h : List.Forall₂ (fun a x => ancestorField a name = some (some x) ∧ x.Kind = Kind.Float64)
      avals avs) :
    floatAncestorsLoop name avals = some (firstNonDefault avs) := by
  induction h with
  | nil => rfl
  | @cons a x avals avs hax _ ih =>
    obtain ⟨ha, hk⟩ := hax
    cases x <;> simp [Value.Kind] at hk
    rename_i i
    rw [floatAncestorsLoop, ha, firstNonDefault_cons]
    show (if (!f64IsZero i) = true then some (some (Value.float i))
        else floatAncestorsLoop name avals)
      = some (if f64IsZero i = true then firstNonDefault avs else some (Value.float i))
    cases hi : f64IsZero i with
    | true => simpa using ih
    | false => simp

theorem complexAncestorsLoop_spec (name : String) (avals : List (Option Value))
    (avs : List Value)
    (h : List.Forall₂
      (fun a x => ancestorField a name = some (some x) ∧ x.Kind = Kind.Complex128) avals avs) :
    complexAncestorsLoop name avals = some (firstNonDefault avs) := by
  induction h with
  | nil => rfl
  | @cons a x avals avs hax _ ih =>
    obtain ⟨ha, hk⟩ := hax
    cases x <;> simp [Value.Kind] at hk
    rename_i re im
    rw [complexAncestorsLoop, ha, firstNonDefault_cons]
    show (if (!(f64IsZero re && f64IsZero im)) = true then some (some (Value.complex re im))
        else complexAncestorsLoop name avals)
      = some (if (f64IsZero re && f64IsZero im) = true then firstNonDefault avs
          else some (Value.complex re im))
    cases hi : (f64IsZero re && f64IsZero im) with
    | true => simpa using ih
    | false => simp

theorem stringAncestorsLoop_spec (name : String) (avals : List (Option Value))
    (avs : List Value)
    (h : List.Forall₂ (fun a x => ancestorField a name = some (some x) ∧ x.Kind = Kind.String)
      avals avs) :
    stringAncestorsLoop name avals = some (firstNonDefault avs) := by
  induction h with
  | nil => rfl
  | @cons a x avals avs hax _ ih =>
    obtain ⟨ha, hk⟩ := hax
    cases x <;> simp [Value.Kind] at hk
    rename_i s
    rw [stringAncestorsLoop, ha, firstNonDefault_cons]
    show (if s.length > 0 then some (some (Value.str s)) else stringAncestorsLoop name avals)
      = some (if (s == "") = true then firstNonDefault avs else some (Value.str s))
    have hs := string_length_pos s
    cases hi : (s == "") with
    | true =>
      rw [hi] at hs
      simp only [Bool.not_true, decide_eq_false_iff_not] at hs
      rw [if_neg hs, if_pos rfl]
      exact ih
    | false =>
      rw [hi] at hs
      simp only [Bool.not_false, decide_eq_true_eq] at hs
      rw [if_pos hs]
      simp

theorem overwriteIntLoop_spec (name : String) (avals : List (Option Value))
    (avs : List Value)
    (h : List.Forall₂ (fun a x => ancestorField a name = some (some x) ∧ x.Kind = Kind.Int)
      avals avs) :
    overwriteIntLoop name avals = some avs.head? := by
  cases h with
  | nil => rfl
  | @cons a x avals avs hax _ =>
    obtain ⟨ha, hk⟩ := hax
    cases x <;> simp [Value.Kind] at hk
    rw [overwriteIntLoop, ha]
    rfl

theorem inheritField_scalar (tagName : String) (avals : List (Option Value))
    (f : StructField) (v : Value) (avs : List Value)
    (hkind : numberOrString v = true)
    (hf : f.exported = true) (ht : tagMatch tagName f = true)
    (h : List.Forall₂ (fun a x => ancestorField a f.Name = some (some x) ∧ x.Kind = v.Kind)
      avals avs) :
    inheritField true tagName avals f v = some (inheritedValue v avs) := by
  unfold inheritedValue
  rw [firstNonDefault_cons]
  cases v <;> simp [numberOrString, Value.Kind] at hkind
  · rename_i i
    simp only [inheritField, hf, ht, Bool.and_self, ↓reduceIte, inheritScalar,
      intAncestorsLoop_spec f.Name avals avs h, setIfFound_some]
    show (if (i == 0) = true then some ((firstNonDefault avs).getD (Value.int i))
        else some (Value.int i))
      = some ((if (i == 0) = true then firstNonDefault avs else some (Value.int i)).getD
          (Value.int i))
    cases (i == 0) <;> rfl
  · rename_i i
    simp only [inheritField, hf, ht, Bool.and_self, ↓reduceIte, inheritScalar,
      uintAncestorsLoop_spec f.Name avals avs h, setIfFound_some]
    show (if (i == 0) = true then some ((firstNonDefault avs).getD (Value.uint i))
        else some (Value.uint i))
      = some ((if (i == 0) = true then firstNonDefault avs else some (Value.uint i)).getD
          (Value.uint i))
    cases (i == 0) <;> rfl
  · rename_i x
    simp only [inheritField, hf, ht, Bool.and_self, ↓reduceIte, inheritScalar,
      floatAncestorsLoop_spec f.Name avals avs h, setIfFound_some]
    show (if f64IsZero x = true then some ((firstNonDefault avs).getD (Value.float x))
        else some (Value.float x))
      = some ((if f64IsZero x = true then firstNonDefault avs else some (Value.float x)).getD
          (Value.float x))
    cases f64IsZero x <;> rfl
  · rename_i re im
    simp only [inheritField, hf, ht, Bool.and_self, ↓reduceIte, inheritScalar,
      complexAncestorsLoop_spec f.Name avals avs h, setIfFound_some]
    show (if (f64IsZero re && f64IsZero im) = true
        then some ((firstNonDefault avs).getD (Value.complex re im))
        else some (Value.complex re im))
      = some ((if (f64IsZero re && f64IsZero im) = true then firstNonDefault avs
          else some (Value.complex re im)).getD (Value.complex re im))
    cases (f64IsZero re && f64IsZero im) <;> rfl
  · rename_i s
    simp only [inheritField, hf, ht, Bool.and_self, ↓reduceIte, inheritScalar,
      stringAncestorsLoop_spec f.Name avals avs h, setIfFound_some]
    show (if (s == "") = true then some ((firstNonDefault avs).getD (Value.str s))
        else some (Value.str s))
      = some ((if (s == "") = true then firstNonDefault avs else some (Value.str s)).getD
          (Value.str s))
    cases (s == "") <;> rfl

theorem overwriteField_scalar (tagName : String) (avals : List (Option Value))
    (f : StructField) (v : Value) (avs : List Value)
    (hkind : numberOrString v = true)
    (hf : f.exported = true) (ht : tagMatch tagName f = true)
    (h : List.Forall₂ (fun a x => ancestorField a f.Name = some (some x) ∧ x.Kind = v.Kind)
      avals avs) :
    overwriteField true tagName avals f v = some (overwrittenValue v avs) := by
  cases v <;> simp [numberOrString, Value.Kind] at hkind
  · simp only [overwriteField, hf, ht, Bool.and_self, ↓reduceIte,
      overwriteIntLoop_spec f.Name avals avs h, overwrittenValue, Value.Kind]
    cases avs <;> rfl
  · simp only [overwriteField, hf, ht, Bool.and_self, ↓reduceIte,
      uintAncestorsLoop_spec f.Name avals avs h, overwrittenValue, Value.Kind, setIfFound_some]
  · simp only [overwriteField, hf, ht, Bool.and_self, ↓reduceIte,
      floatAncestorsLoop_spec f.Name avals avs h, overwrittenValue, Value.Kind, setIfFound_some]
  · simp only [overwriteField, hf, ht, Bool.and_self, ↓reduceIte,
      complexAncestorsLoop_spec f.Name avals avs h, overwrittenValue, Value.Kind, setIfFound_some]
  · simp only [overwriteField, hf, ht, Bool.and_self, ↓reduceIte,
      stringAncestorsLoop_spec f.Name avals avs h, overwrittenValue, Value.Kind, setIfFound_some]

/-! ## Claims on InheritWithTag and OverwriteWithTag -/

theorem outputStruct_withFields (output : Arg) (n : String) (fs fs1 : Fields) (c : Bool)
    (hs : outputStruct output = some (n, fs, c)) :
    outputStruct (withFields output fs1) = some (n, fs1, c) := by
  unfold outputStruct at hs
  split at hs
  · simp only [Option.some.injEq, Prod.mk.injEq] at hs
    obtain ⟨rfl, _, rfl⟩ := hs
    rfl
  · simp only [Option.some.injEq, Prod.mk.injEq] at hs
    obtain ⟨rfl, _, rfl⟩ := hs
    rfl
  · cases hs

theorem getElem?_append_cons (pre post : Fields) (x : StructField × Value) :
    (pre ++ x :: post)[pre.length]? = some x := by
  rw [List.getElem?_append_right (Nat.le_refl _)]
  simp

theorem firstNonDefault_none_head (v : Value) (avs : List Value)
    (h : firstNonDefault (v :: avs) = none) : isDefault v = true := by
  rw [firstNonDefault_cons] at h
  cases hd : isDefault v with
  | true => rfl
  | false => simp [hd] at h

theorem inheritedValue_of_non_default (v : Value) (avs : List Value)
    (h : isDefault v = false) : inheritedValue v avs = v := by
  unfold inheritedValue
  rw [firstNonDefault_cons, h]
  rfl

theorem inheritedValue_none (v : Value) (avs : List Value)
    (h : firstNonDefault (v :: avs) = none) : inheritedValue v avs = v := by
  unfold inheritedValue
  rw [h]
  rfl

/-- C6: let output be a struct passed by pointer (or as a settable reflect.Value), with
an exported field of integer, unsigned integer, float, complex or string kind that the
call processes (the tag matches), and let every ancestor be a struct whose field of the
same name has the same kind, the values being `avs` in list order. When InheritWithTag
(Inherit is the call with the empty tag) returns without error, the field holds the first
value of the sequence output, a1, ..., an that is not a default value; a value of output
that is not a default is therefore kept, and when there is no such value the field holds
a default value. -/
theorem Inherit_number_or_string_field (output : Arg) (ancestors : List Arg) (tagName : String)
    (n : String) (pre post : Fields) (f : StructField) (v : Value) (avs : List Value)
    (out1 : Arg)
    (hs : outputStruct output = some (n, pre ++ (f, v) :: post, true))
    (hkind : numberOrString v = true)
    (hf : f.exported = true) (ht : tagMatch tagName f = true)
    (hanc : AncestorValues ancestors f.Name v avs)
    (hres : InheritWithTag output ancestors tagName = .ok out1) :
    ∃ fs1, outputStruct out1 = some (n, fs1, true)
      ∧ fs1[pre.length]? = some (f, inheritedValue v avs)
      ∧ inheritedValue v avs = (firstNonDefault (v :: avs)).getD v
      ∧ (isDefault v = false → inheritedValue v avs = v)
      ∧ (firstNonDefault (v :: avs) = none → isDefault (inheritedValue v avs) = true) := by
  have hlast : firstNonDefault (v :: avs) = none → isDefault (inheritedValue v avs) = true := by
    intro h
    rw [inheritedValue_none v avs h]
    exact firstNonDefault_none_head v avs h
  by_cases hne : ancestors = []
  · subst hne
    cases hanc
    have : out1 = output := by
      simp only [InheritWithTag, List.length_nil, beq_self_eq_true, ↓reduceIte,
        Outcome.ok.injEq] at hres
      exact hres.symm
    subst this
    refine ⟨_, hs, ?_, rfl, inheritedValue_of_non_default v [], hlast⟩
    rw [getElem?_append_cons]
    have : inheritedValue v [] = v := by
      unfold inheritedValue
      rw [firstNonDefault_cons]
      cases isDefault v <;> rfl
    rw [this]
  · obtain ⟨fs1, h1, h2⟩ := InheritWithTag_ok output ancestors tagName n _ true out1 hs hne hres
    obtain ⟨v1, hv1, hget⟩ := inheritFields_split true tagName _ pre f v post fs1 h1
    rw [inheritField_scalar tagName _ f v avs hkind hf ht
      (List.forall₂_map_left_iff.mpr hanc)] at hv1
    simp only [Option.some.injEq] at hv1
    subst hv1
    subst h2
    exact ⟨fs1, outputStruct_withFields output n _ fs1 true hs, hget, rfl,
      inheritedValue_of_non_default v avs, hlast⟩

/-- Witness of C6 on the records of TestInherit: the child's IntVal 0 becomes the
parent's 12. -/
theorem Inherit_number_or_string_field_witness :
    ∃ out1 fs1, Inherit (.any (some (.ptr inheritChild))) [.any (some (.ptr inheritParent))]
        = .ok out1
      ∧ outputStruct out1 = some ("SampleStruct", fs1, true)
      ∧ fs1[3]? = some (⟨"IntVal", [("api", "intVal")], ""⟩, .int 12) := by
  have hres : InheritWithTag (.any (some (.ptr inheritChild)))
      [.any (some (.ptr inheritParent))] "" =
      .ok (.any (some (.ptr (sampleStruct (.bool false) (.ptr (.bool true))
        (.float 0x40F422724538EF35) (.int 12) .nilIface (.str "child")
        (sampleSubstruct (.map [("key2", .str "val2"), ("key1", .str "val1")]) .nilSlice)
        (timeValue 7 9) (.ptr (timeValue 7 9)) (.uint 98))))) := by
    rfl
  obtain ⟨fs1, h1, h2, _⟩ := Inherit_number_or_string_field
    (.any (some (.ptr inheritChild))) [.any (some (.ptr inheritParent))] "" "SampleStruct"
    (List.take 3 (structFields (some inheritChild)).get!)
    (List.drop 4 (structFields (some inheritChild)).get!)
    ⟨"IntVal", [("api", "intVal")], ""⟩ (.int 0) [.int 12] _
    rfl (by decide) (by decide) (by decide)
    (List.Forall₂.cons ⟨rfl, rfl⟩ List.Forall₂.nil) hres
  exact ⟨_, fs1, hres, h1, h2⟩

/-- C9: let output be a struct passed by pointer (or as a settable reflect.Value), with
an exported field of integer, unsigned integer, float, complex or string kind that the
call processes, and let the ancestors, at least one, be structs whose field of the same
name has the same kind, the values being `avs` in list order. When OverwriteWithTag
(Overwrite is the call with the empty tag) returns without error, an integer field holds
the value of the first ancestor, zero or not, and a field of another of these kinds the
first ancestor value that is not a default value, whatever output held before; it is
left as it was when every ancestor value is a default value. -/
theorem Overwrite_number_or_string_field (output : Arg) (ancestors : List Arg)
    (tagName : String) (n : String) (pre post : Fields) (f : StructField) (v : Value)
    (avs : List Value) (out1 : Arg)
    (hs : outputStruct output = some (n, pre ++ (f, v) :: post, true))
    (hkind : numberOrString v = true)
    (hf : f.exported = true) (ht : tagMatch tagName f = true)
    (hne : ancestors ≠ [])
    (hanc : AncestorValues ancestors f.Name v avs)
    (hres : OverwriteWithTag output ancestors tagName = .ok out1) :
    ∃ fs1, outputStruct out1 = some (n, fs1, true)
      ∧ fs1[pre.length]? = some (f, overwrittenValue v avs)
      ∧ (v.Kind = Kind.Int → some (overwrittenValue v avs) = avs.head?)
      ∧ (v.Kind ≠ Kind.Int → overwrittenValue v avs = (firstNonDefault avs).getD v) := by
  obtain ⟨fs1, h1, h2⟩ := OverwriteWithTag_ok output ancestors tagName n _ true out1 hs hne hres
  obtain ⟨v1, hv1, hget⟩ := overwriteFields_split true tagName _ pre f v post fs1 h1
  rw [overwriteField_scalar tagName _ f v avs hkind hf ht
    (List.forall₂_map_left_iff.mpr hanc)] at hv1
  simp only [Option.some.injEq] at hv1
  subst hv1
  subst h2
  refine ⟨fs1, outputStruct_withFields output n _ fs1 true hs, hget, ?_, ?_⟩
  · intro hk
    cases hanc with
    | nil => exact absurd rfl hne
    | cons hax _ =>
      unfold overwrittenValue
      rw [hk]
      rfl
  · intro hk
    unfold overwrittenValue
    cases v <;> simp [numberOrString, Value.Kind] at hkind hk <;> rfl

/-- Witness of C9 on the records of TestOverwrite: the child's StringVal "child" becomes
the parent's "parent". -/
theorem Overwrite_number_or_string_field_witness :
    ∃ out1 fs1, Overwrite (.any (some (.ptr overwriteChild))) [.any (some (.ptr overwriteParent))]
        = .ok out1
      ∧ outputStruct out1 = some ("SampleStruct", fs1, true)
      ∧ fs1[5]? = some (⟨"StringVal",
          [("api", "stringVal"), ("inherit", "dynamic"), ("testtag", "stringVal")], ""⟩,
          .str "parent") := by
  have hres : OverwriteWithTag (.any (some (.ptr overwriteChild)))
      [.any (some (.ptr overwriteParent))] "" =
      .ok (.any (some (.ptr (sampleStruct (.bool false) .nilPtr
        (.float 0x40F422724538EF35) (.int 12) .nilIface (.str "parent")
        (sampleSubstruct (.map [("key2", .str "val2"), ("key1", .str "val1")]) .nilSlice)
        (timeValue 0 0) .nilPtr (.uint 99))))) := by
    rfl
  obtain ⟨fs1, h1, h2, _⟩ := Overwrite_number_or_string_field
    (.any (some (.ptr overwriteChild))) [.any (some (.ptr overwriteParent))] "" "SampleStruct"
    (List.take 5 (structFields (some overwriteChild)).get!)
    (List.drop 6 (structFields (some overwriteChild)).get!)
    ⟨"StringVal", [("api", "stringVal"), ("inherit", "dynamic"), ("testtag", "stringVal")], ""⟩
    (.str "child") [.str "parent"] _
    rfl (by decide) (by decide) (by decide) (by simp)
    (List.Forall₂.cons ⟨rfl, rfl⟩ List.Forall₂.nil) hres
  exact ⟨_, fs1, hres, h1, h2⟩

theorem InheritWithTag_error_iff (output : Arg) (ancestors : List Arg) (tagName : String) :
    InheritWithTag output ancestors tagName = .error "pointer required"
      ↔ ancestors ≠ [] ∧ plainNonPointer output := by
  unfold plainNonPointer
  cases ancestors with
  | nil => simp [InheritWithTag]
  | cons a l =>
    have hl : ((a :: l).length == 0) = false := rfl
    simp only [InheritWithTag, hl, Bool.false_eq_true, ↓reduceIte, ne_eq, reduceCtorEq,
      not_false_eq_true, true_and]
    cases output with
    | rv v c =>
      constructor
      · intro h
        exfalso
        rcases v with _ | x
        · simp at h
        · cases x <;> simp at h
          split at h <;> cases h
      · rintro ⟨v, h, _⟩
        cases h
    | any v =>
      cases v with
      | none => exact ⟨fun _ => ⟨none, rfl, by simp [kindOf]⟩, fun _ => rfl⟩
      | some x =>
        cases x with
        | ptr y =>
          constructor
          · intro h
            cases y <;> simp at h
            split at h <;> cases h
          · rintro ⟨v, h, hk⟩
            cases h
            exact absurd rfl hk
        | nilPtr =>
          constructor
          · intro h
            simp at h
          · rintro ⟨v, h, hk⟩
            cases h
            exact absurd rfl hk
        | _ =>
          exact ⟨fun _ => ⟨_, rfl, by simp [kindOf, Value.Kind]⟩, fun _ => rfl⟩

theorem OverwriteWithTag_error_iff (output : Arg) (ancestors : List Arg) (tagName : String) :
    OverwriteWithTag output ancestors tagName = .error "pointer required"
      ↔ ancestors ≠ [] ∧ plainNonPointer output := by
  unfold plainNonPointer
  cases ancestors with
  | nil => simp [OverwriteWithTag]
  | cons a l =>
    have hl : ((a :: l).length == 0) = false := rfl
    simp only [OverwriteWithTag, hl, Bool.false_eq_true, ↓reduceIte, ne_eq, reduceCtorEq,
      not_false_eq_true, true_and]
    cases output with
    | rv v c =>
      constructor
      · intro h
        exfalso
        rcases v with _ | x
        · simp at h
        · cases x <;> simp at h
          split at h <;> cases h
      · rintro ⟨v, h, _⟩
        cases h
    | any v =>
      cases v with
      | none => exact ⟨fun _ => ⟨none, rfl, by simp [kindOf]⟩, fun _ => rfl⟩
      | some x =>
        cases x with
        | ptr y =>
          constructor
          · intro h
            cases y <;> simp at h
            split at h <;> cases h
          · rintro ⟨v, h, hk⟩
            cases h
            exact absurd rfl hk
        | nilPtr =>
          constructor
          · intro h
            simp at h
          · rintro ⟨v, h, hk⟩
            cases h
            exact absurd rfl hk
        | _ =>
          exact ⟨fun _ => ⟨_, rfl, by simp [kindOf, Value.Kind]⟩, fun _ => rfl⟩

/-- C8, as stated, fails: with one ancestor and an output that is a reflect.Value of a
struct, not a pointer, both functions return no error (the type assertion
output.(reflect.Value) succeeds and the pointer check is skipped). -/
theorem pointer_required_not_for_reflect_value :
    InheritWithTag (.rv (some (.struct "S" [])) false) [.any none] ""
        = .ok (.rv (some (.struct "S" [])) false)
      ∧ OverwriteWithTag (.rv (some (.struct "S" [])) false) [.any none] ""
        = .ok (.rv (some (.struct "S" [])) false) :=
  ⟨rfl, rfl⟩

/-- C8 (amended): InheritWithTag and OverwriteWithTag return the error "pointer required"
exactly when the ancestor list is not empty and output is an ordinary value that is not a
pointer, hence neither a pointer nor a reflect.Value; with an empty ancestor list they
return no error and leave output unchanged, whatever output is. -/
theorem pointer_required_iff (output : Arg) (ancestors : List Arg) (tagName : String) :
    (InheritWithTag output ancestors tagName = .error "pointer required"
        ↔ ancestors ≠ [] ∧ plainNonPointer output)
      ∧ (OverwriteWithTag output ancestors tagName = .error "pointer required"
        ↔ ancestors ≠ [] ∧ plainNonPointer output)
      ∧ InheritWithTag output [] tagName = .ok output
      ∧ OverwriteWithTag output [] tagName = .ok output :=
  ⟨InheritWithTag_error_iff output ancestors tagName,
    OverwriteWithTag_error_iff output ancestors tagName, rfl, rfl⟩

/-! ## Inherit into a zero-valued record -/

theorem inheritField_unprocessed (canSet : Bool) (tagName : String)
    (avals : List (Option Value)) (f : StructField) (v : Value)
    (h : (canSet && f.exported && tagMatch tagName f) = false) :
    inheritField canSet tagName avals f v = some v := by
  cases v <;> simp [inheritField, h]

theorem tagMatch_empty (f : StructField) : tagMatch "" f = true := rfl

theorem inheritBoolFlag_empty (f : StructField) : inheritBoolFlag "" f = false := rfl

theorem wellFormed_of_mem :
    ∀ (fs : Fields) (f : StructField) (v : Value), wellFormedFields fs = true → (f, v) ∈ fs →
      wellFormed v = true
  | [], _, _, _, hm => by simp at hm
  | (g, w) :: rest, f, v, hw, hm => by
    simp only [wellFormedFields, Bool.and_eq_true] at hw
    rcases List.mem_cons.mp hm with h | h
    · cases h
      exact hw.1
    · exact wellFormed_of_mem rest f v hw.2 h

theorem ancestorField_of_mem (n : String) (fs : Fields) (f : StructField) (v : Value)
    (hn : (fs.map (fun fv => fv.1.Name)).Nodup) (hm : (f, v) ∈ fs) :
    ancestorField (some (.struct n fs)) f.Name = some (some v) := by
  simp [ancestorField, fieldByName_of_mem fs f v hn hm]

mutual
theorem inheritField_zero (a : Option Value) (f : StructField) (hf : f.exported = true) :
    ∀ (v : Value), wellFormed v = true → ancestorField a f.Name = some (some v) →
      inheritField true "" [a] f (zeroValue v) = some (inheritedFromZero v)
  | .bool b, _, _ => by
    simp [zeroValue, inheritField, hf, tagMatch_empty, inheritScalar, inheritBoolFlag_empty,
      inheritedFromZero]
  | .int i, _, ha => by
    simp only [zeroValue, inheritField, hf, tagMatch_empty, inheritScalar, intAncestorsLoop, ha,
      reflectIndirect, inheritedFromZero, Bool.and_self, ↓reduceIte, beq_self_eq_true]
    by_cases hi : i = 0
    · subst hi
      rfl
    · simp [hi, setIfFound]
  | .uint i, _, ha => by
    simp only [zeroValue, inheritField, hf, tagMatch_empty, inheritScalar, uintAncestorsLoop, ha,
      inheritedFromZero, Bool.and_self, ↓reduceIte, beq_self_eq_true]
    by_cases hi : i = 0
    · subst hi
      rfl
    · simp [hi, setIfFound]
  | .float x, _, ha => by
    have h0 : f64IsZero 0 = true := rfl
    simp only [zeroValue, inheritField, hf, tagMatch_empty, inheritScalar, floatAncestorsLoop, ha,
      inheritedFromZero, Bool.and_self, ↓reduceIte, h0]
    cases f64IsZero x <;> rfl
  | .complex re im, _, ha => by
    have h0 : f64IsZero 0 = true := rfl
    simp only [zeroValue, inheritField, hf, tagMatch_empty, inheritScalar, complexAncestorsLoop,
      ha, inheritedFromZero, Bool.and_self, ↓reduceIte, h0]
    cases (f64IsZero re && f64IsZero im) <;> rfl
  | .str s, _, ha => by
    simp only [zeroValue, inheritField, hf, tagMatch_empty, inheritScalar, stringAncestorsLoop,
      ha, inheritedFromZero, Bool.and_self, ↓reduceIte, beq_self_eq_true]
    by_cases hs : s.length > 0
    · simp [hs, setIfFound]
    · have : s = "" := by
        apply String.ext
        apply List.length_eq_zero.mp
        simp only [String.length] at hs
        omega
      subst this
      rfl
  | .func _, _, _ => by
    simp [zeroValue, inheritField, hf, tagMatch_empty, inheritScalar, inheritedFromZero]
  | .chan _, _, _ => by
    simp [zeroValue, inheritField, hf, tagMatch_empty, inheritScalar, inheritedFromZero]
  | .nilIface, _, _ => by
    simp [zeroValue, inheritField, hf, tagMatch_empty, inheritScalar, inheritedFromZero]
  | .iface _, _, _ => by
    simp [zeroValue, inheritField, hf, tagMatch_empty, inheritScalar, inheritedFromZero]
  | .nilPtr, _, ha => by
    simp [zeroValue, inheritField, hf, tagMatch_empty, inheritScalar, inheritedFromZero,
      pointerAncestorsLoop, ha, setIfFound]
  | .ptr w, _, ha => by
    simp [zeroValue, inheritField, hf, tagMatch_empty, inheritScalar, inheritedFromZero,
      pointerAncestorsLoop, ha, setIfFound]
  | .nilMap, _, ha => by
    simp [zeroValue, inheritField, hf, tagMatch_empty, inheritScalar, inheritedFromZero,
      mapAncestorsLoop, ha]
  | .map m, _, ha => by
    simp [zeroValue, inheritField, hf, tagMatch_empty, inheritScalar, inheritedFromZero,
      mapAncestorsLoop, ha]
  | .nilSlice, _, ha => by
    simp [zeroValue, inheritField, hf, tagMatch_empty, inheritScalar, inheritedFromZero,
      sliceAncestorsLoop, ha, kindOf, Value.Kind, sliceElems]
  | .slice xs, _, ha => by
    simp [zeroValue, inheritField, hf, tagMatch_empty, inheritScalar, inheritedFromZero,
      sliceAncestorsLoop, ha, kindOf, Value.Kind, sliceElems]
  | .struct n fs, hw, ha => by
    simp only [wellFormed, Bool.and_eq_true, decide_eq_true_eq] at hw
    simp only [zeroValue, inheritField, hf, tagMatch_empty, inheritedFromZero, Bool.and_self,
      ↓reduceIte]
    by_cases hn : (n == timeString) = true
    · simp [hn, timeAncestorsLoop, ha, setIfFound]
    · simp only [hn, Bool.false_eq_true, ↓reduceIte, structAncestors, ha, kindOf, Value.Kind]
      rw [inheritFields_zero (some (.struct n fs)) fs hw.2
        (fun g w hm => ancestorField_of_mem n fs g w hw.1 hm)]
theorem inheritFields_zero (a : Option Value) :
    ∀ (rest : Fields), wellFormedFields rest = true →
      (∀ g w, (g, w) ∈ rest → ancestorField a g.Name = some (some w)) →
      inheritFields true "" [a] (zeroFields rest) = some (inheritedFieldsFromZero rest)
  | [], _, _ => rfl
  | (f, v) :: rest, hw, ha => by
    simp only [wellFormedFields, Bool.and_eq_true] at hw
    have hrest := inheritFields_zero a rest hw.2
      (fun g w hm => ha g w (List.mem_cons_of_mem _ hm))
    rw [zeroFields, inheritFields, inheritedFieldsFromZero, hrest]
    cases hf : f.exported with
    | true =>
      rw [inheritField_zero a f hf v hw.1 (ha f v (List.mem_cons_self _ _))]
      rfl
    | false =>
      rw [inheritField_unprocessed true "" [a] f (zeroValue v) (by simp [hf])]
      rfl
end

theorem mapSet_fresh {β : Type} (acc : List (String × β)) (k : String) (v : β)
    (h : k ∉ acc.map (fun kv => kv.1)) : mapSet acc k v = acc ++ [(k, v)] := by
  induction acc with
  | nil => rfl
  | cons hd tl ih =>
    obtain ⟨k0, v0⟩ := hd
    simp only [List.map_cons, List.mem_cons, not_or] at h
    have hk : ¬ k0 = k := fun e => h.1 e.symm
    simp [mapSet, hk, ih h.2]

theorem foldl_mapSet_append {β : Type} :
    ∀ (m acc : List (String × β)), ((acc ++ m).map (fun kv => kv.1)).Nodup →
      m.foldl (fun acc kv => mapSet acc kv.1 kv.2) acc = acc ++ m
  | [], acc, _ => by simp
  | (k, v) :: rest, acc, h => by
    have hk : k ∉ acc.map (fun kv => kv.1) := by
      intro hm
      simp only [List.map_append, List.map_cons] at h
      have := (List.nodup_append.mp h).2.2
      exact this hm (List.mem_cons_self _ _) 
    rw [List.foldl_cons, mapSet_fresh acc k v hk]
    have := foldl_mapSet_append rest (acc ++ [(k, v)]) (by simpa using h)
    simpa using this

theorem foldl_sliceAppend_slice :
    ∀ (xs ys : List Value), xs.foldl sliceAppend (.slice ys) = .slice (ys ++ xs)
  | [], ys => by simp
  | x :: xs, ys => by
    rw [List.foldl_cons, sliceAppend, foldl_sliceAppend_slice xs (ys ++ [x])]
    simp

theorem foldl_sliceAppend_nil (x : Value) (xs : List Value) :
    (x :: xs).foldl sliceAppend .nilSlice = .slice (x :: xs) := by
  rw [List.foldl_cons]
  show xs.foldl sliceAppend (.slice [x]) = _
  rw [foldl_sliceAppend_slice]
  rfl

theorem f64Eq_zero (x : Nat) (h : f64IsZero x = true) : f64Eq 0 x = true := by
  have hn : f64IsNaN x = false := by
    simp only [f64IsZero, beq_iff_eq] at h
    simp only [f64IsNaN, Bool.and_eq_false_iff, beq_eq_false_iff_ne, ne_eq]
    left
    omega
  have h0 : f64IsNaN 0 = false := rfl
  have hz : f64IsZero 0 = true := rfl
  simp [f64Eq, hn, h0, hz, h]

mutual
theorem inheritedFromZero_deepEqual :
    ∀ (v : Value), inheritable v = true → wellFormed v = true → noNaNFunc v = true →
      deepValueEqual (inheritedFromZero v) v = true
  | .bool b, hi, _, _ => by
    simp only [inheritable, Bool.not_eq_true'] at hi
    subst hi
    rfl
  | .int i, _, hw, hn => deepValueEqual_refl _ hw hn
  | .uint i, _, hw, hn => deepValueEqual_refl _ hw hn
  | .float x, _, hw, hn => by
    rw [inheritedFromZero]
    cases hz : f64IsZero x with
    | true => exact f64Eq_zero x hz
    | false => exact deepValueEqual_refl _ hw hn
  | .complex re im, _, hw, hn => by
    rw [inheritedFromZero]
    cases hz : (f64IsZero re && f64IsZero im) with
    | true =>
      simp only [Bool.and_eq_true] at hz
      show (f64Eq 0 re && f64Eq 0 im) = true
      rw [f64Eq_zero re hz.1, f64Eq_zero im hz.2]
      rfl
    | false => exact deepValueEqual_refl _ hw hn
  | .str s, _, hw, hn => deepValueEqual_refl _ hw hn
  | .func a, hi, _, _ => by
    simp only [inheritable] at hi
    show ((0 : Nat) == 0 && a == 0) = true
    simp [hi]
  | .chan a, hi, _, _ => by
    simp only [inheritable, beq_iff_eq] at hi
    subst hi
    rfl
  | .nilIface, _, _, _ => rfl
  | .iface _, hi, _, _ => by simp [inheritable] at hi
  | .nilPtr, _, _, _ => rfl
  | .ptr w, _, hw, hn => deepValueEqual_refl _ hw hn
  | .nilMap, hi, _, _ => by simp [inheritable] at hi
  | .map m, _, hw, hn => by
    have hw2 := hw
    simp only [wellFormed, Bool.and_eq_true, decide_eq_true_eq] at hw2
    rw [inheritedFromZero, foldl_mapSet_append m [] (by simpa using hw2.1)]
    exact deepValueEqual_refl _ hw hn
  | .nilSlice, _, _, _ => rfl
  | .slice xs, hi, hw, hn => by
    cases xs with
    | nil => simp [inheritable] at hi
    | cons x xs =>
      rw [inheritedFromZero, foldl_sliceAppend_nil]
      exact deepValueEqual_refl _ hw hn
  | .struct n fs, hi, hw, hn => by
    rw [inheritedFromZero]
    by_cases ht : (n == timeString) = true
    · rw [if_pos ht]
      exact deepValueEqual_refl _ hw hn
    · rw [if_neg ht]
      simp only [inheritable, ht, Bool.false_or] at hi
      simp only [wellFormed, Bool.and_eq_true, decide_eq_true_eq] at hw
      simp only [noNaNFunc] at hn
      show (n == n && deepFieldsEqual (inheritedFieldsFromZero fs) fs) = true
      rw [inheritedFieldsFromZero_deepEqual fs hi hw.2 hn]
      simp
theorem inheritedFieldsFromZero_deepEqual :
    ∀ (fs : Fields), inheritableFields fs = true → wellFormedFields fs = true →
      noNaNFuncFields fs = true → deepFieldsEqual (inheritedFieldsFromZero fs) fs = true
  | [], _, _, _ => rfl
  | (f, v) :: rest, hi, hw, hn => by
    simp only [inheritableFields, Bool.and_eq_true] at hi
    simp only [wellFormedFields, Bool.and_eq_true] at hw
    simp only [noNaNFuncFields, Bool.and_eq_true] at hn
    rw [inheritedFieldsFromZero, hi.1.1]
    show (f == f && deepValueEqual (inheritedFromZero v) v
      && deepFieldsEqual (inheritedFieldsFromZero rest) rest) = true
    rw [inheritedFromZero_deepEqual v hi.1.2 hw.1 hn.1,
      inheritedFieldsFromZero_deepEqual rest hi.2 hw.2 hn.2]
    simp
end

theorem inheritedFieldsFromZero_get :
    ∀ (fs : Fields) (i : Nat) (f : StructField) (v : Value), fs[i]? = some (f, v) →
      (inheritedFieldsFromZero fs)[i]?
        = some (f, if f.exported then inheritedFromZero v else zeroValue v)
  | [], i, f, v, h => by simp at h
  | (g, w) :: rest, 0, f, v, h => by
    simp only [List.getElem?_cons_zero, Option.some.injEq, Prod.mk.injEq] at h
    obtain ⟨rfl, rfl⟩ := h
    rw [inheritedFieldsFromZero, List.getElem?_cons_zero]
  | (g, w) :: rest, i + 1, f, v, h => by
    simp only [List.getElem?_cons_succ] at h
    rw [inheritedFieldsFromZero, List.getElem?_cons_succ]
    exact inheritedFieldsFromZero_get rest i f v h

/-- C7, as stated, fails: the ancestor nilMapRecord has a map field that is nil;
Inherit on the zero-valued record of the same shape allocates the map of output ("if
the map pointer is nil, create it"), and the empty map it leaves is not deeply equal to
the nil map of the ancestor. -/
theorem Inherit_zero_nil_map :
    Inherit (.any (some (.ptr (zeroValue nilMapRecord)))) [.any (some (.ptr nilMapRecord))]
        = .ok (.any (some (.ptr (.struct "S" [(⟨"M", [("api", "m")], ""⟩, .map [])]))))
      ∧ deepValueEqual (.map []) .nilMap = false
      ∧ deepValueEqual (.struct "S" [(⟨"M", [("api", "m")], ""⟩, .map [])]) nilMapRecord
        = false :=
  ⟨rfl, rfl, rfl⟩

/-- C7 (amended): for every well-formed ancestor record A without array fields (a
struct, passed by value or through a pointer), Inherit applied to the zero-valued record
of the same shape with the ancestor list [A] returns without error, and in the record it
leaves every exported field is deeply equal to the field of A provided the value in A
holds no NaN and no function and is inheritable: a number, a string, a pointer, a
timestamp, a map that is not nil, a slice that is nil or not empty, or a nested record
made of exported fields of these sorts (a boolean, an interface, a function or a channel
only with its zero value). A map that is nil in A is an empty map, not nil, in the
result, and a slice that is empty and not nil in A is a nil slice in the result. -/
theorem Inherit_zero_record (a : Arg) (n : String) (fs : Fields)
    (ha : unpackAncestor a = some (.struct n fs))
    (hw : wellFormed (.struct n fs) = true) :
    ∃ fs1, Inherit (.any (some (.ptr (zeroValue (.struct n fs))))) [a]
        = .ok (.any (some (.ptr (.struct n fs1))))
      ∧ (∀ (i : Nat) (f : StructField) (v : Value), fs[i]? = some (f, v) →
          f.exported = true → inheritable v = true → noNaNFunc v = true →
          ∃ v1, fs1[i]? = some (f, v1) ∧ deepValueEqual v1 v = true)
      ∧ (∀ (i : Nat) (f : StructField), fs[i]? = some (f, Value.nilMap) → f.exported = true →
          fs1[i]? = some (f, Value.map []))
      ∧ (∀ (i : Nat) (f : StructField), fs[i]? = some (f, Value.slice []) →
          f.exported = true → fs1[i]? = some (f, Value.nilSlice)) := by
  have hw2 := hw
  simp only [wellFormed, Bool.and_eq_true, decide_eq_true_eq] at hw2
  have hloop := inheritFields_zero (some (.struct n fs)) fs hw2.2
    (fun g w hm => ancestorField_of_mem n fs g w hw2.1 hm)
  refine ⟨inheritedFieldsFromZero fs, ?_, ?_, ?_, ?_⟩
  · simp only [Inherit, InheritWithTag, List.length_singleton, zeroValue, List.map_cons,
      List.map_nil, ha, hloop]
    rfl
  · intro i f v hget hf hi hn
    refine ⟨inheritedFromZero v, ?_, ?_⟩
    · rw [inheritedFieldsFromZero_get fs i f v hget, hf]
      rfl
    · exact inheritedFromZero_deepEqual v hi (wellFormed_of_mem fs f v hw2.2
        (List.getElem?_mem hget)) hn
  · intro i f hget hf
    rw [inheritedFieldsFromZero_get fs i f .nilMap hget, hf]
    rfl
  · intro i f hget hf
    rw [inheritedFieldsFromZero_get fs i f (.slice []) hget, hf]
    rfl

/-- Witness of C7 (amended) on the record `parent` of TestInherit: the zero-valued child
inherits IntVal 12 and the nested record with its map. -/
theorem Inherit_zero_record_witness :
    ∃ fs1, Inherit (.any (some (.ptr (zeroValue inheritParent)))) [.any (some (.ptr inheritParent))]
        = .ok (.any (some (.ptr (.struct "SampleStruct" fs1))))
      ∧ (∃ v1, fs1[3]? = some (⟨"IntVal", [("api", "intVal")], ""⟩, v1)
          ∧ deepValueEqual v1 (.int 12) = true)
      ∧ (∃ v1, fs1[6]? = some (⟨"SubstructVal", [("api", ",inline"), ("inherit", "dynamic")], ""⟩,
            v1)
          ∧ deepValueEqual v1 (sampleSubstruct (.map [("key1", .str "val1")]) .nilSlice)
            = true) := by
  obtain ⟨fs1, h1, h2, _⟩ := Inherit_zero_record (.any (some (.ptr inheritParent)))
    "SampleStruct" (structFields (some inheritParent)).get! rfl (by decide)
  exact ⟨fs1, h1,
    h2 3 ⟨"IntVal", [("api", "intVal")], ""⟩ (.int 12) rfl (by decide) (by decide) (by decide),
    h2 6 ⟨"SubstructVal", [("api", ",inline"), ("inherit", "dynamic")], ""⟩
      (sampleSubstruct (.map [("key1", .str "val1")]) .nilSlice) rfl (by decide) (by decide)
      (by decide)⟩

/-! ## Idempotence of Overwrite with one ancestor -/

theorem foldl_mapSet_frame {β : Type} (k : String) :
    ∀ (m acc : List (String × β)), k ∉ m.map (fun kv => kv.1) →
      List.lookup k (m.foldl (fun acc kv => mapSet acc kv.1 kv.2) acc) = List.lookup k acc
  | [], acc, _ => rfl
  | (k0, v0) :: rest, acc, h => by
    simp only [List.map_cons, List.mem_cons, not_or] at h
    rw [List.foldl_cons, foldl_mapSet_frame k rest _ h.2]
    exact lookup_mapSet_ne acc k0 k v0 (fun e => h.1 e.symm)

theorem foldl_mapSet_lookup {β : Type} :
    ∀ (m acc : List (String × β)) (k : String) (v : β), (m.map (fun kv => kv.1)).Nodup →
      (k, v) ∈ m →
      List.lookup k (m.foldl (fun acc kv => mapSet acc kv.1 kv.2) acc) = some v
  | [], _, _, _, _, hm => by simp at hm
  | (k0, v0) :: rest, acc, k, v, hn, hm => by
    simp only [List.map_cons, List.nodup_cons] at hn
    rw [List.foldl_cons]
    rcases List.mem_cons.mp hm with h | h
    · cases h
      rw [foldl_mapSet_frame k0 rest _ hn.1]
      exact lookup_mapSet_self acc k0 v0
    · exact foldl_mapSet_lookup rest _ k v hn.2 h

theorem foldl_mapSet_fixed {β : Type} (target : List (String × β)) :
    ∀ (m : List (String × β)), (∀ k v, (k, v) ∈ m → List.lookup k target = some v) →
      m.foldl (fun acc kv => mapSet acc kv.1 kv.2) target = target
  | [], _ => rfl
  | (k0, v0) :: rest, h => by
    rw [List.foldl_cons, mapSet_of_lookup target k0 v0 (h k0 v0 (List.mem_cons_self _ _))]
    exact foldl_mapSet_fixed target rest (fun k v hm => h k v (List.mem_cons_of_mem _ hm))

/-- Copying the entries of a map with distinct keys a second time changes nothing. -/
theorem foldl_mapSet_idem {β : Type} (m acc : List (String × β))
    (hn : (m.map (fun kv => kv.1)).Nodup) :
    m.foldl (fun acc kv => mapSet acc kv.1 kv.2)
        (m.foldl (fun acc kv => mapSet acc kv.1 kv.2) acc)
      = m.foldl (fun acc kv => mapSet acc kv.1 kv.2) acc :=
  foldl_mapSet_fixed _ m (fun k v hm => foldl_mapSet_lookup m acc k v hn hm)

theorem mapAncestorsLoop_idem (name : String) (a : Option Value) (w : Value)
    (ha : ancestorField a name = some (some w)) (hw : wellFormed w = true)
    (m m1 : List (String × Value))
    (h : mapAncestorsLoop name [a] m = some m1) : mapAncestorsLoop name [a] m1 = some m1 := by
  cases w with
  | map am =>
    simp only [wellFormed, Bool.and_eq_true, decide_eq_true_eq] at hw
    simp only [mapAncestorsLoop, ha, Option.some.injEq] at h ⊢
    rw [← h]
    exact foldl_mapSet_idem am m hw.1
  | _ =>
    simp only [mapAncestorsLoop, ha, Option.some.injEq] at h ⊢

theorem sameShape_kind (v w : Value) (h : sameShape v w = true) : v.Kind = w.Kind := by
  cases v <;> cases w <;> simp_all [sameShape, Value.Kind]

theorem sameShapeFields_mem :
    ∀ (ofs afs : Fields), sameShapeFields ofs afs = true →
      ∀ f v, (f, v) ∈ ofs → ∃ w, (f, w) ∈ afs ∧ sameShape v w = true
  | [], _, _, _, _, hm => by simp at hm
  | (g, x) :: rest, [], h, _, _, _ => by simp [sameShapeFields] at h
  | (g, x) :: rest, (g2, y) :: others, h, f, v, hm => by
    simp only [sameShapeFields, Bool.and_eq_true, beq_iff_eq] at h
    obtain ⟨⟨hg, hxy⟩, hrest⟩ := h
    rcases List.mem_cons.mp hm with e | e
    · cases e
      exact ⟨y, by rw [hg]; exact List.mem_cons_self _ _, hxy⟩
    · obtain ⟨w, hw1, hw2⟩ := sameShapeFields_mem rest others hrest f v e
      exact ⟨w, List.mem_cons_of_mem _ hw1, hw2⟩

/-- In records of the same shape every field of the output has its counterpart in the
well-formed ancestor, found by name. -/
theorem counterpart_of_sameShape (m : String) (ofs afs : Fields)
    (hs : sameShapeFields ofs afs = true) (hw : wellFormed (.struct m afs) = true) :
    ∀ f v, (f, v) ∈ ofs → ∃ w, ancestorField (some (.struct m afs)) f.Name = some (some w)
      ∧ sameShape v w = true ∧ wellFormed w = true := by
  intro f v hm
  simp only [wellFormed, Bool.and_eq_true, decide_eq_true_eq] at hw
  obtain ⟨w, hw1, hw2⟩ := sameShapeFields_mem ofs afs hs f v hm
  exact ⟨w, ancestorField_of_mem m afs f w hw.1 hw1, hw2, wellFormed_of_mem afs f w hw.2 hw1⟩

theorem inheritScalar_idem (tagName : String) (a : Option Value) (f : StructField)
    (v w v1 : Value)
    (ha : ancestorField a f.Name = some (some w)) (hk : v.Kind = w.Kind)
    (hw : wellFormed w = true) (hns : noSliceField v = true)
    (h : inheritScalar tagName [a] f v = some v1) :
    inheritScalar tagName [a] f v1 = some v1 ∧ v1.Kind = v.Kind := by
  cases v with
  | bool b =>
    cases w <;> simp [Value.Kind] at hk
    rename_i c
    simp only [inheritScalar, boolAncestorsLoop, ha] at h
    cases hflag : inheritBoolFlag tagName f <;> cases b <;> cases c <;>
      cases hand : (boolStrategyOf tagName f == "and") <;>
      cases hor : (boolStrategyOf tagName f == "or") <;>
      simp [hflag, hand, hor] at h <;> subst h <;>
      simp [inheritScalar, boolAncestorsLoop, ha, hflag, hand, hor, Value.Kind]
  | int x =>
    cases w <;> simp [Value.Kind] at hk
    rename_i y
    simp only [inheritScalar, intAncestorsLoop, ha, reflectIndirect] at h
    by_cases hx : x = 0 <;> by_cases hy : y = 0 <;>
      simp [hx, hy, setIfFound] at h <;> subst h <;>
      simp [inheritScalar, intAncestorsLoop, ha, reflectIndirect, hx, hy, setIfFound, Value.Kind]
  | uint x =>
    cases w <;> simp [Value.Kind] at hk
    rename_i y
    simp only [inheritScalar, uintAncestorsLoop, ha] at h
    by_cases hx : x = 0 <;> by_cases hy : y = 0 <;>
      simp [hx, hy, setIfFound] at h <;> subst h <;>
      simp [inheritScalar, uintAncestorsLoop, ha, hx, hy, setIfFound, Value.Kind]
  | float x =>
    cases w <;> simp [Value.Kind] at hk
    rename_i y
    simp only [inheritScalar, floatAncestorsLoop, ha] at h
    cases hx : f64IsZero x <;> cases hy : f64IsZero y <;>
      simp [hx, hy, setIfFound] at h <;> subst h <;>
      simp [inheritScalar, floatAncestorsLoop, ha, hx, hy, setIfFound, Value.Kind]
  | complex re im =>
    cases w <;> simp [Value.Kind] at hk
    rename_i re2 im2
    simp only [inheritScalar, complexAncestorsLoop, ha] at h
    cases hx : (f64IsZero re && f64IsZero im) <;> cases hy : (f64IsZero re2 && f64IsZero im2) <;>
      simp only [hx, hy, setIfFound, Bool.false_eq_true, ↓reduceIte, Bool.not_true,
        Bool.not_false, Option.some.injEq] at h <;> subst h <;>
      simp only [inheritScalar, complexAncestorsLoop, ha, hx, hy, setIfFound,
        Bool.false_eq_true, ↓reduceIte, Bool.not_true, Bool.not_false, Value.Kind, and_self]
  | str x =>
    cases w <;> simp [Value.Kind] at hk
    rename_i y
    simp only [inheritScalar, stringAncestorsLoop, ha] at h
    have hs : (decide (y.length > 0)) = !(y == "") := string_length_pos y
    cases hx : (x == "") <;> cases hy : (y == "") <;>
      simp only [hy, Bool.not_true, Bool.not_false, decide_eq_false_iff_not,
        decide_eq_true_eq] at hs <;>
      simp only [hx, hs, setIfFound, Bool.false_eq_true, ↓reduceIte, Option.some.injEq] at h <;>
      subst h <;>
      simp only [inheritScalar, stringAncestorsLoop, ha, hx, hy, hs, setIfFound,
        Bool.false_eq_true, ↓reduceIte, Value.Kind, and_self]
  | func x =>
    simp only [inheritScalar, Option.some.injEq] at h
    subst h
    exact ⟨rfl, rfl⟩
  | chan x =>
    simp only [inheritScalar, Option.some.injEq] at h
    subst h
    exact ⟨rfl, rfl⟩
  | nilIface =>
    simp only [inheritScalar, Option.some.injEq] at h
    subst h
    exact ⟨rfl, rfl⟩
  | iface x =>
    simp only [inheritScalar, Option.some.injEq] at h
    subst h
    exact ⟨rfl, rfl⟩
  | nilPtr =>
    cases w <;> simp [Value.Kind] at hk <;>
      simp only [inheritScalar, pointerAncestorsLoop, ha, setIfFound, Option.some.injEq] at h <;>
      subst h <;>
      simp only [inheritScalar, pointerAncestorsLoop, ha, setIfFound, Value.Kind, and_self]
  | ptr x =>
    simp only [inheritScalar, Option.some.injEq] at h
    subst h
    exact ⟨rfl, rfl⟩
  | nilMap =>
    simp only [inheritScalar, Option.map_eq_some'] at h
    obtain ⟨m1, hm1, rfl⟩ := h
    simp only [inheritScalar, mapAncestorsLoop_idem f.Name a w ha hw [] m1 hm1, Option.map_some',
      Value.Kind, and_self]
  | map m =>
    simp only [inheritScalar, Option.map_eq_some'] at h
    obtain ⟨m1, hm1, rfl⟩ := h
    simp only [inheritScalar, mapAncestorsLoop_idem f.Name a w ha hw m m1 hm1, Option.map_some',
      Value.Kind, and_self]
  | nilSlice => simp [noSliceField] at hns
  | slice xs => simp [noSliceField] at hns
  | struct n fs =>
    simp only [inheritScalar, Option.some.injEq] at h
    subst h
    exact ⟨rfl, rfl⟩

theorem sameShape_struct (n : String) (ofs : Fields) (w : Value)
    (h : sameShape (.struct n ofs) w = true) :
    ∃ afs, w = .struct n afs ∧ sameShapeFields ofs afs = true := by
  cases w <;> simp [sameShape] at h
  obtain ⟨rfl, h2⟩ := h
  exact ⟨_, rfl, h2⟩

theorem inheritField_of_kind (tagName : String) (avals : List (Option Value))
    (f : StructField) (v : Value) (hk : v.Kind ≠ Kind.Struct) :
    inheritField true tagName avals f v =
      if (f.exported && tagMatch tagName f) = true then inheritScalar tagName avals f v
      else some v := by
  cases v <;> simp [Value.Kind] at hk <;> simp [inheritField]

/-- Idempotence of one field of Inherit when the field is no struct. -/
theorem inheritField_idem_scalar (tagName : String) (a : Option Value) (f : StructField)
    (v w v1 : Value) (hk : v.Kind ≠ Kind.Struct)
    (ha : ancestorField a f.Name = some (some w)) (hs : sameShape v w = true)
    (hw : wellFormed w = true) (hns : noSliceField v = true)
    (h : inheritField true tagName [a] f v = some v1) :
    inheritField true tagName [a] f v1 = some v1 := by
  rw [inheritField_of_kind tagName [a] f v hk] at h
  cases hp : (f.exported && tagMatch tagName f) with
  | false =>
    simp only [hp, Bool.false_eq_true, ↓reduceIte, Option.some.injEq] at h
    subst h
    rw [inheritField_of_kind tagName [a] f v hk]
    simp [hp]
  | true =>
    simp only [hp, ↓reduceIte] at h
    obtain ⟨h2, h3⟩ := inheritScalar_idem tagName a f v w v1 ha (sameShape_kind v w hs) hw hns h
    rw [inheritField_of_kind tagName [a] f v1 (by rw [h3]; exact hk)]
    simp only [hp, ↓reduceIte]
    exact h2

mutual
theorem inheritField_idem (tagName : String) (a : Option Value) (f : StructField) :
    ∀ (v w v1 : Value), ancestorField a f.Name = some (some w) → sameShape v w = true →
      wellFormed w = true → noSliceField v = true →
      inheritField true tagName [a] f v = some v1 →
      inheritField true tagName [a] f v1 = some v1
  | .struct n ofs, w, v1, ha, hs, hw, hns, h => by
    obtain ⟨afs, rfl, hsf⟩ := sameShape_struct n ofs w hs
    cases hp : (f.exported && tagMatch tagName f) with
    | false =>
      simp only [inheritField, Bool.true_and, hp, Bool.false_eq_true, ↓reduceIte,
        Option.some.injEq] at h
      subst h
      simp only [inheritField, Bool.true_and, hp, Bool.false_eq_true, ↓reduceIte]
    | true =>
      simp only [inheritField, Bool.true_and, hp, ↓reduceIte] at h
      by_cases ht : (n == timeString) = true
      · simp only [ht, ↓reduceIte, timeAncestorsLoop, ha, setIfFound, Option.some.injEq] at h
        subst h
        simp only [inheritField, Bool.true_and, hp, ↓reduceIte, ht, timeAncestorsLoop, ha,
          setIfFound]
      · simp only [ht, Bool.false_eq_true, ↓reduceIte, structAncestors, ha, kindOf,
          Value.Kind] at h
        cases h1 : inheritFields true tagName [some (.struct n afs)] ofs with
        | none => simp [h1] at h
        | some ofs1 =>
          rw [h1] at h
          simp only [Option.some.injEq] at h
          subst h
          simp only [noSliceField] at hns
          have h2 := inheritFields_idem tagName (some (.struct n afs)) ofs ofs1
            (counterpart_of_sameShape n ofs afs hsf hw) hns h1
          simp only [inheritField, Bool.true_and, hp, ↓reduceIte, ht, Bool.false_eq_true,
            structAncestors, ha, kindOf, Value.Kind, h2]
  | .bool _, w, v1, ha, hs, hw, hns, h | .int _, w, v1, ha, hs, hw, hns, h
  | .uint _, w, v1, ha, hs, hw, hns, h | .float _, w, v1, ha, hs, hw, hns, h
  | .complex _ _, w, v1, ha, hs, hw, hns, h | .str _, w, v1, ha, hs, hw, hns, h
  | .func _, w, v1, ha, hs, hw, hns, h | .chan _, w, v1, ha, hs, hw, hns, h
  | .nilIface, w, v1, ha, hs, hw, hns, h | .iface _, w, v1, ha, hs, hw, hns, h
  | .nilPtr, w, v1, ha, hs, hw, hns, h | .ptr _, w, v1, ha, hs, hw, hns, h
  | .nilMap, w, v1, ha, hs, hw, hns, h | .map _, w, v1, ha, hs, hw, hns, h
  | .nilSlice, w, v1, ha, hs, hw, hns, h | .slice _, w, v1, ha, hs, hw, hns, h =>
    inheritField_idem_scalar tagName a f _ w v1 (by simp [Value.Kind]) ha hs hw hns h
theorem inheritFields_idem (tagName : String) (a : Option Value) :
    ∀ (rest rest1 : Fields),
      (∀ f v, (f, v) ∈ rest → ∃ w, ancestorField a f.Name = some (some w)
        ∧ sameShape v w = true ∧ wellFormed w = true) →
      noSliceFields rest = true →
      inheritFields true tagName [a] rest = some rest1 →
      inheritFields true tagName [a] rest1 = some rest1
  | [], rest1, _, _, h => by
    rw [inheritFields] at h
    cases h
    rfl
  | (f, v) :: rest, rest1, hc, hns, h => by
    simp only [noSliceFields, Bool.and_eq_true] at hns
    rw [inheritFields] at h
    cases h1 : inheritField true tagName [a] f v with
    | none => simp [h1] at h
    | some v1 =>
      rw [h1] at h
      simp only [] at h
      cases h2 : inheritFields true tagName [a] rest with
      | none => simp [h2] at h
      | some rest2 =>
        rw [h2] at h
        simp only [Option.some.injEq] at h
        subst h
        obtain ⟨w, hw1, hw2, hw3⟩ := hc f v (List.mem_cons_self _ _)
        rw [inheritFields, inheritField_idem tagName a f v w v1 hw1 hw2 hw3 hns.1 h1,
          inheritFields_idem tagName a rest rest2
            (fun g x hm => hc g x (List.mem_cons_of_mem _ hm)) hns.2 h2]
end

/-- Idempotence of one field of Overwrite with one ancestor. -/
theorem overwriteField_idem (tagName : String) (a : Option Value) (f : StructField)
    (v w v1 : Value)
    (ha : ancestorField a f.Name = some (some w)) (hs : sameShape v w = true)
    (hw : wellFormed w = true) (hns : noSliceField v = true)
    (h : overwriteField true tagName [a] f v = some v1) :
    overwriteField true tagName [a] f v1 = some v1 := by
  cases hp : (f.exported && tagMatch tagName f) with
  | false =>
    simp only [overwriteField, Bool.true_and, hp, Bool.false_eq_true, ↓reduceIte,
      Option.some.injEq] at h
    subst h
    simp only [overwriteField, Bool.true_and, hp, Bool.false_eq_true, ↓reduceIte]
  | true =>
    have hk := sameShape_kind v w hs
    cases v with
    | bool b =>
      simp only [overwriteField, Bool.true_and, hp, ↓reduceIte, Bool.false_eq_true,
        Option.some.injEq] at h
      subst h
      simp only [overwriteField, Bool.true_and, hp, ↓reduceIte, Bool.false_eq_true]
    | int x =>
      cases w <;> simp [Value.Kind] at hk
      simp only [overwriteField, Bool.true_and, hp, ↓reduceIte, overwriteIntLoop, ha,
        reflectIndirect, setIfFound, Option.some.injEq] at h
      subst h
      simp only [overwriteField, Bool.true_and, hp, ↓reduceIte, overwriteIntLoop, ha,
        reflectIndirect, setIfFound]
    | uint x =>
      cases w <;> simp [Value.Kind] at hk
      rename_i y
      simp only [overwriteField, Bool.true_and, hp, ↓reduceIte, uintAncestorsLoop, ha] at h
      by_cases hy : y = 0 <;>
        simp [hy, setIfFound] at h <;> subst h <;>
        simp [overwriteField, hp, uintAncestorsLoop, ha, hy, setIfFound]
    | float x =>
      cases w <;> simp [Value.Kind] at hk
      rename_i y
      simp only [overwriteField, Bool.true_and, hp, ↓reduceIte, floatAncestorsLoop, ha] at h
      cases hy : f64IsZero y <;>
        simp [hy, setIfFound] at h <;> subst h <;>
        simp [overwriteField, hp, floatAncestorsLoop, ha, hy, setIfFound]
    | complex re im =>
      cases w <;> simp [Value.Kind] at hk
      rename_i re2 im2
      simp only [overwriteField, Bool.true_and, hp, ↓reduceIte, complexAncestorsLoop, ha] at h
      cases hy : (f64IsZero re2 && f64IsZero im2) <;>
        simp only [hy, setIfFound, Bool.false_eq_true, ↓reduceIte, Bool.not_true,
          Bool.not_false, Option.some.injEq] at h <;> subst h <;>
        simp only [overwriteField, Bool.true_and, hp, complexAncestorsLoop, ha, hy, setIfFound,
          Bool.false_eq_true, ↓reduceIte, Bool.not_true, Bool.not_false]
    | str x =>
      cases w <;> simp [Value.Kind] at hk
      rename_i y
      simp only [overwriteField, Bool.true_and, hp, ↓reduceIte, stringAncestorsLoop, ha] at h
      have hsl : (decide (y.length > 0)) = !(y == "") := string_length_pos y
      cases hy : (y == "") <;>
        simp only [hy, Bool.not_true, Bool.not_false, decide_eq_false_iff_not,
          decide_eq_true_eq] at hsl <;>
        simp only [hsl, setIfFound, ↓reduceIte, Option.some.injEq] at h <;>
        subst h <;>
        simp only [overwriteField, Bool.true_and, hp, stringAncestorsLoop, ha, hsl, setIfFound,
          ↓reduceIte]
    | func x =>
      simp only [overwriteField, Bool.true_and, hp, ↓reduceIte, Option.some.injEq] at h
      subst h
      simp only [overwriteField, Bool.true_and, hp, ↓reduceIte]
    | chan x =>
      simp only [overwriteField, Bool.true_and, hp, ↓reduceIte, Option.some.injEq] at h
      subst h
      simp only [overwriteField, Bool.true_and, hp, ↓reduceIte]
    | nilIface =>
      simp only [overwriteField, Bool.true_and, hp, ↓reduceIte, Option.some.injEq] at h
      subst h
      simp only [overwriteField, Bool.true_and, hp, ↓reduceIte]
    | iface x =>
      simp only [overwriteField, Bool.true_and, hp, ↓reduceIte, Option.some.injEq] at h
      subst h
      simp only [overwriteField, Bool.true_and, hp, ↓reduceIte]
    | nilPtr =>
      cases w <;> simp [Value.Kind] at hk <;>
        simp only [overwriteField, Bool.true_and, hp, ↓reduceIte, pointerAncestorsLoop, ha,
          setIfFound, Option.some.injEq] at h <;>
        subst h <;>
        simp only [overwriteField, Bool.true_and, hp, ↓reduceIte, pointerAncestorsLoop, ha,
          setIfFound]
    | ptr x =>
      cases w <;> simp [Value.Kind] at hk <;>
        simp only [overwriteField, Bool.true_and, hp, ↓reduceIte, pointerAncestorsLoop, ha,
          setIfFound, Option.some.injEq] at h <;>
        subst h <;>
        simp only [overwriteField, Bool.true_and, hp, ↓reduceIte, pointerAncestorsLoop, ha,
          setIfFound]
    | nilMap =>
      simp only [overwriteField, Bool.true_and, hp, ↓reduceIte, Option.map_eq_some'] at h
      obtain ⟨m1, hm1, rfl⟩ := h
      simp only [overwriteField, Bool.true_and, hp, ↓reduceIte,
        mapAncestorsLoop_idem f.Name a w ha hw [] m1 hm1, Option.map_some']
    | map m =>
      simp only [overwriteField, Bool.true_and, hp, ↓reduceIte, Option.map_eq_some'] at h
      obtain ⟨m1, hm1, rfl⟩ := h
      simp only [overwriteField, Bool.true_and, hp, ↓reduceIte,
        mapAncestorsLoop_idem f.Name a w ha hw m m1 hm1, Option.map_some']
    | nilSlice => simp [noSliceField] at hns
    | slice xs => simp [noSliceField] at hns
    | struct n ofs =>
      obtain ⟨afs, rfl, hsf⟩ := sameShape_struct n ofs w hs
      simp only [overwriteField, Bool.true_and, hp, ↓reduceIte] at h
      by_cases ht : (n == "Time") = true
      · simp only [ht, ↓reduceIte, timeAncestorsLoop, ha, setIfFound, Option.some.injEq] at h
        subst h
        simp only [overwriteField, Bool.true_and, hp, ↓reduceIte, ht, timeAncestorsLoop, ha,
          setIfFound]
      · simp only [ht, Bool.false_eq_true, ↓reduceIte, structAncestors, ha, kindOf,
          Value.Kind] at h
        cases h1 : inheritFields true tagName [some (.struct n afs)] ofs with
        | none => simp [h1] at h
        | some ofs1 =>
          rw [h1] at h
          simp only [Option.some.injEq] at h
          subst h
          simp only [noSliceField] at hns
          have h2 := inheritFields_idem tagName (some (.struct n afs)) ofs ofs1
            (counterpart_of_sameShape n ofs afs hsf hw) hns h1
          simp only [overwriteField, Bool.true_and, hp, ↓reduceIte, ht, Bool.false_eq_true,
            structAncestors, ha, kindOf, Value.Kind, h2]

theorem overwriteFields_idem (tagName : String) (a : Option Value) :
    ∀ (rest rest1 : Fields),
      (∀ f v, (f, v) ∈ rest → ∃ w, ancestorField a f.Name = some (some w)
        ∧ sameShape v w = true ∧ wellFormed w = true) →
      noSliceFields rest = true →
      overwriteFields true tagName [a] rest = some rest1 →
      overwriteFields true tagName [a] rest1 = some rest1
  | [], rest1, _, _, h => by
    rw [overwriteFields] at h
    cases h
    rfl
  | (f, v) :: rest, rest1, hc, hns, h => by
    simp only [noSliceFields, Bool.and_eq_true] at hns
    rw [overwriteFields] at h
    cases h1 : overwriteField true tagName [a] f v with
    | none => simp [h1] at h
    | some v1 =>
      rw [h1] at h
      simp only [] at h
      cases h2 : overwriteFields true tagName [a] rest with
      | none => simp [h2] at h
      | some rest2 =>
        rw [h2] at h
        simp only [Option.some.injEq] at h
        subst h
        obtain ⟨w, hw1, hw2, hw3⟩ := hc f v (List.mem_cons_self _ _)
        rw [overwriteFields, overwriteField_idem tagName a f v w v1 hw1 hw2 hw3 hns.1 h1,
          overwriteFields_idem tagName a rest rest2
            (fun g x hm => hc g x (List.mem_cons_of_mem _ hm)) hns.2 h2]

/-- Let R be a record without a slice field at any depth, passed by pointer, and A a
well-formed ancestor record of the same shape. If OverwriteWithTag (Overwrite is the call
with the empty tag) with the ancestor list [A] returns without error, then applying it
again, with the same list, to the record it left returns without error and leaves that
very record: the second application changes nothing. -/
theorem OverwriteWithTag_twice_same (R A : Value) (a : Arg) (tagName : String) (out1 : Arg)
    (ha : unpackAncestor a = some A)
    (hshape : sameShape R A = true) (hwf : wellFormed A = true)
    (hns : noSliceField R = true)
    (h : OverwriteWithTag (.any (some (.ptr R))) [a] tagName = .ok out1) :
    OverwriteWithTag out1 [a] tagName = .ok out1 := by
  cases R with
  | struct n fs =>
    obtain ⟨afs, rfl, hsf⟩ := sameShape_struct n fs A hshape
    simp only [OverwriteWithTag, List.length_singleton, List.map_cons, List.map_nil, ha] at h
    have h0 : ((1 : Nat) == 0) = false := rfl
    simp only [h0, Bool.false_eq_true, ↓reduceIte] at h
    cases h1 : overwriteFields true tagName [some (.struct n afs)] fs with
    | none => simp [h1] at h
    | some fs1 =>
      rw [h1] at h
      simp only [Outcome.ok.injEq] at h
      subst h
      simp only [noSliceField] at hns
      have h2 := overwriteFields_idem tagName (some (.struct n afs)) fs fs1
        (counterpart_of_sameShape n fs afs hsf hwf) hns h1
      simp only [OverwriteWithTag, List.length_singleton, List.map_cons, List.map_nil, ha, h0,
        Bool.false_eq_true, ↓reduceIte, h2]
  | _ =>
    simp [OverwriteWithTag] at h

/-! ## Overwrite keeps values that are equal to themselves -/

theorem mapSet_keys {β : Type} (k : String) (v : β) :
    ∀ (m : List (String × β)), (mapSet m k v).map (fun kv => kv.1)
      = if k ∈ m.map (fun kv => kv.1) then m.map (fun kv => kv.1)
        else m.map (fun kv => kv.1) ++ [k]
  | [] => by simp [mapSet]
  | (k0, v0) :: rest => by
    by_cases h : k0 = k
    · subst h
      simp [mapSet]
    · have h2 : ¬ k = k0 := fun e => h e.symm
      simp only [mapSet, h, ↓reduceIte, List.map_cons, mapSet_keys k v rest, List.mem_cons, h2,
        false_or]
      split_ifs <;> simp

theorem mapSet_nodup {β : Type} (m : List (String × β)) (k : String) (v : β)
    (h : (m.map (fun kv => kv.1)).Nodup) : ((mapSet m k v).map (fun kv => kv.1)).Nodup := by
  rw [mapSet_keys]
  split_ifs with hk
  · exact h
  · exact List.Nodup.append h (List.nodup_singleton k)
      (fun a ha hb => hk (List.mem_singleton.mp hb ▸ ha))

theorem mapSet_wellFormedEntries (k : String) (v : Value) (hv : wellFormed v = true) :
    ∀ (m : List (String × Value)), wellFormedEntries m = true →
      wellFormedEntries (mapSet m k v) = true
  | [], _ => by simp [mapSet, wellFormedEntries, hv]
  | (k0, v0) :: rest, h => by
    simp only [wellFormedEntries, Bool.and_eq_true] at h
    by_cases e : k0 = k
    · simp [mapSet, e, wellFormedEntries, hv, h.2]
    · simp [mapSet, e, wellFormedEntries, h.1, mapSet_wellFormedEntries k v hv rest h.2]

theorem mapSet_noNaNFuncEntries (k : String) (v : Value) (hv : noNaNFunc v = true) :
    ∀ (m : List (String × Value)), noNaNFuncEntries m = true →
      noNaNFuncEntries (mapSet m k v) = true
  | [], _ => by simp [mapSet, noNaNFuncEntries, hv]
  | (k0, v0) :: rest, h => by
    simp only [noNaNFuncEntries, Bool.and_eq_true] at h
    by_cases e : k0 = k
    · simp [mapSet, e, noNaNFuncEntries, hv, h.2]
    · simp [mapSet, e, noNaNFuncEntries, h.1, mapSet_noNaNFuncEntries k v hv rest h.2]

/-- Copying the entries of a map into another keeps the map well formed and free of NaN
and of functions. -/
theorem foldl_mapSet_selfEqual :
    ∀ (am acc : List (String × Value)), wellFormedEntries am = true →
      noNaNFuncEntries am = true → wellFormed (.map acc) = true → noNaNFunc (.map acc) = true →
      wellFormed (.map (am.foldl (fun acc kv => mapSet acc kv.1 kv.2) acc)) = true
        ∧ noNaNFunc (.map (am.foldl (fun acc kv => mapSet acc kv.1 kv.2) acc)) = true
  | [], _, _, _, hw, hn => ⟨hw, hn⟩
  | (k, v) :: rest, acc, haw, han, hw, hn => by
    simp only [wellFormedEntries, Bool.and_eq_true] at haw
    simp only [noNaNFuncEntries, Bool.and_eq_true] at han
    simp only [wellFormed, Bool.and_eq_true, decide_eq_true_eq] at hw
    simp only [noNaNFunc] at hn
    rw [List.foldl_cons]
    apply foldl_mapSet_selfEqual rest (mapSet acc k v) haw.2 han.2
    · simp only [wellFormed, Bool.and_eq_true, decide_eq_true_eq]
      exact ⟨mapSet_nodup acc k v hw.1, mapSet_wellFormedEntries k v haw.1 acc hw.2⟩
    · simp only [noNaNFunc]
      exact mapSet_noNaNFuncEntries k v han.1 acc hn

theorem mapAncestorsLoop_selfEqual (name : String) (a : Option Value) (w : Value)
    (ha : ancestorField a name = some (some w)) (hw : wellFormed w = true)
    (hn : noNaNFunc w = true) (m : List (String × Value))
    (hmw : wellFormed (.map m) = true) (hmn : noNaNFunc (.map m) = true) :
    ∃ m1, mapAncestorsLoop name [a] m = some m1 ∧ wellFormed (.map m1) = true
      ∧ noNaNFunc (.map m1) = true := by
  cases w with
  | map am =>
    simp only [wellFormed, Bool.and_eq_true, decide_eq_true_eq] at hw
    simp only [noNaNFunc] at hn
    exact ⟨_, by simp only [mapAncestorsLoop, ha], foldl_mapSet_selfEqual am m hw.2 hn hmw hmn⟩
  | _ => exact ⟨m, by simp only [mapAncestorsLoop, ha], hmw, hmn⟩

theorem noNaNFunc_of_mem :
    ∀ (fs : Fields) (f : StructField) (v : Value), noNaNFuncFields fs = true → (f, v) ∈ fs →
      noNaNFunc v = true
  | [], _, _, _, hm => by simp at hm
  | (g, w) :: rest, f, v, hw, hm => by
    simp only [noNaNFuncFields, Bool.and_eq_true] at hw
    rcases List.mem_cons.mp hm with h | h
    · cases h
      exact hw.1
    · exact noNaNFunc_of_mem rest f v hw.2 h

/-- In records of the same shape every field of the output has its counterpart in the
ancestor, found by name, and the counterpart is as well formed and as free of NaN and of
functions as the ancestor. -/
theorem counterpart_selfEqual (m : String) (ofs afs : Fields)
    (hs : sameShapeFields ofs afs = true) (hw : wellFormed (.struct m afs) = true)
    (hn : noNaNFunc (.struct m afs) = true) :
    ∀ f v, (f, v) ∈ ofs → ∃ w, ancestorField (some (.struct m afs)) f.Name = some (some w)
      ∧ sameShape v w = true ∧ wellFormed w = true ∧ noNaNFunc w = true := by
  intro f v hm
  simp only [wellFormed, Bool.and_eq_true, decide_eq_true_eq] at hw
  simp only [noNaNFunc] at hn
  obtain ⟨w, hw1, hw2⟩ := sameShapeFields_mem ofs afs hs f v hm
  exact ⟨w, ancestorField_of_mem m afs f w hw.1 hw1, hw2, wellFormed_of_mem afs f w hw.2 hw1,
    noNaNFunc_of_mem afs f w hn hw1⟩

/-- With one ancestor of the same kind, InheritWithTag returns on a field that is no
struct and no slice, and what it leaves is well formed and free of NaN and of functions
when the field and the ancestor's are. -/
theorem inheritScalar_selfEqual (tagName : String) (a : Option Value) (f : StructField)
    (v w : Value)
    (ha : ancestorField a f.Name = some (some w)) (hk : v.Kind = w.Kind)
    (hw : wellFormed w = true) (hn : noNaNFunc w = true)
    (hvw : wellFormed v = true) (hvn : noNaNFunc v = true)
    (hns : noSliceField v = true) :
    ∃ v1, inheritScalar tagName [a] f v = some v1 ∧ wellFormed v1 = true
      ∧ noNaNFunc v1 = true := by
  cases v with
  | bool b =>
    cases w <;> simp [Value.Kind] at hk
    rename_i c
    cases hflag : inheritBoolFlag tagName f <;> cases b <;> cases c <;>
      cases hand : (boolStrategyOf tagName f == "and") <;>
      cases hor : (boolStrategyOf tagName f == "or") <;>
      simp [inheritScalar, boolAncestorsLoop, ha, hflag, hand, hor, wellFormed, noNaNFunc]
  | int x =>
    cases w <;> simp [Value.Kind] at hk
    rename_i y
    by_cases hx : x = 0 <;> by_cases hy : y = 0 <;>
      simp [inheritScalar, intAncestorsLoop, ha, reflectIndirect, hx, hy, setIfFound,
        wellFormed, noNaNFunc]
  | uint x =>
    cases w <;> simp [Value.Kind] at hk
    rename_i y
    by_cases hx : x = 0 <;> by_cases hy : y = 0 <;>
      simp [inheritScalar, uintAncestorsLoop, ha, hx, hy, setIfFound, wellFormed, noNaNFunc]
  | float x =>
    cases w <;> simp [Value.Kind] at hk
    rename_i y
    cases hx : f64IsZero x <;> cases hy : f64IsZero y <;>
      simp [inheritScalar, floatAncestorsLoop, ha, hx, hy, setIfFound, hw, hn, hvw, hvn]
  | complex re im =>
    cases w <;> simp [Value.Kind] at hk
    rename_i re2 im2
    cases hx : (f64IsZero re && f64IsZero im) <;> cases hy : (f64IsZero re2 && f64IsZero im2) <;>
      simp only [inheritScalar, complexAncestorsLoop, ha, hx, hy, setIfFound,
        Bool.false_eq_true, ↓reduceIte, Bool.not_true, Bool.not_false, Option.some.injEq,
        exists_eq_left', hw, hn, hvw, hvn, and_self]
  | str x =>
    cases w <;> simp [Value.Kind] at hk
    rename_i y
    have hs : (decide (y.length > 0)) = !(y == "") := string_length_pos y
    cases hx : (x == "") <;> cases hy : (y == "") <;>
      simp only [hy, Bool.not_true, Bool.not_false, decide_eq_false_iff_not,
        decide_eq_true_eq] at hs <;>
      simp only [inheritScalar, stringAncestorsLoop, ha, hx, hy, hs, setIfFound,
        Bool.false_eq_true, ↓reduceIte, Option.some.injEq, exists_eq_left', wellFormed,
        noNaNFunc, and_self]
  | func x => exact ⟨_, rfl, hvw, hvn⟩
  | chan x => exact ⟨_, rfl, hvw, hvn⟩
  | nilIface => exact ⟨_, rfl, hvw, hvn⟩
  | iface x => exact ⟨_, rfl, hvw, hvn⟩
  | nilPtr =>
    cases w <;> simp [Value.Kind] at hk <;>
      simp only [inheritScalar, pointerAncestorsLoop, ha, setIfFound, Option.some.injEq,
        exists_eq_left', hw, hn, hvw, hvn, and_self]
  | ptr x => exact ⟨_, rfl, hvw, hvn⟩
  | nilMap =>
    obtain ⟨m1, h1, h2, h3⟩ := mapAncestorsLoop_selfEqual f.Name a w ha hw hn [] rfl rfl
    exact ⟨.map m1, by simp only [inheritScalar, h1, Option.map_some'], h2, h3⟩
  | map m =>
    obtain ⟨m1, h1, h2, h3⟩ := mapAncestorsLoop_selfEqual f.Name a w ha hw hn m hvw hvn
    exact ⟨.map m1, by simp only [inheritScalar, h1, Option.map_some'], h2, h3⟩
  | nilSlice => simp [noSliceField] at hns
  | slice xs => simp [noSliceField] at hns
  | struct n fs => exact ⟨_, rfl, hvw, hvn⟩

mutual
theorem inheritField_selfEqual (tagName : String) (a : Option Value) (f : StructField) :
    ∀ (v w : Value), ancestorField a f.Name = some (some w) → sameShape v w = true →
      wellFormed w = true → noNaNFunc w = true → wellFormed v = true → noNaNFunc v = true →
      noSliceField v = true →
      ∃ v1, inheritField true tagName [a] f v = some v1 ∧ wellFormed v1 = true
        ∧ noNaNFunc v1 = true
  | .struct n ofs, w, ha, hs, hw, hn, hvw, hvn, hns => by
    obtain ⟨afs, rfl, hsf⟩ := sameShape_struct n ofs w hs
    cases hp : (f.exported && tagMatch tagName f) with
    | false =>
      exact ⟨_, by simp only [inheritField, Bool.true_and, hp, Bool.false_eq_true, ↓reduceIte],
        hvw, hvn⟩
    | true =>
      by_cases ht : (n == timeString) = true
      · exact ⟨.struct n afs, by
          simp only [inheritField, Bool.true_and, hp, ↓reduceIte, ht, timeAncestorsLoop, ha,
            setIfFound], hw, hn⟩
      · simp only [noSliceField] at hns
        have hvw2 := hvw
        simp only [wellFormed, Bool.and_eq_true, decide_eq_true_eq] at hvw2
        simp only [noNaNFunc] at hvn
        obtain ⟨ofs1, h1, h2, h3, h4⟩ := inheritFields_selfEqual tagName
          (some (.struct n afs)) ofs (counterpart_selfEqual n ofs afs hsf hw hn) hvw2.2 hvn hns
        refine ⟨.struct n ofs1, ?_, ?_, ?_⟩
        · simp only [inheritField, Bool.true_and, hp, ↓reduceIte, ht, Bool.false_eq_true,
            structAncestors, ha, kindOf, Value.Kind, h1]
        · simp only [wellFormed, Bool.and_eq_true, decide_eq_true_eq]
          exact ⟨by rw [h2]; exact hvw2.1, h3⟩
        · simp only [noNaNFunc]
          exact h4
  | .bool _, w, ha, hs, hw, hn, hvw, hvn, hns | .int _, w, ha, hs, hw, hn, hvw, hvn, hns
  | .uint _, w, ha, hs, hw, hn, hvw, hvn, hns | .float _, w, ha, hs, hw, hn, hvw, hvn, hns
  | .complex _ _, w, ha, hs, hw, hn, hvw, hvn, hns | .str _, w, ha, hs, hw, hn, hvw, hvn, hns
  | .func _, w, ha, hs, hw, hn, hvw, hvn, hns | .chan _, w, ha, hs, hw, hn, hvw, hvn, hns
  | .nilIface, w, ha, hs, hw, hn, hvw, hvn, hns | .iface _, w, ha, hs, hw, hn, hvw, hvn, hns
  | .nilPtr, w, ha, hs, hw, hn, hvw, hvn, hns | .ptr _, w, ha, hs, hw, hn, hvw, hvn, hns
  | .nilMap, w, ha, hs, hw, hn, hvw, hvn, hns | .map _, w, ha, hs, hw, hn, hvw, hvn, hns
  | .nilSlice, w, ha, hs, hw, hn, hvw, hvn, hns | .slice _, w, ha, hs, hw, hn, hvw, hvn, hns => by
    rw [inheritField_of_kind tagName [a] f _ (by simp [Value.Kind])]
    cases hp : (f.exported && tagMatch tagName f) with
    | false => exact ⟨_, by simp, hvw, hvn⟩
    | true =>
      simp only [↓reduceIte]
      exact inheritScalar_selfEqual tagName a f _ w ha (sameShape_kind _ w hs) hw hn hvw hvn hns
theorem inheritFields_selfEqual (tagName : String) (a : Option Value) :
    ∀ (rest : Fields),
      (∀ f v, (f, v) ∈ rest → ∃ w, ancestorField a f.Name = some (some w)
        ∧ sameShape v w = true ∧ wellFormed w = true ∧ noNaNFunc w = true) →
      wellFormedFields rest = true → noNaNFuncFields rest = true →
      noSliceFields rest = true →
      ∃ rest1, inheritFields true tagName [a] rest = some rest1
        ∧ rest1.map (fun fv => fv.1.Name) = rest.map (fun fv => fv.1.Name)
        ∧ wellFormedFields rest1 = true ∧ noNaNFuncFields rest1 = true
  | [], _, _, _, _ => ⟨[], by rw [inheritFields], rfl, rfl, rfl⟩
  | (f, v) :: rest, hc, hw, hn, hns => by
    simp only [noSliceFields, Bool.and_eq_true] at hns
    simp only [wellFormedFields, Bool.and_eq_true] at hw
    simp only [noNaNFuncFields, Bool.and_eq_true] at hn
    obtain ⟨w, hw1, hw2, hw3, hw4⟩ := hc f v (List.mem_cons_self _ _)
    obtain ⟨v1, h1, h2, h3⟩ :=
      inheritField_selfEqual tagName a f v w hw1 hw2 hw3 hw4 hw.1 hn.1 hns.1
    obtain ⟨rest1, r1, r2, r3, r4⟩ := inheritFields_selfEqual tagName a rest
      (fun g x hm => hc g x (List.mem_cons_of_mem _ hm)) hw.2 hn.2 hns.2
    refine ⟨(f, v1) :: rest1, by rw [inheritFields, h1, r1], ?_, ?_, ?_⟩
    · simp only [List.map_cons, r2]
    · simp only [wellFormedFields, h2, r3, Bool.and_self]
    · simp only [noNaNFuncFields, h3, r4, Bool.and_self]
end

/-- With one ancestor of the same shape, OverwriteWithTag returns on a field without a
slice at any depth, and what it leaves is well formed and free of NaN and of functions
when the field and the ancestor's are. -/
theorem overwriteField_selfEqual (tagName : String) (a : Option Value) (f : StructField)
    (v w : Value)
    (ha : ancestorField a f.Name = some (some w)) (hs : sameShape v w = true)
    (hw : wellFormed w = true) (hn : noNaNFunc w = true)
    (hvw : wellFormed v = true) (hvn : noNaNFunc v = true)
    (hns : noSliceField v = true) :
    ∃ v1, overwriteField true tagName [a] f v = some v1 ∧ wellFormed v1 = true
      ∧ noNaNFunc v1 = true := by
  cases hp : (f.exported && tagMatch tagName f) with
  | false =>
    exact ⟨v, by simp only [overwriteField, Bool.true_and, hp, Bool.false_eq_true, ↓reduceIte],
      hvw, hvn⟩
  | true =>
    have hk := sameShape_kind v w hs
    cases v with
    | bool b =>
      exact ⟨_, by simp only [overwriteField, Bool.true_and, hp, ↓reduceIte,
        Bool.false_eq_true], hvw, hvn⟩
    | int x =>
      cases w <;> simp [Value.Kind] at hk
      simp only [overwriteField, Bool.true_and, hp, ↓reduceIte, overwriteIntLoop, ha,
        reflectIndirect, setIfFound, Option.some.injEq, exists_eq_left', hw, hn, and_self]
    | uint x =>
      cases w <;> simp [Value.Kind] at hk
      rename_i y
      by_cases hy : y = 0 <;>
        simp [overwriteField, hp, uintAncestorsLoop, ha, hy, setIfFound, wellFormed, noNaNFunc]
    | float x =>
      cases w <;> simp [Value.Kind] at hk
      rename_i y
      cases hy : f64IsZero y <;>
        simp [overwriteField, hp, floatAncestorsLoop, ha, hy, setIfFound, hw, hn, hvw, hvn]
    | complex re im =>
      cases w <;> simp [Value.Kind] at hk
      rename_i re2 im2
      cases hy : (f64IsZero re2 && f64IsZero im2) <;>
        simp only [overwriteField, Bool.true_and, hp, complexAncestorsLoop, ha, hy, setIfFound,
          Bool.false_eq_true, ↓reduceIte, Bool.not_true, Bool.not_false, Option.some.injEq,
          exists_eq_left', hw, hn, hvw, hvn, and_self]
    | str x =>
      cases w <;> simp [Value.Kind] at hk
      rename_i y
      have hsl : (decide (y.length > 0)) = !(y == "") := string_length_pos y
      cases hy : (y == "") <;>
        simp only [hy, Bool.not_true, Bool.not_false, decide_eq_false_iff_not,
          decide_eq_true_eq] at hsl <;>
        simp only [overwriteField, Bool.true_and, hp, stringAncestorsLoop, ha, hsl, setIfFound,
          ↓reduceIte, Option.some.injEq, exists_eq_left', wellFormed, noNaNFunc, and_self]
    | func x => exact ⟨_, by simp only [overwriteField, Bool.true_and, hp, ↓reduceIte], hvw, hvn⟩
    | chan x => exact ⟨_, by simp only [overwriteField, Bool.true_and, hp, ↓reduceIte], hvw, hvn⟩
    | nilIface =>
      exact ⟨_, by simp only [overwriteField, Bool.true_and, hp, ↓reduceIte], hvw, hvn⟩
    | iface x =>
      exact ⟨_, by simp only [overwriteField, Bool.true_and, hp, ↓reduceIte], hvw, hvn⟩
    | nilPtr =>
      cases w <;> simp [Value.Kind] at hk <;>
        simp only [overwriteField, Bool.true_and, hp, ↓reduceIte, pointerAncestorsLoop, ha,
          setIfFound, Option.some.injEq, exists_eq_left', hw, hn, hvw, hvn, and_self]
    | ptr x =>
      cases w <;> simp [Value.Kind] at hk <;>
        simp only [overwriteField, Bool.true_and, hp, ↓reduceIte, pointerAncestorsLoop, ha,
          setIfFound, Option.some.injEq, exists_eq_left', hw, hn, hvw, hvn, and_self]
    | nilMap =>
      obtain ⟨m1, h1, h2, h3⟩ := mapAncestorsLoop_selfEqual f.Name a w ha hw hn [] rfl rfl
      exact ⟨.map m1, by
        simp only [overwriteField, Bool.true_and, hp, ↓reduceIte, h1, Option.map_some'], h2, h3⟩
    | map m =>
      obtain ⟨m1, h1, h2, h3⟩ := mapAncestorsLoop_selfEqual f.Name a w ha hw hn m hvw hvn
      exact ⟨.map m1, by
        simp only [overwriteField, Bool.true_and, hp, ↓reduceIte, h1, Option.map_some'], h2, h3⟩
    | nilSlice => simp [noSliceField] at hns
    | slice xs => simp [noSliceField] at hns
    | struct n ofs =>
      obtain ⟨afs, rfl, hsf⟩ := sameShape_struct n ofs w hs
      by_cases ht : (n == "Time") = true
      · exact ⟨.struct n afs, by
          simp only [overwriteField, Bool.true_and, hp, ↓reduceIte, ht, timeAncestorsLoop, ha,
            setIfFound], hw, hn⟩
      · simp only [noSliceField] at hns
        have hvw2 := hvw
        simp only [wellFormed, Bool.and_eq_true, decide_eq_true_eq] at hvw2
        simp only [noNaNFunc] at hvn
        obtain ⟨ofs1, h1, h2, h3, h4⟩ := inheritFields_selfEqual tagName
          (some (.struct n afs)) ofs (counterpart_selfEqual n ofs afs hsf hw hn) hvw2.2 hvn hns
        refine ⟨.struct n ofs1, ?_, ?_, ?_⟩
        · simp only [overwriteField, Bool.true_and, hp, ↓reduceIte, ht, Bool.false_eq_true,
            structAncestors, ha, kindOf, Value.Kind, h1]
        · simp only [wellFormed, Bool.and_eq_true, decide_eq_true_eq]
          exact ⟨by rw [h2]; exact hvw2.1, h3⟩
        · simp only [noNaNFunc]
          exact h4

theorem overwriteFields_selfEqual (tagName : String) (a : Option Value) :
    ∀ (rest : Fields),
      (∀ f v, (f, v) ∈ rest → ∃ w, ancestorField a f.Name = some (some w)
        ∧ sameShape v w = true ∧ wellFormed w = true ∧ noNaNFunc w = true) →
      wellFormedFields rest = true → noNaNFuncFields rest = true →
      noSliceFields rest = true →
      ∃ rest1, overwriteFields true tagName [a] rest = some rest1
        ∧ rest1.map (fun fv => fv.1.Name) = rest.map (fun fv => fv.1.Name)
        ∧ wellFormedFields rest1 = true ∧ noNaNFuncFields rest1 = true
  | [], _, _, _, _ => ⟨[], by rw [overwriteFields], rfl, rfl, rfl⟩
  | (f, v) :: rest, hc, hw, hn, hns => by
    simp only [noSliceFields, Bool.and_eq_true] at hns
    simp only [wellFormedFields, Bool.and_eq_true] at hw
    simp only [noNaNFuncFields, Bool.and_eq_true] at hn
    obtain ⟨w, hw1, hw2, hw3, hw4⟩ := hc f v (List.mem_cons_self _ _)
    obtain ⟨v1, h1, h2, h3⟩ :=
      overwriteField_selfEqual tagName a f v w hw1 hw2 hw3 hw4 hw.1 hn.1 hns.1
    obtain ⟨rest1, r1, r2, r3, r4⟩ := overwriteFields_selfEqual tagName a rest
      (fun g x hm => hc g x (List.mem_cons_of_mem _ hm)) hw.2 hn.2 hns.2
    refine ⟨(f, v1) :: rest1, by rw [overwriteFields, h1, r1], ?_, ?_, ?_⟩
    · simp only [List.map_cons, r2]
    · simp only [wellFormedFields, h2, r3, Bool.and_self]
    · simp only [noNaNFuncFields, h3, r4, Bool.and_self]

/-- C10, as stated, fails: the record oneRecord has one float field and no slice field,
the ancestor nanRecord holds a NaN in that field. Overwrite copies the NaN (it is not
zero), the second application leaves the same record, and reflect.DeepEqual does not
find the second result equal to the first, since a NaN is not equal to itself. -/
theorem Overwrite_twice_nan_not_deepEqual :
    noSliceField oneRecord = true
      ∧ Overwrite (.any (some (.ptr oneRecord))) [.any (some (.ptr nanRecord))]
        = .ok (.any (some (.ptr nanRecord)))
      ∧ Overwrite (.any (some (.ptr nanRecord))) [.any (some (.ptr nanRecord))]
        = .ok (.any (some (.ptr nanRecord)))
      ∧ DeepEqual (some (.ptr nanRecord)) (some (.ptr nanRecord)) = false :=
  ⟨rfl, rfl, rfl, rfl⟩

/-- C10 (amended): let R be a record without a slice field at any depth, passed by
pointer, and A an ancestor record of the same shape, both well formed and holding no NaN
and no function that is not nil. OverwriteWithTag (Overwrite is the call with the empty
tag) with the ancestor list [A] returns without error; applied again, with the same
list, to the record it left, it returns without error a record that reflect.DeepEqual
finds equal to the first result. -/
theorem Overwrite_idempotent_deepEqual (n : String) (fs : Fields) (A : Value) (a : Arg)
    (tagName : String)
    (ha : unpackAncestor a = some A)
    (hshape : sameShape (.struct n fs) A = true)
    (hwf : wellFormed A = true) (hnn : noNaNFunc A = true)
    (hwfR : wellFormed (.struct n fs) = true) (hnnR : noNaNFunc (.struct n fs) = true)
    (hns : noSliceField (.struct n fs) = true) :
    ∃ first second,
      OverwriteWithTag (.any (some (.ptr (.struct n fs)))) [a] tagName
          = .ok (.any (some (.ptr first)))
        ∧ OverwriteWithTag (.any (some (.ptr first))) [a] tagName
          = .ok (.any (some (.ptr second)))
        ∧ DeepEqual (some (.ptr second)) (some (.ptr first)) = true := by
  obtain ⟨afs, rfl, hsf⟩ := sameShape_struct n fs A hshape
  have hwfR2 := hwfR
  simp only [wellFormed, Bool.and_eq_true, decide_eq_true_eq] at hwfR2
  simp only [noNaNFunc] at hnnR
  simp only [noSliceField] at hns
  obtain ⟨fs1, h1, h2, h3, h4⟩ := overwriteFields_selfEqual tagName (some (.struct n afs)) fs
    (counterpart_selfEqual n fs afs hsf hwf hnn) hwfR2.2 hnnR hns
  have hidem := overwriteFields_idem tagName (some (.struct n afs)) fs fs1
    (counterpart_of_sameShape n fs afs hsf hwf) hns h1
  have h0 : ((1 : Nat) == 0) = false := rfl
  refine ⟨.struct n fs1, .struct n fs1, ?_, ?_, ?_⟩
  · simp only [OverwriteWithTag, List.length_singleton, List.map_cons, List.map_nil, ha, h0,
      Bool.false_eq_true, ↓reduceIte, h1]
  · simp only [OverwriteWithTag, List.length_singleton, List.map_cons, List.map_nil, ha, h0,
      Bool.false_eq_true, ↓reduceIte, hidem]
  · show deepValueEqual (.struct n fs1) (.struct n fs1) = true
    apply deepValueEqual_refl
    · simp only [wellFormed, Bool.and_eq_true, decide_eq_true_eq]
      exact ⟨by rw [h2]; exact hwfR2.1, h3⟩
    · simp only [noNaNFunc]
      exact h4

/-- Witness of C10 (amended): plainChild overwritten with plainParent, twice. -/
theorem Overwrite_idempotent_deepEqual_witness :
    ∃ first second,
      OverwriteWithTag (.any (some (.ptr plainChild))) [.any (some (.ptr plainParent))] ""
          = .ok (.any (some (.ptr first)))
        ∧ OverwriteWithTag (.any (some (.ptr first))) [.any (some (.ptr plainParent))] ""
          = .ok (.any (some (.ptr second)))
        ∧ DeepEqual (some (.ptr second)) (some (.ptr first)) = true :=
  Overwrite_idempotent_deepEqual "Plain" (structFields (some plainChild)).get! plainParent
    (.any (some (.ptr plainParent))) "" rfl (by decide) (by decide) (by decide) (by decide)
    (by decide) (by decide)

/-! ## Overwrite inside nested records, and booleans -/

/-- C11: the records nestedChild and nestedParent hold, in the nested record Inner, a
string, a float and an unsigned integer that are not default values. Overwrite replaces
the string Title of the top level by the ancestor's, and leaves Name, Ratio and Count of
the nested record as they were: the nested record is handed to InheritWithTag, which
keeps a value that is not a default. -/
theorem Overwrite_nested_keeps_output :
    Overwrite (.any (some (.ptr nestedChild))) [.any (some (.ptr nestedParent))]
      = .ok (.any (some (.ptr (nestedRecord (.str "parent") (.str "child")
          (.float 0x3FF8000000000000) (.uint 5))))) := by
  rfl

/-- Counterexample of C12: the boolean BoolVal of the records of TestOverwrite carries
the tag inherit and is true in the ancestor; OverwriteWithTag with the tag inherit
leaves it false. -/
theorem OverwriteWithTag_bool_not_set :
    ∃ out1 fs1,
      OverwriteWithTag (.any (some (.ptr overwriteChild))) [.any (some (.ptr overwriteParent))]
        "inherit" = .ok out1
      ∧ ancestorField (some overwriteParent) "BoolVal" = some (some (.bool true))
      ∧ outputStruct out1 = some ("SampleStruct", fs1, true)
      ∧ fs1[0]? = some (⟨"BoolVal",
          [("api", "boolVal,omitempty"), ("inherit", "dynamic"), ("testtag", "boolVal")], ""⟩,
          .bool false) :=
  ⟨_, _, rfl, rfl, rfl, rfl⟩

theorem overwriteField_bool (canSet : Bool) (tagName : String) (avals : List (Option Value))
    (f : StructField) (b : Bool) :
    overwriteField canSet tagName avals f (.bool b) = some (.bool b) := by
  unfold overwriteField
  cases (canSet && f.exported && tagMatch tagName f) <;> rfl

/-- C12, amended: OverwriteWithTag never sets a boolean field of output. When the call
returns without error, with any tag and any ancestors, a boolean field of the struct it
works on holds the value it held before, whether or not it carries the tag. -/
theorem OverwriteWithTag_bool_kept (output : Arg) (ancestors : List Arg) (tagName : String)
    (n : String) (pre post : Fields) (f : StructField) (b : Bool) (c : Bool) (out1 : Arg)
    (hs : outputStruct output = some (n, pre ++ (f, .bool b) :: post, c))
    (hres : OverwriteWithTag output ancestors tagName = .ok out1) :
    ∃ fs1, outputStruct out1 = some (n, fs1, c) ∧ fs1[pre.length]? = some (f, .bool b) := by
  by_cases hne : ancestors = []
  · subst hne
    have : out1 = output := by
      simp only [OverwriteWithTag, List.length_nil, beq_self_eq_true, ↓reduceIte,
        Outcome.ok.injEq] at hres
      exact hres.symm
    subst this
    exact ⟨_, hs, getElem?_append_cons pre post (f, .bool b)⟩
  · obtain ⟨fs1, h1, h2⟩ := OverwriteWithTag_ok output ancestors tagName n _ c out1 hs hne hres
    obtain ⟨v1, hv1, hget⟩ := overwriteFields_split c tagName _ pre f (.bool b) post fs1 h1
    rw [overwriteField_bool] at hv1
    simp only [Option.some.injEq] at hv1
    subst hv1
    subst h2
    exact ⟨fs1, outputStruct_withFields output n _ fs1 c hs, hget⟩

/-- Witness of C12 on the records of TestOverwrite and the tag testtag, which BoolVal
carries. -/
theorem OverwriteWithTag_bool_kept_witness :
    ∃ out1 fs1,
      OverwriteWithTag (.any (some (.ptr overwriteChild))) [.any (some (.ptr overwriteParent))]
        "testtag" = .ok out1
      ∧ outputStruct out1 = some ("SampleStruct", fs1, true)
      ∧ fs1[0]? = some (⟨"BoolVal",
          [("api", "boolVal,omitempty"), ("inherit", "dynamic"), ("testtag", "boolVal")], ""⟩,
          .bool false) := by
  have hres : OverwriteWithTag (.any (some (.ptr overwriteChild)))
      [.any (some (.ptr overwriteParent))] "testtag" =
      .ok (.any (some (.ptr (sampleStruct (.bool false) .nilPtr
        (.float 0) (.int 0) .nilIface (.str "parent")
        (sampleSubstruct (.map [("key2", .str "val2")]) .nilSlice)
        (timeValue 0 0) .nilPtr (.uint 99))))) := by
    rfl
  obtain ⟨fs1, h1, h2⟩ := OverwriteWithTag_bool_kept
    (.any (some (.ptr overwriteChild))) [.any (some (.ptr overwriteParent))] "testtag"
    "SampleStruct" [] (List.drop 1 (structFields (some overwriteChild)).get!)
    ⟨"BoolVal", [("api", "boolVal,omitempty"), ("inherit", "dynamic"), ("testtag", "boolVal")], ""⟩
    false true _ rfl hres
  exact ⟨_, fs1, hres, h1, h2⟩

/-! ## Booleans of InheritWithTag -/

theorem boolAncestorsLoop_spec (name strategy : String) (avals : List (Option Value))
    (abs : List Bool)
    (h : List.Forall₂ (fun a x => ancestorField a name = some (some (Value.bool x))) avals abs) :
    boolAncestorsLoop name strategy avals
      = some (if strategy == "and" then (if abs.all id then none else some false)
          else (if abs.any id then some true else none)) := by
  induction h with
  | nil => cases (strategy == "and") <;> rfl
  | @cons a x avals abs ha _ ih =>
    rw [boolAncestorsLoop, ha]
    simp only [ih]
    cases (strategy == "and") <;> cases x <;> simp

theorem inheritField_bool (canSet : Bool) (tagName : String) (avals : List (Option Value))
    (f : StructField) (b : Bool) :
    inheritField canSet tagName avals f (.bool b)
      = if (canSet && f.exported && tagMatch tagName f) = true then
          inheritScalar tagName avals f (.bool b)
        else some (.bool b) := by
  rw [inheritField]
  intro n ofs h
  cases h

theorem inheritScalar_bool_form (tagName : String) (avals : List (Option Value))
    (f : StructField) (b : Bool) (v1 : Value)
    (h : inheritScalar tagName avals f (.bool b) = some v1) :
    ∃ b1, v1 = .bool b1 ∧ (inheritBoolFlag tagName f = false → b1 = b) := by
  rw [inheritScalar] at h
  cases hflag : inheritBoolFlag tagName f with
  | false =>
    rw [hflag] at h
    simp only [Bool.false_eq_true, ↓reduceIte, Option.some.injEq] at h
    exact ⟨b, h.symm, fun _ => rfl⟩
  | true =>
    rw [hflag] at h
    simp only [↓reduceIte] at h
    split at h
    · simp only [Option.some.injEq] at h
      exact ⟨b, h.symm, fun hc => by cases hc⟩
    · split at h
      · cases h
      · simp only [Option.some.injEq] at h
        exact ⟨b, h.symm, fun hc => by cases hc⟩
      · rename_i b2 _
        simp only [Option.some.injEq] at h
        exact ⟨b2, h.symm, fun hc => by cases hc⟩

theorem inheritBoolFlag_of_no_strategy (tagName : String) (f : StructField)
    (h : tagName = "" ∨ tagLookup f.Tag (tagName ++ "bool") = none) :
    inheritBoolFlag tagName f = false := by
  unfold inheritBoolFlag
  rcases h with h | h
  · subst h
    rfl
  · rw [h]
    simp

theorem inheritScalar_bool_strategy (tagName : String) (avals : List (Option Value))
    (f : StructField) (b : Bool) (abs : List Bool) (strategy : String)
    (hne : tagName ≠ "")
    (hstr : tagLookup f.Tag (tagName ++ "bool") = some strategy)
    (hanc : List.Forall₂ (fun a x => ancestorField a f.Name = some (some (Value.bool x)))
      avals abs) :
    inheritScalar tagName avals f (.bool b)
      = some (.bool (if strategy == "and" then andOfAll b abs
          else if strategy == "or" then orOfAll b abs
          else abs.any id || b)) := by
  have hflag : inheritBoolFlag tagName f = true := by
    unfold inheritBoolFlag
    rw [hstr]
    simpa using hne
  have hs : boolStrategyOf tagName f = strategy := by
    unfold boolStrategyOf
    rw [hstr]
    simp [hne]
  rw [inheritScalar, hflag, hs, boolAncestorsLoop_spec f.Name strategy avals abs hanc]
  unfold andOfAll orOfAll
  by_cases h1 : strategy = "and"
  · subst h1
    cases b <;> cases hall : abs.all id <;> simp [hall]
  · by_cases h2 : strategy = "or"
    · subst h2
      cases b <;> cases hany : abs.any id <;> simp [hany]
    · have e1 : (strategy == "and") = false := by simpa using h1
      have e2 : (strategy == "or") = false := by simpa using h2
      cases b <;> cases hany : abs.any id <;> simp [e1, e2, hany]

/-- C13: let a call of InheritWithTag that returns without error work on a struct with a
boolean field. The field still holds a boolean; it is unchanged when the field does not
carry the tag tagName+"bool", and when tagName is empty (the call Inherit makes). When
the field can be set, carries the tag tagName and the strategy tag, and every ancestor
is a struct with a boolean field of the same name, of values `abs` in list order, the
strategy "or" leaves output OR a1 OR ... OR an and the strategy "and" leaves
output AND a1 AND ... AND an. -/
theorem InheritWithTag_bool_field (output : Arg) (ancestors : List Arg) (tagName : String)
    (n : String) (pre post : Fields) (f : StructField) (b : Bool) (c : Bool) (out1 : Arg)
    (hs : outputStruct output = some (n, pre ++ (f, .bool b) :: post, c))
    (hres : InheritWithTag output ancestors tagName = .ok out1) :
    ∃ fs1 b1, outputStruct out1 = some (n, fs1, c) ∧ fs1[pre.length]? = some (f, .bool b1)
      ∧ (tagLookup f.Tag (tagName ++ "bool") = none → b1 = b)
      ∧ (tagName = "" → b1 = b)
      ∧ ∀ abs : List Bool, c = true → f.exported = true → tagName ≠ "" →
          (tagLookup f.Tag tagName).isSome = true →
          AncestorValues ancestors f.Name (.bool b) (abs.map Value.bool) →
          (tagLookup f.Tag (tagName ++ "bool") = some "or" → b1 = orOfAll b abs)
            ∧ (tagLookup f.Tag (tagName ++ "bool") = some "and" → b1 = andOfAll b abs) := by
  by_cases hne : ancestors = []
  · subst hne
    have : out1 = output := by
      simp only [InheritWithTag, List.length_nil, beq_self_eq_true, ↓reduceIte,
        Outcome.ok.injEq] at hres
      exact hres.symm
    subst this
    refine ⟨_, b, hs, getElem?_append_cons pre post (f, .bool b), fun _ => rfl, fun _ => rfl, ?_⟩
    intro abs _ _ _ _ hanc
    have : abs = [] := by
      cases abs with
      | nil => rfl
      | cons x xs => cases hanc
    subst this
    constructor <;> intro _ <;> cases b <;> rfl
  · obtain ⟨fs1, h1, h2⟩ := InheritWithTag_ok output ancestors tagName n _ c out1 hs hne hres
    obtain ⟨v1, hv1, hget⟩ := inheritFields_split c tagName _ pre f (.bool b) post fs1 h1
    subst h2
    rw [inheritField_bool] at hv1
    cases hproc : (c && f.exported && tagMatch tagName f) with
    | false =>
      rw [hproc] at hv1
      simp only [Bool.false_eq_true, ↓reduceIte, Option.some.injEq] at hv1
      subst hv1
      refine ⟨fs1, b, outputStruct_withFields output n _ fs1 c hs, hget, fun _ => rfl,
        fun _ => rfl, ?_⟩
      intro abs hc hf ht hl _
      have : tagMatch tagName f = true := by
        unfold tagMatch
        rw [hl]
        simp
      rw [hc, hf, this] at hproc
      cases hproc
    | true =>
      rw [hproc] at hv1
      simp only [↓reduceIte] at hv1
      obtain ⟨b1, hb1, hkeep⟩ := inheritScalar_bool_form tagName _ f b v1 hv1
      subst hb1
      refine ⟨fs1, b1, outputStruct_withFields output n _ fs1 c hs, hget,
        fun h => hkeep (inheritBoolFlag_of_no_strategy tagName f (Or.inr h)),
        fun h => hkeep (inheritBoolFlag_of_no_strategy tagName f (Or.inl h)), ?_⟩
      intro abs _ _ ht _ hanc
      have hanc2 : List.Forall₂
          (fun a x => ancestorField a f.Name = some (some (Value.bool x)))
          (ancestors.map unpackAncestor) abs := by
        unfold AncestorValues at hanc
        rw [List.forall₂_map_right_iff] at hanc
        rw [List.forall₂_map_left_iff]
        exact hanc.imp (fun _ _ h => h.1)
      constructor
      · intro hor
        rw [inheritScalar_bool_strategy tagName _ f b abs "or" ht hor hanc2] at hv1
        simp only [Option.some.injEq, Value.bool.injEq] at hv1
        rw [← hv1]
        rfl
      · intro hand
        rw [inheritScalar_bool_strategy tagName _ f b abs "and" ht hand hanc2] at hv1
        simp only [Option.some.injEq, Value.bool.injEq] at hv1
        rw [← hv1]
        rfl

/-- Witness of C13: the field All of a record of type Flags, strategy "and", true in
output and in the first ancestor, false in the second one, becomes false. -/
theorem InheritWithTag_bool_field_witness :
    ∃ out1 fs1,
      InheritWithTag
          (.any (some (.ptr (flagsRecord (.bool false) (.bool true) (.bool false) (.bool false)))))
          [.any (some (.ptr (flagsRecord (.bool false) (.bool true) (.bool true) (.bool true)))),
           .any (some (.ptr (flagsRecord (.bool true) (.bool false) (.bool true) (.bool true))))]
          "inherit" = .ok out1
      ∧ outputStruct out1 = some ("Flags", fs1, true)
      ∧ fs1[1]? = some (⟨"All", [("inherit", "dynamic"), ("inheritbool", "and")], ""⟩,
          .bool false) := by
  have hres : InheritWithTag
      (.any (some (.ptr (flagsRecord (.bool false) (.bool true) (.bool false) (.bool false)))))
      [.any (some (.ptr (flagsRecord (.bool false) (.bool true) (.bool true) (.bool true)))),
       .any (some (.ptr (flagsRecord (.bool true) (.bool false) (.bool true) (.bool true))))]
      "inherit"
      = .ok (.any (some (.ptr
          (flagsRecord (.bool true) (.bool false) (.bool false) (.bool false))))) := by
    rfl
  obtain ⟨fs1, b1, h1, h2, _, _, h3⟩ := InheritWithTag_bool_field
    (.any (some (.ptr (flagsRecord (.bool false) (.bool true) (.bool false) (.bool false)))))
    [.any (some (.ptr (flagsRecord (.bool false) (.bool true) (.bool true) (.bool true)))),
     .any (some (.ptr (flagsRecord (.bool true) (.bool false) (.bool true) (.bool true))))]
    "inherit" "Flags"
    [(⟨"Any", [("inherit", "dynamic"), ("inheritbool", "or")], ""⟩, .bool false)]
    [(⟨"Tagged", [("inherit", "dynamic")], ""⟩, .bool false), (⟨"Plain", [], ""⟩, .bool false)]
    ⟨"All", [("inherit", "dynamic"), ("inheritbool", "and")], ""⟩ true true _ rfl hres
  have h4 := (h3 [true, false] rfl rfl (by decide) rfl
    (List.Forall₂.cons ⟨rfl, rfl⟩ (List.Forall₂.cons ⟨rfl, rfl⟩ List.Forall₂.nil))).2 rfl
  subst h4
  exact ⟨_, fs1, hres, h1, h2⟩

/-! ## Maps, slices and timestamps of Inherit and Overwrite -/

theorem not_mem_keys_of_lookup_none {β : Type} (k : String) :
    ∀ (m : List (String × β)), List.lookup k m = none → k ∉ m.map (fun kv => kv.1)
  | [], _ => by simp
  | (k0, v0) :: rest, h => by
    by_cases hk : k = k0
    · subst hk
      simp [List.lookup] at h
    · have h2 : (k == k0) = false := by
        simp only [beq_eq_false_iff_ne, ne_eq]
        exact hk
      simp only [List.lookup, h2] at h
      simp only [List.map_cons, List.mem_cons, not_or]
      exact ⟨hk, not_mem_keys_of_lookup_none k rest h⟩

theorem foldl_mapSet_lookup_eq {β : Type} (m acc : List (String × β)) (k : String)
    (hn : (m.map (fun kv => kv.1)).Nodup) :
    List.lookup k (m.foldl (fun acc kv => mapSet acc kv.1 kv.2) acc)
      = (List.lookup k m).or (List.lookup k acc) := by
  cases h : List.lookup k m with
  | some x => exact foldl_mapSet_lookup m acc k x hn (mem_of_lookup m k x h)
  | none => exact foldl_mapSet_frame k m acc (not_mem_keys_of_lookup_none k m h)

theorem mapAncestorsLoop_spec (name : String) (avals : List (Option Value))
    (amaps : List (List (String × Value)))
    (h : List.Forall₂ (fun a m => ∃ x, ancestorField a name = some x ∧ m = entriesOf x
      ∧ (m.map (fun kv => kv.1)).Nodup) avals amaps) :
    ∀ out, ∃ m1, mapAncestorsLoop name avals out = some m1
      ∧ ∀ k, List.lookup k m1 = (lastBinding k amaps).or (List.lookup k out) := by
  induction h with
  | nil =>
    intro out
    exact ⟨out, rfl, fun k => rfl⟩
  | @cons a m avals amaps ha _ ih =>
    intro out
    obtain ⟨x, hx, hm, hn⟩ := ha
    have step : mapAncestorsLoop name (a :: avals) out
        = mapAncestorsLoop name avals (m.foldl (fun acc kv => mapSet acc kv.1 kv.2) out) := by
      rw [mapAncestorsLoop, hx, hm]
      rcases x with _ | x
      · rfl
      · cases x <;> rfl
    obtain ⟨m1, h1, h2⟩ := ih (m.foldl (fun acc kv => mapSet acc kv.1 kv.2) out)
    refine ⟨m1, step.trans h1, fun k => ?_⟩
    rw [h2 k, lastBinding]
    cases lastBinding k amaps with
    | some y => rfl
    | none => exact foldl_mapSet_lookup_eq m out k hn

theorem inheritField_map (tagName : String) (avals : List (Option Value)) (f : StructField)
    (v : Value) (hv : v.Kind = Kind.Map) (hf : f.exported = true)
    (ht : tagMatch tagName f = true) :
    inheritField true tagName avals f v
      = (mapAncestorsLoop f.Name avals (entriesOf (some v))).map (fun m => Value.map m) := by
  cases v <;> simp [Value.Kind] at hv <;>
    simp [inheritField, hf, ht, inheritScalar, entriesOf]

theorem overwriteField_map (tagName : String) (avals : List (Option Value)) (f : StructField)
    (v : Value) (hv : v.Kind = Kind.Map) (hf : f.exported = true)
    (ht : tagMatch tagName f = true) :
    overwriteField true tagName avals f v
      = (mapAncestorsLoop f.Name avals (entriesOf (some v))).map (fun m => Value.map m) := by
  cases v <;> simp [Value.Kind] at hv <;>
    simp [overwriteField, hf, ht, entriesOf]

/-- The field of index pre.length after a call that returns without error, for either
function: it is what the function makes of the field. -/
theorem field_after_call (output : Arg) (ancestors : List Arg) (tagName : String)
    (n : String) (pre post : Fields) (f : StructField) (v : Value) (c : Bool) (out1 : Arg)
    (hs : outputStruct output = some (n, pre ++ (f, v) :: post, c))
    (hne : ancestors ≠ [])
    (hres : InheritWithTag output ancestors tagName = .ok out1
      ∨ OverwriteWithTag output ancestors tagName = .ok out1) :
    ∃ fs1 v1, outputStruct out1 = some (n, fs1, c) ∧ fs1[pre.length]? = some (f, v1)
      ∧ (inheritField c tagName (ancestors.map unpackAncestor) f v = some v1
        ∨ overwriteField c tagName (ancestors.map unpackAncestor) f v = some v1) := by
  rcases hres with hres | hres
  · obtain ⟨fs1, h1, h2⟩ := InheritWithTag_ok output ancestors tagName n _ c out1 hs hne hres
    obtain ⟨v1, hv1, hget⟩ := inheritFields_split c tagName _ pre f v post fs1 h1
    subst h2
    exact ⟨fs1, v1, outputStruct_withFields output n _ fs1 c hs, hget, Or.inl hv1⟩
  · obtain ⟨fs1, h1, h2⟩ := OverwriteWithTag_ok output ancestors tagName n _ c out1 hs hne hres
    obtain ⟨v1, hv1, hget⟩ := overwriteFields_split c tagName _ pre f v post fs1 h1
    subst h2
    exact ⟨fs1, v1, outputStruct_withFields output n _ fs1 c hs, hget, Or.inr hv1⟩

theorem foldl_sliceAppend_elems (v : Value) (hv : v.Kind = Kind.Slice) :
    ∀ (xs : List Value), (xs.foldl sliceAppend v).Kind = Kind.Slice
      ∧ sliceElems (xs.foldl sliceAppend v) = sliceElems v ++ xs
  | [] => by simp [hv]
  | x :: xs => by
    cases v <;> simp [Value.Kind] at hv
    · rw [foldl_sliceAppend_nil]
      exact ⟨rfl, rfl⟩
    · rw [foldl_sliceAppend_slice]
      exact ⟨rfl, rfl⟩

theorem sliceAncestorsLoop_spec (name : String) (avals : List (Option Value))
    (aslices : List (List Value))
    (h : List.Forall₂ (fun a xs => ∃ x, ancestorField a name = some x ∧ xs = elemsOf x)
      avals aslices) :
    ∀ v, v.Kind = Kind.Slice → ∃ v1, sliceAncestorsLoop name avals v = some v1
      ∧ v1.Kind = Kind.Slice ∧ sliceElems v1 = sliceElems v ++ aslices.flatten := by
  induction h with
  | nil =>
    intro v hv
    exact ⟨v, rfl, hv, by simp⟩
  | @cons a xs avals aslices ha _ ih =>
    intro v hv
    obtain ⟨x, hx, hxs⟩ := ha
    have step : sliceAncestorsLoop name (a :: avals) v
        = sliceAncestorsLoop name avals (xs.foldl sliceAppend v) := by
      rw [sliceAncestorsLoop, hx, hxs]
      rcases x with _ | x
      · rfl
      · cases x <;> rfl
    obtain ⟨hk, he⟩ := foldl_sliceAppend_elems v hv xs
    obtain ⟨v1, h1, h2, h3⟩ := ih (xs.foldl sliceAppend v) hk
    refine ⟨v1, step.trans h1, h2, ?_⟩
    rw [h3, he]
    simp

theorem inheritField_slice (tagName : String) (avals : List (Option Value)) (f : StructField)
    (v : Value) (hv : v.Kind = Kind.Slice) (hf : f.exported = true)
    (ht : tagMatch tagName f = true) :
    inheritField true tagName avals f v = sliceAncestorsLoop f.Name avals v := by
  cases v <;> simp [Value.Kind] at hv <;>
    simp [inheritField, hf, ht, inheritScalar]

theorem overwriteField_slice (tagName : String) (avals : List (Option Value)) (f : StructField)
    (v : Value) (hv : v.Kind = Kind.Slice) (hf : f.exported = true)
    (ht : tagMatch tagName f = true) :
    overwriteField true tagName avals f v = sliceAncestorsLoop f.Name avals v := by
  cases v <;> simp [Value.Kind] at hv <;>
    simp [overwriteField, hf, ht]

theorem inheritField_time (tagName : String) (avals : List (Option Value)) (f : StructField)
    (ofs : Fields) (hf : f.exported = true) (ht : tagMatch tagName f = true) :
    inheritField true tagName avals f (.struct timeString ofs)
      = setIfFound (.struct timeString ofs) (timeAncestorsLoop f.Name avals) := by
  rw [inheritField]
  simp [hf, ht]

theorem overwriteField_time (tagName : String) (avals : List (Option Value)) (f : StructField)
    (ofs : Fields) (hf : f.exported = true) (ht : tagMatch tagName f = true) :
    overwriteField true tagName avals f (.struct timeString ofs)
      = setIfFound (.struct timeString ofs) (timeAncestorsLoop f.Name avals) := by
  rw [overwriteField]
  simp [hf, ht, timeString]

/-- C16: let output be a struct with an exported field of the struct type Time that the
call processes, and let the first ancestor be a struct whose field of the same name is
a struct, the timestamp `.struct an afs`. When InheritWithTag or OverwriteWithTag returns
without error, the field holds that timestamp, whatever output held before and whatever
the timestamp is, the zero time included. -/
theorem Inherit_Overwrite_time_field (output : Arg) (a : Arg) (rest : List Arg)
    (tagName : String) (n : String) (pre post : Fields) (f : StructField) (ofs : Fields)
    (an : String) (afs : Fields) (out1 : Arg)
    (hs : outputStruct output = some (n, pre ++ (f, .struct timeString ofs) :: post, true))
    (hf : f.exported = true) (ht : tagMatch tagName f = true)
    (ha : ancestorField (unpackAncestor a) f.Name = some (some (.struct an afs)))
    (hres : InheritWithTag output (a :: rest) tagName = .ok out1
      ∨ OverwriteWithTag output (a :: rest) tagName = .ok out1) :
    ∃ fs1, outputStruct out1 = some (n, fs1, true)
      ∧ fs1[pre.length]? = some (f, .struct an afs) := by
  obtain ⟨fs1, v1, h1, h2, h3⟩ :=
    field_after_call output (a :: rest) tagName n pre post f _ true out1 hs (by simp) hres
  rw [inheritField_time tagName _ f ofs hf ht, overwriteField_time tagName _ f ofs hf ht,
    or_self, List.map_cons, timeAncestorsLoop, ha] at h3
  simp only [setIfFound, Option.some.injEq] at h3
  subst h3
  exact ⟨fs1, h1, h2⟩

/-- Witness of C16 on the records of TestInherit, the ancestor holding the zero time in
TimeVal and output another time. -/
theorem Inherit_Overwrite_time_field_witness :
    ∃ out1 fs1,
      Inherit (.any (some (.ptr inheritParent))) [.any (some (.ptr inheritChild))] = .ok out1
      ∧ outputStruct out1 = some ("SampleStruct", fs1, true)
      ∧ fs1[7]? = some (⟨"TimeVal", [("api", "timeVal,omitempty"), ("inherit", "dynamic")], ""⟩,
          timeValue 0 0) := by
  have hres : InheritWithTag (.any (some (.ptr inheritParent)))
      [.any (some (.ptr inheritChild))] ""
      = .ok (.any (some (.ptr (sampleStruct (.bool true) (.ptr (.bool true))
        (.float 0x40F422724538EF35) (.int 12) .nilIface (.str "parent")
        (sampleSubstruct (.map [("key1", .str "val1"), ("key2", .str "val2")]) .nilSlice)
        (timeValue 0 0) (.ptr (timeValue 7 9)) (.uint 98))))) := by
    rfl
  obtain ⟨fs1, h1, h2⟩ := Inherit_Overwrite_time_field
    (.any (some (.ptr inheritParent))) (.any (some (.ptr inheritChild))) [] ""
    "SampleStruct"
    (List.take 7 (structFields (some inheritParent)).get!)
    (List.drop 8 (structFields (some inheritParent)).get!)
    ⟨"TimeVal", [("api", "timeVal,omitempty"), ("inherit", "dynamic")], ""⟩
    [(⟨"wall", [], "time"⟩, .uint 7), (⟨"ext", [], "time"⟩, .int 9),
      (⟨"loc", [], "time"⟩, .nilPtr)]
    "Time"
    [(⟨"wall", [], "time"⟩, .uint 0), (⟨"ext", [], "time"⟩, .int 0),
      (⟨"loc", [], "time"⟩, .nilPtr)] _
    rfl rfl rfl rfl (Or.inl hres)
  exact ⟨_, fs1, hres, h1, h2⟩


/-! ## Maps and slices of Inherit and Overwrite when an ancestor is output itself -/

theorem setOwnEntries_eq : ∀ (keys : List String) (out : List (String × Value)),
    setOwnEntries keys out = out
  | [], _ => rfl
  | key :: keys, out => by
    rw [setOwnEntries]
    cases h : List.lookup key out with
    | none => exact setOwnEntries_eq keys out
    | some x =>
      simp only []
      rw [mapSet_of_lookup out key x h]
      exact setOwnEntries_eq keys out

theorem appendOwnElements_slice :
    ∀ (n j : Nat) (xs ys : List Value), j + n ≤ xs.length →
      appendOwnElements n j (.slice (xs ++ ys))
        = some (.slice (xs ++ ys ++ (xs.drop j).take n))
  | 0, j, xs, ys, _ => by simp [appendOwnElements]
  | n + 1, j, xs, ys, h => by
    have hj : j < xs.length := by omega
    have hget : (sliceElems (.slice (xs ++ ys)))[j]? = some (xs.get ⟨j, hj⟩) := by
      show (xs ++ ys)[j]? = _
      rw [List.getElem?_append_left hj]
      exact List.getElem?_eq_getElem hj
    rw [appendOwnElements, hget]
    simp only []
    have happ : sliceAppend (.slice (xs ++ ys)) (xs.get ⟨j, hj⟩)
        = .slice (xs ++ (ys ++ [xs.get ⟨j, hj⟩])) := by
      simp [sliceAppend]
    rw [happ, appendOwnElements_slice n (j + 1) xs _ (by omega)]
    congr 2
    rw [List.drop_eq_getElem_cons hj, List.take_succ_cons]
    simp

/-- An ancestor that is output itself appends to the slice the elements it holds. -/
theorem appendOwnElements_all (v : Value) (hv : v.Kind = Kind.Slice) :
    ∃ v1, appendOwnElements (sliceElems v).length 0 v = some v1 ∧ v1.Kind = Kind.Slice
      ∧ sliceElems v1 = sliceElems v ++ sliceElems v := by
  cases v <;> simp [Value.Kind] at hv
  · exact ⟨.nilSlice, rfl, rfl, rfl⟩
  · rename_i xs
    refine ⟨.slice (xs ++ xs), ?_, rfl, rfl⟩
    have := appendOwnElements_slice xs.length 0 xs [] (by omega)
    simpa [sliceElems] using this

theorem sliceAncestorsLoopAliased_spec (name : String) (sources : List Source)
    (aslices : List (Option (List Value)))
    (h : List.Forall₂ (SourceElems name) sources aslices) :
    ∀ v, v.Kind = Kind.Slice → ∃ v1, sliceAncestorsLoopAliased name sources v = some v1
      ∧ v1.Kind = Kind.Slice ∧ sliceElems v1 = sliceAfter (sliceElems v) aslices := by
  induction h with
  | nil =>
    intro v hv
    exact ⟨v, rfl, hv, rfl⟩
  | @cons s xs sources aslices hs _ ih =>
    intro v hv
    cases s with
    | own a =>
      cases xs with
      | none => exact absurd hs (by simp [SourceElems])
      | some ys =>
        obtain ⟨x, hx, hys⟩ := hs
        have step : sliceAncestorsLoopAliased name (.own a :: sources) v
            = sliceAncestorsLoopAliased name sources (ys.foldl sliceAppend v) := by
          rw [sliceAncestorsLoopAliased, hx, hys]
          rcases x with _ | x
          · rfl
          · cases x <;> rfl
        obtain ⟨hk, he⟩ := foldl_sliceAppend_elems v hv ys
        obtain ⟨v1, h1, h2, h3⟩ := ih (ys.foldl sliceAppend v) hk
        exact ⟨v1, step.trans h1, h2, by rw [h3, he, sliceAfter]⟩
    | output =>
      cases xs with
      | some ys => exact absurd hs (by simp [SourceElems])
      | none =>
        obtain ⟨w, hw1, hw2, hw3⟩ := appendOwnElements_all v hv
        obtain ⟨v1, h1, h2, h3⟩ := ih w hw2
        refine ⟨v1, ?_, h2, by rw [h3, hw3, sliceAfter]⟩
        rw [sliceAncestorsLoopAliased, hw1]
        exact h1

theorem sliceAfter_own (base : List Value) :
    ∀ (xss : List (List Value)), sliceAfter base (xss.map some) = base ++ xss.flatten
  | [] => by simp [sliceAfter]
  | xs :: xss => by
    rw [List.map_cons, sliceAfter, sliceAfter_own (base ++ xs) xss]
    simp

theorem mapAncestorsLoopAliased_spec (name : String) (sources : List Source)
    (amaps : List (List (String × Value)))
    (h : List.Forall₂ (SourceEntries name) sources amaps) :
    ∀ out, ∃ m1, mapAncestorsLoopAliased name sources out = some m1
      ∧ ∀ k, List.lookup k m1 = (lastBinding k amaps).or (List.lookup k out) := by
  induction h with
  | nil =>
    intro out
    exact ⟨out, rfl, fun k => rfl⟩
  | @cons s m sources amaps hs _ ih =>
    intro out
    cases s with
    | own a =>
      obtain ⟨x, hx, hm, hn⟩ := hs
      have step : mapAncestorsLoopAliased name (.own a :: sources) out
          = mapAncestorsLoopAliased name sources
              (m.foldl (fun acc kv => mapSet acc kv.1 kv.2) out) := by
        rw [mapAncestorsLoopAliased, hx, hm]
        rcases x with _ | x
        · rfl
        · cases x <;> rfl
      obtain ⟨m1, h1, h2⟩ := ih (m.foldl (fun acc kv => mapSet acc kv.1 kv.2) out)
      refine ⟨m1, step.trans h1, fun k => ?_⟩
      rw [h2 k, lastBinding]
      cases lastBinding k amaps with
      | some y => rfl
      | none => exact foldl_mapSet_lookup_eq m out k hn
    | output =>
      have hm : m = [] := hs
      subst hm
      obtain ⟨m1, h1, h2⟩ := ih out
      refine ⟨m1, ?_, fun k => ?_⟩
      · rw [mapAncestorsLoopAliased, setOwnEntries_eq]
        exact h1
      · rw [h2 k, lastBinding]
        cases lastBinding k amaps with
        | some y => rfl
        | none => rfl

/-! ### Ancestors with storage of their own: the functions that take them by content -/

theorem resolveSources_own (f : StructField) (v : Value) :
    ∀ (avals : List (Option Value)), resolveSources f v (avals.map Source.own) = avals
  | [] => rfl
  | a :: rest => by
    rw [List.map_cons, resolveSources, resolveSources_own f v rest]

theorem sliceAncestorsLoopAliased_own (name : String) :
    ∀ (avals : List (Option Value)) (out : Value),
      sliceAncestorsLoopAliased name (avals.map Source.own) out
        = sliceAncestorsLoop name avals out
  | [], _ => rfl
  | a :: rest, out => by
    rw [List.map_cons, sliceAncestorsLoopAliased, sliceAncestorsLoop]
    cases ancestorField a name with
    | none => rfl
    | some af =>
      simp only []
      rw [sliceAncestorsLoopAliased_own name rest, sliceAncestorsLoopAliased_own name rest]

theorem mapAncestorsLoopAliased_own (name : String) :
    ∀ (avals : List (Option Value)) (out : List (String × Value)),
      mapAncestorsLoopAliased name (avals.map Source.own) out
        = mapAncestorsLoop name avals out
  | [], _ => rfl
  | a :: rest, out => by
    rw [List.map_cons, mapAncestorsLoopAliased, mapAncestorsLoop]
    rcases ancestorField a name with _ | _ | x
    · rfl
    · exact mapAncestorsLoopAliased_own name rest out
    · cases x <;> exact mapAncestorsLoopAliased_own name rest _

theorem structAncestorsAliased_own (name : String) :
    ∀ (avals : List (Option Value)),
      structAncestorsAliased name (avals.map Source.own)
        = (structAncestors name avals).map (fun l => l.map Source.own)
  | [] => rfl
  | a :: rest => by
    rw [List.map_cons, structAncestorsAliased, structAncestors,
      structAncestorsAliased_own name rest]
    cases ancestorField a name with
    | none => rfl
    | some af =>
      simp only []
      cases structAncestors name rest with
      | none => rfl
      | some more =>
        simp only [Option.map_some']
        split_ifs <;> rfl

theorem inheritScalarAliased_own (tagName : String) (avals : List (Option Value))
    (f : StructField) (v : Value) :
    inheritScalarAliased tagName (avals.map Source.own) f v = inheritScalar tagName avals f v := by
  cases v <;>
    simp only [inheritScalarAliased, inheritScalar, resolveSources_own,
      sliceAncestorsLoopAliased_own, mapAncestorsLoopAliased_own]

mutual
theorem inheritFieldAliased_own (canSet : Bool) (tagName : String) (f : StructField) :
    ∀ (v : Value) (avals : List (Option Value)),
      inheritFieldAliased canSet tagName (avals.map Source.own) f v
        = inheritField canSet tagName avals f v
  | .struct n ofs, avals => by
    rw [inheritFieldAliased, inheritField, resolveSources_own, structAncestorsAliased_own]
    split_ifs with h1 h2
    · rfl
    · cases structAncestors f.Name avals with
      | none => rfl
      | some l =>
        cases l with
        | nil => rfl
        | cons a more =>
          simp only [Option.map_some', List.map_cons]
          have := inheritFieldsAliased_own true tagName ofs (a :: more)
          rw [List.map_cons] at this
          rw [this]
    · rfl
  | .bool _, avals | .int _, avals | .uint _, avals | .float _, avals | .complex _ _, avals
  | .str _, avals | .func _, avals | .chan _, avals | .nilIface, avals | .iface _, avals
  | .nilPtr, avals | .ptr _, avals | .nilMap, avals | .map _, avals | .nilSlice, avals
  | .slice _, avals => by
    simp only [inheritFieldAliased, inheritField, inheritScalarAliased_own]
theorem inheritFieldsAliased_own (canSet : Bool) (tagName : String) :
    ∀ (fs : Fields) (avals : List (Option Value)),
      inheritFieldsAliased canSet tagName (avals.map Source.own) fs
        = inheritFields canSet tagName avals fs
  | [], _ => by rw [inheritFieldsAliased, inheritFields]
  | (f, v) :: rest, avals => by
    rw [inheritFieldsAliased, inheritFields, inheritFieldAliased_own canSet tagName f v avals,
      inheritFieldsAliased_own canSet tagName rest avals]
end

theorem overwriteFieldAliased_own (canSet : Bool) (tagName : String)
    (avals : List (Option Value)) (f : StructField) (v : Value) :
    overwriteFieldAliased canSet tagName (avals.map Source.own) f v
      = overwriteField canSet tagName avals f v := by
  unfold overwriteFieldAliased overwriteField
  split_ifs with h
  · cases v with
    | struct n ofs =>
      simp only [resolveSources_own, structAncestorsAliased_own]
      split_ifs
      · rfl
      · cases structAncestors f.Name avals with
        | none => rfl
        | some l =>
          cases l with
          | nil => rfl
          | cons a more =>
            simp only [Option.map_some', List.map_cons]
            have := inheritFieldsAliased_own true tagName ofs (a :: more)
            rw [List.map_cons] at this
            rw [this]
    | _ =>
      simp only [resolveSources_own, sliceAncestorsLoopAliased_own, mapAncestorsLoopAliased_own,
        overwriteField, h, ↓reduceIte]
  · rfl

theorem overwriteFieldsAliased_own (canSet : Bool) (tagName : String)
    (avals : List (Option Value)) :
    ∀ (fs : Fields), overwriteFieldsAliased canSet tagName (avals.map Source.own) fs
      = overwriteFields canSet tagName avals fs
  | [] => rfl
  | (f, v) :: rest => by
    rw [overwriteFieldsAliased, overwriteFields, overwriteFieldAliased_own,
      overwriteFieldsAliased_own canSet tagName avals rest]

theorem map_unpackSource_other (ancestors : List Arg) :
    (ancestors.map AliasedArg.other).map unpackSource
      = (ancestors.map unpackAncestor).map Source.own := by
  simp only [List.map_map]
  rfl

/-- When every ancestor has storage of its own, the functions that follow the aliasing
are the functions that take the ancestors by content. -/
theorem InheritWithTagAliased_other (output : Arg) (ancestors : List Arg) (tagName : String) :
    InheritWithTagAliased output (ancestors.map AliasedArg.other) tagName
      = InheritWithTag output ancestors tagName := by
  unfold InheritWithTagAliased InheritWithTag
  simp only [List.length_map, map_unpackSource_other, inheritFieldsAliased_own]

theorem OverwriteWithTagAliased_other (output : Arg) (ancestors : List Arg)
    (tagName : String) :
    OverwriteWithTagAliased output (ancestors.map AliasedArg.other) tagName
      = OverwriteWithTag output ancestors tagName := by
  unfold OverwriteWithTagAliased OverwriteWithTag
  simp only [List.length_map, map_unpackSource_other, overwriteFieldsAliased_own]

theorem inheritFieldsAliased_split (canSet : Bool) (tagName : String) (sources : List Source) :
    ∀ (pre : Fields) (f : StructField) (v : Value) (post fs1 : Fields),
      inheritFieldsAliased canSet tagName sources (pre ++ (f, v) :: post) = some fs1 →
      ∃ v1, inheritFieldAliased canSet tagName sources f v = some v1
        ∧ fs1[pre.length]? = some (f, v1)
  | [], f, v, post, fs1, h => by
    rw [List.nil_append, inheritFieldsAliased] at h
    cases h1 : inheritFieldAliased canSet tagName sources f v with
    | none => simp [h1] at h
    | some v1 =>
      rw [h1] at h
      simp only [] at h
      cases h2 : inheritFieldsAliased canSet tagName sources post with
      | none => simp [h2] at h
      | some post1 =>
        rw [h2] at h
        simp only [Option.some.injEq] at h
        subst h
        exact ⟨v1, rfl, by simp⟩
  | (g, w) :: pre, f, v, post, fs1, h => by
    rw [List.cons_append, inheritFieldsAliased] at h
    cases h1 : inheritFieldAliased canSet tagName sources g w with
    | none => simp [h1] at h
    | some w1 =>
      rw [h1] at h
      simp only [] at h
      cases h2 : inheritFieldsAliased canSet tagName sources (pre ++ (f, v) :: post) with
      | none => simp [h2] at h
      | some rest1 =>
        rw [h2] at h
        simp only [Option.some.injEq] at h
        subst h
        obtain ⟨v1, hv, hget⟩ :=
          inheritFieldsAliased_split canSet tagName sources pre f v post rest1 h2
        exact ⟨v1, hv, by simpa using hget⟩

theorem overwriteFieldsAliased_split (canSet : Bool) (tagName : String)
    (sources : List Source) :
    ∀ (pre : Fields) (f : StructField) (v : Value) (post fs1 : Fields),
      overwriteFieldsAliased canSet tagName sources (pre ++ (f, v) :: post) = some fs1 →
      ∃ v1, overwriteFieldAliased canSet tagName sources f v = some v1
        ∧ fs1[pre.length]? = some (f, v1)
  | [], f, v, post, fs1, h => by
    rw [List.nil_append, overwriteFieldsAliased] at h
    cases h1 : overwriteFieldAliased canSet tagName sources f v with
    | none => simp [h1] at h
    | some v1 =>
      rw [h1] at h
      simp only [] at h
      cases h2 : overwriteFieldsAliased canSet tagName sources post with
      | none => simp [h2] at h
      | some post1 =>
        rw [h2] at h
        simp only [Option.some.injEq] at h
        subst h
        exact ⟨v1, rfl, by simp⟩
  | (g, w) :: pre, f, v, post, fs1, h => by
    rw [List.cons_append, overwriteFieldsAliased] at h
    cases h1 : overwriteFieldAliased canSet tagName sources g w with
    | none => simp [h1] at h
    | some w1 =>
      rw [h1] at h
      simp only [] at h
      cases h2 : overwriteFieldsAliased canSet tagName sources (pre ++ (f, v) :: post) with
      | none => simp [h2] at h
      | some rest1 =>
        rw [h2] at h
        simp only [Option.some.injEq] at h
        subst h
        obtain ⟨v1, hv, hget⟩ :=
          overwriteFieldsAliased_split canSet tagName sources pre f v post rest1 h2
        exact ⟨v1, hv, by simpa using hget⟩

theorem InheritWithTagAliased_ok (output : Arg) (ancestors : List AliasedArg)
    (tagName : String) (n : String) (fs : Fields) (c : Bool) (out1 : Arg)
    (hs : outputStruct output = some (n, fs, c)) (hne : ancestors ≠ [])
    (h : InheritWithTagAliased output ancestors tagName = .ok out1) :
    ∃ fs1, inheritFieldsAliased c tagName (ancestors.map unpackSource) fs = some fs1
      ∧ out1 = withFields output fs1 := by
  have hl : (ancestors.length == 0) = false := by
    cases ancestors with
    | nil => exact absurd rfl hne
    | cons a l => rfl
  unfold InheritWithTagAliased at h
  rw [hl] at h
  simp only [Bool.false_eq_true, ↓reduceIte] at h
  unfold outputStruct at hs
  split at hs
  · simp only [Option.some.injEq, Prod.mk.injEq] at hs
    obtain ⟨rfl, rfl, rfl⟩ := hs
    simp only [] at h
    cases h1 : inheritFieldsAliased _ tagName (ancestors.map unpackSource) _ with
    | none => simp [h1] at h
    | some fs1 =>
      rw [h1] at h
      simp only [Outcome.ok.injEq] at h
      exact ⟨fs1, rfl, by rw [← h]; rfl⟩
  · simp only [Option.some.injEq, Prod.mk.injEq] at hs
    obtain ⟨rfl, rfl, rfl⟩ := hs
    simp only [] at h
    cases h1 : inheritFieldsAliased true tagName (ancestors.map unpackSource) _ with
    | none => simp [h1] at h
    | some fs1 =>
      rw [h1] at h
      simp only [Outcome.ok.injEq] at h
      exact ⟨fs1, rfl, by rw [← h]; rfl⟩
  · cases hs

theorem OverwriteWithTagAliased_ok (output : Arg) (ancestors : List AliasedArg)
    (tagName : String) (n : String) (fs : Fields) (c : Bool) (out1 : Arg)
    (hs : outputStruct output = some (n, fs, c)) (hne : ancestors ≠ [])
    (h : OverwriteWithTagAliased output ancestors tagName = .ok out1) :
    ∃ fs1, overwriteFieldsAliased c tagName (ancestors.map unpackSource) fs = some fs1
      ∧ out1 = withFields output fs1 := by
  have hl : (ancestors.length == 0) = false := by
    cases ancestors with
    | nil => exact absurd rfl hne
    | cons a l => rfl
  unfold OverwriteWithTagAliased at h
  rw [hl] at h
  simp only [Bool.false_eq_true, ↓reduceIte] at h
  unfold outputStruct at hs
  split at hs
  · simp only [Option.some.injEq, Prod.mk.injEq] at hs
    obtain ⟨rfl, rfl, rfl⟩ := hs
    simp only [] at h
    cases h1 : overwriteFieldsAliased _ tagName (ancestors.map unpackSource) _ with
    | none => simp [h1] at h
    | some fs1 =>
      rw [h1] at h
      simp only [Outcome.ok.injEq] at h
      exact ⟨fs1, rfl, by rw [← h]; rfl⟩
  · simp only [Option.some.injEq, Prod.mk.injEq] at hs
    obtain ⟨rfl, rfl, rfl⟩ := hs
    simp only [] at h
    cases h1 : overwriteFieldsAliased true tagName (ancestors.map unpackSource) _ with
    | none => simp [h1] at h
    | some fs1 =>
      rw [h1] at h
      simp only [Outcome.ok.injEq] at h
      exact ⟨fs1, rfl, by rw [← h]; rfl⟩
  · cases hs

/-- The field of index pre.length after a call that returns without error, for either
function: it is what the function makes of the field. -/
theorem field_after_call_aliased (output : Arg) (ancestors : List AliasedArg)
    (tagName : String) (n : String) (pre post : Fields) (f : StructField) (v : Value)
    (c : Bool) (out1 : Arg)
    (hs : outputStruct output = some (n, pre ++ (f, v) :: post, c))
    (hne : ancestors ≠ [])
    (hres : InheritWithTagAliased output ancestors tagName = .ok out1
      ∨ OverwriteWithTagAliased output ancestors tagName = .ok out1) :
    ∃ fs1 v1, outputStruct out1 = some (n, fs1, c) ∧ fs1[pre.length]? = some (f, v1)
      ∧ (inheritFieldAliased c tagName (ancestors.map unpackSource) f v = some v1
        ∨ overwriteFieldAliased c tagName (ancestors.map unpackSource) f v = some v1) := by
  rcases hres with hres | hres
  · obtain ⟨fs1, h1, h2⟩ :=
      InheritWithTagAliased_ok output ancestors tagName n _ c out1 hs hne hres
    obtain ⟨v1, hv1, hget⟩ := inheritFieldsAliased_split c tagName _ pre f v post fs1 h1
    subst h2
    exact ⟨fs1, v1, outputStruct_withFields output n _ fs1 c hs, hget, Or.inl hv1⟩
  · obtain ⟨fs1, h1, h2⟩ :=
      OverwriteWithTagAliased_ok output ancestors tagName n _ c out1 hs hne hres
    obtain ⟨v1, hv1, hget⟩ := overwriteFieldsAliased_split c tagName _ pre f v post fs1 h1
    subst h2
    exact ⟨fs1, v1, outputStruct_withFields output n _ fs1 c hs, hget, Or.inr hv1⟩

theorem inheritFieldAliased_map (tagName : String) (sources : List Source) (f : StructField)
    (v : Value) (hv : v.Kind = Kind.Map) (hf : f.exported = true)
    (ht : tagMatch tagName f = true) :
    inheritFieldAliased true tagName sources f v
      = (mapAncestorsLoopAliased f.Name sources (entriesOf (some v))).map
          (fun m => Value.map m) := by
  cases v <;> simp [Value.Kind] at hv <;>
    simp [inheritFieldAliased, hf, ht, inheritScalarAliased, entriesOf]

theorem overwriteFieldAliased_map (tagName : String) (sources : List Source)
    (f : StructField) (v : Value) (hv : v.Kind = Kind.Map) (hf : f.exported = true)
    (ht : tagMatch tagName f = true) :
    overwriteFieldAliased true tagName sources f v
      = (mapAncestorsLoopAliased f.Name sources (entriesOf (some v))).map
          (fun m => Value.map m) := by
  cases v <;> simp [Value.Kind] at hv <;>
    simp [overwriteFieldAliased, hf, ht, entriesOf]

theorem inheritFieldAliased_slice (tagName : String) (sources : List Source)
    (f : StructField) (v : Value) (hv : v.Kind = Kind.Slice) (hf : f.exported = true)
    (ht : tagMatch tagName f = true) :
    inheritFieldAliased true tagName sources f v = sliceAncestorsLoopAliased f.Name sources v := by
  cases v <;> simp [Value.Kind] at hv <;>
    simp [inheritFieldAliased, hf, ht, inheritScalarAliased]

theorem overwriteFieldAliased_slice (tagName : String) (sources : List Source)
    (f : StructField) (v : Value) (hv : v.Kind = Kind.Slice) (hf : f.exported = true)
    (ht : tagMatch tagName f = true) :
    overwriteFieldAliased true tagName sources f v
      = sliceAncestorsLoopAliased f.Name sources v := by
  cases v <;> simp [Value.Kind] at hv <;>
    simp [overwriteFieldAliased, hf, ht]

/-- C14, as stated, fails: Inherit is called with output a record whose map binds key1 to
"c", and the ancestors a1, whose map binds key1 to "a", and output itself (the same
pointer). The last ancestor, in list order, that contains key1 is output, with the value
"c"; yet key1 ends bound to "a": once a1 is copied, the copy from output sets every key to
the value it already has. -/
theorem Inherit_map_last_ancestor_is_output :
    InheritWithTagAliased
        (.any (some (.ptr (sampleSubstruct (.map [("key1", .str "c")]) .nilSlice))))
        [.other (.any (some (.ptr (sampleSubstruct (.map [("key1", .str "a")]) .nilSlice)))),
         .output] ""
      = .ok (.any (some (.ptr (sampleSubstruct (.map [("key1", .str "a")]) .nilSlice))))
      ∧ lastBinding "key1" [[("key1", Value.str "a")], [("key1", Value.str "c")]]
        = some (.str "c") :=
  ⟨rfl, rfl⟩

/-- C14 (amended): let output be a struct with an exported map field that the call
processes, and let the ancestors, at least one, be structs, each either with storage of
its own or output itself; `amaps` are, in list order, the entries that they contribute:
the entries of the field of the same name (no entry for a nil map or a field that is not
a map) for an ancestor with storage of its own, none for an ancestor that is output
itself. When InheritWithTag or OverwriteWithTag returns without error, the field is a map
that is not nil; a key that some contribution binds is bound to the value of the last
contribution that binds it, whatever output held; every other key is bound as it was in
output, so no key is present that neither output nor an ancestor had. -/
theorem Inherit_Overwrite_map_field_aliased (output : Arg) (ancestors : List AliasedArg)
    (tagName : String) (n : String) (pre post : Fields) (f : StructField) (v : Value)
    (amaps : List (List (String × Value))) (out1 : Arg)
    (hs : outputStruct output = some (n, pre ++ (f, v) :: post, true))
    (hv : v.Kind = Kind.Map) (hf : f.exported = true) (ht : tagMatch tagName f = true)
    (hne : ancestors ≠ [])
    (hanc : List.Forall₂ (fun a m => SourceEntries f.Name (unpackSource a) m) ancestors amaps)
    (hres : InheritWithTagAliased output ancestors tagName = .ok out1
      ∨ OverwriteWithTagAliased output ancestors tagName = .ok out1) :
    ∃ fs1 m1, outputStruct out1 = some (n, fs1, true)
      ∧ fs1[pre.length]? = some (f, .map m1)
      ∧ (∀ k x, lastBinding k amaps = some x → List.lookup k m1 = some x)
      ∧ (∀ k, lastBinding k amaps = none →
          List.lookup k m1 = List.lookup k (entriesOf (some v))) := by
  obtain ⟨fs1, v1, h1, h2, h3⟩ :=
    field_after_call_aliased output ancestors tagName n pre post f v true out1 hs hne hres
  rw [inheritFieldAliased_map tagName _ f v hv hf ht,
    overwriteFieldAliased_map tagName _ f v hv hf ht, or_self] at h3
  obtain ⟨m1, hm1, hlook⟩ := mapAncestorsLoopAliased_spec f.Name _ amaps
    (List.forall₂_map_left_iff.mpr hanc) (entriesOf (some v))
  rw [hm1] at h3
  simp only [Option.map_some', Option.some.injEq] at h3
  subst h3
  refine ⟨fs1, m1, h1, h2, fun k x hx => ?_, fun k hk => ?_⟩
  · rw [hlook k, hx]
    rfl
  · rw [hlook k, hk]
    rfl

/-- Witness of C14 (amended) on records of type SampleSubstruct: output holds key1 and
key2 in MapVal; the ancestors are a record that holds key1 and key3, output itself, and a
record that holds key3. key1 takes the value of the first ancestor, key3 that of the
last one, key2 keeps the value of output. -/
theorem Inherit_Overwrite_map_field_aliased_witness :
    ∃ out1 fs1 m1,
      InheritWithTagAliased (.any (some (.ptr (sampleSubstruct
          (.map [("key1", .str "o1"), ("key2", .str "o2")]) .nilSlice))))
        [.other (.any (some (.ptr (sampleSubstruct
            (.map [("key1", .str "a1"), ("key3", .str "a3")]) .nilSlice)))),
         .output,
         .other (.any (some (.ptr (sampleSubstruct (.map [("key3", .str "b3")]) .nilSlice))))]
        "" = .ok out1
      ∧ outputStruct out1 = some ("SampleSubstruct", fs1, true)
      ∧ fs1[1]? = some (⟨"MapVal", [("api", "mapVal"), ("inherit", "dynamic")], ""⟩, .map m1)
      ∧ List.lookup "key1" m1 = some (.str "a1")
      ∧ List.lookup "key3" m1 = some (.str "b3")
      ∧ List.lookup "key2" m1 = some (.str "o2") := by
  have hres : InheritWithTagAliased (.any (some (.ptr (sampleSubstruct
          (.map [("key1", .str "o1"), ("key2", .str "o2")]) .nilSlice))))
        [.other (.any (some (.ptr (sampleSubstruct
            (.map [("key1", .str "a1"), ("key3", .str "a3")]) .nilSlice)))),
         .output,
         .other (.any (some (.ptr (sampleSubstruct (.map [("key3", .str "b3")]) .nilSlice))))]
        ""
      = .ok (.any (some (.ptr (sampleSubstruct
          (.map [("key1", .str "a1"), ("key2", .str "o2"), ("key3", .str "b3")])
          .nilSlice)))) := by
    rfl
  obtain ⟨fs1, m1, h1, h2, h3, h4⟩ := Inherit_Overwrite_map_field_aliased
    (.any (some (.ptr (sampleSubstruct
      (.map [("key1", .str "o1"), ("key2", .str "o2")]) .nilSlice))))
    [.other (.any (some (.ptr (sampleSubstruct
        (.map [("key1", .str "a1"), ("key3", .str "a3")]) .nilSlice)))),
     .output,
     .other (.any (some (.ptr (sampleSubstruct (.map [("key3", .str "b3")]) .nilSlice))))] ""
    "SampleSubstruct" [(⟨"FuncCal", [], ""⟩, .func 0)]
    [(⟨"SliceVal", [("api", "sliceVal")], ""⟩, .nilSlice)]
    ⟨"MapVal", [("api", "mapVal"), ("inherit", "dynamic")], ""⟩
    (.map [("key1", .str "o1"), ("key2", .str "o2")])
    [[("key1", .str "a1"), ("key3", .str "a3")], [], [("key3", .str "b3")]] _
    rfl rfl rfl rfl (by simp)
    (List.Forall₂.cons ⟨_, rfl, rfl, by decide⟩
      (List.Forall₂.cons rfl
        (List.Forall₂.cons ⟨_, rfl, rfl, by decide⟩ List.Forall₂.nil)))
    (Or.inl hres)
  exact ⟨_, fs1, m1, hres, h1, h2, h3 "key1" (.str "a1") rfl, h3 "key3" (.str "b3") rfl,
    h4 "key2" rfl⟩

/-- C15, as stated, fails: Inherit is called with output a record whose slice holds 1, 2
and with the ancestors output and output again (the same pointer, twice). The claim
gives the six elements 1, 2, 1, 2, 1, 2; the slice ends with eight elements: each
ancestor appends what the slice holds when its turn comes. -/
theorem Inherit_slice_ancestor_is_output :
    InheritWithTagAliased
        (.any (some (.ptr (sampleSubstruct .nilMap (.slice [.int 1, .int 2])))))
        [.output, .output] ""
      = .ok (.any (some (.ptr (sampleSubstruct (.map [])
          (.slice [.int 1, .int 2, .int 1, .int 2, .int 1, .int 2, .int 1, .int 2])))))
      ∧ ([Value.int 1, .int 2] ++ [Value.int 1, .int 2] ++ [Value.int 1, .int 2]).length = 6 :=
  ⟨rfl, rfl⟩

/-- C15 (amended): let output be a struct with an exported slice field that the call
processes, and let the ancestors, at least one, be structs, each either with storage of
its own or output itself; `aslices` are, in list order, the elements of their fields of
the same name (none for a field that is not a slice), `none` standing for an ancestor
that is output itself. When InheritWithTag or OverwriteWithTag returns without error, the
field is a slice that holds the elements it had, followed by what each ancestor appended
in list order: its elements for an ancestor with storage of its own, the elements the
slice holds at that moment for an ancestor that is output itself. When every ancestor has
storage of its own, these are the elements the slice had, followed by those of a1, then
those of a2, and so on: nothing is removed, reordered or dropped as a duplicate, whether
or not the slice of output was empty. -/
theorem Inherit_Overwrite_slice_field_aliased (output : Arg) (ancestors : List AliasedArg)
    (tagName : String) (n : String) (pre post : Fields) (f : StructField) (v : Value)
    (aslices : List (Option (List Value))) (out1 : Arg)
    (hs : outputStruct output = some (n, pre ++ (f, v) :: post, true))
    (hv : v.Kind = Kind.Slice) (hf : f.exported = true) (ht : tagMatch tagName f = true)
    (hne : ancestors ≠ [])
    (hanc : List.Forall₂ (fun a xs => SourceElems f.Name (unpackSource a) xs) ancestors aslices)
    (hres : InheritWithTagAliased output ancestors tagName = .ok out1
      ∨ OverwriteWithTagAliased output ancestors tagName = .ok out1) :
    ∃ fs1 v1, outputStruct out1 = some (n, fs1, true)
      ∧ fs1[pre.length]? = some (f, v1)
      ∧ v1.Kind = Kind.Slice
      ∧ sliceElems v1 = sliceAfter (sliceElems v) aslices
      ∧ (∀ xss : List (List Value), aslices = xss.map some →
          sliceElems v1 = sliceElems v ++ xss.flatten) := by
  obtain ⟨fs1, v1, h1, h2, h3⟩ :=
    field_after_call_aliased output ancestors tagName n pre post f v true out1 hs hne hres
  rw [inheritFieldAliased_slice tagName _ f v hv hf ht,
    overwriteFieldAliased_slice tagName _ f v hv hf ht, or_self] at h3
  obtain ⟨w, hw1, hw2, hw3⟩ := sliceAncestorsLoopAliased_spec f.Name _ aslices
    (List.forall₂_map_left_iff.mpr hanc) v hv
  rw [hw1] at h3
  simp only [Option.some.injEq] at h3
  subst h3
  exact ⟨fs1, w, h1, h2, hw2, hw3, fun xss hx => by rw [hw3, hx, sliceAfter_own]⟩

/-- Witness of C15 (amended) on records of type SampleSubstruct: output holds 1, 2 in
SliceVal, the ancestors 2, 3 and 1; Overwrite leaves 1, 2, 2, 3, 1. -/
theorem Inherit_Overwrite_slice_field_aliased_witness :
    ∃ out1 fs1 v1,
      OverwriteWithTagAliased
        (.any (some (.ptr (sampleSubstruct .nilMap (.slice [.int 1, .int 2])))))
        [.other (.any (some (.ptr (sampleSubstruct .nilMap (.slice [.int 2, .int 3]))))),
         .other (.any (some (.ptr (sampleSubstruct .nilMap (.slice [.int 1])))))] ""
        = .ok out1
      ∧ outputStruct out1 = some ("SampleSubstruct", fs1, true)
      ∧ fs1[2]? = some (⟨"SliceVal", [("api", "sliceVal")], ""⟩, v1)
      ∧ sliceElems v1 = [.int 1, .int 2, .int 2, .int 3, .int 1] := by
  have hres : OverwriteWithTagAliased
      (.any (some (.ptr (sampleSubstruct .nilMap (.slice [.int 1, .int 2])))))
      [.other (.any (some (.ptr (sampleSubstruct .nilMap (.slice [.int 2, .int 3]))))),
       .other (.any (some (.ptr (sampleSubstruct .nilMap (.slice [.int 1])))))] ""
      = .ok (.any (some (.ptr (sampleSubstruct (.map [])
          (.slice [.int 1, .int 2, .int 2, .int 3, .int 1]))))) := by
    rfl
  obtain ⟨fs1, v1, h1, h2, _, _, h5⟩ := Inherit_Overwrite_slice_field_aliased
    (.any (some (.ptr (sampleSubstruct .nilMap (.slice [.int 1, .int 2])))))
    [.other (.any (some (.ptr (sampleSubstruct .nilMap (.slice [.int 2, .int 3]))))),
     .other (.any (some (.ptr (sampleSubstruct .nilMap (.slice [.int 1])))))] ""
    "SampleSubstruct"
    [(⟨"FuncCal", [], ""⟩, .func 0),
     (⟨"MapVal", [("api", "mapVal"), ("inherit", "dynamic")], ""⟩, .nilMap)] []
    ⟨"SliceVal", [("api", "sliceVal")], ""⟩ (.slice [.int 1, .int 2])
    [some [.int 2, .int 3], some [.int 1]] _
    rfl rfl rfl rfl (by simp)
    (List.Forall₂.cons ⟨_, rfl, rfl⟩ (List.Forall₂.cons ⟨_, rfl, rfl⟩ List.Forall₂.nil))
    (Or.inr hres)
  exact ⟨_, fs1, v1, hres, h1, h2, h5 [[.int 2, .int 3], [.int 1]] rfl⟩

/-! ## Fields without the tag -/

mutual
theorem keepsUntagged_refl (tagName : String) : ∀ (fs : Fields), keepsUntagged tagName fs fs
  | [] => by
    rw [keepsUntagged]
  | (f, v) :: rest => by
    rw [keepsUntagged]
    exact ⟨rfl, keepsUntaggedValue_refl tagName _ v, keepsUntagged_refl tagName rest⟩
theorem keepsUntaggedValue_refl (tagName : String) (tagged : Bool) :
    ∀ (v : Value), keepsUntaggedValue tagName tagged v v
  | .struct n fs => by
    rw [keepsUntaggedValue]
    cases tagged
    · simp
    · simp only [↓reduceIte]
      exact Or.inr ⟨fs, rfl, keepsUntagged_refl tagName fs⟩
  | .bool _ | .int _ | .uint _ | .float _ | .complex _ _ | .str _ | .func _ | .chan _
  | .nilIface | .iface _ | .nilPtr | .ptr _ | .nilMap | .map _ | .nilSlice | .slice _ => by
    simp [keepsUntaggedValue]
end

theorem tagMatch_false (tagName : String) (f : StructField) (hne : tagName ≠ "")
    (h : (tagLookup f.Tag tagName).isSome = false) : tagMatch tagName f = false := by
  unfold tagMatch
  rw [h]
  simpa using hne

theorem keepsUntaggedValue_scalar (tagName : String) (tagged : Bool) (v w : Value)
    (hv : v.Kind ≠ Kind.Struct) (h : tagged = true ∨ w = v) :
    keepsUntaggedValue tagName tagged v w := by
  cases v <;> simp [Value.Kind] at hv <;> simpa [keepsUntaggedValue] using h

mutual
theorem inheritFields_keepsUntagged (canSet : Bool) (tagName : String) (hne : tagName ≠ "")
    (avals : List (Option Value)) :
    ∀ (fs fs1 : Fields), inheritFields canSet tagName avals fs = some fs1 →
      keepsUntagged tagName fs fs1
  | [], fs1, h => by
    rw [inheritFields] at h
    cases h
    rw [keepsUntagged]
  | (f, v) :: rest, fs1, h => by
    rw [inheritFields] at h
    cases h1 : inheritField canSet tagName avals f v with
    | none => simp [h1] at h
    | some v1 =>
      rw [h1] at h
      simp only [] at h
      cases h2 : inheritFields canSet tagName avals rest with
      | none => simp [h2] at h
      | some rest1 =>
        rw [h2] at h
        simp only [Option.some.injEq] at h
        subst h
        rw [keepsUntagged]
        exact ⟨rfl, inheritField_keepsUntagged canSet tagName hne avals f v v1 h1,
          inheritFields_keepsUntagged canSet tagName hne avals rest rest1 h2⟩
theorem inheritField_keepsUntagged (canSet : Bool) (tagName : String) (hne : tagName ≠ "")
    (avals : List (Option Value)) (f : StructField) :
    ∀ (v v1 : Value), inheritField canSet tagName avals f v = some v1 →
      keepsUntaggedValue tagName ((tagLookup f.Tag tagName).isSome) v v1
  | .struct n ofs, v1, h => by
    rw [keepsUntaggedValue]
    cases htag : (tagLookup f.Tag tagName).isSome with
    | false =>
      rw [inheritField, tagMatch_false tagName f hne htag] at h
      simp only [Bool.and_false, Bool.false_eq_true, ↓reduceIte, Option.some.injEq] at h
      simp [h]
    | true =>
      simp only [↓reduceIte]
      rw [inheritField] at h
      split at h
      · split at h
        · left
          simpa using ‹(n == timeString) = true›
        · right
          split at h
          · cases h
          · simp only [Option.some.injEq] at h
            exact ⟨ofs, h.symm, keepsUntagged_refl tagName ofs⟩
          · rename_i a more _
            cases h3 : inheritFields true tagName (a :: more) ofs with
            | none => simp [h3] at h
            | some ofs1 =>
              rw [h3] at h
              simp only [Option.some.injEq] at h
              exact ⟨ofs1, h.symm,
                inheritFields_keepsUntagged true tagName hne (a :: more) ofs ofs1 h3⟩
      · right
        simp only [Option.some.injEq] at h
        exact ⟨ofs, h.symm, keepsUntagged_refl tagName ofs⟩
  | .bool _, v1, h | .int _, v1, h | .uint _, v1, h | .float _, v1, h | .complex _ _, v1, h
  | .str _, v1, h | .func _, v1, h | .chan _, v1, h | .nilIface, v1, h | .iface _, v1, h
  | .nilPtr, v1, h | .ptr _, v1, h | .nilMap, v1, h | .map _, v1, h | .nilSlice, v1, h
  | .slice _, v1, h => by
    apply keepsUntaggedValue_scalar tagName _ _ v1 (by simp [Value.Kind])
    cases htag : (tagLookup f.Tag tagName).isSome with
    | true => exact Or.inl rfl
    | false =>
      right
      rw [inheritField_unprocessed canSet tagName avals f _
        (by rw [tagMatch_false tagName f hne htag]; simp)] at h
      simp only [Option.some.injEq] at h
      exact h.symm
end


theorem overwriteField_keepsUntagged (canSet : Bool) (tagName : String) (hne : tagName ≠ "")
    (avals : List (Option Value)) (f : StructField) (v v1 : Value)
    (h : overwriteField canSet tagName avals f v = some v1) :
    keepsUntaggedValue tagName ((tagLookup f.Tag tagName).isSome) v v1 := by
  cases htag : (tagLookup f.Tag tagName).isSome with
  | false =>
    have hv : v1 = v := by
      unfold overwriteField at h
      rw [tagMatch_false tagName f hne htag] at h
      simp only [Bool.and_false, Bool.false_eq_true, ↓reduceIte, Option.some.injEq] at h
      exact h.symm
    subst hv
    exact keepsUntaggedValue_refl tagName false v1
  | true =>
    cases v with
    | struct n ofs =>
      rw [keepsUntaggedValue]
      simp only [↓reduceIte]
      unfold overwriteField at h
      split at h
      · simp only [] at h
        split at h
        · left
          simpa [timeString] using ‹(n == "Time") = true›
        · right
          split at h
          · cases h
          · simp only [Option.some.injEq] at h
            exact ⟨ofs, h.symm, keepsUntagged_refl tagName ofs⟩
          · rename_i a more _
            cases h3 : inheritFields true tagName (a :: more) ofs with
            | none => simp [h3] at h
            | some ofs1 =>
              rw [h3] at h
              simp only [Option.some.injEq] at h
              exact ⟨ofs1, h.symm,
                inheritFields_keepsUntagged true tagName hne (a :: more) ofs ofs1 h3⟩
      · right
        simp only [Option.some.injEq] at h
        exact ⟨ofs, h.symm, keepsUntagged_refl tagName ofs⟩
    | _ => exact keepsUntaggedValue_scalar tagName _ _ v1 (by simp [Value.Kind]) (Or.inl rfl)

theorem overwriteFields_keepsUntagged (canSet : Bool) (tagName : String) (hne : tagName ≠ "")
    (avals : List (Option Value)) :
    ∀ (fs fs1 : Fields), overwriteFields canSet tagName avals fs = some fs1 →
      keepsUntagged tagName fs fs1
  | [], fs1, h => by
    rw [overwriteFields] at h
    cases h
    rw [keepsUntagged]
  | (f, v) :: rest, fs1, h => by
    rw [overwriteFields] at h
    cases h1 : overwriteField canSet tagName avals f v with
    | none => simp [h1] at h
    | some v1 =>
      rw [h1] at h
      simp only [] at h
      cases h2 : overwriteFields canSet tagName avals rest with
      | none => simp [h2] at h
      | some rest1 =>
        rw [h2] at h
        simp only [Option.some.injEq] at h
        subst h
        rw [keepsUntagged]
        exact ⟨rfl, overwriteField_keepsUntagged canSet tagName hne avals f v v1 h1,
          overwriteFields_keepsUntagged canSet tagName hne avals rest rest1 h2⟩

theorem keepsUntaggedValue_untagged (tagName : String) (v w : Value)
    (h : keepsUntaggedValue tagName false v w) : w = v := by
  cases v <;> simpa [keepsUntaggedValue] using h

theorem keepsUntagged_get (tagName : String) :
    ∀ (fs fs1 : Fields) (i : Nat) (f : StructField) (v : Value),
      keepsUntagged tagName fs fs1 → fs[i]? = some (f, v) → tagLookup f.Tag tagName = none →
      fs1[i]? = some (f, v)
  | [], _, _, _, _, _, hget, _ => by simp at hget
  | (g, w) :: rest, fs1, i, f, v, h, hget, htag => by
    cases fs1 with
    | nil =>
      rw [keepsUntagged] at h
      exact absurd h (by simp)
    | cons hd others =>
      obtain ⟨g1, w1⟩ := hd
      rw [keepsUntagged] at h
      obtain ⟨e1, e2, e3⟩ := h
      subst e1
      cases i with
      | zero =>
        simp only [List.getElem?_cons_zero, Option.some.injEq, Prod.mk.injEq] at hget
        obtain ⟨rfl, rfl⟩ := hget
        rw [htag] at e2
        have := keepsUntaggedValue_untagged tagName _ _ e2
        subst this
        simp
      | succ j =>
        simp only [List.getElem?_cons_succ] at hget ⊢
        exact keepsUntagged_get tagName rest others j f v e3 hget htag

/-- C17: when InheritWithTag or OverwriteWithTag, called with a tag name that is not
empty, returns without error, the struct it worked on has the same fields as before; a
field that does not carry the tag holds exactly the value it held, and so does, at every
depth, a field without the tag of a nested record (not a timestamp) that carries the
tag. -/
theorem untagged_fields_kept (output : Arg) (ancestors : List Arg) (tagName : String)
    (n : String) (fs : Fields) (c : Bool) (out1 : Arg)
    (hs : outputStruct output = some (n, fs, c))
    (hne : tagName ≠ "")
    (hres : InheritWithTag output ancestors tagName = .ok out1
      ∨ OverwriteWithTag output ancestors tagName = .ok out1) :
    ∃ fs1, outputStruct out1 = some (n, fs1, c)
      ∧ keepsUntagged tagName fs fs1
      ∧ ∀ (i : Nat) (f : StructField) (v : Value), fs[i]? = some (f, v) →
          tagLookup f.Tag tagName = none → fs1[i]? = some (f, v) := by
  have key : ∃ fs1, outputStruct out1 = some (n, fs1, c) ∧ keepsUntagged tagName fs fs1 := by
    by_cases hanc : ancestors = []
    · subst hanc
      have : out1 = output := by
        rcases hres with hres | hres
        · simp only [InheritWithTag, List.length_nil, beq_self_eq_true, ↓reduceIte,
            Outcome.ok.injEq] at hres
          exact hres.symm
        · simp only [OverwriteWithTag, List.length_nil, beq_self_eq_true, ↓reduceIte,
            Outcome.ok.injEq] at hres
          exact hres.symm
      subst this
      exact ⟨fs, hs, keepsUntagged_refl tagName fs⟩
    · rcases hres with hres | hres
      · obtain ⟨fs1, h1, h2⟩ := InheritWithTag_ok output ancestors tagName n fs c out1 hs hanc hres
        subst h2
        exact ⟨fs1, outputStruct_withFields output n fs fs1 c hs,
          inheritFields_keepsUntagged c tagName hne _ fs fs1 h1⟩
      · obtain ⟨fs1, h1, h2⟩ :=
          OverwriteWithTag_ok output ancestors tagName n fs c out1 hs hanc hres
        subst h2
        exact ⟨fs1, outputStruct_withFields output n fs fs1 c hs,
          overwriteFields_keepsUntagged c tagName hne _ fs fs1 h1⟩
  obtain ⟨fs1, h1, h2⟩ := key
  exact ⟨fs1, h1, h2, fun i f v hget htag => keepsUntagged_get tagName fs fs1 i f v h2 hget htag⟩

/-- Witness of C17 on the records of TestInheritWithTag: with the tag inherit, IntVal,
which has no tag inherit, stays 0 although the parent holds 12. -/
theorem untagged_fields_kept_witness :
    ∃ out1 fs1,
      InheritWithTag (.any (some (.ptr inheritChild))) [.any (some (.ptr inheritParent))]
        "inherit" = .ok out1
      ∧ ancestorField (some inheritParent) "IntVal" = some (some (.int 12))
      ∧ outputStruct out1 = some ("SampleStruct", fs1, true)
      ∧ fs1[3]? = some (⟨"IntVal", [("api", "intVal")], ""⟩, .int 0) := by
  have hres : InheritWithTag (.any (some (.ptr inheritChild)))
      [.any (some (.ptr inheritParent))] "inherit" =
      .ok (.any (some (.ptr (sampleStruct (.bool false) (.ptr (.bool true))
        (.float 0x40F422724538EF35) (.int 0) .nilIface (.str "child")
        (sampleSubstruct (.map [("key2", .str "val2"), ("key1", .str "val1")]) .nilSlice)
        (timeValue 7 9) (.ptr (timeValue 7 9)) (.uint 98))))) := by
    rfl
  obtain ⟨fs1, h1, _, h3⟩ := untagged_fields_kept
    (.any (some (.ptr inheritChild))) [.any (some (.ptr inheritParent))] "inherit"
    "SampleStruct" (structFields (some inheritChild)).get! true _ rfl (by decide)
    (Or.inl hres)
  exact ⟨_, fs1, hres, rfl, h1, h3 3 ⟨"IntVal", [("api", "intVal")], ""⟩ (.int 0) rfl rfl⟩

/-! ## ParseTypedValue: the scan -/

theorem runeLoop_cons (c : Char) (rest : List Char) (s : ScanState) :
    runeLoop (c :: rest) s
      = if IsWhitespace c = true then runeLoop rest s
        else if (scanRune c s).2 = true then (scanRune c s).1
        else runeLoop rest (scanRune c s).1.next :=
  rfl

theorem ScanState.next_pos (s : ScanState) : s.next.pos = s.pos + 1 := rfl

theorem scanRune_pos (c : Char) (s : ScanState) : (scanRune c s).1.pos = s.pos := by
  unfold scanRune
  cases runeClass c <;> simp only [ScanState.write] <;> split_ifs <;> rfl

theorem runeLoop_pos_le : ∀ (chars : List Char) (s : ScanState), s.pos ≤ (runeLoop chars s).pos
  | [], s => Nat.le_refl _
  | c :: rest, s => by
    rw [runeLoop_cons]
    have hp := scanRune_pos c s
    split_ifs
    · exact runeLoop_pos_le rest s
    · exact Nat.le_of_eq hp.symm
    · have := runeLoop_pos_le rest (scanRune c s).1.next
      rw [ScanState.next_pos] at this
      omega

/-- At the first character that counts, the loop is not left. -/
theorem scanRune_first (c : Char) (s : ScanState) (hp : s.pos = 0)
    (ho : s.hasOperand = false) (hi : s.hasI = false) (hd : s.decimalCount = 0) :
    (scanRune c s).2 = false := by
  unfold scanRune
  cases runeClass c <;> simp only [ScanState.write, hp, ho, hi, hd] <;> (try split_ifs) <;>
    simp_all

theorem runeLoop_pos_zero_iff :
    ∀ (chars : List Char) (s : ScanState), s.pos = 0 → s.hasOperand = false →
      s.hasI = false → s.decimalCount = 0 →
      ((runeLoop chars s).pos = 0 ↔ ∀ c ∈ chars, IsWhitespace c = true)
  | [], s, hp, _, _, _ => by simp [runeLoop, hp]
  | c :: rest, s, hp, ho, hi, hd => by
    rw [runeLoop_cons]
    cases hw : IsWhitespace c with
    | true =>
      simp only [↓reduceIte, List.mem_cons, forall_eq_or_imp, hw, true_and]
      exact runeLoop_pos_zero_iff rest s hp ho hi hd
    | false =>
      simp only [Bool.false_eq_true, ↓reduceIte, List.mem_cons, forall_eq_or_imp, hw,
        false_and, iff_false, scanRune_first c s hp ho hi hd]
      have := runeLoop_pos_le rest (scanRune c s).1.next
      rw [ScanState.next_pos] at this
      omega

/-! ## ParseTypedValue: separators and the trailing sign -/

theorem lastIndexFrom_not_mem (c : Char) :
    ∀ (xs : List Char) (i : Nat) (last : Int), c ∉ xs → lastIndexFrom c xs i last = last
  | [], _, _, _ => rfl
  | x :: xs, i, last, h => by
    simp only [List.mem_cons, not_or] at h
    rw [lastIndexFrom, if_neg (fun e => h.1 e.symm)]
    exact lastIndexFrom_not_mem c xs (i + 1) last h.2

theorem lastIndexFrom_lower (c : Char) :
    ∀ (xs : List Char) (i : Nat) (last bound : Int), bound ≤ last → bound ≤ (i : Int) →
      bound ≤ lastIndexFrom c xs i last
  | [], _, _, _, h, _ => h
  | x :: xs, i, last, bound, h1, h2 => by
    rw [lastIndexFrom]
    apply lastIndexFrom_lower c xs (i + 1)
    · split_ifs
      · exact h2
      · exact h1
    · push_cast
      omega

theorem lastIndexFrom_mem (c : Char) :
    ∀ (xs : List Char) (i : Nat) (last : Int), c ∈ xs → (i : Int) ≤ lastIndexFrom c xs i last
  | [], _, _, h => by simp at h
  | x :: xs, i, last, h => by
    rw [lastIndexFrom]
    by_cases hx : x = c
    · rw [if_pos hx]
      exact lastIndexFrom_lower c xs (i + 1) i i (le_refl _) (by push_cast; omega)
    · rw [if_neg hx]
      have hm : c ∈ xs := by
        rcases List.mem_cons.mp h with e | e
        · exact absurd e.symm hx
        · exact e
      have := lastIndexFrom_mem c xs (i + 1) last hm
      push_cast at this
      omega

theorem lastIndex_of_not_mem (s : List Char) (c : Char) (h : c ∉ s) : lastIndex s c = -1 :=
  lastIndexFrom_not_mem c s 0 (-1) h

theorem mem_of_lastIndex (s : List Char) (c : Char) (h : lastIndex s c > -1) : c ∈ s := by
  by_contra hn
  rw [lastIndex_of_not_mem s c hn] at h
  omega

theorem moveTrailingSign_mem (d chars : List Char) (h : moveTrailingSign d = some chars) :
    chars ≠ [] ∧ ∀ c, c ∈ chars ↔ c ∈ d := by
  unfold moveTrailingSign at h
  cases hl : d.getLast? with
  | none => simp [hl] at h
  | some l =>
    rw [hl] at h
    simp only [] at h
    have hd : d.dropLast ++ [l] = d := List.dropLast_append_getLast? l hl
    split_ifs at h
    · simp only [Option.some.injEq] at h
      subst h
      refine ⟨by simp, fun c => ?_⟩
      rw [← hd]
      simp only [List.mem_cons, List.dropLast_concat, List.mem_append, List.mem_singleton]
      tauto
    · simp only [Option.some.injEq] at h
      subst h
      refine ⟨?_, fun c => Iff.rfl⟩
      intro e
      rw [e] at hl
      simp at hl

theorem moveTrailingSign_whitespace (d : List Char) (hd : d ≠ [])
    (h : ∀ c ∈ d, IsWhitespace c = true) : moveTrailingSign d = some d := by
  unfold moveTrailingSign
  cases hl : d.getLast? with
  | none => exact absurd (List.getLast?_eq_none_iff.mp hl) hd
  | some l =>
    have hw := h l (List.mem_of_getLast?_eq_some hl)
    have h1 : l ≠ '-' := by
      rintro rfl
      exact absurd hw (by decide)
    have h2 : l ≠ '+' := by
      rintro rfl
      exact absurd hw (by decide)
    simp [h1, h2]

theorem swap_has_period (d : List Char) (h : ',' ∈ d) :
    '.' ∈ replaceAll (replaceAll (replaceAll d ',' '!') '.' ',') '!' '.' := by
  unfold replaceAll
  simp only [List.map_map, List.mem_map]
  exact ⟨',', h, by decide⟩

theorem normalize_blank_iff (d : List Char) (hd : d ≠ []) :
    (∃ chars, moveTrailingSign (normalizeSeparators d) = some chars
        ∧ ∀ c ∈ chars, IsWhitespace c = true)
      ↔ ((∃ c ∈ d, IsWhitespace c = true) ∧ (∀ c ∈ d, IsWhitespace c = true ∨ c = '.')
          ∧ d.count '.' ≠ 1) := by
  have hperiod : IsWhitespace '.' = false := by decide
  have hcomma : IsWhitespace ',' = false := by decide
  constructor
  · rintro ⟨chars, hm, hall⟩
    obtain ⟨hne, hmem⟩ := moveTrailingSign_mem _ chars hm
    have hall2 : ∀ c ∈ normalizeSeparators d, IsWhitespace c = true :=
      fun c hc => hall c ((hmem c).mpr hc)
    have hne2 : normalizeSeparators d ≠ [] := by
      intro e
      rw [e] at hm
      simp [moveTrailingSign] at hm
    unfold normalizeSeparators at hall2 hne2
    simp only [] at hall2 hne2
    split_ifs at hall2 hne2 with h1 h2
    · simp only [Bool.and_eq_true, decide_eq_true_eq] at h1
      have := hall2 '.' (swap_has_period d (mem_of_lastIndex d ',' h1.1.2))
      rw [hperiod] at this
      cases this
    · have hfil : ∀ c ∈ d, c ≠ '.' → IsWhitespace c = true := by
        intro c hc hcp
        exact hall2 c (List.mem_filter.mpr ⟨hc, by simpa using hcp⟩)
      obtain ⟨c0, hc0⟩ := List.exists_mem_of_ne_nil _ hne2
      have hc0d := (List.mem_filter.mp hc0).1
      refine ⟨⟨c0, hc0d, hall2 c0 hc0⟩, fun c hc => ?_, by omega⟩
      by_cases hcp : c = '.'
      · exact Or.inr hcp
      · exact Or.inl (hfil c hc hcp)
    · obtain ⟨c0, hc0⟩ := List.exists_mem_of_ne_nil _ hd
      refine ⟨⟨c0, hc0, hall2 c0 hc0⟩, fun c hc => Or.inl (hall2 c hc), ?_⟩
      have : '.' ∉ d := by
        intro hp
        have := hall2 '.' hp
        rw [hperiod] at this
        cases this
      rw [List.count_eq_zero_of_not_mem this]
      decide
  · rintro ⟨⟨c0, hc0, hw0⟩, hall, hcount⟩
    have hnc : ',' ∉ d := by
      intro hc
      rcases hall ',' hc with h | h
      · rw [hcomma] at h
        cases h
      · exact absurd h (by decide)
    have hswap : (decide (lastIndex d '.' > -1) && decide (lastIndex d ',' > -1)
        && decide (lastIndex d ',' > lastIndex d '.')) = false := by
      rw [lastIndex_of_not_mem d ',' hnc]
      simp
    unfold normalizeSeparators
    simp only [hswap, Bool.false_eq_true, ↓reduceIte]
    split_ifs with h2
    · have hall2 : ∀ c ∈ d.filter (fun x => x != '.'), IsWhitespace c = true := by
        intro c hc
        obtain ⟨hcd, hcp⟩ := List.mem_filter.mp hc
        rcases hall c hcd with h | h
        · exact h
        · simp [h] at hcp
      have hne : d.filter (fun x => x != '.') ≠ [] := by
        apply List.ne_nil_of_mem (a := c0)
        refine List.mem_filter.mpr ⟨hc0, ?_⟩
        have : c0 ≠ '.' := by
          rintro rfl
          rw [hperiod] at hw0
          cases hw0
        simpa using this
      exact ⟨_, moveTrailingSign_whitespace _ hne hall2, hall2⟩
    · have hz : d.count '.' = 0 := by omega
      have hnp : '.' ∉ d := List.count_eq_zero.mp hz
      have hall2 : ∀ c ∈ d, IsWhitespace c = true := by
        intro c hc
        rcases hall c hc with h | h
        · exact h
        · exact absurd (h ▸ hc) hnp
      exact ⟨_, moveTrailingSign_whitespace d hd hall2, hall2⟩

theorem String_data_ne_nil (s : String) (h : s ≠ "") : s.data ≠ [] := by
  intro e
  apply h
  cases s
  simp only [] at e
  subst e
  rfl

/-- Counterexample of C18: the input of one space is not empty and ParseTypedValue
returns the zero reflect.Value for it. -/
theorem ParseTypedValue_space_absent :
    " " ≠ "" ∧ ParseTypedValue (fun _ => none) (fun _ => none) " " = some none :=
  ⟨by decide, rfl⟩

/-- C18, amended: ParseTypedValue returns the zero reflect.Value exactly when the scan
counts no character: for the empty string, and for an input that holds a whitespace
character and otherwise only whitespace and periods, the number of periods not being
one (two or more periods are stripped before the scan, a single one is scanned). -/
theorem ParseTypedValue_absent_iff (parseFloat : String → Option Nat)
    (parseAny : String → Option ParsedTime) (dataString : String) :
    ParseTypedValue parseFloat parseAny dataString = some none
      ↔ dataString = ""
        ∨ ((∃ c ∈ dataString.data, IsWhitespace c = true)
          ∧ (∀ c ∈ dataString.data, IsWhitespace c = true ∨ c = '.')
          ∧ dataString.data.count '.' ≠ 1) := by
  by_cases hs : dataString = ""
  · subst hs
    simp [ParseTypedValue]
  · have hd := String_data_ne_nil dataString hs
    have hb : (dataString == "") = false := by simpa using hs
    rw [← normalize_blank_iff dataString.data hd]
    unfold ParseTypedValue
    rw [hb]
    simp only [Bool.false_eq_true, ↓reduceIte, hs, false_or]
    cases hm : moveTrailingSign (normalizeSeparators dataString.data) with
    | none => simp
    | some chars =>
      simp only [Option.some.injEq, exists_eq_left']
      rw [← runeLoop_pos_zero_iff chars initialScan rfl rfl rfl rfl]
      by_cases hp : (runeLoop chars initialScan).pos = 0
      · simp [hp]
      · simp [hp]

/-! ## ParseTypedValue: digits and separators -/

theorem digit_cases (c : Char) (h : c.isDigit = true) :
    c = '0' ∨ c = '1' ∨ c = '2' ∨ c = '3' ∨ c = '4' ∨ c = '5' ∨ c = '6' ∨ c = '7'
      ∨ c = '8' ∨ c = '9' := by
  have hc : c = Char.ofNat c.toNat := (Char.ofNat_toNat c).symm
  simp only [Char.isDigit, Bool.and_eq_true, decide_eq_true_eq] at h
  have h1 : 48 ≤ c.toNat := h.1
  have h2 : c.toNat ≤ 57 := h.2
  generalize c.toNat = n at hc h1 h2
  subst hc
  interval_cases n <;> simp

theorem digit_facts (c : Char) (h : c.isDigit = true) :
    IsWhitespace c = false ∧ (runeClass c = .digit ∨ runeClass c = .zero)
      ∧ (runeClass c = .zero → c = '0')
      ∧ c ≠ ',' ∧ c ≠ '.' ∧ c ≠ '+' ∧ c ≠ '-' := by
  rcases digit_cases c h with rfl | rfl | rfl | rfl | rfl | rfl | rfl | rfl | rfl | rfl <;>
    decide

/-- The switch on a digit once the buffer is not empty: the digit is written. -/
theorem scanRune_digit (c : Char) (s : ScanState) (h : c.isDigit = true)
    (hb : s.outputBuffer ≠ []) : scanRune c s = (s.write c, false) := by
  obtain ⟨_, hcl, _⟩ := digit_facts c h
  unfold scanRune
  rcases hcl with e | e
  · rw [e]
  · rw [e]
    have : s.outputBuffer.isEmpty = false := by
      cases hs : s.outputBuffer with
      | nil => exact absurd hs hb
      | cons _ _ => rfl
    simp [this]

/-- The switch on a first digit that is not 0: the digit is written. -/
theorem scanRune_first_digit (c : Char) (s : ScanState) (h : c.isDigit = true)
    (hz : c ≠ '0') : scanRune c s = (s.write c, false) := by
  obtain ⟨_, hcl, hzero, _⟩ := digit_facts c h
  unfold scanRune
  rcases hcl with e | e
  · rw [e]
  · exact absurd (hzero e) hz

/-- The scan of digits and commas, once the buffer is not empty: the digits are written
and every character is counted. -/
theorem runeLoop_digits_commas :
    ∀ (ds rest : List Char) (s : ScanState), s.outputBuffer ≠ [] →
      (∀ c ∈ ds, c.isDigit = true ∨ c = ',') →
      runeLoop (ds ++ rest) s
        = runeLoop rest
            { outputBuffer := s.outputBuffer ++ ds.filter (fun x => x != ','),
              decimalCount := s.decimalCount, hasI := s.hasI, hasOperand := s.hasOperand,
              leadingZeroes := s.leadingZeroes, pos := s.pos + ds.length,
              complexSupported := s.complexSupported, numberSupported := s.numberSupported }
  | [], rest, s, _, _ => by simp
  | c :: ds, rest, s, hb, h => by
    have hds : ∀ x ∈ ds, x.isDigit = true ∨ x = ',' :=
      fun x hx => h x (List.mem_cons_of_mem _ hx)
    rw [List.cons_append, runeLoop_cons]
    rcases h c (List.mem_cons_self _ _) with hc | hc
    · obtain ⟨hw, _, _, hcomma, _⟩ := digit_facts c hc
      rw [hw, scanRune_digit c s hc hb]
      simp only [Bool.false_eq_true, ↓reduceIte]
      rw [runeLoop_digits_commas ds rest (s.write c).next (by simp [ScanState.write,
        ScanState.next]) hds]
      congr 1
      simp only [ScanState.write, ScanState.next, List.filter_cons, bne_iff_ne, ne_eq, hcomma,
        not_false_eq_true, decide_True, ↓reduceIte, List.append_assoc, List.singleton_append,
        List.length_cons, ScanState.mk.injEq, true_and, and_true]
      omega
    · subst hc
      have hw : IsWhitespace ',' = false := by decide
      have hs : scanRune ',' s = (s, false) := rfl
      rw [hw, hs]
      simp only [Bool.false_eq_true, ↓reduceIte]
      rw [runeLoop_digits_commas ds rest s.next (by simpa [ScanState.next] using hb) hds]
      congr 1
      simp only [ScanState.next, List.filter_cons, bne_self_eq_false, Bool.false_eq_true,
        ↓reduceIte, List.length_cons, ScanState.mk.injEq, true_and, and_true]
      omega

theorem digitGroup_iff (g : List Char) :
    digitGroup g = true ↔ g ≠ [] ∧ ∀ c ∈ g, c.isDigit = true := by
  unfold digitGroup
  cases g <;> simp

theorem not_mem_of_digits (g : List Char) (c : Char) (hc : c.isDigit = false)
    (h : ∀ x ∈ g, x.isDigit = true) : c ∉ g := by
  intro hm
  rw [h c hm] at hc
  cases hc

theorem joinWith_cons_cons (sep : Char) (g h : List Char) (t : List (List Char)) :
    joinWith sep (g :: h :: t) = g ++ sep :: joinWith sep (h :: t) := rfl

/-- Stripping the separator from joined groups that do not hold it leaves the groups
concatenated. -/
theorem joinWith_filter (sep : Char) :
    ∀ (gs : List (List Char)), (∀ g ∈ gs, sep ∉ g) →
      (joinWith sep gs).filter (fun x => x != sep) = gs.flatten
  | [], _ => rfl
  | [g], h => by
    have hg := h g (List.mem_singleton.mpr rfl)
    simp only [joinWith, List.flatten_cons, List.flatten_nil, List.append_nil]
    rw [List.filter_eq_self]
    intro a ha
    simp only [bne_iff_ne, ne_eq]
    rintro rfl
    exact hg ha
  | g :: h :: t, hh => by
    have hg := hh g (List.mem_cons_self _ _)
    rw [joinWith_cons_cons, List.filter_append, List.filter_cons]
    simp only [bne_self_eq_false, Bool.false_eq_true, ↓reduceIte, List.flatten_cons]
    rw [joinWith_filter sep (h :: t) (fun x hx => hh x (List.mem_cons_of_mem _ hx))]
    rw [List.filter_eq_self.mpr]
    · rfl
    · intro a ha
      simp only [bne_iff_ne, ne_eq]
      rintro rfl
      exact hg ha

theorem joinWith_count (sep : Char) :
    ∀ (gs : List (List Char)), (∀ g ∈ gs, sep ∉ g) →
      (joinWith sep gs).count sep = gs.length - 1
  | [], _ => rfl
  | [g], h => by
    simp only [joinWith, List.length_singleton, Nat.sub_self]
    exact List.count_eq_zero_of_not_mem (h g (List.mem_singleton.mpr rfl))
  | g :: h :: t, hh => by
    rw [joinWith_cons_cons, List.count_append, List.count_cons_self,
      List.count_eq_zero_of_not_mem (hh g (List.mem_cons_self _ _)),
      joinWith_count sep (h :: t) (fun x hx => hh x (List.mem_cons_of_mem _ hx))]
    simp

theorem joinWith_mem (sep : Char) (c : Char) :
    ∀ (gs : List (List Char)), c ∈ joinWith sep gs → c = sep ∨ ∃ g ∈ gs, c ∈ g
  | [], h => by simp [joinWith] at h
  | [g], h => Or.inr ⟨g, List.mem_singleton.mpr rfl, h⟩
  | g :: h :: t, hm => by
    rw [joinWith_cons_cons, List.mem_append, List.mem_cons] at hm
    rcases hm with hm | hm | hm
    · exact Or.inr ⟨g, List.mem_cons_self _ _, hm⟩
    · exact Or.inl hm
    · rcases joinWith_mem sep c (h :: t) hm with e | ⟨x, hx, hcx⟩
      · exact Or.inl e
      · exact Or.inr ⟨x, List.mem_cons_of_mem _ hx, hcx⟩

theorem sep_mem_joinWith (sep : Char) (g h : List Char) (t : List (List Char)) :
    sep ∈ joinWith sep (g :: h :: t) := by
  rw [joinWith_cons_cons]
  simp

theorem joinWith_map (f : Char → Char) (sep : Char) :
    ∀ (gs : List (List Char)), (∀ g ∈ gs, ∀ c ∈ g, f c = c) →
      (joinWith sep gs).map f = joinWith (f sep) gs
  | [], _ => rfl
  | [g], h => by
    simp only [joinWith]
    rw [List.map_congr_left (h g (List.mem_singleton.mpr rfl))]
    simp
  | g :: h :: t, hh => by
    rw [joinWith_cons_cons, joinWith_cons_cons, List.map_append, List.map_cons,
      joinWith_map f sep (h :: t) (fun x hx => hh x (List.mem_cons_of_mem _ hx)),
      List.map_congr_left (hh g (List.mem_cons_self _ _))]
    simp

theorem splitChars_of_not_mem (sep : Char) :
    ∀ (l : List Char), sep ∉ l → splitChars sep l = [l]
  | [], _ => rfl
  | c :: rest, h => by
    simp only [List.mem_cons, not_or] at h
    rw [splitChars, if_neg (fun e => h.1 e.symm), splitChars_of_not_mem sep rest h.2]

theorem parseComplex_of_no_sign (parseFloat : String → Option Nat) (buffer : List Char)
    (h1 : '+' ∉ buffer) (h2 : '-' ∉ buffer) : parseComplex parseFloat buffer = none := by
  unfold parseComplex
  rw [splitChars_of_not_mem '+' buffer h1, splitChars_of_not_mem '-' buffer h2]
  rfl

theorem parseUintDigits_digits :
    ∀ (ds : List Char) (acc : Nat), (∀ c ∈ ds, c.isDigit = true) →
      parseUintDigits ds acc = some (ds.foldl (fun acc c => acc * 10 + (c.toNat - 48)) acc)
  | [], _, _ => rfl
  | c :: ds, acc, h => by
    rw [parseUintDigits, digitValue, if_pos (h c (List.mem_cons_self _ _))]
    exact parseUintDigits_digits ds _ (fun x hx => h x (List.mem_cons_of_mem _ hx))

/-- ParseInt on a string of digits whose value fits in an int64. -/
theorem ParseInt_digits (ds : List Char) (hne : ds ≠ []) (h : ∀ c ∈ ds, c.isDigit = true)
    (hfit : decimalValue ds < 2 ^ 63) : ParseInt ds = some (decimalValue ds : Int) := by
  cases ds with
  | nil => exact absurd rfl hne
  | cons c rest =>
    obtain ⟨_, _, _, _, _, hplus, hminus⟩ := digit_facts c (h c (List.mem_cons_self _ _))
    have hneg : (c == '-') = false := by simpa using hminus
    have hd : (if (decide (c = '+') || decide (c = '-')) = true then rest else c :: rest)
        = c :: rest := by simp [hplus, hminus]
    unfold ParseInt
    simp only [hd, hneg, List.isEmpty_cons, Bool.false_eq_true, ↓reduceIte,
      parseUintDigits_digits (c :: rest) 0 h]
    unfold decimalValue at hfit ⊢
    generalize List.foldl (fun acc c => acc * 10 + (c.toNat - 48)) 0 (c :: rest) = un at hfit ⊢
    have : ¬ (un ≥ 2 ^ 63) := by omega
    simp only [Bool.not_false, Bool.true_and, decide_eq_true_eq, this, ↓reduceIte,
      Bool.false_and, Bool.false_eq_true]

theorem digits_no_sign (ds : List Char) (h : ∀ c ∈ ds, c.isDigit = true) :
    '+' ∉ ds ∧ '-' ∉ ds ∧ ',' ∉ ds ∧ '.' ∉ ds :=
  ⟨not_mem_of_digits ds '+' (by decide) h, not_mem_of_digits ds '-' (by decide) h,
    not_mem_of_digits ds ',' (by decide) h, not_mem_of_digits ds '.' (by decide) h⟩

theorem flatten_digits (gs : List (List Char)) (h : ∀ g ∈ gs, digitGroup g = true) :
    ∀ c ∈ gs.flatten, c.isDigit = true := by
  intro c hc
  obtain ⟨g, hg, hcg⟩ := List.mem_flatten.mp hc
  exact ((digitGroup_iff g).mp (h g hg)).2 c hcg

theorem getLast_not_sign (l : List Char) (hne : l ≠ [])
    (h : ∀ c, l.getLast? = some c → c.isDigit = true) : moveTrailingSign l = some l := by
  unfold moveTrailingSign
  cases hl : l.getLast? with
  | none => exact absurd (List.getLast?_eq_none_iff.mp hl) hne
  | some c =>
    obtain ⟨_, _, _, _, _, hplus, hminus⟩ := digit_facts c (h c hl)
    simp [hplus, hminus]

/-- The scan of a number that starts with a digit other than 0, followed by digits and
commas: the digits are written, every character is counted, nothing else changes. -/
theorem runeLoop_number (c1 : Char) (ds rest : List Char) (h1 : c1.isDigit = true)
    (hz : c1 ≠ '0') (h : ∀ c ∈ ds, c.isDigit = true ∨ c = ',') :
    runeLoop (c1 :: ds ++ rest) initialScan
      = runeLoop rest (plainScan (c1 :: ds.filter (fun x => x != ',')) 0 (ds.length + 1)) := by
  obtain ⟨hw, _⟩ := digit_facts c1 h1
  rw [List.cons_append, runeLoop_cons, hw, scanRune_first_digit c1 initialScan h1 hz]
  simp only [Bool.false_eq_true, ↓reduceIte]
  rw [runeLoop_digits_commas ds rest _ (by simp [ScanState.write, ScanState.next,
    initialScan]) h]
  congr 1
  simp only [ScanState.write, ScanState.next, initialScan, plainScan, List.nil_append,
    List.singleton_append, ScanState.mk.injEq, true_and, and_true]
  omega

theorem String_mk_ne_empty (d : List Char) (h : d ≠ []) : (String.mk d == "") = false := by
  simp only [beq_eq_false_iff_ne, ne_eq]
  intro e
  exact h (congrArg String.data e)

/-- After the scan of a string of digits, without a leading zero, that fits in an int64,
the result is that integer. -/
theorem classify_int (parseFloat : String → Option Nat)
    (parseAny : String → Option ParsedTime) (original : String) (ds : List Char) (n : Nat)
    (hne : ds ≠ []) (h : ∀ c ∈ ds, c.isDigit = true) (hfit : decimalValue ds < 2 ^ 63) :
    classify parseFloat parseAny original (plainScan ds 0 n) = .int (decimalValue ds) := by
  obtain ⟨hp, hm, _, _⟩ := digits_no_sign ds h
  unfold classify
  simp only [plainScan, ↓reduceIte, parseComplex_of_no_sign parseFloat ds hp hm,
    Bool.false_eq_true, parseNumber, gt_iff_lt, Nat.lt_irrefl, ParseInt_digits ds hne h hfit]

theorem flatten_ne_nil (g1 : List Char) (gs : List (List Char)) (h : g1 ≠ []) :
    (g1 :: gs).flatten ≠ [] := by
  simp [h]

/-- C19: let the input be three or more groups of ASCII digits, none empty, separated by
single periods, the first digit not being 0, and let the number that the digits write
fit in a signed 64-bit integer. ParseTypedValue returns that integer. -/
theorem ParseTypedValue_period_groups (parseFloat : String → Option Nat)
    (parseAny : String → Option ParsedTime) (g1 : List Char) (gs : List (List Char))
    (hlen : 2 ≤ gs.length)
    (hg : ∀ g ∈ g1 :: gs, digitGroup g = true)
    (hzero : g1.head? ≠ some '0')
    (hfit : decimalValue (g1 :: gs).flatten < 2 ^ 63) :
    ParseTypedValue parseFloat parseAny (String.mk (joinWith '.' (g1 :: gs)))
      = some (some (.int (decimalValue (g1 :: gs).flatten))) := by
  have hdig : ∀ g ∈ g1 :: gs, ∀ c ∈ g, c.isDigit = true :=
    fun g hgm => ((digitGroup_iff g).mp (hg g hgm)).2
  have hg1 : g1 ≠ [] := ((digitGroup_iff g1).mp (hg g1 (List.mem_cons_self _ _))).1
  have hflat := flatten_digits (g1 :: gs) hg
  have hfne := flatten_ne_nil g1 gs hg1
  have hnop : ∀ g ∈ g1 :: gs, '.' ∉ g :=
    fun g hgm => not_mem_of_digits g '.' (by decide) (hdig g hgm)
  -- the separators
  have hcomma : ',' ∉ joinWith '.' (g1 :: gs) := by
    intro hm
    rcases joinWith_mem '.' ',' _ hm with e | ⟨g, hgm, hcg⟩
    · exact absurd e (by decide)
    · exact not_mem_of_digits g ',' (by decide) (hdig g hgm) hcg
  have hnorm : normalizeSeparators (joinWith '.' (g1 :: gs)) = (g1 :: gs).flatten := by
    unfold normalizeSeparators
    simp only [lastIndex_of_not_mem _ ',' hcomma, gt_iff_lt, Int.lt_irrefl, decide_False,
      Bool.and_false, Bool.false_and, Bool.false_eq_true, ↓reduceIte,
      joinWith_count '.' (g1 :: gs) hnop, List.length_cons]
    rw [if_pos (by omega)]
    exact joinWith_filter '.' (g1 :: gs) hnop
  have hsign : moveTrailingSign (g1 :: gs).flatten = some (g1 :: gs).flatten :=
    getLast_not_sign _ hfne (fun c hc => hflat c (List.mem_of_getLast?_eq_some hc))
  -- the scan
  obtain ⟨c1, ds, hcd⟩ : ∃ c1 ds, (g1 :: gs).flatten = c1 :: ds := by
    cases hf : (g1 :: gs).flatten with
    | nil => exact absurd hf hfne
    | cons c1 ds => exact ⟨c1, ds, rfl⟩
  have hc1 : c1 ≠ '0' := by
    rintro rfl
    cases g1 with
    | nil => exact absurd rfl hg1
    | cons x xs =>
      simp only [List.flatten_cons, List.cons_append, List.cons.injEq] at hcd
      rw [hcd.1] at hzero
      exact hzero rfl
  have hscan : runeLoop ((g1 :: gs).flatten) initialScan
      = plainScan (g1 :: gs).flatten 0 (ds.length + 1) := by
    have hds : ∀ c ∈ ds, c.isDigit = true := fun c hc => by
      apply hflat
      rw [hcd]
      exact List.mem_cons_of_mem _ hc
    have := runeLoop_number c1 ds [] (by apply hflat; rw [hcd]; exact List.mem_cons_self _ _)
      hc1 (fun c hc => Or.inl (hds c hc))
    rw [List.append_nil] at this
    rw [hcd, this, List.filter_eq_self.mpr]
    · rfl
    · intro a ha
      simp only [bne_iff_ne, ne_eq]
      rintro rfl
      exact absurd (hds _ ha) (by decide)
  have hjne : joinWith '.' (g1 :: gs) ≠ [] := by
    intro e
    rw [e] at hnorm
    exact hfne hnorm.symm
  unfold ParseTypedValue
  simp only [String_mk_ne_empty _ hjne, Bool.false_eq_true, ↓reduceIte, hnorm, hsign, hscan,
    classify_int parseFloat parseAny _ _ _ hfne hflat hfit]
  rfl

/-- Witness of C19: the input 1.234.567.890 of the tests gives 1234567890. -/
theorem ParseTypedValue_period_groups_witness :
    ParseTypedValue (fun _ => none) (fun _ => none) "1.234.567.890"
      = some (some (.int 1234567890)) :=
  ParseTypedValue_period_groups (fun _ => none) (fun _ => none)
    ['1'] [['2', '3', '4'], ['5', '6', '7'], ['8', '9', '0']]
    (by decide) (by decide) (by decide) (by decide)

/-! ## ParseTypedValue: German and US number formatting -/

theorem lastIndexFrom_append (c : Char) :
    ∀ (xs ys : List Char) (i : Nat) (last : Int),
      lastIndexFrom c (xs ++ ys) i last
        = lastIndexFrom c ys (i + xs.length) (lastIndexFrom c xs i last)
  | [], _, _, _ => rfl
  | x :: xs, ys, i, last => by
    rw [List.cons_append, lastIndexFrom, lastIndexFrom_append c xs ys (i + 1), lastIndexFrom,
      List.length_cons]
    congr 1
    omega

theorem lastIndexFrom_upper (c : Char) :
    ∀ (xs : List Char) (i : Nat) (last : Int), last < (i : Int) →
      lastIndexFrom c xs i last < ((i + xs.length : Nat) : Int)
  | [], _, _, h => by simpa using h
  | x :: xs, i, last, h => by
    rw [lastIndexFrom]
    have := lastIndexFrom_upper c xs (i + 1) (if x = c then (i : Int) else last)
      (by split_ifs <;> push_cast <;> omega)
    rw [List.length_cons]
    have e : i + 1 + xs.length = i + (xs.length + 1) := by omega
    rw [e] at this
    exact this

/-- In a string p ++ c :: q where c occurs neither in p nor in q, the last c is at
position |p|. -/
theorem lastIndex_single (c : Char) (p q : List Char) (hp : c ∉ p) (hq : c ∉ q) :
    lastIndex (p ++ c :: q) c = (p.length : Int) := by
  unfold lastIndex
  rw [lastIndexFrom_append, lastIndexFrom_not_mem c p 0 (-1) hp, lastIndexFrom, if_pos rfl,
    lastIndexFrom_not_mem c q _ _ hq]
  simp

/-- In a string p ++ q where c does not occur in q, the last c, if any, is before
position |p|. -/
theorem lastIndex_before (c : Char) (p q : List Char) (hq : c ∉ q) :
    lastIndex (p ++ q) c = lastIndex p c ∧ lastIndex p c < (p.length : Int) := by
  unfold lastIndex
  rw [lastIndexFrom_append, lastIndexFrom_not_mem c q _ _ hq]
  refine ⟨rfl, ?_⟩
  have := lastIndexFrom_upper c p 0 (-1) (by decide)
  simpa using this

/-- The three replacements of the German case exchange periods and commas in a text
without exclamation marks. -/
theorem swap_joined (gs : List (List Char)) (F : List Char)
    (hg : ∀ g ∈ gs, ∀ c ∈ g, c.isDigit = true) (hF : ∀ c ∈ F, c.isDigit = true) :
    replaceAll (replaceAll (replaceAll (joinWith '.' gs ++ ',' :: F) ',' '!') '.' ',') '!' '.'
      = joinWith ',' gs ++ '.' :: F := by
  unfold replaceAll
  simp only [List.map_map]
  have hfix : ∀ c : Char, c.isDigit = true →
      ((fun x => if x = '!' then '.' else x) ∘ (fun x => if x = '.' then ',' else x)
        ∘ (fun x => if x = ',' then '!' else x)) c = c := by
    intro c hc
    rcases digit_cases c hc with rfl | rfl | rfl | rfl | rfl | rfl | rfl | rfl | rfl | rfl <;>
      decide
  rw [List.map_append, List.map_cons,
    joinWith_map _ '.' gs (fun g hgm c hc => hfix c (hg g hgm c hc)),
    List.map_congr_left (fun c hc => hfix c (hF c hc))]
  simp

/-- After the scan of digits with one period, without a leading zero, the result is the
float that strconv.ParseFloat reads in the buffer. -/
theorem classify_float (parseFloat : String → Option Nat)
    (parseAny : String → Option ParsedTime) (original : String) (buffer : List Char)
    (n x : Nat) (hp : '+' ∉ buffer) (hm : '-' ∉ buffer)
    (hpf : parseFloat (String.mk buffer) = some x) :
    classify parseFloat parseAny original (plainScan buffer 1 n) = .float x := by
  unfold classify
  simp only [plainScan, ↓reduceIte, parseComplex_of_no_sign parseFloat buffer hp hm,
    Bool.false_eq_true, parseNumber, gt_iff_lt, Nat.lt_one_iff, Nat.one_ne_zero,
    Nat.zero_lt_one, hpf]

/-- The scan of the US form: digits and commas, one period, digits. -/
theorem runeLoop_us_form (c1 : Char) (ds F : List Char) (h1 : c1.isDigit = true)
    (hz : c1 ≠ '0') (h : ∀ c ∈ ds, c.isDigit = true ∨ c = ',')
    (hF : ∀ c ∈ F, c.isDigit = true) :
    runeLoop (c1 :: ds ++ '.' :: F) initialScan
      = plainScan (c1 :: ds.filter (fun x => x != ',') ++ '.' :: F) 1
          (ds.length + 1 + 1 + F.length) := by
  rw [runeLoop_number c1 ds ('.' :: F) h1 hz h, runeLoop_cons]
  have hw : IsWhitespace '.' = false := by decide
  have hs : scanRune '.' (plainScan (c1 :: ds.filter (fun x => x != ',')) 0 (ds.length + 1))
      = (plainScan (c1 :: ds.filter (fun x => x != ',') ++ ['.']) 1 (ds.length + 1), false) :=
    rfl
  rw [hw, hs]
  simp only [Bool.false_eq_true, ↓reduceIte]
  have := runeLoop_digits_commas F []
    (plainScan (c1 :: ds.filter (fun x => x != ',') ++ ['.']) 1 (ds.length + 1)).next
    (by simp [ScanState.next, plainScan]) (fun c hc => Or.inl (hF c hc))
  have hfil : F.filter (fun x => x != ',') = F := by
    rw [List.filter_eq_self]
    intro a ha
    simp only [bne_iff_ne, ne_eq]
    rintro rfl
    exact absurd (hF _ ha) (by decide)
  rw [List.append_nil, hfil] at this
  rw [this, runeLoop]
  simp [ScanState.next, plainScan]

/-- ParseTypedValue on the US form G1,G2,...,Gk.F, the original text being any text
that the first steps bring to this form. -/
theorem ParseTypedValue_us_tail (parseFloat : String → Option Nat)
    (parseAny : String → Option ParsedTime) (original : String)
    (g1 : List Char) (gs : List (List Char)) (F : List Char) (x : Nat)
    (hg : ∀ g ∈ g1 :: gs, digitGroup g = true) (hF : digitGroup F = true)
    (hzero : g1.head? ≠ some '0')
    (hpf : parseFloat (String.mk ((g1 :: gs).flatten ++ '.' :: F)) = some x) :
    ∃ s, moveTrailingSign (joinWith ',' (g1 :: gs) ++ '.' :: F)
        = some (joinWith ',' (g1 :: gs) ++ '.' :: F)
      ∧ runeLoop (joinWith ',' (g1 :: gs) ++ '.' :: F) initialScan = s
      ∧ (s.pos == 0) = false
      ∧ classify parseFloat parseAny original s = .float x := by
  have hdig : ∀ g ∈ g1 :: gs, ∀ c ∈ g, c.isDigit = true :=
    fun g hgm => ((digitGroup_iff g).mp (hg g hgm)).2
  have hg1 : g1 ≠ [] := ((digitGroup_iff g1).mp (hg g1 (List.mem_cons_self _ _))).1
  obtain ⟨hFne, hFd⟩ := (digitGroup_iff F).mp hF
  have hflat := flatten_digits (g1 :: gs) hg
  have hnoc : ∀ g ∈ g1 :: gs, ',' ∉ g :=
    fun g hgm => not_mem_of_digits g ',' (by decide) (hdig g hgm)
  have hjdig : ∀ c ∈ joinWith ',' (g1 :: gs), c.isDigit = true ∨ c = ',' := by
    intro c hc
    rcases joinWith_mem ',' c _ hc with e | ⟨g, hgm, hcg⟩
    · exact Or.inr e
    · exact Or.inl (hdig g hgm c hcg)
  -- the joined groups start with the first digit of G1
  obtain ⟨c1, ds, hcd, hc1d, hc1z⟩ : ∃ c1 ds, joinWith ',' (g1 :: gs) = c1 :: ds
      ∧ c1.isDigit = true ∧ c1 ≠ '0' := by
    cases g1 with
    | nil => exact absurd rfl hg1
    | cons c xs =>
      have hcdig := hdig (c :: xs) (List.mem_cons_self _ _) c (List.mem_cons_self _ _)
      have hcz : c ≠ '0' := by
        rintro rfl
        exact hzero rfl
      cases gs with
      | nil => exact ⟨c, xs, rfl, hcdig, hcz⟩
      | cons h t => exact ⟨c, _, rfl, hcdig, hcz⟩
  have hds : ∀ c ∈ ds, c.isDigit = true ∨ c = ',' := fun c hc => by
    apply hjdig
    rw [hcd]
    exact List.mem_cons_of_mem _ hc
  have hfil : c1 :: ds.filter (fun x => x != ',') = (g1 :: gs).flatten := by
    have := joinWith_filter ',' (g1 :: gs) hnoc
    rw [hcd, List.filter_cons] at this
    have hne : (c1 != ',') = true := by
      simp only [bne_iff_ne, ne_eq]
      rintro rfl
      exact absurd hc1d (by decide)
    rw [hne] at this
    exact this
  refine ⟨_, ?_, rfl, ?_, ?_⟩
  · apply getLast_not_sign _ (by simp)
    intro c hc
    cases F with
    | nil => exact absurd rfl hFne
    | cons f F1 =>
      rw [List.getLast?_append_of_ne_nil _ (by simp), List.getLast?_cons_cons] at hc
      exact hFd c (List.mem_of_getLast?_eq_some hc)
  · rw [hcd, runeLoop_us_form c1 ds F hc1d hc1z hds hFd]
    simp [plainScan]
  · rw [hcd, runeLoop_us_form c1 ds F hc1d hc1z hds hFd]
    have hbuf : c1 :: ds.filter (fun x => x != ',') ++ '.' :: F
        = (g1 :: gs).flatten ++ '.' :: F := by
      rw [← hfil]
    rw [hbuf]
    apply classify_float parseFloat parseAny original _ _ x _ _ hpf
    · intro hm
      rcases List.mem_append.mp hm with h | h
      · exact absurd (hflat _ h) (by decide)
      · rcases List.mem_cons.mp h with e | e
        · exact absurd e (by decide)
        · exact absurd (hFd _ e) (by decide)
    · intro hm
      rcases List.mem_append.mp hm with h | h
      · exact absurd (hflat _ h) (by decide)
      · rcases List.mem_cons.mp h with e | e
        · exact absurd e (by decide)
        · exact absurd (hFd _ e) (by decide)

/-- Let G1, ..., Gk (k at least 2) and F be groups of ASCII digits, none empty, G1 not
starting with 0, and let strconv.ParseFloat read the float `x` in the decimal literal
G1G2...Gk.F. ParseTypedValue returns the float `x` both for the German form
G1.G2. ... .Gk,F and for the US form G1,G2, ... ,Gk.F. -/
theorem ParseTypedValue_german_us_accepted (parseFloat : String → Option Nat)
    (parseAny : String → Option ParsedTime) (g1 : List Char) (gs : List (List Char))
    (F : List Char) (x : Nat)
    (hlen : 1 ≤ gs.length)
    (hg : ∀ g ∈ g1 :: gs, digitGroup g = true) (hF : digitGroup F = true)
    (hzero : g1.head? ≠ some '0')
    (hpf : parseFloat (String.mk ((g1 :: gs).flatten ++ '.' :: F)) = some x) :
    ParseTypedValue parseFloat parseAny (String.mk (joinWith '.' (g1 :: gs) ++ ',' :: F))
        = some (some (.float x))
      ∧ ParseTypedValue parseFloat parseAny (String.mk (joinWith ',' (g1 :: gs) ++ '.' :: F))
        = some (some (.float x)) := by
  have hdig : ∀ g ∈ g1 :: gs, ∀ c ∈ g, c.isDigit = true :=
    fun g hgm => ((digitGroup_iff g).mp (hg g hgm)).2
  obtain ⟨hFne, hFd⟩ := (digitGroup_iff F).mp hF
  obtain ⟨_, _, hFcomma, hFperiod⟩ := digits_no_sign F hFd
  obtain ⟨h2, t, hgs⟩ : ∃ h2 t, gs = h2 :: t := by
    cases gs with
    | nil => simp at hlen
    | cons h2 t => exact ⟨h2, t, rfl⟩
  have hnoc : ∀ g ∈ g1 :: gs, ',' ∉ g :=
    fun g hgm => not_mem_of_digits g ',' (by decide) (hdig g hgm)
  have hnop : ∀ g ∈ g1 :: gs, '.' ∉ g :=
    fun g hgm => not_mem_of_digits g '.' (by decide) (hdig g hgm)
  -- neither form holds the separator of the other among its groups
  have hcg : ',' ∉ joinWith '.' (g1 :: gs) := by
    intro hm
    rcases joinWith_mem '.' ',' _ hm with e | ⟨g, hgm, hc⟩
    · exact absurd e (by decide)
    · exact hnoc g hgm hc
  have hpu : '.' ∉ joinWith ',' (g1 :: gs) := by
    intro hm
    rcases joinWith_mem ',' '.' _ hm with e | ⟨g, hgm, hc⟩
    · exact absurd e (by decide)
    · exact hnop g hgm hc
  have hpg : '.' ∈ joinWith '.' (g1 :: gs) := by
    rw [hgs]
    exact sep_mem_joinWith '.' g1 h2 t
  -- the German form is brought to the US form
  have hgerman : normalizeSeparators (joinWith '.' (g1 :: gs) ++ ',' :: F)
      = joinWith ',' (g1 :: gs) ++ '.' :: F := by
    have hc := lastIndex_single ',' (joinWith '.' (g1 :: gs)) F hcg hFcomma
    obtain ⟨hp1, hp2⟩ := lastIndex_before '.' (joinWith '.' (g1 :: gs)) (',' :: F)
      (by simp [hFperiod])
    have hp3 : 0 ≤ lastIndex (joinWith '.' (g1 :: gs)) '.' :=
      lastIndexFrom_mem '.' _ 0 (-1) hpg
    unfold normalizeSeparators
    simp only [hc, hp1]
    rw [if_pos (by
      simp only [Bool.and_eq_true, decide_eq_true_eq]
      omega)]
    exact swap_joined (g1 :: gs) F hdig hFd
  -- the US form is left as it is
  have hus : normalizeSeparators (joinWith ',' (g1 :: gs) ++ '.' :: F)
      = joinWith ',' (g1 :: gs) ++ '.' :: F := by
    have hp := lastIndex_single '.' (joinWith ',' (g1 :: gs)) F hpu hFperiod
    obtain ⟨hc1, hc2⟩ := lastIndex_before ',' (joinWith ',' (g1 :: gs)) ('.' :: F)
      (by simp [hFcomma])
    have hcount : (joinWith ',' (g1 :: gs) ++ '.' :: F).count '.' = 1 := by
      rw [List.count_append, List.count_cons_self, List.count_eq_zero_of_not_mem hpu,
        List.count_eq_zero_of_not_mem hFperiod]
    unfold normalizeSeparators
    simp only [hp, hc1, hcount]
    rw [if_neg (by
      simp only [Bool.and_eq_true, decide_eq_true_eq, not_and, not_lt]
      intro _
      omega)]
    simp
  obtain ⟨s1, hm1, hr1, hp1, hc1⟩ := ParseTypedValue_us_tail parseFloat parseAny
    (String.mk (joinWith '.' (g1 :: gs) ++ ',' :: F)) g1 gs F x hg hF hzero hpf
  obtain ⟨s2, hm2, hr2, hp2, hc2⟩ := ParseTypedValue_us_tail parseFloat parseAny
    (String.mk (joinWith ',' (g1 :: gs) ++ '.' :: F)) g1 gs F x hg hF hzero hpf
  constructor
  · unfold ParseTypedValue
    simp only [String_mk_ne_empty _ (List.append_ne_nil_of_right_ne_nil _
      (List.cons_ne_nil _ _)), Bool.false_eq_true, ↓reduceIte, hgerman, hm1, hr1, hp1, hc1]
  · unfold ParseTypedValue
    simp only [String_mk_ne_empty _ (List.append_ne_nil_of_right_ne_nil _
      (List.cons_ne_nil _ _)), Bool.false_eq_true, ↓reduceIte, hus, hm2, hr2, hp2, hc2]

/-! ## ParseTypedValue: the German and the US form when ParseFloat rejects the literal -/

theorem parseUintDigits_non_digit (c : Char) (hc : c.isDigit = false) :
    ∀ (ds : List Char) (acc : Nat), c ∈ ds → parseUintDigits ds acc = none
  | [], _, h => by simp at h
  | d :: ds, acc, h => by
    rw [parseUintDigits, digitValue]
    by_cases hd : d.isDigit = true
    · rw [if_pos hd]
      rcases List.mem_cons.mp h with e | e
      · subst e
        rw [hc] at hd
        exact absurd hd Bool.false_ne_true
      · exact parseUintDigits_non_digit c hc ds _ e
    · rw [if_neg hd]

/-- A buffer that starts with a digit and holds a period is no integer for ParseInt. -/
theorem ParseInt_with_period (c1 : Char) (rest : List Char) (h1 : c1.isDigit = true)
    (hp : '.' ∈ rest) : ParseInt (c1 :: rest) = none := by
  obtain ⟨_, _, _, _, _, hplus, hminus⟩ := digit_facts c1 h1
  have hd := parseUintDigits_non_digit '.' (by decide) (c1 :: rest) 0
    (List.mem_cons_of_mem _ hp)
  unfold ParseInt
  simp [hplus, hminus, hd]

/-- A buffer that holds a period is no boolean. -/
theorem parseBool_with_period (buffer : List Char) (hp : '.' ∈ buffer) :
    parseBool buffer = none := by
  have hm : '.' ∈ buffer.map Char.toLower := by
    have : Char.toLower '.' = '.' := by decide
    rw [← this]
    exact List.mem_map_of_mem _ hp
  unfold parseBool
  simp only []
  rw [if_neg, if_neg]
  · intro e
    rw [e] at hm
    exact absurd hm (by decide)
  · intro e
    rw [e] at hm
    exact absurd hm (by decide)

/-- The result when the scan leaves digits around one period, and strconv.ParseFloat
rejects the buffer: no number, no boolean, so a time or the original text. -/
theorem classify_rejected (parseFloat : String → Option Nat)
    (parseAny : String → Option ParsedTime) (original : String) (c1 : Char)
    (rest : List Char) (n : Nat) (h1 : c1.isDigit = true) (hper : '.' ∈ rest)
    (hp : '+' ∉ c1 :: rest) (hm : '-' ∉ c1 :: rest)
    (hpf : parseFloat (String.mk (c1 :: rest)) = none) :
    classify parseFloat parseAny original (plainScan (c1 :: rest) 1 n)
      = timeOrString parseAny original := by
  unfold classify timeOrString
  simp only [plainScan, ↓reduceIte, parseComplex_of_no_sign parseFloat (c1 :: rest) hp hm,
    Bool.false_eq_true, parseNumber, gt_iff_lt, Nat.lt_one_iff, Nat.one_ne_zero,
    Nat.zero_lt_one, hpf, ParseInt_with_period c1 rest h1 hper,
    parseBool_with_period (c1 :: rest) (List.mem_cons_of_mem _ hper), ite_self]
  generalize (if original.utf8ByteSize < 32 then parseTime parseAny original else none) = t
  cases t <;> rfl

/-- Both forms reach the same scan: ParseTypedValue returns, for the German form
G1.G2. ... .Gk,F and for the US form G1,G2, ... ,Gk.F, what the last part of the function
makes of the buffer G1G2...Gk.F, with one period, and of the text it was given. -/
theorem ParseTypedValue_german_us_scan (parseFloat : String → Option Nat)
    (parseAny : String → Option ParsedTime) (g1 : List Char) (gs : List (List Char))
    (F : List Char)
    (hlen : 1 ≤ gs.length)
    (hg : ∀ g ∈ g1 :: gs, digitGroup g = true) (hF : digitGroup F = true)
    (hzero : g1.head? ≠ some '0') :
    ∃ n,
      ParseTypedValue parseFloat parseAny (String.mk (joinWith '.' (g1 :: gs) ++ ',' :: F))
        = some (some (classify parseFloat parseAny
            (String.mk (joinWith '.' (g1 :: gs) ++ ',' :: F))
            (plainScan ((g1 :: gs).flatten ++ '.' :: F) 1 (n + 1))))
      ∧ ParseTypedValue parseFloat parseAny (String.mk (joinWith ',' (g1 :: gs) ++ '.' :: F))
        = some (some (classify parseFloat parseAny
            (String.mk (joinWith ',' (g1 :: gs) ++ '.' :: F))
            (plainScan ((g1 :: gs).flatten ++ '.' :: F) 1 (n + 1)))) := by
  have hdig : ∀ g ∈ g1 :: gs, ∀ c ∈ g, c.isDigit = true :=
    fun g hgm => ((digitGroup_iff g).mp (hg g hgm)).2
  have hg1 : g1 ≠ [] := ((digitGroup_iff g1).mp (hg g1 (List.mem_cons_self _ _))).1
  obtain ⟨hFne, hFd⟩ := (digitGroup_iff F).mp hF
  obtain ⟨_, _, hFcomma, hFperiod⟩ := digits_no_sign F hFd
  obtain ⟨h2, t, hgs⟩ : ∃ h2 t, gs = h2 :: t := by
    cases gs with
    | nil => simp at hlen
    | cons h2 t => exact ⟨h2, t, rfl⟩
  have hnoc : ∀ g ∈ g1 :: gs, ',' ∉ g :=
    fun g hgm => not_mem_of_digits g ',' (by decide) (hdig g hgm)
  have hnop : ∀ g ∈ g1 :: gs, '.' ∉ g :=
    fun g hgm => not_mem_of_digits g '.' (by decide) (hdig g hgm)
  have hcg : ',' ∉ joinWith '.' (g1 :: gs) := by
    intro hm
    rcases joinWith_mem '.' ',' _ hm with e | ⟨g, hgm, hc⟩
    · exact absurd e (by decide)
    · exact hnoc g hgm hc
  have hpu : '.' ∉ joinWith ',' (g1 :: gs) := by
    intro hm
    rcases joinWith_mem ',' '.' _ hm with e | ⟨g, hgm, hc⟩
    · exact absurd e (by decide)
    · exact hnop g hgm hc
  have hpg : '.' ∈ joinWith '.' (g1 :: gs) := by
    rw [hgs]
    exact sep_mem_joinWith '.' g1 h2 t
  -- the German form is brought to the US form
  have hgerman : normalizeSeparators (joinWith '.' (g1 :: gs) ++ ',' :: F)
      = joinWith ',' (g1 :: gs) ++ '.' :: F := by
    have hc := lastIndex_single ',' (joinWith '.' (g1 :: gs)) F hcg hFcomma
    obtain ⟨hp1, hp2⟩ := lastIndex_before '.' (joinWith '.' (g1 :: gs)) (',' :: F)
      (by simp [hFperiod])
    have hp3 : 0 ≤ lastIndex (joinWith '.' (g1 :: gs)) '.' :=
      lastIndexFrom_mem '.' _ 0 (-1) hpg
    unfold normalizeSeparators
    simp only [hc, hp1]
    rw [if_pos (by
      simp only [Bool.and_eq_true, decide_eq_true_eq]
      omega)]
    exact swap_joined (g1 :: gs) F hdig hFd
  -- the US form is left as it is
  have hus : normalizeSeparators (joinWith ',' (g1 :: gs) ++ '.' :: F)
      = joinWith ',' (g1 :: gs) ++ '.' :: F := by
    have hp := lastIndex_single '.' (joinWith ',' (g1 :: gs)) F hpu hFperiod
    obtain ⟨hc1, hc2⟩ := lastIndex_before ',' (joinWith ',' (g1 :: gs)) ('.' :: F)
      (by simp [hFcomma])
    have hcount : (joinWith ',' (g1 :: gs) ++ '.' :: F).count '.' = 1 := by
      rw [List.count_append, List.count_cons_self, List.count_eq_zero_of_not_mem hpu,
        List.count_eq_zero_of_not_mem hFperiod]
    unfold normalizeSeparators
    simp only [hp, hc1, hcount]
    rw [if_neg (by
      simp only [Bool.and_eq_true, decide_eq_true_eq, not_and, not_lt]
      intro _
      omega)]
    simp
  -- the scan of the US form
  have hjdig : ∀ c ∈ joinWith ',' (g1 :: gs), c.isDigit = true ∨ c = ',' := by
    intro c hc
    rcases joinWith_mem ',' c _ hc with e | ⟨g, hgm, hcg⟩
    · exact Or.inr e
    · exact Or.inl (hdig g hgm c hcg)
  obtain ⟨c1, ds, hcd, hc1d, hc1z⟩ : ∃ c1 ds, joinWith ',' (g1 :: gs) = c1 :: ds
      ∧ c1.isDigit = true ∧ c1 ≠ '0' := by
    cases g1 with
    | nil => exact absurd rfl hg1
    | cons c xs =>
      have hcdig := hdig (c :: xs) (List.mem_cons_self _ _) c (List.mem_cons_self _ _)
      have hcz : c ≠ '0' := by
        rintro rfl
        exact hzero rfl
      cases gs with
      | nil => exact ⟨c, xs, rfl, hcdig, hcz⟩
      | cons h t => exact ⟨c, _, rfl, hcdig, hcz⟩
  have hds : ∀ c ∈ ds, c.isDigit = true ∨ c = ',' := fun c hc => by
    apply hjdig
    rw [hcd]
    exact List.mem_cons_of_mem _ hc
  have hfil : c1 :: ds.filter (fun x => x != ',') = (g1 :: gs).flatten := by
    have := joinWith_filter ',' (g1 :: gs) hnoc
    rw [hcd, List.filter_cons] at this
    have hne : (c1 != ',') = true := by
      simp only [bne_iff_ne, ne_eq]
      rintro rfl
      exact absurd hc1d (by decide)
    rw [hne] at this
    exact this
  have hmove : moveTrailingSign (joinWith ',' (g1 :: gs) ++ '.' :: F)
      = some (joinWith ',' (g1 :: gs) ++ '.' :: F) := by
    apply getLast_not_sign _ (by simp)
    intro c hc
    cases F with
    | nil => exact absurd rfl hFne
    | cons f F1 =>
      rw [List.getLast?_append_of_ne_nil _ (by simp), List.getLast?_cons_cons] at hc
      exact hFd c (List.mem_of_getLast?_eq_some hc)
  have hscan : runeLoop (joinWith ',' (g1 :: gs) ++ '.' :: F) initialScan
      = plainScan ((g1 :: gs).flatten ++ '.' :: F) 1 (ds.length + 1 + F.length + 1) := by
    rw [hcd, runeLoop_us_form c1 ds F hc1d hc1z hds hFd, ← hfil]
    congr 1
    omega
  have hpos : ((plainScan ((g1 :: gs).flatten ++ '.' :: F) 1
      (ds.length + 1 + F.length + 1)).pos == 0) = false := by
    simp [plainScan]
  refine ⟨ds.length + 1 + F.length, ?_, ?_⟩
  · unfold ParseTypedValue
    simp only [String_mk_ne_empty _ (List.append_ne_nil_of_right_ne_nil _
      (List.cons_ne_nil _ _)), Bool.false_eq_true, ↓reduceIte, hgerman, hmove, hscan, hpos]
  · unfold ParseTypedValue
    simp only [String_mk_ne_empty _ (List.append_ne_nil_of_right_ne_nil _
      (List.cons_ne_nil _ _)), Bool.false_eq_true, ↓reduceIte, hus, hmove, hscan, hpos]

/-- The same, with the result of the last part of the function when ParseFloat rejects
the literal G1G2...Gk.F: each form gives what is made of its own text. -/
theorem ParseTypedValue_german_us_rejected (parseFloat : String → Option Nat)
    (parseAny : String → Option ParsedTime) (g1 : List Char) (gs : List (List Char))
    (F : List Char)
    (hlen : 1 ≤ gs.length)
    (hg : ∀ g ∈ g1 :: gs, digitGroup g = true) (hF : digitGroup F = true)
    (hzero : g1.head? ≠ some '0')
    (hpf : parseFloat (String.mk ((g1 :: gs).flatten ++ '.' :: F)) = none) :
    ParseTypedValue parseFloat parseAny (String.mk (joinWith '.' (g1 :: gs) ++ ',' :: F))
        = some (some (timeOrString parseAny
            (String.mk (joinWith '.' (g1 :: gs) ++ ',' :: F))))
      ∧ ParseTypedValue parseFloat parseAny (String.mk (joinWith ',' (g1 :: gs) ++ '.' :: F))
        = some (some (timeOrString parseAny
            (String.mk (joinWith ',' (g1 :: gs) ++ '.' :: F)))) := by
  obtain ⟨n, h1, h2⟩ := ParseTypedValue_german_us_scan parseFloat parseAny g1 gs F hlen hg hF
    hzero
  have hflat := flatten_digits (g1 :: gs) hg
  obtain ⟨hFne, hFd⟩ := (digitGroup_iff F).mp hF
  have hg1 : g1 ≠ [] := ((digitGroup_iff g1).mp (hg g1 (List.mem_cons_self _ _))).1
  obtain ⟨c1, rest, hbuf, hc1, hper⟩ : ∃ c1 rest, (g1 :: gs).flatten ++ '.' :: F = c1 :: rest
      ∧ c1.isDigit = true ∧ '.' ∈ rest := by
    cases g1 with
    | nil => exact absurd rfl hg1
    | cons c xs =>
      refine ⟨c, xs ++ gs.flatten ++ '.' :: F, by simp, ?_, by simp⟩
      exact hflat c (by simp)
  have hnp : '+' ∉ (g1 :: gs).flatten ++ '.' :: F := by
    intro hm
    rcases List.mem_append.mp hm with h | h
    · exact absurd (hflat _ h) (by decide)
    · rcases List.mem_cons.mp h with e | e
      · exact absurd e (by decide)
      · exact absurd (hFd _ e) (by decide)
  have hnm : '-' ∉ (g1 :: gs).flatten ++ '.' :: F := by
    intro hm
    rcases List.mem_append.mp hm with h | h
    · exact absurd (hflat _ h) (by decide)
    · rcases List.mem_cons.mp h with e | e
      · exact absurd e (by decide)
      · exact absurd (hFd _ e) (by decide)
  rw [hbuf] at h1 h2 hnp hnm hpf
  rw [h1, h2, classify_rejected parseFloat parseAny _ c1 rest (n + 1) hc1 hper hnp hnm hpf,
    classify_rejected parseFloat parseAny _ c1 rest (n + 1) hc1 hper hnp hnm hpf]
  exact ⟨rfl, rfl⟩

theorem utf8ByteSize_go_ge : ∀ (l : List Char), l.length ≤ String.utf8ByteSize.go l
  | [] => Nat.le_refl _
  | c :: rest => by
    have h1 := utf8ByteSize_go_ge rest
    have h2 : 0 < c.utf8Size := Char.utf8Size_pos c
    rw [String.utf8ByteSize.go, List.length_cons]
    omega

theorem decimalValue_replicate_zero (n acc : Nat) :
    (List.replicate n '0').foldl (fun acc c => acc * 10 + (c.toNat - 48)) acc = acc * 10 ^ n := by
  induction n generalizing acc with
  | zero => simp
  | succ n ih =>
    rw [List.replicate_succ, List.foldl_cons, ih]
    have : ('0' : Char).toNat - 48 = 0 := by decide
    rw [this, Nat.add_zero, Nat.pow_succ, Nat.mul_assoc, Nat.mul_comm 10]

theorem digitGroup_one_zeroes (n : Nat) : digitGroup ('1' :: List.replicate n '0') = true := by
  rw [digitGroup_iff]
  refine ⟨List.cons_ne_nil _ _, fun c hc => ?_⟩
  rcases List.mem_cons.mp hc with e | e
  · subst e
    decide
  · rw [(List.mem_replicate.mp e).2]
    decide

/-- The literal 1 followed by n + 1 zeroes, a period and 5 is beyond the range of float64
as soon as 10^(n+1) is at least 2^1024. -/
theorem beyondFloat64_one_zeroes (n : Nat) (h : 2 ^ 1024 ≤ 10 ^ (n + 1)) :
    beyondFloat64 ((('1' :: List.replicate n '0') :: [['0']]).flatten ++ '.' :: ['5'])
      = true := by
  have hdig : ∀ c ∈ '1' :: List.replicate (n + 1) '0', c.isDigit = true := by
    intro c hc
    rcases List.mem_cons.mp hc with e | e
    · subst e
      decide
    · rw [(List.mem_replicate.mp e).2]
      decide
  have hnp : ∀ c ∈ '1' :: List.replicate (n + 1) '0', (c != '.') = true := by
    intro c hc
    simp only [bne_iff_ne, ne_eq]
    rintro rfl
    exact absurd (hdig _ hc) (by decide)
  have hshape : (('1' :: List.replicate n '0') :: [['0']]).flatten ++ '.' :: ['5']
      = ('1' :: List.replicate (n + 1) '0') ++ '.' :: ['5'] := by
    simp [List.replicate_succ']
  have htake : (('1' :: List.replicate (n + 1) '0') ++ '.' :: ['5']).takeWhile
      (fun c => c != '.') = '1' :: List.replicate (n + 1) '0' := by
    rw [List.takeWhile_append_of_pos hnp]
    simp [List.takeWhile]
  have hdrop : (('1' :: List.replicate (n + 1) '0') ++ '.' :: ['5']).dropWhile
      (fun c => c != '.') = '.' :: ['5'] := by
    rw [List.dropWhile_append_of_pos hnp]
    simp [List.dropWhile]
  have hval : parseUintDigits ('1' :: List.replicate (n + 1) '0') 0 = some (10 ^ (n + 1)) := by
    rw [parseUintDigits_digits _ _ hdig, List.foldl_cons, decimalValue_replicate_zero]
    have : (0 * 10 + (('1' : Char).toNat - 48)) = 1 := by decide
    rw [this, Nat.one_mul]
  have h5 : ('5' : Char).isDigit = true := by decide
  unfold beyondFloat64
  simp only [hshape, htake, hdrop, hval, List.drop_succ_cons, List.drop_zero, List.all_cons,
    List.all_nil, h5, Bool.and_self, Bool.true_and, ge_iff_le, decide_eq_true_eq]
  exact h

theorem length_german_us (sep c : Char) (n : Nat) (h : 28 ≤ n) :
    32 ≤ (joinWith sep (('1' :: List.replicate n '0') :: [['0']]) ++ c :: ['5']).length := by
  simp only [joinWith, List.length_append, List.length_cons, List.length_replicate,
    List.length_nil]
  omega

theorem german_ne_us (n : Nat) :
    joinWith '.' (('1' :: List.replicate n '0') :: [['0']]) ++ ',' :: ['5']
      ≠ joinWith ',' (('1' :: List.replicate n '0') :: [['0']]) ++ '.' :: ['5'] := by
  simp [joinWith]

/-- C20, as stated, fails: with G1 the digit 1 followed by 309 zeroes, G2 = 0 and F = 5,
the literal G1G2.F is beyond the range of float64, strconv.ParseFloat reports ErrRange,
and ParseTypedValue falls through to its last line: for the German form it returns the
German text, for the US form the US text, two different strings and no float. -/
theorem ParseTypedValue_german_us_out_of_range :
    ParseTypedValue (parseFloatRange (fun _ => some 0)) (fun _ => none) hugeGerman
        = some (some (.str hugeGerman))
      ∧ ParseTypedValue (parseFloatRange (fun _ => some 0)) (fun _ => none) hugeUS
        = some (some (.str hugeUS))
      ∧ hugeGerman ≠ hugeUS := by
  have hpf : parseFloatRange (fun _ => some 0)
      (String.mk ((('1' :: List.replicate 309 '0') :: [['0']]).flatten ++ '.' :: ['5']))
        = none := by
    unfold parseFloatRange
    rw [if_pos (beyondFloat64_one_zeroes 309 (by norm_num))]
  obtain ⟨h1, h2⟩ := ParseTypedValue_german_us_rejected (parseFloatRange (fun _ => some 0))
    (fun _ => none) ('1' :: List.replicate 309 '0') [['0']] ['5'] (by decide)
    (by
      intro g hg
      rcases List.mem_cons.mp hg with e | e
      · rw [e]
        exact digitGroup_one_zeroes 309
      · rw [List.mem_singleton.mp e]
        decide)
    (by decide) (by intro e; exact absurd (Option.some.inj e) (by decide)) hpf
  have hlong : ∀ l : List Char, 32 ≤ l.length →
      timeOrString (fun _ => none) (String.mk l) = .str (String.mk l) := by
    intro l hl
    unfold timeOrString
    have := utf8ByteSize_go_ge l
    have hsize : (String.mk l).utf8ByteSize = String.utf8ByteSize.go l := rfl
    rw [if_neg (by rw [hsize]; omega)]
    rfl
  rw [hlong _ (length_german_us '.' ',' 309 (by decide))] at h1
  rw [hlong _ (length_german_us ',' '.' 309 (by decide))] at h2
  exact ⟨h1, h2, fun e => german_ne_us 309 (congrArg String.data e)⟩

/-- C20 (amended): let G1, ..., Gk (k at least 2) and F be groups of ASCII digits, none
empty, G1 not starting with 0. When strconv.ParseFloat accepts the decimal literal
G1G2...Gk.F and reads the float `x` in it, ParseTypedValue returns the float `x` both for
the German form G1.G2. ... .Gk,F and for the US form G1,G2, ... ,Gk.F. When ParseFloat
rejects the literal (it is beyond the range of float64), ParseTypedValue returns for each
form what the end of the function makes of that form's own text: Unix milliseconds when
the text is shorter than 32 bytes and dateparse reads a time in it, else the text itself
as a string. -/
theorem ParseTypedValue_german_us_float (parseFloat : String → Option Nat)
    (parseAny : String → Option ParsedTime) (g1 : List Char) (gs : List (List Char))
    (F : List Char)
    (hlen : 1 ≤ gs.length)
    (hg : ∀ g ∈ g1 :: gs, digitGroup g = true) (hF : digitGroup F = true)
    (hzero : g1.head? ≠ some '0') :
    (∀ x, parseFloat (String.mk ((g1 :: gs).flatten ++ '.' :: F)) = some x →
        ParseTypedValue parseFloat parseAny (String.mk (joinWith '.' (g1 :: gs) ++ ',' :: F))
          = some (some (.float x))
        ∧ ParseTypedValue parseFloat parseAny
            (String.mk (joinWith ',' (g1 :: gs) ++ '.' :: F))
          = some (some (.float x)))
      ∧ (parseFloat (String.mk ((g1 :: gs).flatten ++ '.' :: F)) = none →
        ParseTypedValue parseFloat parseAny (String.mk (joinWith '.' (g1 :: gs) ++ ',' :: F))
          = some (some (timeOrString parseAny
              (String.mk (joinWith '.' (g1 :: gs) ++ ',' :: F))))
        ∧ ParseTypedValue parseFloat parseAny
            (String.mk (joinWith ',' (g1 :: gs) ++ '.' :: F))
          = some (some (timeOrString parseAny
              (String.mk (joinWith ',' (g1 :: gs) ++ '.' :: F))))) :=
  ⟨fun x hpf => ParseTypedValue_german_us_accepted parseFloat parseAny g1 gs F x hlen hg hF
      hzero hpf,
    fun hpf => ParseTypedValue_german_us_rejected parseFloat parseAny g1 gs F hlen hg hF hzero
      hpf⟩

/-- Witness of C20 (amended): the inputs 12.345.678,90 and 12,345,678.90 of the tests,
with a ParseFloat that reads 12345678.90 (the float64 0x41678C29DCCCCCCD) in
12345678.90. -/
theorem ParseTypedValue_german_us_float_witness :
    ParseTypedValue (fun s => if s = "12345678.90" then some 0x41678C29DCCCCCCD else none)
        (fun _ => none) "12.345.678,90" = some (some (.float 0x41678C29DCCCCCCD))
      ∧ ParseTypedValue (fun s => if s = "12345678.90" then some 0x41678C29DCCCCCCD else none)
        (fun _ => none) "12,345,678.90" = some (some (.float 0x41678C29DCCCCCCD)) :=
  (ParseTypedValue_german_us_float
    (fun s => if s = "12345678.90" then some 0x41678C29DCCCCCCD else none) (fun _ => none)
    ['1', '2'] [['3', '4', '5'], ['6', '7', '8']] ['9', '0']
    (by decide) (by decide) (by decide) (by decide)).1 0x41678C29DCCCCCCD (by decide)

/-! ## ParseTypedValue: trailing sign, leading zero -/

/-- The result when the scan leaves a number candidate without a period that is no
complex number and that strconv.ParseInt accepts. -/
theorem classify_integer (parseFloat : String → Option Nat)
    (parseAny : String → Option ParsedTime) (original : String) (s : ScanState) (n : Int)
    (hc : (if s.complexSupported = true then parseComplex parseFloat s.outputBuffer else none)
      = none)
    (hl : s.leadingZeroes = false) (hn : s.numberSupported = true) (hd : s.decimalCount = 0)
    (hi : ParseInt s.outputBuffer = some n) :
    classify parseFloat parseAny original s = .int n := by
  unfold classify
  simp only [hc, hl, hn, hd, Bool.false_eq_true, ↓reduceIte, parseNumber, gt_iff_lt,
    Nat.lt_irrefl, hi]

theorem normalizeSeparators_plain (d : List Char) (hc : ',' ∉ d) (hp : '.' ∉ d) :
    normalizeSeparators d = d := by
  unfold normalizeSeparators
  simp [lastIndex_of_not_mem d ',' hc, List.count_eq_zero_of_not_mem hp]

theorem moveTrailingSign_sign (d : List Char) (c : Char) (h : c = '-' ∨ c = '+') :
    moveTrailingSign (d ++ [c]) = some (c :: d) := by
  unfold moveTrailingSign
  rw [List.getLast?_concat]
  rcases h with rfl | rfl <;> simp

theorem hasSuffixI_digits (d : List Char) (h : ∀ c ∈ d, c.isDigit = true) :
    hasSuffixI d = false := by
  unfold hasSuffixI
  cases hl : d.getLast? with
  | none => rfl
  | some c =>
    have := h c (List.mem_of_getLast?_eq_some hl)
    simp only [beq_eq_false_iff_ne, ne_eq, Option.some.injEq]
    rintro rfl
    exact absurd this (by decide)

theorem ParseInt_negative (ds : List Char) (hne : ds ≠ []) (h : ∀ c ∈ ds, c.isDigit = true)
    (hfit : decimalValue ds < 2 ^ 63) :
    ParseInt ('-' :: ds) = some (-(decimalValue ds : Int)) := by
  unfold ParseInt
  have he : ds.isEmpty = false := by
    cases ds with
    | nil => exact absurd rfl hne
    | cons _ _ => rfl
  simp only [decide_False, decide_True, Bool.or_true, ↓reduceIte, he, Bool.false_eq_true,
    beq_self_eq_true, parseUintDigits_digits ds 0 h, Bool.not_true, Bool.false_and,
    Bool.true_and, decide_eq_true_eq]
  unfold decimalValue at hfit ⊢
  generalize List.foldl (fun acc c => acc * 10 + (c.toNat - 48)) 0 ds = un at hfit ⊢
  rw [if_neg (by omega)]

/-- C21: let d be a string of ASCII digits, not empty and not starting with 0, whose
value fits in a signed 64-bit integer. ParseTypedValue returns the integer -d for d
followed by "-" and the integer d for d followed by "+". -/
theorem ParseTypedValue_trailing_sign (parseFloat : String → Option Nat)
    (parseAny : String → Option ParsedTime) (d : List Char)
    (hd : digitGroup d = true) (hz : d.head? ≠ some '0') (hfit : decimalValue d < 2 ^ 63) :
    ParseTypedValue parseFloat parseAny (String.mk (d ++ ['-']))
        = some (some (.int (-(decimalValue d : Int))))
      ∧ ParseTypedValue parseFloat parseAny (String.mk (d ++ ['+']))
        = some (some (.int (decimalValue d : Int))) := by
  obtain ⟨hne, hdig⟩ := (digitGroup_iff d).mp hd
  obtain ⟨hplus, hminus, hcomma, hperiod⟩ := digits_no_sign d hdig
  have hfil : d.filter (fun x => x != ',') = d := by
    rw [List.filter_eq_self]
    intro a ha
    simp only [bne_iff_ne, ne_eq]
    rintro rfl
    exact hcomma ha
  have hnorm : ∀ c : Char, c = '-' ∨ c = '+' →
      normalizeSeparators (d ++ [c]) = d ++ [c] := by
    intro c hc
    apply normalizeSeparators_plain
    · rcases hc with rfl | rfl <;> simp [hcomma]
    · rcases hc with rfl | rfl <;> simp [hperiod]
  constructor
  · -- the sign is written, the digits follow
    have h1 : scanRune '-' initialScan = (signedScan ['-'] 0, false) := rfl
    have hscan : runeLoop ('-' :: d) initialScan = signedScan ('-' :: d) (1 + d.length) := by
      rw [runeLoop_cons, show IsWhitespace '-' = false by decide, h1]
      simp only [Bool.false_eq_true, ↓reduceIte]
      have := runeLoop_digits_commas d [] (signedScan ['-'] 0).next
        (by simp [ScanState.next, signedScan]) (fun c hc => Or.inl (hdig c hc))
      rw [List.append_nil, hfil] at this
      rw [this, runeLoop]
      simp [ScanState.next, signedScan]
    have hcomplex : parseComplex parseFloat ('-' :: d) = none := by
      unfold parseComplex
      rw [splitChars_of_not_mem '+' ('-' :: d) (by simp [hplus])]
      have hs : splitChars '-' ('-' :: d) = [[], d] := by
        rw [splitChars, if_pos rfl, splitChars_of_not_mem '-' d hminus]
      have e1 : hasSuffixI [] = false := rfl
      rw [hs]
      simp only [complexOfParts, e1, hasSuffixI_digits d hdig, Bool.false_eq_true, ↓reduceIte]
    unfold ParseTypedValue
    simp only [String_mk_ne_empty _ (List.append_ne_nil_of_right_ne_nil _
      (List.cons_ne_nil _ _)), Bool.false_eq_true, ↓reduceIte, hnorm '-' (Or.inl rfl),
      moveTrailingSign_sign d '-' (Or.inl rfl), hscan]
    rw [if_neg (by simp [signedScan])]
    rw [classify_integer parseFloat parseAny _ _ (-(decimalValue d : Int))
      (by simp [signedScan, hcomplex]) rfl rfl rfl (ParseInt_negative d hne hdig hfit)]
  · -- the sign is dropped, the digits follow
    obtain ⟨c1, ds, rfl⟩ : ∃ c1 ds, d = c1 :: ds := by
      cases d with
      | nil => exact absurd rfl hne
      | cons c1 ds => exact ⟨c1, ds, rfl⟩
    have hc1 : c1 ≠ '0' := by
      rintro rfl
      exact hz rfl
    have hds : ∀ c ∈ ds, c.isDigit = true := fun c hc => hdig c (List.mem_cons_of_mem _ hc)
    have hfil2 : ds.filter (fun x => x != ',') = ds := by
      rw [List.filter_eq_self]
      intro a ha
      simp only [bne_iff_ne, ne_eq]
      rintro rfl
      exact hcomma (List.mem_cons_of_mem _ ha)
    have h1 : scanRune '+' initialScan = (signedScan [] 0, false) := rfl
    have hscan : runeLoop ('+' :: c1 :: ds) initialScan
        = signedScan (c1 :: ds) (1 + 1 + ds.length) := by
      rw [runeLoop_cons, show IsWhitespace '+' = false by decide, h1]
      simp only [Bool.false_eq_true, ↓reduceIte]
      rw [runeLoop_cons, (digit_facts c1 (hdig c1 (List.mem_cons_self _ _))).1,
        scanRune_first_digit c1 _ (hdig c1 (List.mem_cons_self _ _)) hc1]
      simp only [Bool.false_eq_true, ↓reduceIte]
      have := runeLoop_digits_commas ds [] (((signedScan [] 0).next.write c1).next)
        (by simp [ScanState.next, ScanState.write, signedScan])
        (fun c hc => Or.inl (hds c hc))
      rw [List.append_nil, hfil2] at this
      rw [this, runeLoop]
      simp [ScanState.next, ScanState.write, signedScan]
    unfold ParseTypedValue
    simp only [String_mk_ne_empty _ (List.append_ne_nil_of_right_ne_nil _
      (List.cons_ne_nil _ _)), Bool.false_eq_true, ↓reduceIte, hnorm '+' (Or.inr rfl),
      moveTrailingSign_sign (c1 :: ds) '+' (Or.inr rfl), hscan]
    rw [if_neg (by simp [signedScan])]
    rw [classify_integer parseFloat parseAny _ _ (decimalValue (c1 :: ds) : Int)
      (by simp [signedScan, parseComplex_of_no_sign parseFloat _ hplus hminus]) rfl rfl rfl
      (ParseInt_digits (c1 :: ds) hne hdig hfit)]

/-- Witness of C21: the input 1234567890- of the tests gives -1234567890. -/
theorem ParseTypedValue_trailing_sign_witness :
    ParseTypedValue (fun _ => none) (fun _ => none) "1234567890-"
        = some (some (.int (-1234567890)))
      ∧ ParseTypedValue (fun _ => none) (fun _ => none) "1234567890+"
        = some (some (.int 1234567890)) :=
  ParseTypedValue_trailing_sign (fun _ => none) (fun _ => none)
    ['1', '2', '3', '4', '5', '6', '7', '8', '9', '0'] (by decide) (by decide) (by decide)

/-- Counterexample of C22: the input 0123456789012 is made of ASCII digits and starts
with 0. With a date parser that reads thirteen digits as Unix milliseconds (as
dateparse.ParseAny does: here the time 123456789012 ms, in the year 1973),
ParseTypedValue returns the integer 123456789012, the integer value of the digits. -/
theorem ParseTypedValue_leading_zero_integer :
    ParseTypedValue (fun _ => none)
        (fun s => if s = "0123456789012" then some ⟨1973, 123456789012000000⟩ else none)
        "0123456789012" = some (some (.int 123456789012))
      ∧ decimalValue "0123456789012".data = 123456789012 :=
  ⟨rfl, by decide⟩

/-- C22, amended: for an input made of ASCII digits that starts with 0 the numeric parse
is skipped: the result is the Unix time in milliseconds when the input is shorter than
32 bytes and the date parser accepts it with a year that is not zero, and otherwise the
input itself as a string value. -/
theorem ParseTypedValue_leading_zero (parseFloat : String → Option Nat)
    (parseAny : String → Option ParsedTime) (rest : List Char)
    (h : ∀ c ∈ rest, c.isDigit = true) :
    ParseTypedValue parseFloat parseAny (String.mk ('0' :: rest))
      = some (some ((if (String.mk ('0' :: rest)).utf8ByteSize < 32 then
            parseTime parseAny (String.mk ('0' :: rest)) else none).getD
          (.str (String.mk ('0' :: rest))))) := by
  have hdig : ∀ c ∈ '0' :: rest, c.isDigit = true := by
    intro c hc
    rcases List.mem_cons.mp hc with rfl | hc
    · rfl
    · exact h c hc
  obtain ⟨hplus, hminus, hcomma, hperiod⟩ := digits_no_sign ('0' :: rest) hdig
  have hfil : rest.filter (fun x => x != ',') = rest := by
    rw [List.filter_eq_self]
    intro a ha
    simp only [bne_iff_ne, ne_eq]
    rintro rfl
    exact hcomma (List.mem_cons_of_mem _ ha)
  have hsign : moveTrailingSign ('0' :: rest) = some ('0' :: rest) :=
    getLast_not_sign _ (List.cons_ne_nil _ _)
      (fun c hc => hdig c (List.mem_of_getLast?_eq_some hc))
  have h1 : scanRune '0' initialScan = (zeroScan ['0'] 0, false) := rfl
  have hscan : runeLoop ('0' :: rest) initialScan
      = zeroScan ('0' :: rest) (1 + rest.length) := by
    rw [runeLoop_cons, show IsWhitespace '0' = false by decide, h1]
    simp only [Bool.false_eq_true, ↓reduceIte]
    have := runeLoop_digits_commas rest [] (zeroScan ['0'] 0).next
      (by simp [ScanState.next, zeroScan]) (fun c hc => Or.inl (h c hc))
    rw [List.append_nil, hfil] at this
    rw [this, runeLoop]
    simp [ScanState.next, zeroScan]
  have hbool : parseBool ('0' :: rest) = none := by
    have e1 : ∀ l : List Char, ('0' :: l) ≠ "false".data :=
      fun l e => absurd (show some '0' = some 'f' from congrArg List.head? e) (by decide)
    have e2 : ∀ l : List Char, ('0' :: l) ≠ "true".data :=
      fun l e => absurd (show some '0' = some 't' from congrArg List.head? e) (by decide)
    unfold parseBool
    simp only [List.map_cons, show Char.toLower '0' = '0' by decide]
    rw [if_neg (e1 _), if_neg (e2 _)]
  unfold ParseTypedValue
  simp only [String_mk_ne_empty _ (List.cons_ne_nil _ _), Bool.false_eq_true, ↓reduceIte,
    normalizeSeparators_plain _ hcomma hperiod, hsign, hscan]
  rw [if_neg (by simp [zeroScan])]
  unfold classify
  simp only [zeroScan, ↓reduceIte, parseComplex_of_no_sign parseFloat _ hplus hminus, hbool,
    ite_self]
  cases (if (String.mk ('0' :: rest)).utf8ByteSize < 32 then
      parseTime parseAny (String.mk ('0' :: rest)) else none) <;> rfl

/-- Witness of C22: the input 012345 of the tests, which the date parser does not
accept, gives the string 012345. -/
theorem ParseTypedValue_leading_zero_witness :
    ParseTypedValue (fun _ => none) (fun _ => none) "012345" = some (some (.str "012345")) :=
  ParseTypedValue_leading_zero (fun _ => none) (fun _ => none) ['1', '2', '3', '4', '5']
    (by decide)

/-! ## ParseTypedValue: booleans -/

/-- A character that lowers to a letter of true or false is that letter or its capital:
it is no whitespace, it falls in the default case of the switch and it is one byte long. -/
theorem letter_facts (c : Char)
    (h : c.toLower ∈ ['t', 'r', 'u', 'e', 'f', 'a', 'l', 's']) :
    IsWhitespace c = false ∧ runeClass c = .other ∧ isDeleted c = false
      ∧ c.utf8Size = 1 := by
  have hc : c = Char.ofNat c.toNat := (Char.ofNat_toNat c).symm
  by_cases hu : c.toNat ≥ 65 ∧ c.toNat ≤ 90
  · obtain ⟨h1, h2⟩ := hu
    generalize c.toNat = n at hc h1 h2
    subst hc
    interval_cases n <;> first
      | (exfalso; revert h; decide)
      | decide
  · have hl : c.toLower = c := by
      unfold Char.toLower
      simp only [hu, ↓reduceIte]
    rw [hl] at h
    simp only [List.mem_cons, List.mem_singleton, List.not_mem_nil, or_false] at h
    rcases h with rfl | rfl | rfl | rfl | rfl | rfl | rfl | rfl <;> decide

theorem boolWord_letters (b : Bool) :
    ∀ x ∈ boolWord b, x ∈ ['t', 'r', 'u', 'e', 'f', 'a', 'l', 's'] := by
  cases b <;> decide

/-- Every character of the token is a letter. -/
theorem token_letters (l : List Char) (b : Bool) (h : l.map Char.toLower = boolWord b) :
    ∀ c ∈ l, c.toLower ∈ ['t', 'r', 'u', 'e', 'f', 'a', 'l', 's'] := by
  intro c hc
  apply boolWord_letters b
  rw [← h]
  exact List.mem_map_of_mem _ hc

/-- A deleted character that is not whitespace leaves the variables as they are. -/
theorem scanRune_deleted (c : Char) (s : ScanState) (hd : isDeleted c = true)
    (hw : IsWhitespace c = false) : scanRune c s = (s, false) := by
  unfold isDeleted at hd
  simp only [hw, Bool.false_or, Bool.or_eq_true, beq_iff_eq] at hd
  rcases hd with ((((((rfl | rfl) | rfl) | rfl) | rfl) | rfl) | rfl) <;> rfl

/-- The switch on a letter: it is written, the input is neither a complex number nor a
number, and the loop is left when five characters were counted before. -/
theorem scanRune_letter (c : Char) (s : ScanState) (h : runeClass c = .other) :
    scanRune c s = (s.letter c, s.pos == 5) := by
  unfold scanRune
  rw [h]
  rfl

theorem runeLoop_counted : ∀ (cs : List Char) (s : ScanState),
    runeLoop cs s = runeLoop (counted cs) s
  | [], _ => rfl
  | c :: rest, s => by
    cases hw : IsWhitespace c with
    | true =>
      have : counted (c :: rest) = counted rest := by
        simp [counted, List.filter_cons, hw]
      rw [this, runeLoop_cons, if_pos hw]
      exact runeLoop_counted rest s
    | false =>
      have : counted (c :: rest) = c :: counted rest := by
        simp [counted, List.filter_cons, hw]
      rw [this, runeLoop_cons, runeLoop_cons, hw]
      simp only [Bool.false_eq_true, ↓reduceIte]
      rw [runeLoop_counted rest]

theorem cleanToken_cons_deleted (c : Char) (l : List Char) (h : isDeleted c = true) :
    cleanToken (c :: l) = cleanToken l := by
  simp [cleanToken, List.filter_cons, h]

theorem cleanToken_cons_kept (c : Char) (l : List Char) (h : isDeleted c = false) :
    cleanToken (c :: l) = c :: cleanToken l := by
  simp [cleanToken, List.filter_cons, h]

theorem cleanToken_counted (cs : List Char) : cleanToken (counted cs) = cleanToken cs := by
  unfold cleanToken counted
  rw [List.filter_filter]
  congr 1
  funext c
  unfold isDeleted
  cases IsWhitespace c <;> simp

theorem scanRune_flags (c : Char) (s : ScanState) :
    (s.complexSupported = false → (scanRune c s).1.complexSupported = false)
      ∧ (s.numberSupported = false → (scanRune c s).1.numberSupported = false) := by
  unfold scanRune
  cases runeClass c <;> simp only [ScanState.write] <;> constructor <;> intro h <;>
    (try split_ifs) <;> simp_all

/-- The scan never makes the input a candidate again. -/
theorem runeLoop_flags : ∀ (l : List Char) (s : ScanState),
    (s.complexSupported = false → (runeLoop l s).complexSupported = false)
      ∧ (s.numberSupported = false → (runeLoop l s).numberSupported = false)
  | [], _ => ⟨id, id⟩
  | c :: rest, s => by
    rw [runeLoop_cons]
    obtain ⟨h1, h2⟩ := scanRune_flags c s
    split_ifs
    · exact runeLoop_flags rest s
    · exact ⟨h1, h2⟩
    · obtain ⟨h3, h4⟩ := runeLoop_flags rest (scanRune c s).1.next
      exact ⟨fun h => h3 (h1 h), fun h => h4 (h2 h)⟩

/-- The scan of deleted characters and letters, none of them whitespace: when the
character met with five characters counted is no letter, or the last letter, the buffer
receives the letters in order, and a letter ends the candidacies. -/
theorem runeLoop_word : ∀ (l : List Char) (s : ScanState),
    (∀ c ∈ l, IsWhitespace c = false
      ∧ (isDeleted c = true ∨ (isDeleted c = false ∧ runeClass c = .other))) →
    (∀ (j : Nat) (c : Char), l[j]? = some c → s.pos + j = 5 →
      isDeleted c = true ∨ cleanToken (l.drop (j + 1)) = []) →
    (runeLoop l s).outputBuffer = s.outputBuffer ++ cleanToken l
      ∧ (cleanToken l ≠ [] →
          (runeLoop l s).complexSupported = false ∧ (runeLoop l s).numberSupported = false)
  | [], s, _, _ => by simp [runeLoop, cleanToken]
  | c :: rest, s, hall, hsix => by
    obtain ⟨hw, hc⟩ := hall c (List.mem_cons_self _ _)
    have hrest : ∀ x ∈ rest, IsWhitespace x = false
        ∧ (isDeleted x = true ∨ (isDeleted x = false ∧ runeClass x = .other)) :=
      fun x hx => hall x (List.mem_cons_of_mem _ hx)
    rw [runeLoop_cons, hw]
    simp only [Bool.false_eq_true, ↓reduceIte]
    rcases hc with hd | ⟨hk, hcl⟩
    · rw [scanRune_deleted c s hd hw, cleanToken_cons_deleted c rest hd]
      simp only [Bool.false_eq_true, ↓reduceIte]
      apply runeLoop_word rest s.next hrest
      intro j x hx hp
      have := hsix (j + 1) x (by simpa using hx) (by
        rw [ScanState.next_pos] at hp
        omega)
      simpa using this
    · rw [scanRune_letter c s hcl, cleanToken_cons_kept c rest hk]
      by_cases hp : s.pos = 5
      · have hlast : cleanToken rest = [] := by
          rcases hsix 0 c (by simp) (by omega) with h | h
          · rw [hk] at h
            cases h
          · simpa using h
        simp [hp, hlast, ScanState.letter]
      · have hb : (s.pos == 5) = false := by simpa using hp
        simp only [hb, Bool.false_eq_true, ↓reduceIte]
        obtain ⟨h1, _⟩ := runeLoop_word rest
          (s.letter c).next hrest (by
            intro j x hx hq
            have := hsix (j + 1) x (by simpa using hx) (by
              rw [ScanState.next_pos] at hq
              simp only [ScanState.letter] at hq
              omega)
            simpa using this)
        obtain ⟨h3, h4⟩ := runeLoop_flags rest
          (s.letter c).next
        refine ⟨?_, fun _ => ⟨h3 rfl, h4 rfl⟩⟩
        rw [h1]
        simp [ScanState.next, ScanState.letter]

theorem normalizeSeparators_no_period (d : List Char) (hp : '.' ∉ d) :
    normalizeSeparators d = d := by
  unfold normalizeSeparators
  simp [lastIndex_of_not_mem d '.' hp, List.count_eq_zero_of_not_mem hp]

theorem moveTrailingSign_no_sign (d : List Char) (hne : d ≠ []) (hm : '-' ∉ d)
    (hp : '+' ∉ d) : moveTrailingSign d = some d := by
  unfold moveTrailingSign
  cases hl : d.getLast? with
  | none => exact absurd (List.getLast?_eq_none_iff.mp hl) hne
  | some c =>
    have hc := List.mem_of_getLast?_eq_some hl
    have h1 : c ≠ '-' := fun e => hm (e ▸ hc)
    have h2 : c ≠ '+' := fun e => hp (e ▸ hc)
    simp [h1, h2]

theorem utf8ByteSize_go_ascii : ∀ (l : List Char), (∀ c ∈ l, c.utf8Size = 1) →
    String.utf8ByteSize.go l = l.length
  | [], _ => rfl
  | c :: rest, h => by
    rw [String.utf8ByteSize.go, utf8ByteSize_go_ascii rest
      (fun x hx => h x (List.mem_cons_of_mem _ hx)), h c (List.mem_cons_self _ _)]
    rfl

theorem parseBool_word (l : List Char) (b : Bool) (h : l.map Char.toLower = boolWord b) :
    parseBool l = some (.bool b) := by
  unfold parseBool
  simp only [h]
  cases b
  · rw [if_pos (by decide)]
  · rw [if_neg (by decide), if_pos (by decide)]

/-- Counterexample of C23: deleting the brackets of ((false)) leaves the word false, and
ParseTypedValue returns the input as a string (the date parser accepting nothing): the
scan stops after the s, the sixth character counted. -/
theorem ParseTypedValue_brackets_not_boolean :
    cleanToken "((false))".data = boolWord false
      ∧ ParseTypedValue (fun _ => none) (fun _ => none) "((false))"
        = some (some (.str "((false))")) :=
  ⟨by decide, rfl⟩

/-- C23, amended: let the token obtained by deleting all whitespace, commas, parentheses,
square brackets and braces from the input be the word true or false when letter case is
ignored, and let the sixth character of the input that is not whitespace, if there is
one, be a deleted character or the last letter of the word. ParseTypedValue returns the
corresponding boolean. -/
theorem ParseTypedValue_boolean (parseFloat : String → Option Nat)
    (parseAny : String → Option ParsedTime) (cs : List Char) (b : Bool)
    (htoken : (cleanToken cs).map Char.toLower = boolWord b)
    (hsixth : ∀ c, (counted cs)[5]? = some c →
      isDeleted c = true ∨ cleanToken ((counted cs).drop 6) = []) :
    ParseTypedValue parseFloat parseAny (String.mk cs) = some (some (.bool b)) := by
  have hlet := token_letters (cleanToken cs) b htoken
  -- every character is deleted or a letter
  have hclass : ∀ c ∈ cs, isDeleted c = true
      ∨ (isDeleted c = false ∧ c.toLower ∈ ['t', 'r', 'u', 'e', 'f', 'a', 'l', 's']) := by
    intro c hc
    cases hd : isDeleted c with
    | true => exact Or.inl rfl
    | false =>
      refine Or.inr ⟨rfl, hlet c ?_⟩
      exact List.mem_filter.mpr ⟨hc, by simp [hd]⟩
  have hnot : ∀ x : Char, isDeleted x = false →
      x.toLower ∉ ['t', 'r', 'u', 'e', 'f', 'a', 'l', 's'] → x ∉ cs := by
    intro x h1 h2 hx
    rcases hclass x hx with h | ⟨_, h⟩
    · rw [h1] at h
      cases h
    · exact h2 h
  have htne : cleanToken cs ≠ [] := by
    intro e
    rw [e] at htoken
    cases b <;> cases htoken
  have hne : cs ≠ [] := by
    intro e
    rw [e] at htne
    exact htne rfl
  have hnorm := normalizeSeparators_no_period cs (hnot '.' (by decide) (by decide))
  have hsign := moveTrailingSign_no_sign cs hne (hnot '-' (by decide) (by decide))
    (hnot '+' (by decide) (by decide))
  -- the scan
  have hcounted : ∀ c ∈ counted cs, IsWhitespace c = false
      ∧ (isDeleted c = true ∨ (isDeleted c = false ∧ runeClass c = .other)) := by
    intro c hc
    obtain ⟨hcs, hw⟩ := List.mem_filter.mp hc
    refine ⟨by simpa using hw, ?_⟩
    rcases hclass c hcs with h | ⟨h1, h2⟩
    · exact Or.inl h
    · exact Or.inr ⟨h1, (letter_facts c h2).2.1⟩
  obtain ⟨hbuf, hflags⟩ := runeLoop_word (counted cs) initialScan hcounted (by
    intro j c hj hp
    have : j = 5 := by
      simp only [initialScan] at hp
      omega
    subst this
    exact hsixth c hj)
  rw [← runeLoop_counted, cleanToken_counted] at hbuf hflags
  obtain ⟨hcx, hnum⟩ := hflags htne
  have hbuf2 : (runeLoop cs initialScan).outputBuffer = cleanToken cs := by
    rw [hbuf]
    rfl
  have hpos : ((runeLoop cs initialScan).pos == 0) = false := by
    simp only [beq_eq_false_iff_ne, ne_eq]
    intro h0
    have hall := (runeLoop_pos_zero_iff cs initialScan rfl rfl rfl rfl).mp h0
    apply htne
    unfold cleanToken
    rw [List.filter_eq_nil_iff]
    intro c hc
    simp [isDeleted, hall c hc]
  have hsize : (String.mk (cleanToken cs)).utf8ByteSize < 6 := by
    show String.utf8ByteSize.go (cleanToken cs) < 6
    rw [utf8ByteSize_go_ascii _ (fun c hc => (letter_facts c (hlet c hc)).2.2.2)]
    have := congrArg List.length htoken
    rw [List.length_map] at this
    rw [this]
    cases b <;> decide
  unfold ParseTypedValue
  simp only [String_mk_ne_empty _ hne, Bool.false_eq_true, ↓reduceIte, hnorm, hsign, hpos]
  unfold classify
  simp only [hcx, hnum, Bool.false_eq_true, ↓reduceIte, ite_self, hbuf2, hsize,
    parseBool_word _ b htoken]

/-- Witness of C23: the input " (TRUE) " gives the boolean true. -/
theorem ParseTypedValue_boolean_witness :
    ParseTypedValue (fun _ => none) (fun _ => none) " (TRUE) " = some (some (.bool true)) :=
  ParseTypedValue_boolean (fun _ => none) (fun _ => none)
    [' ', '(', 'T', 'R', 'U', 'E', ')', ' '] true (by decide) (by decide)

/-! ## ParseTypedValue: complex numbers -/

/-- C24: the input "1.5 + 2.5i" holds two periods and no comma, so every period is
stripped before the scan: ParseTypedValue returns the complex number 15+25i, not
1.5+2.5i. The input "12,345.678 + 9i" of the tests, with one period, gives
12345.678+9i. -/
theorem ParseTypedValue_complex_periods_stripped :
    normalizeSeparators "1.5 + 2.5i".data = "15 + 25i".data
      ∧ ParseTypedValue sampleParseFloat (fun _ => none) "1.5 + 2.5i"
        = some (some (.complex 0x402E000000000000 0x4039000000000000))
      ∧ sampleParseFloat "1.5" = some 0x3FF8000000000000
      ∧ sampleParseFloat "2.5" = some 0x4004000000000000
      ∧ ParseTypedValue sampleParseFloat (fun _ => none) "12,345.678 + 9i"
        = some (some (.complex 0x40C81CD6C8B43958 0x4022000000000000)) :=
  ⟨by decide, rfl, rfl, rfl, rfl⟩

/-! ## ParseTypedValue: string results -/

theorem of_ite_none {α : Type} (c : Prop) [Decidable c] (x : Option α) (v : α)
    (h : (if c then x else none) = some v) : x = some v := by
  split_ifs at h
  exact h

theorem complexOfParts_kind (parseFloat : String → Option Nat) (negate : Bool)
    (parts : List (List Char)) (v : Value)
    (h : complexOfParts parseFloat negate parts = some v) : v.Kind = Kind.Complex128 := by
  unfold complexOfParts at h
  split at h
  · rename_i p0 p1
    by_cases h0 : hasSuffixI p0 = true
    · rw [if_pos h0] at h
      cases hr : parseFloat (String.mk p1) with
      | none => simp [hr] at h
      | some re =>
        cases hi : parseFloat (String.mk (trimI p0)) with
        | none => simp [hr, hi] at h
        | some im =>
          simp only [hr, hi, Option.some.injEq] at h
          subst h
          rfl
    · rw [if_neg h0] at h
      by_cases h1 : hasSuffixI p1 = true
      · rw [if_pos h1] at h
        cases hr : parseFloat (String.mk p0) with
        | none => simp [hr] at h
        | some re =>
          cases hi : parseFloat (String.mk (trimI p1)) with
          | none => simp [hr, hi] at h
          | some im =>
            simp only [hr, hi, Option.some.injEq] at h
            subst h
            rfl
      · rw [if_neg h1] at h
        cases h
  · cases h

theorem parseComplex_kind (parseFloat : String → Option Nat) (buffer : List Char) (v : Value)
    (h : parseComplex parseFloat buffer = some v) : v.Kind = Kind.Complex128 := by
  unfold parseComplex at h
  split at h
  · rename_i w hw
    simp only [Option.some.injEq] at h
    subst h
    exact complexOfParts_kind parseFloat false _ _ hw
  · exact complexOfParts_kind parseFloat true _ _ h

theorem parseNumber_kind (parseFloat : String → Option Nat) (decimalCount : Nat)
    (buffer : List Char) (v : Value) (h : parseNumber parseFloat decimalCount buffer = some v) :
    v.Kind = Kind.Float64 ∨ v.Kind = Kind.Int := by
  unfold parseNumber at h
  split at h
  · simp only [Option.some.injEq] at h
    subst h
    exact Or.inl rfl
  · split at h
    · simp only [Option.some.injEq] at h
      subst h
      exact Or.inr rfl
    · cases h

theorem parseBool_kind (buffer : List Char) (v : Value) (h : parseBool buffer = some v) :
    v.Kind = Kind.Bool := by
  unfold parseBool at h
  simp only [] at h
  split_ifs at h <;> simp only [Option.some.injEq] at h <;> subst h <;> rfl

theorem parseTime_kind (parseAny : String → Option ParsedTime) (original : String) (v : Value)
    (h : parseTime parseAny original = some v) : v.Kind = Kind.Int := by
  unfold parseTime at h
  split at h
  · cases h
  · split_ifs at h
    simp only [Option.some.injEq] at h
    subst h
    rfl

/-- A string that the last part of ParseTypedValue yields is the original string. -/
theorem classify_string (parseFloat : String → Option Nat)
    (parseAny : String → Option ParsedTime) (original : String) (s : ScanState) (t : String)
    (h : classify parseFloat parseAny original s = .str t) : t = original := by
  unfold classify at h
  split at h
  · rename_i v hv
    have hk : v.Kind = Kind.Complex128 := by
      exact parseComplex_kind parseFloat _ v (of_ite_none _ _ v hv)
    rw [h] at hk
    cases hk
  · simp only [] at h
    split at h
    · rename_i v hv
      have hk : v.Kind = Kind.Float64 ∨ v.Kind = Kind.Int := by
        exact parseNumber_kind parseFloat _ _ v (of_ite_none _ _ v hv)
      rw [h] at hk
      rcases hk with hk | hk <;> cases hk
    · split at h
      · rename_i v hv
        have hk : v.Kind = Kind.Bool := by
          exact parseBool_kind _ v (of_ite_none _ _ v hv)
        rw [h] at hk
        cases hk
      · split at h
        · rename_i v hv
          have hk : v.Kind = Kind.Int := by
            exact parseTime_kind parseAny _ v (of_ite_none _ _ v hv)
          rw [h] at hk
          cases hk
        · simp only [Value.str.injEq] at h
          exact h.symm

/-- C25: when ParseTypedValue returns a string value, the string is the input itself,
character for character. -/
theorem ParseTypedValue_string_is_input (parseFloat : String → Option Nat)
    (parseAny : String → Option ParsedTime) (dataString t : String)
    (h : ParseTypedValue parseFloat parseAny dataString = some (some (.str t))) :
    t = dataString := by
  unfold ParseTypedValue at h
  by_cases he : (dataString == "") = true
  · rw [if_pos he] at h
    cases h
  · rw [if_neg he] at h
    cases hm : moveTrailingSign (normalizeSeparators dataString.data) with
    | none =>
      rw [hm] at h
      cases h
    | some chars =>
      rw [hm] at h
      simp only [] at h
      by_cases hp : ((runeLoop chars initialScan).pos == 0) = true
      · rw [if_pos hp] at h
        cases h
      · rw [if_neg hp] at h
        simp only [Option.some.injEq] at h
        exact classify_string parseFloat parseAny dataString _ t h

/-- Witness of C25: the input "Last, First" of the tests is returned as it is. -/
theorem ParseTypedValue_string_is_input_witness :
    ParseTypedValue (fun _ => none) (fun _ => none) "Last, First"
        = some (some (.str "Last, First"))
      ∧ "Last, First" = "Last, First" :=
  have h : ParseTypedValue (fun _ => none) (fun _ => none) "Last, First"
      = some (some (.str "Last, First")) := rfl
  ⟨h, ParseTypedValue_string_is_input (fun _ => none) (fun _ => none) "Last, First"
    "Last, First" h⟩

/-! ## GetFieldValue -/

/-- C26: on the records of TestInherit, GetFieldValue fails at run time (the result
`none` of the model) when the segment intVal resolves to an integer and a segment
follows, when the pointer BoolPointerVal on the way is nil, and when a dotted path is
applied to a map: FieldByName is called on a Value that is not a struct. It returns nil
when a record has no field of the name. -/
theorem GetFieldValue_unresolved_panics :
    GetFieldValue (some inheritParent) "intVal.x" = none
      ∧ GetFieldValue (some inheritChild) "boolPointerVal.x" = none
      ∧ GetFieldValue (some (.map [("a", .str "b")])) "a.b" = none
      ∧ GetFieldValue (some inheritParent) "nothing" = some none
      ∧ GetFieldValue (some inheritParent) "nothing.x" = some none :=
  ⟨rfl, rfl, rfl, rfl, rfl⟩

/-- Counterexample of C27: the record hiddenRecord has a field named _x, which is
Capitalize("_x"), with the value 5; GetFieldValue fails at run time on the name _x,
because Interface is called on a field that is not exported. -/
theorem GetFieldValue_unexported_panics :
    Capitalize "_x".data = some "_x".data
      ∧ fieldByNameOf (some hiddenRecord) (Capitalize "_x".data)
        = some (some (⟨"_x", [], "main"⟩, .int 5))
      ∧ GetFieldValue (some hiddenRecord) "_x" = none :=
  ⟨rfl, rfl, rfl⟩

theorem splitChars_append (sep : Char) :
    ∀ (a rest : List Char), sep ∉ a →
      splitChars sep (a ++ sep :: rest) = a :: splitChars sep rest
  | [], rest, _ => by
    rw [List.nil_append, splitChars, if_pos rfl]
  | c :: a, rest, h => by
    simp only [List.mem_cons, not_or] at h
    rw [List.cons_append, splitChars, if_neg (fun e => h.1 e.symm),
      splitChars_append sep a rest h.2]

theorem splitChars_ne_nil (sep : Char) : ∀ (l : List Char), splitChars sep l ≠ []
  | [] => by simp [splitChars]
  | c :: rest => by
    rw [splitChars]
    split_ifs
    · simp
    · cases h : splitChars sep rest with
      | nil => simp
      | cons p ps => simp

theorem getFieldValuePath_cons (value : Option Value) (segment : List Char)
    (rest : List (List Char)) (hne : rest ≠ []) :
    getFieldValuePath value (segment :: rest)
      = match fieldByNameOf (derefAll value) (Capitalize segment) with
        | none => none
        | some none => some none
        | some (some fv) =>
          match fieldInterface fv with
          | none => none
          | some inner => getFieldValuePath inner rest := by
  cases rest with
  | nil => exact absurd rfl hne
  | cons r rs => rfl

/-- C27, amended: let the value be a record, possibly behind pointers, with an exported
field named Capitalize(a), of value v. For a name a without a period, GetFieldValue on
a + "." + rest is GetFieldValue on v and rest, and GetFieldValue on a is v (what an
interface field holds). On a map with string keys, GetFieldValue on a name without a
period is the entry stored under exactly that name, nil when there is none. -/
theorem GetFieldValue_resolution :
    (∀ (value : Option Value) (n : String) (fs : Fields) (a b rest : List Char)
        (f : StructField) (v : Value),
        derefAll value = some (.struct n fs) → '.' ∉ a → Capitalize a = some b →
        fieldByName fs (String.mk b) = some (f, v) → f.exported = true →
        GetFieldValue value (String.mk (a ++ '.' :: rest))
            = GetFieldValue (toAny v) (String.mk rest)
          ∧ GetFieldValue value (String.mk a) = some (toAny v))
      ∧ (∀ (value : Option Value) (m : List (String × Value)) (a : List Char),
        derefAll value = some (.map m) → '.' ∉ a →
        GetFieldValue value (String.mk a)
          = some ((List.lookup (String.mk a) m).bind toAny)) := by
  constructor
  · intro value n fs a b rest f v hd hp hcap hfield hexp
    constructor
    · unfold GetFieldValue
      show getFieldValuePath value (splitChars '.' (a ++ '.' :: rest)) = _
      rw [splitChars_append '.' a rest hp,
        getFieldValuePath_cons value a _ (splitChars_ne_nil '.' rest), hd, hcap]
      simp only [fieldByNameOf, hfield, fieldInterface, hexp, ↓reduceIte]
    · unfold GetFieldValue
      show getFieldValuePath value (splitChars '.' a) = _
      rw [splitChars_of_not_mem '.' a hp, getFieldValuePath, hd, hcap]
      simp [kindOf, Value.Kind, fieldByNameOf, hfield, fieldInterface, hexp]
  · intro value m a hd hp
    unfold GetFieldValue
    show getFieldValuePath value (splitChars '.' a) = _
    rw [splitChars_of_not_mem '.' a hp, getFieldValuePath, hd]
    simp only [kindOf, Value.Kind, ↓reduceIte, mapIndex]
    cases List.lookup (String.mk a) m <;> rfl

/-- Witness of C27 on the records of TestGetFieldValue: stringVal resolves the field
StringVal, mapVal.key1 the key key1 of the field MapVal. -/
theorem GetFieldValue_resolution_witness :
    GetFieldValue (some inheritParent) "stringVal" = some (some (.str "parent"))
      ∧ GetFieldValue (some (sampleSubstruct (.map [("key1", .str "val1")]) .nilSlice))
          "mapVal.key1"
        = GetFieldValue (some (.map [("key1", .str "val1")])) "key1"
      ∧ GetFieldValue (some (.map [("key1", .str "val1")])) "key1"
        = some (some (.str "val1")) :=
  ⟨(GetFieldValue_resolution.1 (some inheritParent) "SampleStruct"
      (structFields (some inheritParent)).get! "stringVal".data "StringVal".data []
      ⟨"StringVal", [("api", "stringVal"), ("inherit", "dynamic"), ("testtag", "stringVal")], ""⟩
      (.str "parent") rfl (by decide) rfl rfl rfl).2,
    (GetFieldValue_resolution.1
      (some (sampleSubstruct (.map [("key1", .str "val1")]) .nilSlice)) "SampleSubstruct"
      (structFields (some (sampleSubstruct (.map [("key1", .str "val1")]) .nilSlice))).get!
      "mapVal".data "MapVal".data "key1".data
      ⟨"MapVal", [("api", "mapVal"), ("inherit", "dynamic")], ""⟩
      (.map [("key1", .str "val1")]) rfl (by decide) rfl rfl rfl).1,
    GetFieldValue_resolution.2 (some (.map [("key1", .str "val1")]))
      [("key1", .str "val1")] "key1".data rfl (by decide)⟩

/-! ## GetTagFieldNames -/

/-- C28: a field whose tag value is empty before the first comma adds no name only at
the top level. Under an enclosing field named "sub" the prefix and the period are joined
before the name is tested for emptiness, so the inline field adds the name "sub." and
its own field is listed as "sub..x"; the same inner record on its own lists only "x".
On the sample record of the tests the tag "testtag" gives boolVal, stringVal, uintVal. -/
theorem GetTagFieldNames_inline_under_prefix :
    GetTagFieldNames (some inlineNested) "api" = some ["sub", "sub.", "sub..x"] ∧
    GetAPIFieldNames (some inlineNested) = some ["sub", "sub.", "sub..x"] ∧
    GetTagFieldNames
      (some (.struct "Inner"
        [(⟨"Deep", [("api", ",inline")], ""⟩,
          .struct "Leaf" [(⟨"X", [("api", "x")], ""⟩, .int 1)])])) "api" = some ["x"] ∧
    GetTagFieldNames (some inheritParent) "testtag" =
      some ["boolVal", "stringVal", "uintVal"] := by
  exact ⟨rfl, rfl, rfl, rfl⟩

/-! ## SetQueryFields -/

theorem queryField_eq (ext formatTime : Value → String) (f : StructField) (v : Value)
    (st : QueryState) :
    queryField ext formatTime f v st =
      if f.exported = true then
        (((tagLookup f.Tag "api").map
          (fun fieldID => queryBody ext formatTime (cutTag fieldID) (elemOnce v) st)).getD
            (some st))
      else some st := by
  cases v with
  | ptr w =>
    cases w <;> simp only [queryField, elemOnce, queryBody] <;>
      cases tagLookup f.Tag "api" <;> rfl
  | _ =>
    simp only [queryField, elemOnce, queryBody]
    cases tagLookup f.Tag "api" <;> rfl

theorem storedPairsOf_eq (ext formatTime : Value → String) (f : StructField) (v : Value) :
    storedPairsOf ext formatTime f v =
      if f.exported = true then
        (((tagLookup f.Tag "api").map
          (fun t => bodyPairs ext formatTime (cutTag t) (elemOnce v))).getD [])
      else [] := by
  cases v with
  | ptr w =>
    cases w <;> simp only [storedPairsOf, elemOnce, bodyPairs] <;>
      cases tagLookup f.Tag "api" <;> rfl
  | _ =>
    simp only [storedPairsOf, elemOnce, bodyPairs]
    cases tagLookup f.Tag "api" <;> rfl

theorem timeFieldIsTime_eq (f : StructField) (v : Value) :
    timeFieldIsTime f v =
      if f.exported = true then
        (((tagLookup f.Tag "api").map (fun _ => bodyIsTime (elemOnce v))).getD true)
      else true := by
  cases v with
  | ptr w =>
    cases w <;> simp only [timeFieldIsTime, elemOnce, bodyIsTime] <;>
      cases tagLookup f.Tag "api" <;> first | rfl | simp
  | _ =>
    simp only [timeFieldIsTime, elemOnce, bodyIsTime]
    cases tagLookup f.Tag "api" <;> first | rfl | simp

theorem applyPairs_nil (st : QueryState) : applyPairs [] st = st := rfl

theorem applyPairs_append (p q : List (String × String)) (st : QueryState) :
    applyPairs (p ++ q) st = applyPairs q (applyPairs p st) := by
  unfold applyPairs
  rw [List.foldl_append]

theorem storeQueryValue_pairs (key text : String) (st : QueryState) :
    storeQueryValue key text st = applyPairs (textPair key text) st := by
  unfold storeQueryValue textPair
  by_cases h : text = ""
  · subst h
    rfl
  · have hb : (text != "") = true := by simpa using h
    rw [if_pos hb, if_neg h]
    rfl

theorem queryMapLoop_pairs (ext formatTime : Value → String) :
    ∀ (m : List (String × Value)) (st : QueryState),
      queryMapLoop ext formatTime m st
        = applyPairs (m.flatMap (fun kx => textPair kx.1 (mapValueText ext formatTime kx.2))) st
  | [], _ => rfl
  | (key, x) :: rest, st => by
    rw [queryMapLoop, queryMapLoop_pairs ext formatTime rest, storeQueryValue_pairs,
      List.flatMap_cons, applyPairs_append]

theorem queryKind_pairs (ext formatTime : Value → String) (fieldID : String) (v : Value)
    (st : QueryState) :
    queryKind ext formatTime fieldID v st = applyPairs (kindPairs ext formatTime fieldID v) st := by
  cases v <;>
    first
    | exact queryMapLoop_pairs ext formatTime _ st
    | exact storeQueryValue_pairs _ _ st
    | rfl

theorem queryTime_pairs (formatTime : Value → String) (fieldID : String) (field : Value)
    (st : QueryState) :
    queryTime formatTime fieldID field st
      = if isTimeTime field = true then
          some (applyPairs (textPair fieldID (formatTime field)) st)
        else none := by
  unfold queryTime
  rw [storeQueryValue_pairs]

/-- The loop of setQueryFieldsHelper makes the stores of the fields, in order, when every
field of a type named Time that it reaches is a time.Time, and panics otherwise. -/
theorem queryFieldsLoop_pairs (ext formatTime : Value → String) :
    ∀ (fs : Fields) (st : QueryState),
      queryFieldsLoop ext formatTime fs st
        = if timeFieldsAreTimes fs = true then
            some (applyPairs (storedPairs ext formatTime fs) st)
          else none
  | [], st => by
    rw [queryFieldsLoop, timeFieldsAreTimes, storedPairs]
    rfl
  | (f, v) :: rest, st => by
    have hfield : queryField ext formatTime f v st
        = if timeFieldIsTime f v = true then
            some (applyPairs (storedPairsOf ext formatTime f v) st)
          else none := by
      rw [queryField_eq, storedPairsOf_eq, timeFieldIsTime_eq]
      by_cases hexp : f.exported = true
      · simp only [hexp, ↓reduceIte]
        cases htag : tagLookup f.Tag "api" with
        | none => simp [applyPairs_nil]
        | some t =>
          simp only [Option.map_some', Option.getD_some]
          cases he : elemOnce v with
          | struct n gs =>
            have hlt : sizeOf gs < sizeOf ((f, v) :: rest) := by
              have : sizeOf (Value.struct n gs) ≤ sizeOf v := by
                cases v with
                | ptr w =>
                  simp only [elemOnce] at he
                  subst he
                  simp
                | _ =>
                  simp only [elemOnce] at he
                  cases he <;> exact le_refl _
              simp at this ⊢
              omega
            simp only [queryBody, bodyPairs, bodyIsTime]
            by_cases hn : (n == timeString) = true
            · simp only [hn, ↓reduceIte]
              exact queryTime_pairs formatTime (cutTag t) (.struct n gs) st
            · simp only [hn, Bool.false_eq_true, ↓reduceIte]
              exact queryFieldsLoop_pairs ext formatTime gs st
          | _ =>
            simp only [queryBody, bodyPairs, bodyIsTime, ↓reduceIte, queryKind_pairs]
      · simp [hexp, applyPairs_nil]
    rw [queryFieldsLoop, hfield, timeFieldsAreTimes, storedPairs]
    by_cases h1 : timeFieldIsTime f v = true
    · simp only [h1, ↓reduceIte, Bool.true_and]
      rw [queryFieldsLoop_pairs ext formatTime rest, applyPairs_append]
    · simp [h1]
termination_by fs => sizeOf fs
decreasing_by
  all_goals simp_wf
  all_goals try simp at hlt
  all_goals omega

/-- The record of TestSetQueryFields: the values stored and, with the set ranged over in
the order of insertion, the buffer; its parts sorted are the line the test expects. -/
theorem SetQueryFields_test :
    SetQueryFields sampleExt sampleFormatTime id (some (.ptr queryRecord)) [] "" =
      some ([("boolVal", "true"), ("floatVal", "45.67"), ("intVal", "89"),
          ("stringVal", "aaabbb"), ("aa", "123"), ("bb", "456"), ("cc", "789"),
          ("timeVal", "Monday August 27 16:19:44 2018 +0000"),
          ("timePointerVal", "Monday August 27 16:19:44 2018 +0000"), ("uintVal", "0")],
        "true 45.67 89 aaabbb 123 456 789 Monday August 27 16:19:44 2018 +0000 0") :=
  rfl

/-- The assertion field.Interface().(time.Time) has no check: a record with an exported
field, tagged api, of a struct type named Time that is not time.Time makes SetQueryFields
panic. -/
theorem SetQueryFields_foreign_time_panics :
    SetQueryFields sampleExt sampleFormatTime id (some foreignTimeRecord) [] "" = none :=
  rfl

/-- SetQueryFields panics as soon as a field of a type named Time that it reaches is not
a time.Time. -/
theorem SetQueryFields_panics (ext formatTime : Value → String)
    (order : List String → List String) (input : Option Value) (fs : Fields)
    (queryValues : DiffMap) (allValues : String)
    (hin : structFields input = some fs) (htimes : timeFieldsAreTimes fs = false) :
    SetQueryFields ext formatTime order input queryValues allValues = none := by
  unfold SetQueryFields setQueryFieldsHelper
  rw [hin]
  simp only [queryFieldsLoop_pairs, htimes, Bool.false_eq_true, ↓reduceIte]

/-- The record of TestSetEnvFieldValues: every field is set from its variable, the two
strings once put between quotation marks. -/
theorem SetEnvFieldValues_test :
    SetEnvFieldValues sampleEnv sampleUnmarshal
        (.any (some (.ptr (sampleEnvStruct .nilPtr .nilPtr (.int 0) (.str "already set")
          (.str "")))))
      = (.any (some (.ptr (sampleEnvStruct (.ptr (.bool true)) (.ptr (.bool false))
          (.int 60606) (.str "replaced") (.str "lalala")))), .ok) :=
  rfl

theorem envFieldLoop_keeps (env : String → String)
    (unmarshal : String → Value → Except String Value) (canSet : Bool) :
    ∀ (fs : Fields),
      (envFieldLoop env unmarshal canSet fs).1.length = fs.length ∧
      ∀ (i : Nat) (f : StructField) (v : Value), fs[i]? = some (f, v) →
        (∀ name, tagLookup f.Tag "env" = some name → env name = "") →
        (envFieldLoop env unmarshal canSet fs).1[i]? = some (f, v)
  | [] => ⟨rfl, fun i f v h => by simp at h⟩
  | (g, w) :: rest => by
    have ih := envFieldLoop_keeps env unmarshal canSet rest
    have hkeep : (((g, w) :: (envFieldLoop env unmarshal canSet rest).1).length
          = ((g, w) :: rest).length) ∧
        ∀ (i : Nat) (f : StructField) (v : Value), ((g, w) :: rest)[i]? = some (f, v) →
          (∀ name, tagLookup f.Tag "env" = some name → env name = "") →
          ((g, w) :: (envFieldLoop env unmarshal canSet rest).1)[i]? = some (f, v) := by
      refine ⟨by simp [ih.1], fun i f v h hk => ?_⟩
      cases i with
      | zero => simpa using h
      | succ j => simpa using ih.2 j f v (by simpa using h) hk
    have hstop : (((g, w) :: rest).length = ((g, w) :: rest).length) ∧
        ∀ (i : Nat) (f : StructField) (v : Value), ((g, w) :: rest)[i]? = some (f, v) →
          (∀ name, tagLookup f.Tag "env" = some name → env name = "") →
          ((g, w) :: rest)[i]? = some (f, v) := ⟨rfl, fun _ _ _ h _ => h⟩
    rw [envFieldLoop]
    cases htag : tagLookup g.Tag "env" with
    | none => exact hkeep
    | some envVarName =>
      by_cases he : env envVarName = ""
      · simp only [he, if_true]
        exact hkeep
      · simp only [he, if_false]
        cases unmarshal (quoteEnvVar w (env envVarName)) (zeroValue w) with
        | error msg => exact hstop
        | ok x =>
          by_cases hs : (canSet && g.exported) = true
          · simp only [hs, if_true]
            refine ⟨by simp [ih.1], fun i f v h hk => ?_⟩
            cases i with
            | zero =>
              simp only [List.getElem?_cons_zero, Option.some.injEq, Prod.mk.injEq] at h
              obtain ⟨h1, _⟩ := h
              subst h1
              exact absurd (hk envVarName htag) he
            | succ j => simpa using ih.2 j f v (by simpa using h) hk
          · simp only [hs]
            exact hstop

/-- C30: let the output hold a record with the fields fs, passed as a pointer to it or as
a reflect.Value. However the call ends (it returns nil, it returns the error of the
decoder, or it panics in Set), the output holds a record of the same type with as many
fields, and every field that has no env tag, or whose env tag names a variable that
os.Getenv reads as the empty string (not set, or set to the empty string), holds exactly
the value it held. -/
theorem SetEnvFieldValues_keeps (env : String → String)
    (unmarshal : String → Value → Except String Value) (output : Arg) (n : String)
    (fs : Fields) (canSet : Bool) (hout : outputStruct output = some (n, fs, canSet)) :
    ∃ fs1,
      outputStruct (SetEnvFieldValues env unmarshal output).1 = some (n, fs1, canSet)
      ∧ fs1.length = fs.length
      ∧ ∀ (i : Nat) (f : StructField) (v : Value), fs[i]? = some (f, v) →
          (tagLookup f.Tag "env" = none ∨
            ∃ name, tagLookup f.Tag "env" = some name ∧ env name = "") →
          fs1[i]? = some (f, v) := by
  have hk : ∀ (f : StructField), (tagLookup f.Tag "env" = none ∨
      ∃ name, tagLookup f.Tag "env" = some name ∧ env name = "") →
      ∀ name, tagLookup f.Tag "env" = some name → env name = "" := by
    intro f h name hn
    rcases h with h | ⟨name2, h1, h2⟩
    · rw [h] at hn
      cases hn
    · rw [h1] at hn
      cases hn
      exact h2
  cases output with
  | rv o c =>
    cases o with
    | none => cases hout
    | some x =>
      cases x <;> cases hout
      have := envFieldLoop_keeps env unmarshal canSet fs
      exact ⟨_, rfl, this.1, fun i f v h hc => this.2 i f v h (hk f hc)⟩
  | any o =>
    cases o with
    | none => cases hout
    | some x =>
      cases x <;> first | cases hout | skip
      rename_i y
      cases y <;> cases hout
      have := envFieldLoop_keeps env unmarshal true fs
      exact ⟨_, rfl, this.1, fun i f v h hc => this.2 i f v h (hk f hc)⟩

/-- Witness of C30 on the record of the tests, with IntVal 7 and SetStringVal "already
set", in an environment where only SAMPLE_SETSTRINGVAL is set: SetStringVal becomes
"replaced" and IntVal, whose variable is not set, is still 7. -/
theorem SetEnvFieldValues_keeps_witness :
    SetEnvFieldValues sparseEnv sampleUnmarshal
        (.any (some (.ptr (sampleEnvStruct .nilPtr .nilPtr (.int 7) (.str "already set")
          (.str "")))))
      = (.any (some (.ptr (sampleEnvStruct .nilPtr .nilPtr (.int 7) (.str "replaced")
          (.str "")))), .ok)
    ∧ ∃ fs1,
      outputStruct (SetEnvFieldValues sparseEnv sampleUnmarshal
        (.any (some (.ptr (sampleEnvStruct .nilPtr .nilPtr (.int 7) (.str "already set")
          (.str "")))))).1 = some ("SampleEnvStruct", fs1, true)
      ∧ fs1[2]? = some (⟨"IntVal", [("default", "56"), ("env", "SAMPLE_INTVAL")], ""⟩, .int 7) := by
  obtain ⟨fs1, h1, _, h3⟩ := SetEnvFieldValues_keeps sparseEnv sampleUnmarshal
    (.any (some (.ptr (sampleEnvStruct .nilPtr .nilPtr (.int 7) (.str "already set")
      (.str ""))))) "SampleEnvStruct" _ true rfl
  exact ⟨rfl, fs1, h1,
    h3 2 ⟨"IntVal", [("default", "56"), ("env", "SAMPLE_INTVAL")], ""⟩ (.int 7) rfl
      (Or.inr ⟨"SAMPLE_INTVAL", rfl, rfl⟩)⟩

/-! ## InjectVariables -/

theorem injectLoop_write (ext : Value → String) (vars : List (String × Option Value))
    (input : String) :
    ∀ (s rest : List Char) (lastC : Char) (hasVariable : Bool)
      (outputBuffer variableBuffer : List Char),
      ¬ (['$', '\x7b'] <:+: s) → (lastC = '$' → s.head? ≠ some '\x7b') →
      injectLoop ext vars input (s ++ rest) lastC hasVariable false outputBuffer
          variableBuffer
        = injectLoop ext vars input rest (s.getLast?.getD lastC) hasVariable false
            (outputBuffer ++ s) variableBuffer
  | [], rest, lastC, hasVariable, outputBuffer, variableBuffer, _, _ => by simp
  | c :: s, rest, lastC, hasVariable, outputBuffer, variableBuffer, hs, hl => by
    have hc : ¬ (c = '\x7b' ∧ lastC = '$') := by
      rintro ⟨h1, h2⟩
      exact hl h2 (by simp [h1])
    have hs2 : ¬ (['$', '\x7b'] <:+: s) := fun h => hs (h.trans (List.suffix_cons c s).isInfix)
    have hl2 : c = '$' → s.head? ≠ some '\x7b' := by
      intro e hh
      apply hs
      cases s with
      | nil => cases hh
      | cons x xs =>
        simp only [List.head?_cons, Option.some.injEq] at hh
        subst hh
        subst e
        exact ⟨[], xs, rfl⟩
    rw [List.cons_append, injectLoop]
    simp only [Bool.false_eq_true, if_false, if_neg hc]
    rw [injectLoop_write ext vars input s rest c hasVariable _ variableBuffer hs2 hl2]
    congr 1
    · cases s with
      | nil => rfl
      | cons x xs =>
        have : (x :: xs).getLast? = some ((x :: xs).getLast (by simp)) :=
          List.getLast?_eq_getLast _ _
        simp only [List.getLast?_cons_cons, this, Option.getD_some]
    · simp

theorem injectLoop_name (ext : Value → String) (vars : List (String × Option Value))
    (input : String) :
    ∀ (name rest : List Char) (lastC : Char) (hasVariable : Bool)
      (outputBuffer variableBuffer : List Char), '\x7d' ∉ name →
      injectLoop ext vars input (name ++ rest) lastC hasVariable true outputBuffer
          variableBuffer
        = injectLoop ext vars input rest (name.getLast?.getD lastC) hasVariable true
            outputBuffer (variableBuffer ++ name)
  | [], rest, lastC, hasVariable, outputBuffer, variableBuffer, _ => by simp
  | c :: s, rest, lastC, hasVariable, outputBuffer, variableBuffer, hn => by
    have hc : c ≠ '\x7d' := fun e => hn (e ▸ List.mem_cons_self _ _)
    have hn2 : '\x7d' ∉ s := fun h => hn (List.mem_cons_of_mem _ h)
    rw [List.cons_append, injectLoop]
    simp only [if_true, if_neg hc]
    rw [injectLoop_name ext vars input s rest c hasVariable outputBuffer _ hn2]
    congr 1
    · cases s with
      | nil => rfl
      | cons x xs =>
        have : (x :: xs).getLast? = some ((x :: xs).getLast (by simp)) :=
          List.getLast?_eq_getLast _ _
        simp only [List.getLast?_cons_cons, this, Option.getD_some]
    · simp

theorem truncateLast_dollar (buffer : List Char) :
    truncateLast (buffer ++ ['$']) = some buffer := by
  unfold truncateLast
  rw [List.getLast?_append_of_ne_nil _ (by simp)]
  simp

/-- C31: let the input be s1, then the two characters dollar and opening brace, then
name, then a closing brace, then s2, where s1 and s2 do not hold a dollar followed by an
opening brace and name holds no closing brace (strings being lists of characters, that
is, valid UTF-8). If name is a key of the map of the variables, with the value v,
InjectVariables returns the string s1 followed by fmt.Sprint(v) and s2, and no error; if
it is not, InjectVariables returns the empty string and the error
"input variable (name) not found". -/
theorem InjectVariables_single (ext : Value → String) (vars : List (String × Option Value))
    (s1 name s2 : List Char)
    (h1 : ¬ (['$', '\x7b'] <:+: s1)) (h2 : ¬ (['$', '\x7b'] <:+: s2))
    (hn : '\x7d' ∉ name) :
    (∀ v, List.lookup (String.mk name) vars = some v →
        InjectVariables ext (String.mk (s1 ++ ['$', '\x7b'] ++ name ++ ['\x7d'] ++ s2)) vars
          = some (some (.str (String.mk (s1 ++ (Sprint ext v).data ++ s2))), none))
      ∧ (List.lookup (String.mk name) vars = none →
        InjectVariables ext (String.mk (s1 ++ ['$', '\x7b'] ++ name ++ ['\x7d'] ++ s2)) vars
          = some (some (.str ""), some (notFound (String.mk name)))) := by
  have hrun : ∀ input : String,
      injectLoop ext vars input (s1 ++ ['$', '\x7b'] ++ name ++ ['\x7d'] ++ s2)
          (Char.ofNat 0) false false [] []
        = match List.lookup (String.mk name) vars with
          | none => some (some (.str ""), some (notFound (String.mk name)))
          | some v => some (some (.str (String.mk (s1 ++ (Sprint ext v).data ++ s2))), none) := by
    intro input
    simp only [List.append_assoc, List.cons_append, List.nil_append]
    rw [injectLoop_write ext vars input s1 _ (Char.ofNat 0) false [] [] h1
      (fun e => absurd e (by decide))]
    rw [injectLoop]
    have hd : ¬ (('$' : Char) = '\x7b' ∧ s1.getLast?.getD (Char.ofNat 0) = '$') :=
      fun h => absurd h.1 (by decide)
    simp only [Bool.false_eq_true, if_false, if_neg hd]
    rw [injectLoop]
    simp only [Bool.false_eq_true, if_false, true_and, if_true, List.nil_append,
      truncateLast_dollar]
    rw [injectLoop_name ext vars input name _ '\x7b' true s1 [] hn]
    rw [injectLoop]
    simp only [if_true, List.nil_append]
    cases List.lookup (String.mk name) vars with
    | none => rfl
    | some v =>
      simp only []
      have := injectLoop_write ext vars input s2 [] '\x7d' true
        (s1 ++ (Sprint ext v).data) [] h2 (fun e => absurd e (by decide))
      rw [List.append_nil] at this
      rw [this, injectLoop]
      simp
  constructor
  · intro v hv
    unfold InjectVariables
    rw [hrun, hv]
  · intro hv
    unfold InjectVariables
    rw [hrun, hv]

/-- Witness of C31, on the inputs of TestInjectVariables: with value = success the input
test, dollar, brace, value, brace gives testsuccess; with no variable the input test,
dollar, brace, unmatched, brace gives an error and the empty string. -/
theorem InjectVariables_single_witness :
    InjectVariables (fun _ => "") "test$\x7bvalue\x7d" [("value", some (.str "success"))]
        = some (some (.str "testsuccess"), none)
      ∧ InjectVariables (fun _ => "") "test$\x7bunmatched\x7d" []
        = some (some (.str ""), some "input variable (unmatched) not found") :=
  ⟨(InjectVariables_single (fun _ => "") [("value", some (.str "success"))] "test".data
      "value".data [] (by decide) (by decide) (by decide)).1 (some (.str "success")) rfl,
    (InjectVariables_single (fun _ => "") [] "test".data "unmatched".data []
      (by decide) (by decide) (by decide)).2 rfl⟩

theorem injectLoop_returns (ext : Value → String) (vars : List (String × Option Value))
    (input : String) :
    ∀ (s : List Char) (lastC : Char) (hasVariable inVariable : Bool)
      (outputBuffer variableBuffer : List Char),
      (inVariable = false → lastC = '$' → outputBuffer.getLast? = some '$') →
      (injectLoop ext vars input s lastC hasVariable inVariable outputBuffer
        variableBuffer).isSome = true
  | [], lastC, hasVariable, inVariable, outputBuffer, variableBuffer, _ => by
    rw [injectLoop]
    split_ifs
    · rfl
    · cases List.lookup input vars <;> rfl
  | c :: rest, lastC, hasVariable, inVariable, outputBuffer, variableBuffer, hinv => by
    rw [injectLoop]
    cases inVariable with
    | true =>
      simp only [if_true]
      split_ifs with hc
      · cases List.lookup (String.mk variableBuffer) vars with
        | none => rfl
        | some v =>
          exact injectLoop_returns ext vars input rest c hasVariable false _ _
            (fun _ e => absurd (hc ▸ e) (by decide))
      · exact injectLoop_returns ext vars input rest c hasVariable true _ _
          (fun e => absurd e (by decide))
    | false =>
      simp only [Bool.false_eq_true, if_false]
      split_ifs with hc
      · have hlast := hinv rfl hc.2
        have ht : truncateLast outputBuffer = some outputBuffer.dropLast := by
          unfold truncateLast
          rw [hlast]
          rfl
        rw [ht]
        exact injectLoop_returns ext vars input rest c true true _ _
          (fun e => absurd e (by decide))
      · exact injectLoop_returns ext vars input rest c hasVariable false _ _
          (fun _ e => by rw [List.getLast?_append_of_ne_nil _ (by simp), e]; rfl)

/-- InjectVariables returns on every input: the call of Truncate always finds the '$'
that the iteration before wrote at the end of the buffer. -/
theorem InjectVariables_returns (ext : Value → String) (input : String)
    (vars : List (String × Option Value)) :
    (InjectVariables ext input vars).isSome = true :=
  injectLoop_returns ext vars input input.data (Char.ofNat 0) false false [] []
    (fun _ e => absurd e (by decide))

/-! ## SanitizeDirectory -/

/-- C32: the result of SanitizeDirectory can hold "../" and "/..". Each of the two
replacements is one pass from left to right, and removing an instance can bring the
characters around it together into a new one: "..././etc/passwd" becomes
"../etc/passwd", and "/./..." becomes "/..". The input "../test.txt" of the tests gives
"test.txt". -/
theorem SanitizeDirectory_traversal_left :
    SanitizeDirectory "..././etc/passwd" = "../etc/passwd"
      ∧ "../".data <:+: (SanitizeDirectory "..././etc/passwd").data
      ∧ SanitizeDirectory "/./..." = "/.."
      ∧ "/..".data <:+: (SanitizeDirectory "/./...").data
      ∧ SanitizeDirectory "../test.txt" = "test.txt" :=
  ⟨rfl, ⟨[], "etc/passwd".data, rfl⟩, rfl, ⟨[], [], rfl⟩, rfl⟩

/-! ## ReturnBetweenInsensitive -/

theorem stringsIndex_mem : ∀ (s substr : List Char) (i : Nat),
    stringsIndex s substr = some i → ∀ c ∈ substr, c ∈ s
  | [], substr, i, h, c, hc => by
    unfold stringsIndex at h
    split_ifs at h with he
    rw [List.isEmpty_iff] at he
    rw [he] at hc
    cases hc
  | x :: rest, substr, i, h, c, hc => by
    unfold stringsIndex at h
    split_ifs at h with hp
    · have := List.isPrefixOf_iff_prefix.mp hp
      exact this.subset hc
    · cases hr : stringsIndex rest substr with
      | none => simp [hr] at h
      | some j => exact List.mem_cons_of_mem _ (stringsIndex_mem rest substr j hr c hc)

theorem toLower_not_upper (c : Char) : c.toLower.isUpper = false := by
  by_cases h : c.isUpper = true
  · have h2 : c.val ≥ 65 ∧ c.val ≤ 90 := by simpa [Char.isUpper] using h
    have hc : c = Char.ofNat c.toNat := by simp
    have hn : 65 ≤ c.toNat ∧ c.toNat ≤ 90 := by
      constructor
      · exact h2.1
      · exact h2.2
    rw [hc]
    generalize c.toNat = n at hn
    obtain ⟨h1, h3⟩ := hn
    interval_cases n <;> decide
  · have : c.toLower = c := by
      unfold Char.toLower
      simp only [Char.isUpper, Bool.and_eq_true, decide_eq_true_eq] at h
      simp only [ge_iff_le]
      split_ifs with h2
      · exact absurd h2 h
      · rfl
    rw [this]
    simpa using h

/-- C33: a needle that holds an upper-case letter A to Z is never found: the needles are
looked up as they are in the haystack put in lower case, and the result is the empty
string. -/
theorem ReturnBetweenInsensitive_upper_needle (haystack startNeedle endNeedle : String)
    (h : (∃ c ∈ startNeedle.data, c.isUpper = true)
      ∨ (∃ c ∈ endNeedle.data, c.isUpper = true)) :
    ReturnBetweenInsensitive haystack startNeedle endNeedle = "" := by
  have hlow : ∀ (l : List Char) (n : Nat), ∀ c ∈ (stringsToLower l).drop n,
      c.isUpper = false := by
    intro l n c hc
    have := List.mem_of_mem_drop hc
    unfold stringsToLower at this
    obtain ⟨d, _, rfl⟩ := List.mem_map.mp this
    exact toLower_not_upper d
  have hnone : ∀ (l : List Char) (n : Nat) (needle : List Char),
      (∃ c ∈ needle, c.isUpper = true) → stringsIndex ((stringsToLower l).drop n) needle = none := by
    intro l n needle ⟨c, hc, hu⟩
    cases hr : stringsIndex ((stringsToLower l).drop n) needle with
    | none => rfl
    | some i =>
      have := hlow l n c (stringsIndex_mem _ _ i hr c hc)
      rw [hu] at this
      cases this
  unfold ReturnBetweenInsensitive
  rcases h with h | h
  · have := hnone haystack.data 0 startNeedle.data h
    rw [List.drop_zero] at this
    rw [this]
  · cases stringsIndex (stringsToLower haystack.data) startNeedle.data with
    | none => rfl
    | some startPos =>
      simp only []
      rw [hnone haystack.data _ endNeedle.data h]

/-- Witness of C33, on the haystack of the tests: with the needles h and li the result is
he, with the needles H and LI it is the empty string. -/
theorem ReturnBetweenInsensitive_upper_needle_witness :
    ReturnBetweenInsensitive "HheLI" "h" "li" = "he"
      ∧ ReturnBetweenInsensitive "HheLI" "H" "LI" = "" :=
  ⟨rfl, ReturnBetweenInsensitive_upper_needle "HheLI" "H" "LI"
    (Or.inl ⟨'H', by decide, by decide⟩)⟩

/-! ## Permutations -/

theorem swapAt_cons_succ (h : String) (t : List String) (i j : Nat) :
    swapAt (h :: t) (i + 1) (j + 1) = h :: swapAt t i j := by
  simp [swapAt]

theorem set_getD_self (d : String) : ∀ (l : List String) (j : Nat),
    l.set j (l.getD j d) = l
  | [], _ => rfl
  | _ :: _, 0 => rfl
  | h :: t, j + 1 => by
    simp only [List.getD_cons_succ, List.set_cons_succ]
    rw [set_getD_self d t j]

theorem swapAt_self (l : List String) (j : Nat) : swapAt l j j = l := by
  unfold swapAt
  rw [List.set_set, set_getD_self]

theorem set_length_append (b : List String) (y x : String) (c : List String) :
    (b ++ y :: c).set b.length x = b ++ x :: c := by
  induction b with
  | nil => rfl
  | cons h t ih => simp [ih]

theorem getD_length_append (b : List String) (y d : String) (c : List String) :
    (b ++ y :: c).getD b.length d = y := by
  induction b with
  | nil => rfl
  | cons h t ih => simpa using ih

/-- The exchange of the elements at the two positions. -/
theorem swapAt_append (a : List String) (x : String) (b : List String) (y : String)
    (c : List String) :
    swapAt (a ++ x :: (b ++ y :: c)) a.length (a.length + 1 + b.length)
      = a ++ y :: (b ++ x :: c) := by
  induction a with
  | nil =>
    simp only [List.nil_append, List.length_nil, Nat.zero_add]
    unfold swapAt
    have h1 : (x :: (b ++ y :: c)).getD (1 + b.length) "" = y := by
      rw [Nat.add_comm]
      simpa using getD_length_append b y "" c
    have h2 : (x :: (b ++ y :: c)).getD 0 "" = x := rfl
    rw [h1, h2, Nat.add_comm 1]
    simp only [List.set_cons_zero, List.set_cons_succ]
    rw [set_length_append]
  | cons h t ih =>
    have e : (h :: t).length + 1 + b.length = (t.length + 1 + b.length) + 1 := by
      simp only [List.length_cons]
      omega
    rw [e]
    simp only [List.cons_append, List.length_cons]
    rw [swapAt_cons_succ, ih]

theorem permutationsLoop_succ (n : Nat)
    (helper : List String → List (List String) → List String × List (List String))
    (remaining i : Nat) (input : List String) (output : List (List String)) :
    permutationsLoop n helper (remaining + 1) i input output
      = permutationsLoop n helper remaining (i + 1)
          (if n % 2 = 1 then swapAt (helper input output).1 i (n - 1)
            else swapAt (helper input output).1 0 (n - 1))
          (helper input output).2 := rfl

theorem permutationsHelper_succ (n : Nat) (input : List String)
    (output : List (List String)) :
    permutationsHelper (n + 2) input output
      = permutationsLoop (n + 2) (permutationsHelper (n + 1)) (n + 2) 0 input output := by
  rw [permutationsHelper]
  simp

theorem map_append_map (L : List (List String)) (z : String) (suf : List String) :
    (L.map (fun q => q ++ [z])).map (fun q => q ++ suf) = L.map (fun q => q ++ z :: suf) := by
  simp [List.map_map, Function.comp_def]

theorem nodup_map_append (L : List (List String)) (z : String) (h : L.Nodup) :
    (L.map (fun q => q ++ [z])).Nodup :=
  List.Nodup.map (fun _ _ e => List.append_cancel_right e) h

/-- The loop for an even n = k + 1: every iteration turns the first n elements by one
place, the last one coming first. From the elements u followed by the reverse of vr,
as many iterations as vr has elements lead to the reverse of vr followed by u. -/
theorem permutationsLoop_even (k : Nat) (hk : HelperSpec k) (hpar : (k + 1) % 2 = 0)
    (hpos : 1 ≤ k) (suf : List String) :
    ∀ (vr u : List String) (i : Nat) (out : List (List String)),
      (u ++ vr.reverse).length = k + 1 →
      ∃ L : List (List String),
        permutationsLoop (k + 1) (permutationsHelper k) vr.length i
            ((u ++ vr.reverse) ++ suf) out
          = ((vr.reverse ++ u) ++ suf, out ++ L.map (fun q => q ++ suf))
        ∧ LoopOutputs (u ++ vr.reverse) vr (vr.length * k.factorial) L
  | [], u, i, out, _ => by
    refine ⟨[], ?_, ?_⟩
    · simp [permutationsLoop]
    · simp [LoopOutputs]
  | z :: vr, u, i, out, hlen => by
    have hWlen : (u ++ vr.reverse).length = k := by
      simp only [List.reverse_cons, List.length_append, List.length_reverse,
        List.length_singleton] at hlen
      simp only [List.length_append, List.length_reverse]
      omega
    obtain ⟨p, y, hW⟩ : ∃ p y, u ++ vr.reverse = p ++ [y] := by
      rcases List.eq_nil_or_concat (u ++ vr.reverse) with h | ⟨p, y, h⟩
      · rw [h] at hWlen
        simp at hWlen
        omega
      · exact ⟨p, y, by rw [h, List.concat_eq_append]⟩
    have hplen : p.length + 1 = k := by
      rw [hW] at hWlen
      simpa using hWlen
    have hP : u ++ (z :: vr).reverse = (p ++ [y]) ++ [z] := by
      rw [List.reverse_cons, ← List.append_assoc, hW]
    have hQ : (z :: u) ++ vr.reverse = z :: (p ++ [y]) := by
      rw [List.cons_append, hW]
    have hodd : k % 2 = 1 := by omega
    obtain ⟨L0, hrun, hcount, hperm, hnodup⟩ := hk p y (z :: suf) out hplen
    rw [if_pos hodd] at hrun
    have hih := permutationsLoop_even k hk hpar hpos suf vr (z :: u) (i + 1)
      (out ++ L0.map (fun q => q ++ z :: suf)) (by rw [hQ]; simp; omega)
    obtain ⟨L1, hrun1, hcount1, hmem1, hnodup1⟩ := hih
    refine ⟨L0.map (fun q => q ++ [z]) ++ L1, ?_, ?_, ?_, ?_⟩
    · have hstate : (u ++ (z :: vr).reverse) ++ suf = (p ++ [y]) ++ (z :: suf) := by
        rw [hP]
        simp
      have hswap : swapAt ((y :: p) ++ (z :: suf)) 0 (k + 1 - 1) = ((z :: u) ++ vr.reverse) ++ suf := by
        have := swapAt_append [] y p z suf
        simp only [List.nil_append, List.length_nil, Nat.zero_add] at this
        have e : k + 1 - 1 = 1 + p.length := by omega
        rw [e, List.cons_append, this, hQ]
        simp
      rw [List.length_cons, permutationsLoop_succ, hstate, hrun]
      simp only [hpar, if_neg (show ¬ (0 = 1) by decide)]
      rw [hswap, hrun1]
      simp only [List.reverse_cons, List.map_append, map_append_map, List.append_assoc,
        List.singleton_append]
    · simp only [List.length_append, List.length_map, List.length_cons, hcount, hcount1]
      rw [Nat.succ_mul]
      omega
    · intro q hq
      rcases List.mem_append.mp hq with hq | hq
      · obtain ⟨q0, hq0, rfl⟩ := List.mem_map.mp hq
        refine ⟨?_, z, List.mem_cons_self _ _, by simp⟩
        rw [hP]
        exact List.Perm.append_right _ (hperm q0 hq0)
      · obtain ⟨hp1, x, hx, hlast⟩ := hmem1 q hq
        refine ⟨?_, x, List.mem_cons_of_mem _ hx, hlast⟩
        rw [hQ] at hp1
        rw [hP]
        exact hp1.trans (List.perm_append_singleton z (p ++ [y])).symm
    · intro hnd
      rw [hP] at hnd
      have hnd0 : (p ++ [y]).Nodup := (List.nodup_append.mp hnd).1
      have hz : z ∉ p ++ [y] := by
        intro hm
        exact (List.nodup_append.mp hnd).2.2 hm (List.mem_singleton_self z)
      have hzvr : z ∉ vr := by
        intro hm
        apply hz
        rw [← hW]
        exact List.mem_append_right _ (List.mem_reverse.mpr hm)
      have hnd1 : ((z :: u) ++ vr.reverse).Nodup := by
        rw [hQ]
        exact List.nodup_cons.mpr ⟨hz, hnd0⟩
      refine List.Nodup.append (nodup_map_append L0 z (hnodup hnd0)) (hnodup1 hnd1) ?_
      intro q hq0 hq1
      obtain ⟨q0, _, rfl⟩ := List.mem_map.mp hq0
      obtain ⟨_, x, hx, hlast⟩ := hmem1 _ hq1
      have : x = z := by simpa using hlast.symm
      exact hzvr (this ▸ hx)

/-- The loop for an odd n = k + 1, after its first iteration: the slice holds z, then u,
then v, then x, and the iteration at hand is the one of index |u| + 1. Every iteration
exchanges the element at its index with the last one; at the end the slice holds z, u,
x and v. -/
theorem permutationsLoop_odd (k : Nat) (hk : HelperSpec k) (hpar : (k + 1) % 2 = 1)
    (suf : List String) (z : String) :
    ∀ (v u : List String) (x : String) (out : List (List String)),
      (z :: (u ++ v ++ [x])).length = k + 1 →
      ∃ L : List (List String),
        permutationsLoop (k + 1) (permutationsHelper k) (v.length + 1) (u.length + 1)
            ((z :: (u ++ v ++ [x])) ++ suf) out
          = ((z :: (u ++ x :: v)) ++ suf, out ++ L.map (fun q => q ++ suf))
        ∧ LoopOutputs (z :: (u ++ v ++ [x])) (x :: v) ((v.length + 1) * k.factorial) L := by
  have heven : ¬ (k % 2 = 1) := by omega
  -- one call of the helper, on the first k elements z, u, v
  have hcall : ∀ (v u : List String) (x : String) (out : List (List String)),
      (z :: (u ++ v ++ [x])).length = k + 1 →
      ∃ L0 : List (List String),
        permutationsHelper k ((z :: (u ++ v ++ [x])) ++ suf) out
          = ((z :: (u ++ v ++ [x])) ++ suf, out ++ L0.map (fun q => q ++ x :: suf))
        ∧ L0.length = k.factorial ∧ (∀ q ∈ L0, q.Perm (z :: (u ++ v)))
        ∧ ((z :: (u ++ v)).Nodup → L0.Nodup) := by
    intro v u x out hlen
    obtain ⟨w, t, hW⟩ : ∃ w t, z :: (u ++ v) = w ++ [t] := by
      rcases List.eq_nil_or_concat (z :: (u ++ v)) with h | ⟨w, t, h⟩
      · cases h
      · exact ⟨w, t, by rw [h, List.concat_eq_append]⟩
    have hwlen : w.length + 1 = k := by
      have := congrArg List.length hW
      simp only [List.length_cons, List.length_append, List.length_singleton, List.length_nil] at this hlen
      omega
    obtain ⟨L0, hrun, hcount, hperm, hnodup⟩ := hk w t (x :: suf) out hwlen
    rw [if_neg heven] at hrun
    have hstate : (z :: (u ++ v ++ [x])) ++ suf = (w ++ [t]) ++ (x :: suf) := by
      rw [← hW]
      simp
    refine ⟨L0, ?_, hcount, ?_, ?_⟩
    · rw [hstate, hrun]
    · intro q hq
      rw [hW]
      exact hperm q hq
    · intro hnd
      rw [hW] at hnd
      exact hnodup hnd
  intro v
  induction v with
  | nil =>
    intro u x out hlen
    obtain ⟨L0, hrun, hcount, hperm, hnodup⟩ := hcall [] u x out hlen
    refine ⟨L0.map (fun q => q ++ [x]), ?_, ?_, ?_, ?_⟩
    · have hi : k + 1 - 1 = u.length + 1 := by
        simp only [List.length_cons, List.length_append, List.length_nil,
          List.length_singleton] at hlen
        omega
      rw [List.length_nil, permutationsLoop_succ, hrun]
      simp only [hpar, if_true]
      rw [hi, swapAt_self]
      simp [permutationsLoop, map_append_map]
    · simp [hcount]
    · intro q hq
      obtain ⟨q0, hq0, rfl⟩ := List.mem_map.mp hq
      refine ⟨?_, x, List.mem_cons_self _ _, by simp⟩
      have := List.Perm.append_right [x] (hperm q0 hq0)
      simpa using this
    · intro hnd
      refine nodup_map_append L0 x (hnodup ?_)
      have : (z :: (u ++ [] ++ [x])) = (z :: (u ++ [])) ++ [x] := by simp
      rw [this] at hnd
      exact (List.nodup_append.mp hnd).1
  | cons y v ih =>
    intro u x out hlen
    obtain ⟨L0, hrun, hcount, hperm, hnodup⟩ := hcall (y :: v) u x out hlen
    have hlen1 : (z :: ((u ++ [x]) ++ v ++ [y])).length = k + 1 := by
      simp only [List.length_cons, List.length_append, List.length_singleton, List.length_nil] at hlen ⊢
      omega
    obtain ⟨L1, hrun1, hcount1, hmem1, hnodup1⟩ := ih (u ++ [x]) y
      (out ++ L0.map (fun q => q ++ x :: suf)) hlen1
    have hP : z :: (u ++ y :: v ++ [x]) = (z :: (u ++ y :: v)) ++ [x] := by simp
    have hperm1 : (z :: ((u ++ [x]) ++ v ++ [y])).Perm (z :: (u ++ y :: v ++ [x])) := by
      refine List.Perm.cons z ?_
      have e1 : (u ++ [x]) ++ v ++ [y] = u ++ (x :: (v ++ [y])) := by simp
      have e2 : u ++ y :: v ++ [x] = u ++ (y :: (v ++ [x])) := by simp
      rw [e1, e2]
      refine List.Perm.append_left u ?_
      have p1 : (x :: (v ++ [y])).Perm (x :: y :: v) :=
        List.Perm.cons x (List.perm_append_singleton y v)
      have p2 : (y :: (v ++ [x])).Perm (y :: x :: v) :=
        List.Perm.cons y (List.perm_append_singleton x v)
      exact p1.trans ((List.Perm.swap y x v).trans p2.symm)
    refine ⟨L0.map (fun q => q ++ [x]) ++ L1, ?_, ?_, ?_, ?_⟩
    · have hi : k + 1 - 1 = (z :: u).length + 1 + v.length := by
        simp only [List.length_cons, List.length_append, List.length_singleton, List.length_nil] at hlen ⊢
        omega
      have hswap : swapAt ((z :: (u ++ y :: v ++ [x])) ++ suf) (u.length + 1) (k + 1 - 1)
          = (z :: ((u ++ [x]) ++ v ++ [y])) ++ suf := by
        have := swapAt_append (z :: u) y v x suf
        rw [hi]
        have e1 : (z :: (u ++ y :: v ++ [x])) ++ suf = (z :: u) ++ y :: (v ++ x :: suf) := by
          simp
        have e2 : (z :: ((u ++ [x]) ++ v ++ [y])) ++ suf = (z :: u) ++ x :: (v ++ y :: suf) := by
          simp
        rw [e1, e2]
        exact this
      rw [List.length_cons, permutationsLoop_succ, hrun]
      simp only [hpar, if_true]
      rw [hswap]
      have hidx : u.length + 1 + 1 = (u ++ [x]).length + 1 := by simp
      rw [hidx, hrun1]
      simp only [List.map_append, map_append_map, List.append_assoc, List.singleton_append,
        List.cons_append, List.nil_append]
    · simp only [List.length_append, List.length_map, List.length_cons, List.length_nil, hcount, hcount1]
      rw [Nat.succ_mul (v.length + 1)]
      omega
    · intro q hq
      rcases List.mem_append.mp hq with hq | hq
      · obtain ⟨q0, hq0, rfl⟩ := List.mem_map.mp hq
        refine ⟨?_, x, List.mem_cons_self _ _, by simp⟩
        rw [hP]
        exact List.Perm.append_right _ (hperm q0 hq0)
      · obtain ⟨hp1, t, ht, hlast⟩ := hmem1 q hq
        exact ⟨hp1.trans hperm1, t, List.mem_cons_of_mem _ ht, hlast⟩
    · intro hnd
      have hnd1 : (z :: ((u ++ [x]) ++ v ++ [y])).Nodup := hperm1.nodup_iff.mpr hnd
      rw [hP] at hnd
      have hnd0 : (z :: (u ++ y :: v)).Nodup := (List.nodup_append.mp hnd).1
      have hx : x ∉ y :: v := by
        intro hm
        exact (List.nodup_append.mp hnd).2.2
          (List.mem_cons_of_mem _ (List.mem_append_right _ hm)) (List.mem_singleton_self x)
      refine List.Nodup.append (nodup_map_append L0 x (hnodup hnd0)) (hnodup1 hnd1) ?_
      intro q hq0 hq1
      obtain ⟨q0, _, rfl⟩ := List.mem_map.mp hq0
      obtain ⟨_, t, ht, hlast⟩ := hmem1 _ hq1
      have : t = x := by simpa using hlast.symm
      exact hx (this ▸ ht)

theorem helperSpec_one : HelperSpec 1 := by
  intro w z suf out hlen
  have hw : w = [] := List.length_eq_zero.mp (by omega)
  subst hw
  refine ⟨[[z]], rfl, rfl, fun q hq => ?_, fun _ => List.nodup_singleton _⟩
  simp only [List.mem_singleton] at hq
  subst hq
  exact List.Perm.refl _

theorem helperSpec_even (m : Nat) (hk : HelperSpec (m + 1)) (hpar : (m + 2) % 2 = 0) :
    HelperSpec (m + 2) := by
  intro w z suf out hlen
  obtain ⟨L, hrun, hcount, hmem, hnodup⟩ :=
    permutationsLoop_even (m + 1) hk hpar (by omega) suf (w ++ [z]).reverse [] 0 out
      (by simp; omega)
  simp only [List.reverse_reverse, List.nil_append, List.append_nil, List.length_reverse,
    List.length_append, List.length_singleton] at hrun hcount hmem hnodup
  refine ⟨L, ?_, ?_, fun q hq => (hmem q hq).1, hnodup⟩
  · rw [permutationsHelper_succ, if_neg (by omega), ← hrun]
    congr 1
    omega
  · rw [hcount, hlen, Nat.factorial_succ (m + 1)]

theorem helperSpec_odd (m : Nat) (hk : HelperSpec (m + 1)) (hpar : (m + 2) % 2 = 1) :
    HelperSpec (m + 2) := by
  intro w z suf out hlen
  have heven0 : ¬ ((m + 1) % 2 = 1) := by omega
  obtain ⟨w0, w1, rfl⟩ : ∃ w0 w1, w = w0 :: w1 := by
    cases w with
    | nil => simp at hlen
    | cons a b => exact ⟨a, b, rfl⟩
  have hw1 : w1.length = m := by
    simp only [List.length_cons] at hlen
    omega
  subst hw1
  have heven : ¬ ((w1.length + 1) % 2 = 1) := heven0
  -- the first iteration
  obtain ⟨p, t, hW⟩ : ∃ p t, w0 :: w1 = p ++ [t] := by
    rcases List.eq_nil_or_concat (w0 :: w1) with h | ⟨p, t, h⟩
    · cases h
    · exact ⟨p, t, by rw [h, List.concat_eq_append]⟩
  have hplen : p.length + 1 = w1.length + 1 := by
    have := congrArg List.length hW
    simp only [List.length_cons, List.length_append, List.length_singleton,
      List.length_nil] at this
    omega
  obtain ⟨L0, hrun0, hcount0, hperm0, hnodup0⟩ := hk p t (z :: suf) out hplen
  rw [if_neg heven, ← hW] at hrun0
  -- the other iterations
  obtain ⟨L1, hrun1, hcount1, hmem1, hnodup1⟩ :=
    permutationsLoop_odd (w1.length + 1) hk hpar suf z w1 [] w0
      (out ++ L0.map (fun q => q ++ z :: suf)) (by simp)
  simp only [List.nil_append, List.length_nil, Nat.zero_add] at hrun1 hmem1 hnodup1
  have hperm1 : (z :: (w1 ++ [w0])).Perm ((w0 :: w1) ++ [z]) := by
    have p1 : (z :: (w1 ++ [w0])).Perm (z :: w0 :: w1) :=
      List.Perm.cons z (List.perm_append_singleton w0 w1)
    exact p1.trans (List.perm_append_singleton z (w0 :: w1)).symm
  refine ⟨L0.map (fun q => q ++ [z]) ++ L1, ?_, ?_, ?_, ?_⟩
  · have hstate : ((w0 :: w1) ++ [z]) ++ suf = (w0 :: w1) ++ z :: suf := by simp
    have hswap : swapAt ((w0 :: w1) ++ z :: suf) 0 (w1.length + 2 - 1) = (z :: (w1 ++ [w0])) ++ suf := by
      have := swapAt_append [] w0 w1 z suf
      simp only [List.nil_append, List.length_nil, Nat.zero_add] at this
      have e : w1.length + 2 - 1 = 1 + w1.length := by omega
      rw [e, List.cons_append, this]
      simp
    rw [permutationsHelper_succ, if_pos hpar, permutationsLoop_succ, hstate, hrun0]
    simp only [hpar, if_true]
    rw [hswap, Nat.zero_add, hrun1]
    simp only [List.map_append, map_append_map, List.append_assoc, List.cons_append]
  · simp only [List.length_append, List.length_map, hcount0, hcount1]
    rw [Nat.factorial_succ (w1.length + 1), Nat.succ_mul (w1.length + 1)]
    omega
  · intro q hq
    rcases List.mem_append.mp hq with hq | hq
    · obtain ⟨q0, hq0, rfl⟩ := List.mem_map.mp hq
      have := hperm0 q0 hq0
      rw [← hW] at this
      exact List.Perm.append_right _ this
    · exact (hmem1 q hq).1.trans hperm1
  · intro hnd
    have hndw : (w0 :: w1).Nodup := (List.nodup_append.mp hnd).1
    have hz : z ∉ w0 :: w1 := by
      intro hm
      exact (List.nodup_append.mp hnd).2.2 hm (List.mem_singleton_self z)
    refine List.Nodup.append (nodup_map_append L0 z (hnodup0 (hW ▸ hndw)))
      (hnodup1 (hperm1.nodup_iff.mpr hnd)) ?_
    intro q hq0 hq1
    obtain ⟨q0, _, rfl⟩ := List.mem_map.mp hq0
    obtain ⟨_, x, hx, hlast⟩ := hmem1 _ hq1
    have : x = z := by simpa using hlast.symm
    exact hz (this ▸ hx)

theorem helperSpec_all : ∀ m : Nat, HelperSpec (m + 1)
  | 0 => helperSpec_one
  | m + 1 => by
    rcases Nat.mod_two_eq_zero_or_one (m + 2) with h | h
    · exact helperSpec_even m (helperSpec_all m) h
    · exact helperSpec_odd m (helperSpec_all m) h

/-- C34: for every list of n pairwise distinct strings, n being at least 1, Permutations
returns n! lists, pairwise distinct, and a list is among them exactly when it is a
permutation of the input. -/
theorem Permutations_all (input : List String) (hn : 1 ≤ input.length)
    (hd : input.Nodup) :
    (Permutations input).length = input.length.factorial
      ∧ (Permutations input).Nodup
      ∧ ∀ p : List String, p ∈ Permutations input ↔ p.Perm input := by
  obtain ⟨w, z, hwz⟩ : ∃ w z, input = w ++ [z] := by
    rcases List.eq_nil_or_concat input with h | ⟨w, z, h⟩
    · rw [h] at hn
      simp at hn
    · exact ⟨w, z, by rw [h, List.concat_eq_append]⟩
  have hlen : w.length + 1 = (input.length - 1) + 1 := by
    rw [hwz]
    simp
  obtain ⟨L, hrun, hcount, hperm, hnodup⟩ :=
    helperSpec_all (input.length - 1) w z [] [] hlen
  have hres : Permutations input = L := by
    unfold Permutations
    have e : input.length = input.length - 1 + 1 := by omega
    rw [e]
    conv_lhs => rw [hwz]
    have e2 : (w ++ [z]).length - 1 + 1 = input.length - 1 + 1 := by rw [← hwz]
    rw [e2]
    have e3 : w ++ [z] = (w ++ [z]) ++ [] := by simp
    rw [e3, hrun]
    simp
  have hnd : L.Nodup := hnodup (hwz ▸ hd)
  have hcount2 : L.length = input.length.factorial := by
    rw [hcount]
    congr 1
    omega
  rw [hres]
  refine ⟨hcount2, hnd, fun p => ⟨fun hp => hwz ▸ hperm p hp, fun hp => ?_⟩⟩
  -- a list without repetition of n! permutations holds every permutation
  have hsub : L ⊆ input.permutations := by
    intro q hq
    exact List.mem_permutations.mpr (hwz ▸ hperm q hq)
  have hsp : L.Subperm input.permutations := List.subperm_of_subset hnd hsub
  have hle : input.permutations.length ≤ L.length := by
    rw [List.length_permutations, hcount2]
  have := hsp.perm_of_length_le hle
  exact this.mem_iff.mpr (List.mem_permutations.mpr hp)

/-- Witness of C34, on the input of TestPermutations: four elements give 24 lists. -/
theorem Permutations_all_witness :
    (Permutations ["aa", "bb", "cc", "dd"]).length = 24
      ∧ (Permutations ["aa", "bb", "cc", "dd"]).Nodup
      ∧ ["dd", "cc", "bb", "aa"] ∈ Permutations ["aa", "bb", "cc", "dd"] :=
  ⟨(Permutations_all ["aa", "bb", "cc", "dd"] (by decide) (by decide)).1,
    (Permutations_all ["aa", "bb", "cc", "dd"] (by decide) (by decide)).2.1,
    ((Permutations_all ["aa", "bb", "cc", "dd"] (by decide) (by decide)).2.2 _).mpr
      (List.reverse_perm ["aa", "bb", "cc", "dd"])⟩

/-! ## RemoveUnreadableCharacters -/

theorem stringsTrim_ends (s cutset : List Char) :
    (∀ c, (stringsTrim s cutset).head? = some c → cutset.contains c = false)
      ∧ (∀ c, (stringsTrim s cutset).getLast? = some c → cutset.contains c = false) := by
  have hlast : ∀ c, (stringsTrim s cutset).getLast? = some c → cutset.contains c = false := by
    intro c hc
    unfold stringsTrim at hc
    rw [List.getLast?_reverse] at hc
    have := List.head?_dropWhile_not (fun c => cutset.contains c)
      (s.dropWhile (fun c => cutset.contains c)).reverse
    rw [hc] at this
    simpa using this
  refine ⟨fun c hc => ?_, hlast⟩
  -- the result is a prefix of what is left once the leading characters are dropped
  have hpre : stringsTrim s cutset <+: s.dropWhile (fun c => cutset.contains c) := by
    unfold stringsTrim
    have hsuf := List.dropWhile_suffix (fun c => cutset.contains c)
      (l := (s.dropWhile (fun c => cutset.contains c)).reverse)
    have := List.reverse_prefix.mpr hsuf
    rwa [List.reverse_reverse] at this
  obtain ⟨t, ht⟩ := hpre
  have hhead : (s.dropWhile (fun c => cutset.contains c)).head? = some c := by
    rw [← ht]
    cases hr : stringsTrim s cutset with
    | nil => rw [hr] at hc; cases hc
    | cons x xs =>
      rw [hr] at hc
      simpa using hc
  have := List.head?_dropWhile_not (fun c => cutset.contains c) s
  rw [hhead] at this
  simpa using this

/-- C35: the result of RemoveUnreadableCharacters can hold two consecutive spaces. A
character that is neither whitespace nor readable is not written but ends the run of
whitespace, so the space after it is written next to the space before it: "a é b"
becomes "a", two spaces, "b". The result never starts or ends with a space, as the
claim says, and the input of the tests gives "do re mi fa so la ti do". -/
theorem RemoveUnreadableCharacters_double_space :
    RemoveUnreadableCharacters "a é b" = "a  b"
      ∧ RemoveUnreadableCharacters "do re mi fa so             la ti do"
        = "do re mi fa so la ti do"
      ∧ ∀ input : String, (RemoveUnreadableCharacters input).data.head? ≠ some ' '
          ∧ (RemoveUnreadableCharacters input).data.getLast? ≠ some ' ' := by
  refine ⟨rfl, rfl, fun input => ?_⟩
  have h := stringsTrim_ends (removeUnreadableLoop input.data true []) " \t\r\n".data
  constructor
  · intro hc
    exact absurd (h.1 ' ' hc) (by decide)
  · intro hc
    exact absurd (h.2 ' ' hc) (by decide)

/-! ## FormatString -/

theorem stringsReplaceFrom_not_mem (old new : List Char) (c : Char) :
    ∀ (s : List Char), c ∉ s → stringsReplaceFrom (c :: old) new s 0 = s
  | [], _ => rfl
  | x :: rest, h => by
    have hx : x ≠ c := fun e => h (e ▸ List.mem_cons_self _ _)
    have hr : c ∉ rest := fun hm => h (List.mem_cons_of_mem _ hm)
    have hp : (c :: old).isPrefixOf (x :: rest) = false := by
      simp [List.isPrefixOf, hx.symm]
    rw [stringsReplaceFrom, hp]
    simp only [Bool.false_eq_true, if_false]
    rw [stringsReplaceFrom_not_mem old new c rest hr]

theorem formatStringLoop_no_percent :
    ∀ (replacements : List String) (i : Nat) (input : List Char), '%' ∉ input →
      formatStringLoop replacements i input = input
  | [], _, _, _ => rfl
  | r :: rest, i, input, h => by
    rw [formatStringLoop]
    have : stringsReplace input ('%' :: Itoa i) r.data = input := by
      unfold stringsReplace
      rw [if_neg (by simp)]
      exact stringsReplaceFrom_not_mem _ _ _ _ h
    rw [this]
    exact formatStringLoop_no_percent rest (i + 1) input h

/-- C36: whatever the replacements, as long as the first one holds no '%', the placeholder
%10 is replaced by the first replacement followed by the character 0: the loop replaces
%1 first, and %1 is the beginning of %10. -/
theorem FormatString_percent_ten (first : String) (others : List String)
    (h : '%' ∉ first.data) :
    FormatString "%10" (first :: others) = first ++ "0" := by
  unfold FormatString
  rw [formatStringLoop]
  have h1 : stringsReplace "%10".data ('%' :: Itoa 1) first.data = first.data ++ ['0'] := by
    show stringsReplace ['%', '1', '0'] ['%', '1'] first.data = first.data ++ ['0']
    simp [stringsReplace, stringsReplaceFrom, List.isPrefixOf]
  rw [h1, formatStringLoop_no_percent]
  · rfl
  · intro hm
    rcases List.mem_append.mp hm with hm | hm
    · exact h hm
    · simp at hm

/-- Witness of C36: with the ten replacements a to j, the placeholder %10 gives a0 and not
j; the input of the tests gives "Planets are Mercury and Venus.". -/
theorem FormatString_percent_ten_witness :
    FormatString "%10" ["a", "b", "c", "d", "e", "f", "g", "h", "i", "j"] = "a0"
      ∧ FormatString "Planets are %1 and %2." ["Mercury", "Venus", "Earth"]
        = "Planets are Mercury and Venus." :=
  ⟨FormatString_percent_ten "a" ["b", "c", "d", "e", "f", "g", "h", "i", "j"] (by decide),
    rfl⟩

/-! ## ReturnAllBetween -/

theorem stringsIndex_nil (s : List Char) : stringsIndex s [] = some 0 := by
  cases s <;> rfl

/-- C40: with both needles empty the loop of ReturnAllBetween never ends. An iteration
entered at the position p finds the start needle at 0 and the end needle at 0, appends
the empty string to the results and leaves startPos at p; whatever the number of
iterations allowed, the loop is still running after them. -/
theorem ReturnAllBetween_empty_needles_loops (haystack : String) :
    (∀ (p : Nat) (results : List String),
        returnAllBetweenStep haystack.data [] [] p results = (some p, results ++ [""]))
      ∧ ∀ fuel : Nat, ReturnAllBetween fuel haystack "" "" = none := by
  have hstep : ∀ (p : Nat) (results : List String),
      returnAllBetweenStep haystack.data [] [] p results = (some p, results ++ [""]) := by
    intro p results
    unfold returnAllBetweenStep
    rw [stringsIndex_nil]
    simp only []
    rw [stringsIndex_nil]
    rfl
  refine ⟨hstep, fun fuel => ?_⟩
  have hloop : ∀ (fuel p : Nat) (results : List String),
      returnAllBetweenLoop haystack.data [] [] fuel p results = none := by
    intro fuel
    induction fuel with
    | zero => intro p results; rfl
    | succ n ih =>
      intro p results
      rw [returnAllBetweenLoop, hstep]
      exact ih p _
  exact hloop fuel 0 []

theorem stringsIndex_bound : ∀ (s substr : List Char) (i : Nat),
    stringsIndex s substr = some i → i + substr.length ≤ s.length
  | [], substr, i, h => by
    unfold stringsIndex at h
    split_ifs at h with he
    rw [List.isEmpty_iff] at he
    cases h
    simp [he]
  | x :: rest, substr, i, h => by
    unfold stringsIndex at h
    split_ifs at h with hp
    · cases h
      have := (List.isPrefixOf_iff_prefix.mp hp).length_le
      simpa using this
    · cases hr : stringsIndex rest substr with
      | none => simp [hr] at h
      | some j =>
        have := stringsIndex_bound rest substr j hr
        simp only [hr, Option.map_some', Option.some.injEq] at h
        subst h
        simp only [List.length_cons]
        omega

/-- When one of the needles is not empty, the loop of ReturnAllBetween ends within as many
iterations as the haystack has characters, plus one: every iteration but the last moves
startPos forward. -/
theorem ReturnAllBetween_terminates (haystack startNeedle endNeedle : String)
    (h : startNeedle ≠ "" ∨ endNeedle ≠ "") :
    ∃ results,
      ReturnAllBetween (haystack.data.length + 1) haystack startNeedle endNeedle
        = some results := by
  have hlen : 1 ≤ startNeedle.data.length + endNeedle.data.length := by
    rcases h with h | h
    · have := List.length_pos.mpr (String_data_ne_nil _ h)
      omega
    · have := List.length_pos.mpr (String_data_ne_nil _ h)
      omega
  have hloop : ∀ (fuel p : Nat) (results : List String), p ≤ haystack.data.length →
      haystack.data.length - p < fuel →
      ∃ r, returnAllBetweenLoop haystack.data startNeedle.data endNeedle.data fuel p results
        = some r := by
    intro fuel
    induction fuel with
    | zero => intro p results _ hf; omega
    | succ n ih =>
      intro p results hp hf
      rw [returnAllBetweenLoop]
      unfold returnAllBetweenStep
      cases h1 : stringsIndex (haystack.data.drop p) startNeedle.data with
      | none => exact ⟨_, rfl⟩
      | some startPos =>
        simp only []
        have b1 := stringsIndex_bound _ _ _ h1
        rw [List.length_drop] at b1
        cases h2 : stringsIndex (haystack.data.drop (p + startPos + startNeedle.data.length))
            endNeedle.data with
        | none => exact ⟨_, rfl⟩
        | some endPos =>
          simp only []
          have b2 := stringsIndex_bound _ _ _ h2
          rw [List.length_drop] at b2
          exact ih _ _ (by omega) (by omega)
  exact hloop _ 0 [] (Nat.zero_le _) (by omega)

/-! ## ParseTypedValue: run-time failure -/

/-- C37: ParseTypedValue fails at run time exactly on the inputs made of two or more
periods and nothing else. Such an input is not empty, holds more than one period and no
comma, so every period is stripped, and the slice dataString[dataStringLength-1 :
dataStringLength] of the trailing-sign step is taken on the empty string, with the
bounds -1 and 0. On every other input the function returns. -/
theorem ParseTypedValue_fails_iff_periods (parseFloat : String → Option Nat)
    (parseAny : String → Option ParsedTime) (dataString : String) :
    ParseTypedValue parseFloat parseAny dataString = none
      ↔ ∃ n, dataString.data = List.replicate (n + 2) '.' := by
  constructor
  · intro h
    unfold ParseTypedValue at h
    by_cases hs : (dataString == "") = true
    · rw [if_pos hs] at h
      cases h
    · rw [if_neg hs] at h
      have hd : dataString.data ≠ [] := String_data_ne_nil dataString (by simpa using hs)
      cases hm : moveTrailingSign (normalizeSeparators dataString.data) with
      | some chars =>
        rw [hm] at h
        simp only [] at h
        split_ifs at h
      | none =>
        have hnil : normalizeSeparators dataString.data = [] := by
          unfold moveTrailingSign at hm
          cases hl : (normalizeSeparators dataString.data).getLast? with
          | none => exact List.getLast?_eq_none_iff.mp hl
          | some c =>
            rw [hl] at hm
            simp only [] at hm
            split_ifs at hm
        unfold normalizeSeparators at hnil
        simp only [] at hnil
        split_ifs at hnil with h1 h2
        · simp only [replaceAll, List.map_eq_nil_iff] at hnil
          exact absurd hnil hd
        · have hall : ∀ c ∈ dataString.data, c = '.' := by
            intro c hc
            by_contra hne
            have : c ∈ dataString.data.filter (fun x => x != '.') :=
              List.mem_filter.mpr ⟨hc, by simpa using hne⟩
            rw [hnil] at this
            cases this
          have hrep : dataString.data = List.replicate dataString.data.length '.' :=
            List.eq_replicate_of_mem hall
          have hcount : dataString.data.count '.' = dataString.data.length := by
            conv_lhs => rw [hrep]
            simp
          refine ⟨dataString.data.length - 2, ?_⟩
          have : dataString.data.length - 2 + 2 = dataString.data.length := by omega
          rw [this]
          exact hrep
        · exact absurd hnil hd
  · rintro ⟨n, hn⟩
    have hne : (dataString == "") = false := by
      have : dataString ≠ "" := by
        intro e
        rw [e] at hn
        cases hn
      simpa using this
    have hcomma : ',' ∉ dataString.data := by
      rw [hn]
      intro hc
      exact absurd (List.eq_of_mem_replicate hc) (by decide)
    have hnorm : normalizeSeparators dataString.data = [] := by
      unfold normalizeSeparators
      simp only []
      rw [lastIndex_of_not_mem _ _ hcomma]
      rw [if_neg (by simp)]
      rw [hn]
      have hc : List.count '.' (List.replicate (n + 2) '.') = n + 2 := by simp
      rw [if_pos (by rw [hc]; omega)]
      simp
    unfold ParseTypedValue
    rw [if_neg (by simp [hne]), hnorm]
    rfl

/-! ## CalculateDiff: a time that changes -/

/-- C38: the update of a time is lost. The field T, tagged api:"t" and not a pointer,
holds two different times that are not the zero time; the claim asks for the entry
t = the text of the time after, the code returns the empty mapping: a time is a struct,
so the switch calls calculateDiffHelper on the two times, whose fields wall, ext and loc
carry no api tag. The same holds for the field TimeVal of the record of the tests. When
the time after is the zero time the code does record the removal -t. -/
theorem CalculateDiff_time_update_lost (ext : Value → String) :
    CalculateDiff ext (some (timeRecord 7 9)) (some (timeRecord 8 10)) = some []
      ∧ deepValueEqual (timeValue 7 9) (timeValue 8 10) = false
      ∧ deepValueEqual (timeValue 8 10) (zeroValue (timeValue 7 9)) = false
      ∧ CalculateDiff ext
          (some (sampleStruct (.bool true) .nilPtr (.float 0) (.int 1) .nilIface (.str "a")
            (sampleSubstruct .nilMap .nilSlice) (timeValue 7 9) .nilPtr (.uint 2)))
          (some (sampleStruct (.bool true) .nilPtr (.float 0) (.int 1) .nilIface (.str "a")
            (sampleSubstruct .nilMap .nilSlice) (timeValue 8 10) .nilPtr (.uint 2)))
        = some []
      ∧ CalculateDiff ext (some (timeRecord 7 9)) (some (timeRecord 0 0))
        = some [("-t", ext (timeValue 7 9))] :=
  ⟨rfl, rfl, rfl, rfl, rfl⟩

/-! ## GetTagFieldNames: names of a nested record -/

theorem tagFieldNamesLoop_cons (tag : String) (f : StructField) (v : Value) (rest : Fields)
    (pfx : String) (fieldNames : List String) :
    tagFieldNamesLoop tag ((f, v) :: rest) pfx fieldNames =
      tagFieldNamesLoop tag rest pfx
        (tagFieldNamesNested tag f v (fieldNameStep tag pfx f fieldNames).1
          (fieldNameStep tag pfx f fieldNames).2) := by
  rw [tagFieldNamesLoop]

theorem fieldNameStep_acc (tag pfx : String) (f : StructField) (fieldNames : List String) :
    (fieldNameStep tag pfx f fieldNames).1 = (fieldNameStep tag pfx f []).1
      ∧ (fieldNameStep tag pfx f fieldNames).2
        = fieldNames ++ (fieldNameStep tag pfx f []).2 := by
  unfold fieldNameStep
  by_cases ht : tag.length > 0
  · simp only [ht, if_true]
    cases tagLookup f.Tag tag with
    | none => simp
    | some t =>
      simp only [List.nil_append, true_and]
      split_ifs <;> simp
  · simp [ht]

/-- The names are appended to the ones found so far. -/
theorem tagFieldNamesLoop_acc (tag : String) :
    ∀ (fs : Fields) (pfx : String) (fieldNames : List String),
      tagFieldNamesLoop tag fs pfx fieldNames
        = fieldNames ++ tagFieldNamesLoop tag fs pfx []
  | [], pfx, fieldNames => by
    rw [tagFieldNamesLoop, tagFieldNamesLoop, List.append_nil]
  | (f, v) :: rest, pfx, fieldNames => by
    have hnested : ∀ (ft : String) (names : List String),
        tagFieldNamesNested tag f v ft names
          = names ++ tagFieldNamesNested tag f v ft [] := by
      intro ft names
      cases v with
      | struct n gs =>
        have hlt : sizeOf gs < sizeOf ((f, Value.struct n gs) :: rest) := by
          simp
          omega
        simp only [tagFieldNamesNested]
        split_ifs
        · exact tagFieldNamesLoop_acc tag gs ft names
        · simp
      | ptr w =>
        cases w with
        | struct n gs =>
          have hlt : sizeOf gs < sizeOf ((f, Value.ptr (Value.struct n gs)) :: rest) := by
            simp
            omega
          simp only [tagFieldNamesNested]
          split_ifs
          · exact tagFieldNamesLoop_acc tag gs ft names
          · simp
        | _ => simp [tagFieldNamesNested]
      | _ => simp [tagFieldNamesNested]
    rw [tagFieldNamesLoop_cons, tagFieldNamesLoop_cons,
      (fieldNameStep_acc tag pfx f fieldNames).1, (fieldNameStep_acc tag pfx f fieldNames).2,
      hnested _ (fieldNames ++ _), tagFieldNamesLoop_acc tag rest pfx (_ ++ _),
      tagFieldNamesLoop_acc tag rest pfx (tagFieldNamesNested _ _ _ _ _),
      hnested _ (fieldNameStep tag pfx f []).2]
    simp only [List.append_assoc]
termination_by fs => sizeOf fs
decreasing_by
  all_goals simp_wf
  all_goals try simp at hlt
  all_goals omega

theorem tagFieldNamesLoop_append (tag : String) :
    ∀ (pre post : Fields) (pfx : String) (fieldNames : List String),
      tagFieldNamesLoop tag (pre ++ post) pfx fieldNames
        = tagFieldNamesLoop tag post pfx (tagFieldNamesLoop tag pre pfx fieldNames)
  | [], post, pfx, fieldNames => by rw [List.nil_append, tagFieldNamesLoop]
  | (f, v) :: rest, post, pfx, fieldNames => by
    rw [List.cons_append, tagFieldNamesLoop_cons, tagFieldNamesLoop_cons,
      tagFieldNamesLoop_append tag rest post]

/-- C39: let a record hold, after the fields pre and before the fields post, a field g
that lacks the tag and whose value is a nested record (or a pointer to one) with the
fields gs. With a tag that is not empty, the names that GetTagFieldNames reports are the
names it reports for the fields pre alone, then the names it reports for the nested
record on its own (none when g is not exported), then names that depend on post only:
whatever the fields declared earlier and their tag values, the names of the inner
fields are the same and carry no prefix. -/
theorem GetTagFieldNames_nested_names (tag m : String) (post gs : Fields) (g : StructField)
    (v : Value) (htag : tag.length > 0) (hg : tagLookup g.Tag tag = none)
    (hv : structFields (some v) = some gs) :
    ∃ inner after,
      GetTagFieldNames (some v) tag = some inner
      ∧ ∀ pre : Fields, ∃ before,
          GetTagFieldNames (some (.struct m pre)) tag = some before
          ∧ GetTagFieldNames (some (.struct m (pre ++ (g, v) :: post))) tag
            = some (before ++ (if g.exported = true then inner else []) ++ after) := by
  refine ⟨tagFieldNamesLoop tag gs "" [], tagFieldNamesLoop tag post "" [], ?_, fun pre => ?_⟩
  · unfold GetTagFieldNames getTagFieldNamesHelper
    rw [hv]
  · refine ⟨tagFieldNamesLoop tag pre "" [], rfl, ?_⟩
    have hstep : ∀ names, fieldNameStep tag "" g names = ("", names) := by
      intro names
      unfold fieldNameStep
      rw [if_pos htag, hg]
    have hnested : ∀ names, tagFieldNamesNested tag g v "" names
        = names ++ (if g.exported = true then tagFieldNamesLoop tag gs "" [] else []) := by
      intro names
      cases v with
      | struct n fs =>
        cases hv
        simp only [tagFieldNamesNested]
        split_ifs
        · exact tagFieldNamesLoop_acc tag gs "" names
        · simp
      | ptr w =>
        cases w <;> cases hv
        simp only [tagFieldNamesNested]
        split_ifs
        · exact tagFieldNamesLoop_acc tag gs "" names
        · simp
      | _ => cases hv
    show some (tagFieldNamesLoop tag (pre ++ (g, v) :: post) "" []) = _
    rw [tagFieldNamesLoop_append, tagFieldNamesLoop_cons, hstep, hnested,
      tagFieldNamesLoop_acc tag post]

/-- Witness of C39: the field A, declared before the nested record N, is tagged api:"a" in
one record and api:"b" in the other; the inner field X is reported as x in both. -/
theorem GetTagFieldNames_nested_names_witness :
    GetTagFieldNames (some (siblingRecord "a")) "api" = some ["a", "x"]
      ∧ GetTagFieldNames (some (siblingRecord "b")) "api" = some ["b", "x"]
      ∧ ∃ inner after,
        GetTagFieldNames (some (.struct "Inner" [(⟨"X", [("api", "x")], ""⟩, .int 2)])) "api"
          = some inner
        ∧ ∀ pre : Fields, ∃ before,
          GetTagFieldNames (some (.struct "Outer" pre)) "api" = some before
          ∧ GetTagFieldNames (some (.struct "Outer" (pre ++
              (⟨"N", [], ""⟩, .struct "Inner" [(⟨"X", [("api", "x")], ""⟩, .int 2)]) :: [])))
              "api"
            = some (before ++ (if (⟨"N", [], ""⟩ : StructField).exported = true then inner
                else []) ++ after) :=
  ⟨rfl, rfl, GetTagFieldNames_nested_names "api" "Outer" []
    [(⟨"X", [("api", "x")], ""⟩, .int 2)] ⟨"N", [], ""⟩
    (.struct "Inner" [(⟨"X", [("api", "x")], ""⟩, .int 2)]) (by decide) rfl rfl⟩

end GoUtil
